import Mathlib

/-!
# Workable: the scripting language of `src/Compilator`

A shallow embedding of the lexer, the parser, the value model, the scope chain and
the tree-walking interpreter of `src/Compilator/lib`, followed by theorems about them.

Modelling conventions.

* A C++ `double` is a rational number (`ℚ`): the arithmetic of the embedding is exact.
  It coincides with IEEE-754 arithmetic whenever every intermediate value is a dyadic
  rational that fits the 53-bit mantissa (all integers of magnitude below `2 ^ 53`).
* Heap objects that the C++ code shares through `std::shared_ptr` and mutates in place
  (lists, scopes) live in explicit stores and are named by their index; strings are never
  mutated by the interpreter core and are kept by value; a function object is named by
  its index in the store of function objects (equality of functions is identity).
* `throw` is an explicit result: a fatal `std::runtime_error`, or one of the three control
  signals `ReturnValue`, `BreakSignal`, `ContinueSignal`.
* Unbounded loops and recursion of the interpreter and of the parser are driven by a
  fuel argument; running out of fuel is a result of its own, never confused with an error.
* Where C++ leaves the behaviour undefined (a conversion `static_cast<int>(double)` of a
  value outside the range of `int`) or where the result is not a rational number (NaN,
  an irrational power), an operation yields `none`, and the interpreter the result
  `Res.unsupported`: such runs are outside the model, and no theorem speaks about them.
-/

namespace Workable

/-! ## Value model (`interpreter/value.h`, `interpreter/value.cpp`) -/

/-- The tag of a value, `enum class ValueType`. -/
inductive ValueType
  | kDouble
  | kString
  | kBool
  | kNil
  | kList
  | kFunc
  deriving DecidableEq, Repr

/-- The tagged union `Value`: lists and functions are references into their stores. -/
inductive Value
  | number (val : ℚ)
  | string (val : List Char)
  | bool (val : Bool)
  | nil
  | list (ptr : Nat)
  | func (ptr : Nat)
  deriving DecidableEq, Repr

/-- The store of list objects: cell `p` holds the elements of the list object `p`. -/
abbrev ListHeap := List (List Value)

/-- Equality of results of fallible operations is decidable. -/
instance instDecidableEqExcept {ε α : Type} [DecidableEq ε] [DecidableEq α] :
    DecidableEq (Except ε α)
  | .ok a, .ok b => if h : a = b then isTrue (by rw [h]) else isFalse (by intro h1; cases h1; exact h rfl)
  | .error a, .error b =>
    if h : a = b then isTrue (by rw [h]) else isFalse (by intro h1; cases h1; exact h rfl)
  | .ok _, .error _ => isFalse (by intro h; cases h)
  | .error _, .ok _ => isFalse (by intro h; cases h)

/-- The method `Value::getType`. -/
def Value.getType : Value → ValueType
  | .number _ => .kDouble
  | .string _ => .kString
  | .bool _ => .kBool
  | .nil => .kNil
  | .list _ => .kList
  | .func _ => .kFunc

/-- The method `Value::asBool`: throws unless the value is a Bool. -/
def Value.asBool : Value → Except String Bool
  | .bool b => .ok b
  | _ => .error "Value is not a boolean"

/-- The elements of the list object `p` (`*asList()`); a dangling reference has none. -/
def derefList (h : ListHeap) (p : Nat) : List Value :=
  h.getD p []

/-- The call `std::make_shared<ListType>(xs)`: a new list object holding `xs`. -/
def allocList (h : ListHeap) (xs : List Value) : Value × ListHeap :=
  (Value.list h.length, h ++ [xs])

/-- The method `Value::isTruthy`. -/
def Value.isTruthy (h : ListHeap) : Value → Bool
  | .number x => decide (x ≠ 0)
  | .string s => !s.isEmpty
  | .bool b => b
  | .nil => false
  | .list p => !(derefList h p).isEmpty
  | .func _ => true

/-! ## Errors (`interpreter/errorManager.h`) -/

/-- The helper `ErrorManager::getTypeName`. -/
def getTypeName : ValueType → String
  | .kDouble => "Double type"
  | .kString => "String type"
  | .kList => "List type"
  | .kBool => "Bool type"
  | .kNil => "Nil type"
  | .kFunc => "Function type"

/-- The helper `ErrorManager::formatError`. -/
def formatError (operation message : String) : String :=
  operation ++ ": " ++ message

/-- The message of `ErrorManager(operation, left, right)`, the operand type error. -/
def typeError (operation : String) (left right : Value) : String :=
  formatError operation ("cannot perform operation on " ++ getTypeName left.getType ++ " and "
    ++ getTypeName right.getType)

/-! ## Machine integers -/

/-- Two's complement wrap of an integer into the signed range of width `w`. -/
def wrapInt (w : Nat) (z : Int) : Int :=
  (z + 2 ^ (w - 1)) % 2 ^ w - 2 ^ (w - 1)

/-- Truncation of a rational toward zero. -/
def truncQ (x : ℚ) : Int :=
  if 0 ≤ x then ⌊x⌋ else ⌈x⌉

/-- The conversion `static_cast<intW>(double)`: truncation when the result fits the signed
range of width `w`; otherwise the behaviour is undefined (`none`). -/
def castToInt (w : Nat) (x : ℚ) : Option Int :=
  if -(2 ^ (w - 1)) ≤ truncQ x ∧ truncQ x < 2 ^ (w - 1) then some (truncQ x) else none

/-! ## Binary operators (`interpreter/binaryOperators.cpp`) -/

/-- The operator `Interpreter::add`. -/
def add (h : ListHeap) (left right : Value) : Except String (Value × ListHeap) :=
  match left, right with
  | .number a, .number b => .ok (.number (a + b), h)
  | .string a, .string b => .ok (.string (a ++ b), h)
  | .list a, .list b => .ok (allocList h (derefList h a ++ derefList h b))
  | _, _ => .error (typeError "add (+)" left right)

/-- The position of the first occurrence of `pat` in `s` (`std::string::find`), if any. -/
def findSub (pat : List Char) : List Char → Option Nat
  | [] => if pat.isEmpty then some 0 else none
  | c :: s => if pat.isPrefixOf (c :: s) then some 0 else (findSub pat s).map (· + 1)

/-- The operator `Interpreter::subtract`. -/
def subtract (h : ListHeap) (left right : Value) : Except String (Value × ListHeap) :=
  match left, right with
  | .number a, .number b => .ok (.number (a - b), h)
  | .string a, .string b =>
    match findSub b a with
    | some pos => .ok (.string (a.take pos ++ a.drop (pos + b.length)), h)
    | none => .ok (.string a, h)
  | _, _ => .error (typeError "subtract (-)" left right)

/-- The loop `for(int i=0; i<int_part-1; ++i) v = add(v, r);` of `multiply`, run `k` times. -/
def addRepeat (r : Value) : Nat → ListHeap → Value → Except String (Value × ListHeap)
  | 0, h, v => .ok (v, h)
  | k + 1, h, v =>
    match add h v r with
    | .ok (v1, h1) => addRepeat r k h1 v1
    | .error e => .error e

/-- The part of the block of `multiply` that follows the conversion of `floor(n)` to the
`int` value `int_part`, for a Number `n > 0` and a String or List `r`. -/
def multiplyCopies (h : ListHeap) (n : ℚ) (int_part : Int) (r : Value) :
    Except String (Value × ListHeap) :=
  match addRepeat r (int_part - 1).toNat h r with
  | .error e => .error e
  | .ok (v, h1) =>
    let frac_part := n - int_part
    if frac_part > 0 then
      match r with
      | .string s =>
        let slice_len := (⌈(s.length : ℚ) * frac_part⌉).toNat
        if slice_len > 0 then add h1 v (.string (s.take slice_len)) else .ok (v, h1)
      | .list p =>
        let slice_len := (⌈((derefList h1 p).length : ℚ) * frac_part⌉).toNat
        if slice_len > 0 then
          add (allocList h1 ((derefList h1 p).take slice_len)).2 v
            (allocList h1 ((derefList h1 p).take slice_len)).1
        else .ok (v, h1)
      | _ => .ok (v, h1)
    else .ok (v, h1)

/-- The block of `Interpreter::multiply` for a Number `n` and a non-Number operand `r`
(lines 57-116; lines 118-177 are the same block with `l` and `r` exchanged). The values
`left` and `right` are the original operands, used for the error message only. The
result is `none` when `floor(n)` does not fit an `int`. -/
def multiplyRepeat (h : ListHeap) (n : ℚ) (r left right : Value) :
    Option (Except String (Value × ListHeap)) :=
  if n ≤ 0 then
    match r with
    | .string _ => some (.ok (.string [], h))
    | .list _ => some (.ok (allocList h []))
    | _ => some (.error (typeError "multiply (*)" left right))
  else
    match r with
    | .string _ | .list _ =>
      match castToInt 32 (⌊n⌋ : Int) with
      | some int_part => some (multiplyCopies h n int_part r)
      | none => none
    | _ => some (.error (typeError "multiply (*)" left right))

/-- The coercion at the head of `multiply`: a Bool operand becomes the Number 1 or 0. -/
def boolToNumber : Value → Value
  | .bool b => .number (if b then 1 else 0)
  | v => v

/-- The operator `Interpreter::multiply`. -/
def multiply (h : ListHeap) (left right : Value) :
    Option (Except String (Value × ListHeap)) :=
  let l := boolToNumber left
  let r := boolToNumber right
  match l, r with
  | .number a, .number b => some (.ok (.number (a * b), h))
  | .number n, _ => multiplyRepeat h n r left right
  | _, .number n => multiplyRepeat h n l left right
  | _, _ => some (.error (typeError "multiply (*)" left right))

/-! ## Tokens (`lexer/token.h`, `lexer/token.cpp`) -/

/-- The enumeration `TokenType`, in declaration order. -/
inductive TokenType
  | tIdentifier | tNumber | tString
  | tIf | tThen | tElse | tWhile | tFor | tIn | tFunc | tReturn | tNil | tTrue | tFalse
  | tAnd | tOr | tNot | tBreak | tContinue | tEndIf | tEndWhile | tEndFor | tEndFunc
  | tPlus | tMinus | tMultiply | tDivide | tModule | tPower
  | tAssign | tPlusAssign | tMinusAssign | tMultiplyAssign | tDivideAssign | tModuleAssign
  | tPowerAssign
  | tEqual | tNotEqual | tLess | tGreater | tLessOrEqual | tGreaterOrEqual
  | tLParenthesis | tRParenthesis | tLBracket | tRBracket | tComma | tColon
  | tEOF | tERROR
  deriving DecidableEq, Repr

/-- The record `Token`. -/
structure Token where
  type : TokenType
  lexema : String
  line : Nat
  deriving DecidableEq, Repr

/-- The table `keywords` of `token.cpp`, entry by entry. -/
def keywords : List (String × TokenType) :=
  [("if", TokenType.tEndIf),
   ("else", TokenType.tElse),
   ("then", TokenType.tThen),
   ("while", TokenType.tWhile),
   ("for", TokenType.tFor),
   ("function", TokenType.tFunc),
   ("in", TokenType.tIn),
   ("return", TokenType.tReturn),
   ("nil", TokenType.tNil),
   ("true", TokenType.tTrue),
   ("false", TokenType.tFalse),
   ("and", TokenType.tAnd),
   ("or", TokenType.tOr),
   ("not", TokenType.tNot),
   ("break", TokenType.tBreak),
   ("continue", TokenType.tContinue),
   ("end if", TokenType.tEndIf),
   ("end while", TokenType.tEndWhile),
   ("end for", TokenType.tEndFor),
   ("end function", TokenType.tEndFunc)]

/-! ## Lexer (`lexer/lexer.h`, `lexer/lexer.cpp`) -/

/-- The state of a `Lexer`: the source text, the cursor and the line counter. -/
structure Lexer where
  lexer_source : List Char
  lexer_current_pos : Nat
  lexer_line : Nat
  deriving DecidableEq, Repr

/-- The character NUL that `peek` returns at the end of the input. -/
def nulChar : Char := Char.ofNat 0

/-- The double quote character. -/
def quoteChar : Char := Char.ofNat 34

/-- The backslash character. -/
def backslashChar : Char := Char.ofNat 92

/-- The newline character. -/
def newlineChar : Char := Char.ofNat 10

/-- The constructor `Lexer::Lexer`. -/
def Lexer.new (source : List Char) : Lexer :=
  { lexer_source := source, lexer_current_pos := 0, lexer_line := 1 }

/-- The method `Lexer::isEnd`. -/
def Lexer.isEnd (lx : Lexer) : Bool :=
  decide (lx.lexer_current_pos ≥ lx.lexer_source.length)

/-- The method `Lexer::peek`. -/
def Lexer.peek (lx : Lexer) : Char :=
  if lx.isEnd then nulChar else lx.lexer_source.getD lx.lexer_current_pos nulChar

/-- The method `Lexer::peekNext`. -/
def Lexer.peekNext (lx : Lexer) : Char :=
  if lx.lexer_current_pos + 1 ≥ lx.lexer_source.length then nulChar
  else lx.lexer_source.getD (lx.lexer_current_pos + 1) nulChar

/-- The method `Lexer::advance` (the cursor part; the character read is `peek`). -/
def Lexer.advance (lx : Lexer) : Lexer :=
  if lx.isEnd then lx else { lx with lexer_current_pos := lx.lexer_current_pos + 1 }

/-- The method `Lexer::match`. -/
def Lexer.matchChar (lx : Lexer) (expected : Char) : Bool × Lexer :=
  if lx.isEnd then (false, lx)
  else if lx.lexer_source.getD lx.lexer_current_pos nulChar ≠ expected then (false, lx)
  else (true, { lx with lexer_current_pos := lx.lexer_current_pos + 1 })

/-- The call `lexer_source.substr(start, lexer_current_pos - start)`. -/
def Lexer.substrFrom (lx : Lexer) (start : Nat) : List Char :=
  (lx.lexer_source.drop start).take (lx.lexer_current_pos - start)

/-- The two-argument method `Lexer::makeToken`. -/
def Lexer.makeToken (lx : Lexer) (type : TokenType) (lexema : String) : Token :=
  { type := type, lexema := lexema, line := lx.lexer_line }

/-- The one-argument method `Lexer::makeToken`: the lexeme is the single character just
before the cursor. -/
def Lexer.makeToken1 (lx : Lexer) (type : TokenType) : Token :=
  { type := type,
    lexema := String.mk [lx.lexer_source.getD (lx.lexer_current_pos - 1) nulChar],
    line := lx.lexer_line }

/-- The method `Lexer::errorToken`. -/
def Lexer.errorToken (lx : Lexer) (message : String) : Token :=
  { type := TokenType.tERROR, lexema := message, line := lx.lexer_line }

/-- A loop `while (cond) advance();`, at most `fuel` rounds. -/
def Lexer.advanceWhile (cond : Lexer → Bool) : Nat → Lexer → Lexer
  | 0, lx => lx
  | fuel + 1, lx => if cond lx then Lexer.advanceWhile cond fuel lx.advance else lx

/-- The loop condition `isalnum(peek()) || peek() == '_'`. -/
def isIdentChar (lx : Lexer) : Bool :=
  lx.peek.isAlphanum || lx.peek == '_'

/-- The loop condition `isdigit(peek())`. -/
def isDigitAhead (lx : Lexer) : Bool :=
  lx.peek.isDigit

/-- The loop condition `peek() != '\n' && !isEnd()` of the comment skipper. -/
def notLineEnd (lx : Lexer) : Bool :=
  lx.peek != newlineChar && !lx.isEnd

/-- The method `Lexer::skipSpaceAndComments`, at most `fuel` rounds of its loop. -/
def Lexer.skipSpaceAndComments : Nat → Lexer → Lexer
  | 0, lx => lx
  | fuel + 1, lx =>
    if lx.isEnd then lx
    else
      let c := lx.peek
      if c = ' ' ∨ c = Char.ofNat 13 ∨ c = Char.ofNat 9 then
        Lexer.skipSpaceAndComments fuel lx.advance
      else if c = newlineChar then
        Lexer.skipSpaceAndComments fuel { lx.advance with lexer_line := lx.lexer_line + 1 }
      else if c = '/' then
        if lx.peekNext = '/' then
          Lexer.skipSpaceAndComments fuel
            (Lexer.advanceWhile notLineEnd lx.lexer_source.length lx.advance.advance)
        else lx
      else lx

/-- The method `Lexer::readIdentifierOrKeyWord`. -/
def Lexer.readIdentifierOrKeyWord (lx : Lexer) : Token × Lexer :=
  let start := lx.lexer_current_pos
  if lx.peek.isAlpha || lx.peek == '_' then
    let lx1 := Lexer.advanceWhile isIdentChar lx.lexer_source.length lx.advance
    let lx2 :=
      if lx1.substrFrom start = ['e', 'n', 'd'] then
        Lexer.advanceWhile isIdentChar lx.lexer_source.length lx1.advance
      else lx1
    let lexema := String.mk (lx2.substrFrom start)
    match keywords.lookup lexema with
    | some ty => (lx2.makeToken ty lexema, lx2)
    | none => (lx2.makeToken TokenType.tIdentifier lexema, lx2)
  else
    (lx.errorToken ("Identifier cannot start with " ++ String.mk [lx.peek]), lx)

/-- The method `Lexer::readNumberLiteral`. -/
def Lexer.readNumberLiteral (lx : Lexer) : Token × Lexer :=
  let start := lx.lexer_current_pos
  let n := lx.lexer_source.length
  let lx1 := Lexer.advanceWhile isDigitAhead n lx
  let lx2 :=
    if lx1.peek = '.' ∧ lx1.peekNext.isDigit then Lexer.advanceWhile isDigitAhead n lx1.advance
    else lx1
  if lx2.peek = 'e' ∨ lx2.peek = 'E' then
    let lx3 := lx2.advance
    let lx4 := if lx3.peek = '+' ∨ lx3.peek = '-' then lx3.advance else lx3
    if !lx4.peek.isDigit then (lx4.errorToken "Uncorrectly exponent in number", lx4)
    else
      let lx5 := Lexer.advanceWhile isDigitAhead n lx4
      (lx5.makeToken TokenType.tNumber (String.mk (lx5.substrFrom start)), lx5)
  else (lx2.makeToken TokenType.tNumber (String.mk (lx2.substrFrom start)), lx2)

/-- The loop of `Lexer::readStringLiteral`, at most `fuel` rounds; `value` is the string
decoded so far. -/
def Lexer.readStringBody : Nat → Lexer → List Char → Token × Lexer
  | 0, lx, _ => (lx.errorToken "Unterminated string", lx)
  | fuel + 1, lx, value =>
    if lx.peek ≠ quoteChar ∧ !lx.isEnd then
      if lx.peek = newlineChar then
        (lx.errorToken "Newline in string or unterminated string", lx)
      else if lx.peek = backslashChar then
        let lx1 := lx.advance
        if lx1.isEnd then (lx1.errorToken "Unterminated escape sequence", lx1)
        else
          let c := lx1.peek
          let d :=
            if c = quoteChar then quoteChar
            else if c = backslashChar then backslashChar
            else if c = 'n' then newlineChar
            else if c = 't' then Char.ofNat 9
            else c
          Lexer.readStringBody fuel lx1.advance (value ++ [d])
      else Lexer.readStringBody fuel lx.advance (value ++ [lx.peek])
    else if lx.isEnd then (lx.errorToken "Unterminated string", lx)
    else (lx.advance.makeToken TokenType.tString (String.mk value), lx.advance)

/-- The method `Lexer::readStringLiteral`. -/
def Lexer.readStringLiteral (lx : Lexer) : Token × Lexer :=
  Lexer.readStringBody (lx.lexer_source.length + 1) lx.advance []

/-- The tail of `getNextToken` for an operator that may be followed by `=`:
`makeToken(match('=') ? two : one)`. -/
def Lexer.opToken (lx : Lexer) (two one : TokenType) : Token × Lexer :=
  let r := lx.matchChar '='
  (r.2.makeToken1 (if r.1 then two else one), r.2)

/-- The method `Lexer::getNextToken`. -/
def Lexer.getNextToken (lx0 : Lexer) : Token × Lexer :=
  let lx := Lexer.skipSpaceAndComments (lx0.lexer_source.length + 1) lx0
  if lx.isEnd then (lx.makeToken TokenType.tEOF "", lx)
  else
    let c := lx.peek
    if c = quoteChar then lx.readStringLiteral
    else if c.isDigit || (c == '.' && lx.peekNext.isDigit) then lx.readNumberLiteral
    else if c.isAlpha || c == '_' then lx.readIdentifierOrKeyWord
    else
      let lx1 := lx.advance
      if c = '!' then
        let r := lx1.matchChar '='
        if r.1 then (r.2.makeToken1 TokenType.tNotEqual, r.2)
        else (r.2.makeToken TokenType.tERROR
          (String.mk [c] ++ (if r.2.peek = '=' then "=" else "")), r.2)
      else if c = '=' then lx1.opToken TokenType.tEqual TokenType.tAssign
      else if c = '<' then lx1.opToken TokenType.tLessOrEqual TokenType.tLess
      else if c = '>' then lx1.opToken TokenType.tGreaterOrEqual TokenType.tGreater
      else if c = '+' then lx1.opToken TokenType.tPlusAssign TokenType.tPlus
      else if c = '-' then lx1.opToken TokenType.tMinusAssign TokenType.tMinus
      else if c = '*' then lx1.opToken TokenType.tMultiplyAssign TokenType.tMultiply
      else if c = '/' then lx1.opToken TokenType.tDivideAssign TokenType.tDivide
      else if c = '%' then lx1.opToken TokenType.tModuleAssign TokenType.tModule
      else if c = '^' then lx1.opToken TokenType.tPowerAssign TokenType.tPower
      else if c = '(' then (lx1.makeToken1 TokenType.tLParenthesis, lx1)
      else if c = ')' then (lx1.makeToken1 TokenType.tRParenthesis, lx1)
      else if c = '[' then (lx1.makeToken1 TokenType.tLBracket, lx1)
      else if c = ']' then (lx1.makeToken1 TokenType.tRBracket, lx1)
      else if c = ',' then (lx1.makeToken1 TokenType.tComma, lx1)
      else if c = ':' then (lx1.makeToken1 TokenType.tColon, lx1)
      else (lx1.errorToken ("Unexpected character: " ++ String.mk [c]), lx1)

/-- The loop of `Lexer::getAllTokens`, at most `fuel` calls of `getNextToken`; the result
is `none` when the fuel runs out before a terminal token. -/
def Lexer.collectTokens : Nat → Lexer → List Token → Option (List Token)
  | 0, _, _ => none
  | fuel + 1, lx, tokens =>
    let r := lx.getNextToken
    if r.1.type ≠ TokenType.tEOF ∧ r.1.type ≠ TokenType.tERROR then
      Lexer.collectTokens fuel r.2 (tokens ++ [r.1])
    else some (tokens ++ [r.1])

/-- The method `Lexer::getAllTokens`; every call of `getNextToken` that does not end the
loop moves the cursor forward, so `length + 1` calls suffice. -/
def Lexer.getAllTokens (lx : Lexer) : Option (List Token) :=
  Lexer.collectTokens (lx.lexer_source.length + 1) lx []

/-! ## Syntax trees (`parser/ASTNode.h`)

A node keeps its line only where the interpreter reads it (loops and calls, for the
call-stack trace). A `BlockNode` is the list of its statements; a child pointer that the
parser may leave null is an `Option`. -/

mutual
/-- The expression nodes. -/
inductive Expr
  | numberLit (value : ℚ)
  | stringLit (value : String)
  | booleanLit (value : Bool)
  | nilLit
  | identifier (name : String)
  | listLit (elements : List Expr)
  | functionLit (parameters : List String) (body : List Stmt)
  | binaryOp (op : TokenType) (left right : Expr)
  | unaryOp (op : TokenType) (operand : Expr)
  | assignment (expression_l : Expr) (assignmentOp : TokenType) (expression_r : Expr)
  | functionCall (callee : Expr) (arguments : List Expr) (line : Nat)
  | indexExpr (object index : Expr)
  | sliceExpr (object : Expr) (start stop : Option Expr)
  deriving Repr
/-- The statement nodes. -/
inductive Stmt
  | expressionStmt (expression : Expr)
  | block (statements : List Stmt)
  | ifStmt (condition : Expr) (thenBranch : List Stmt) (elseBranch : Option Stmt)
  | whileStmt (condition : Expr) (body : List Stmt) (line : Nat)
  | forStmt (loopVariable : String) (iterable : Expr) (body : List Stmt) (line : Nat)
  | returnStmt (returnValue : Option Expr)
  | breakStmt
  | continueStmt
  deriving Repr
end

/-! ## Parser (`parser/parser.h`, `parser/parser.cpp`) -/

/-- The token supply behind the reference `m_lexer` of a `Parser`, of which the parser uses
`getNextToken` only: a `Lexer` on a source text, or a given stream of tokens, which is
followed by end-of-input tokens. The stream is there to state what the parser does on a
token stream; `Parser::Parser` itself always gets a `Lexer`. -/
inductive TokenSource
  | lexer (lx : Lexer)
  | stream (tokens : List Token)
  deriving DecidableEq, Repr

/-- The call `m_lexer.getNextToken()`. -/
def TokenSource.getNextToken : TokenSource → Token × TokenSource
  | .lexer lx => (lx.getNextToken.1, .lexer lx.getNextToken.2)
  | .stream (tok :: tokens) => (tok, .stream tokens)
  | .stream [] => ({ type := TokenType.tEOF, lexema := "", line := 0 }, .stream [])

/-- The state of a `Parser`: its token supply and the two tokens it holds. -/
structure Parser where
  m_lexer : TokenSource
  m_current_token : Token
  m_previous_token : Token
  deriving DecidableEq, Repr

/-- The result of a parsing function: a value and the parser state after it, the syntax
error thrown by `Parser::error` (offending token and message), or exhausted fuel. -/
inductive PRes (α : Type)
  | ok (a : α) (p : Parser)
  | error (tok : Token) (message : String)
  | outOfFuel
  deriving Repr

/-- Sequencing of parsing steps: an error or exhausted fuel ends the parse. -/
def PRes.bind {α β : Type} (r : PRes α) (f : α → Parser → PRes β) : PRes β :=
  match r with
  | .ok a p => f a p
  | .error t m => .error t m
  | .outOfFuel => .outOfFuel

/-- The method `Parser::advance`. -/
def Parser.advance (p : Parser) : Parser :=
  let r := p.m_lexer.getNextToken
  { m_lexer := r.2, m_current_token := r.1, m_previous_token := p.m_current_token }

/-- The constructor `Parser::Parser`, on any token supply. -/
def Parser.ofSource (src : TokenSource) : Parser :=
  Parser.advance
    { m_lexer := src, m_current_token := ⟨TokenType.tERROR, "", 0⟩,
      m_previous_token := ⟨TokenType.tERROR, "", 0⟩ }

/-- The constructor `Parser::Parser`. -/
def Parser.new (lx : Lexer) : Parser :=
  Parser.ofSource (.lexer lx)

/-- The method `Parser::isAtEnd`. -/
def Parser.isAtEnd (p : Parser) : Bool :=
  p.m_current_token.type == TokenType.tEOF

/-- The method `Parser::check`. -/
def Parser.check (p : Parser) (type : TokenType) : Bool :=
  if p.isAtEnd then false else p.m_current_token.type == type

/-- The one-type method `Parser::match`. -/
def Parser.matchType (p : Parser) (type : TokenType) : PRes Bool :=
  if p.m_current_token.type = TokenType.tERROR ∧ type ≠ TokenType.tERROR then
    .error p.m_current_token ("Lexicalerror: " ++ p.m_current_token.lexema)
  else if p.check type then .ok true p.advance
  else .ok false p

/-- The list method `Parser::match`. -/
def Parser.matchTypes (p : Parser) (types : List TokenType) : PRes Bool :=
  if p.m_current_token.type = TokenType.tERROR ∧ ¬ TokenType.tERROR ∈ types then
    .error p.m_current_token ("Lexicalerror: " ++ p.m_current_token.lexema)
  else if types.any p.check then .ok true p.advance
  else .ok false p

/-- The method `Parser::consume`. -/
def Parser.consume (p : Parser) (type : TokenType) (message : String) : PRes Unit :=
  if p.m_current_token.type = TokenType.tERROR ∧ type ≠ TokenType.tERROR then
    .error p.m_current_token ("Lexicalerror: " ++ p.m_current_token.lexema)
  else if p.check type then .ok () p.advance
  else .error p.m_current_token message

/-- The method `Parser::getOperatorPrecedence`. -/
def getOperatorPrecedence : TokenType → Nat
  | .tAssign | .tPlusAssign | .tMinusAssign | .tMultiplyAssign | .tDivideAssign
  | .tModuleAssign | .tPowerAssign => 1
  | .tOr => 2
  | .tAnd => 3
  | .tEqual | .tNotEqual => 4
  | .tLess | .tGreater | .tLessOrEqual | .tGreaterOrEqual => 5
  | .tPlus | .tMinus => 6
  | .tMultiply | .tDivide | .tModule => 7
  | .tPower => 8
  | _ => 0

/-- The test `type >= TokenType::tAssign && type <= TokenType::tPowerAssign` on the
declaration order of the enumeration. -/
def isAssignRange (type : TokenType) : Bool :=
  decide (TokenType.tAssign.toCtorIdx ≤ type.toCtorIdx
    ∧ type.toCtorIdx ≤ TokenType.tPowerAssign.toCtorIdx)

/-- The value of a run of decimal digits. -/
def digitsToNat (cs : List Char) : Nat :=
  cs.foldl (fun acc c => 10 * acc + (c.toNat - 48)) 0

/-- The call `std::stod` on the lexeme of a Number token (digits, an optional fraction,
an optional exponent): the exact decimal value. -/
def stod (lexeme : List Char) : ℚ :=
  let ip := lexeme.takeWhile Char.isDigit
  let r1 := lexeme.dropWhile Char.isDigit
  let fp := match r1 with
    | '.' :: t => t.takeWhile Char.isDigit
    | _ => []
  let r2 := match r1 with
    | '.' :: t => t.dropWhile Char.isDigit
    | _ => r1
  let mant : ℚ := (digitsToNat ip : ℚ) + (digitsToNat fp : ℚ) / (10 : ℚ) ^ fp.length
  match r2 with
  | _ :: '-' :: ds => mant / (10 : ℚ) ^ digitsToNat ds
  | _ :: '+' :: ds => mant * (10 : ℚ) ^ digitsToNat ds
  | _ :: ds => mant * (10 : ℚ) ^ digitsToNat ds
  | [] => mant

/-- The test at the head of the loop of `Parser::parseBlock`: the block goes on. -/
def Parser.blockContinues (p : Parser) : Bool :=
  !p.isAtEnd && p.m_current_token.type != TokenType.tEndIf
    && p.m_current_token.type != TokenType.tEndWhile
    && p.m_current_token.type != TokenType.tEndFor
    && p.m_current_token.type != TokenType.tEndFunc
    && p.m_current_token.type != TokenType.tElse

/-- The test of `Parser::parseReturnStatement` that selects the tokens which may start
the returned expression. -/
def Parser.returnHasExpression (p : Parser) : Bool :=
  let canHaveExpression :=
    !(p.check TokenType.tEndIf || p.check TokenType.tEndWhile || p.check TokenType.tEndFor
      || p.check TokenType.tEndFunc || p.check TokenType.tElse || p.isAtEnd
      || p.check TokenType.tEOF)
  canHaveExpression &&
    (match p.m_current_token.type with
     | .tIdentifier | .tNumber | .tString | .tTrue | .tFalse | .tNil | .tLParenthesis
     | .tLBracket | .tMinus | .tPlus | .tNot | .tFunc => true
     | _ => false)

mutual
/-- The method `Parser::parseStatement`. -/
def parseStatement : Nat → Parser → PRes Stmt
  | 0, _ => .outOfFuel
  | fuel + 1, p =>
    match p.m_current_token.type with
    | .tIf => parseIfStatement fuel p
    | .tWhile => parseWhileStatement fuel p
    | .tFor => parseForStatement fuel p
    | .tReturn => parseReturnStatement fuel p
    | .tBreak => (p.consume TokenType.tBreak "Expect 'break'.").bind fun _ p1 =>
        .ok Stmt.breakStmt p1
    | .tContinue => (p.consume TokenType.tContinue "Expect 'continue'.").bind fun _ p1 =>
        .ok Stmt.continueStmt p1
    | _ => (parseExpression fuel 0 p).bind fun e p1 => .ok (Stmt.expressionStmt e) p1
/-- The method `Parser::parseBlock`; `acc` holds the statements read so far. -/
def parseBlock : Nat → Parser → List Stmt → PRes (List Stmt)
  | 0, _, _ => .outOfFuel
  | fuel + 1, p, acc =>
    if p.blockContinues then
      (parseStatement fuel p).bind fun st p1 => parseBlock fuel p1 (acc ++ [st])
    else .ok acc p
/-- The method `Parser::parseIfStatementInternal`. -/
def parseIfStatementInternal : Nat → Bool → Parser → PRes Stmt
  | 0, _, _ => .outOfFuel
  | fuel + 1, isElseIfContinuation, p =>
    (if isElseIfContinuation then
      p.consume TokenType.tIf "Expect 'if' after 'else' for an 'else if' construct."
     else .ok () p).bind fun _ p0 =>
    (parseExpression fuel 0 p0).bind fun condition p1 =>
    (p1.consume TokenType.tThen "Expect 'then' after if condition.").bind fun _ p2 =>
    (parseBlock fuel p2 []).bind fun thenBranch p3 =>
    (p3.matchType TokenType.tElse).bind fun isElse p4 =>
      if isElse then
        if p4.m_current_token.type = TokenType.tIf then
          (parseIfStatementInternal fuel true p4).bind fun elseNode p5 =>
            .ok (Stmt.ifStmt condition thenBranch (some elseNode)) p5
        else
          (parseBlock fuel p4 []).bind fun elseBlock p5 =>
            .ok (Stmt.ifStmt condition thenBranch (some (Stmt.block elseBlock))) p5
      else .ok (Stmt.ifStmt condition thenBranch none) p4
/-- The method `Parser::parseIfStatement`. -/
def parseIfStatement : Nat → Parser → PRes Stmt
  | 0, _ => .outOfFuel
  | fuel + 1, p =>
    (p.consume TokenType.tIf "Expect 'if'.").bind fun _ p1 =>
    (parseIfStatementInternal fuel false p1).bind fun ifStmtNode p2 =>
    (p2.consume TokenType.tEndIf
      "Expect 'end' to close 'if/else if/else' statement chain.").bind fun _ p3 =>
      .ok ifStmtNode p3
/-- The method `Parser::parseWhileStatement`. -/
def parseWhileStatement : Nat → Parser → PRes Stmt
  | 0, _ => .outOfFuel
  | fuel + 1, p =>
    (p.consume TokenType.tWhile "Expect 'while'.").bind fun _ p1 =>
    (parseExpression fuel 0 p1).bind fun condition p2 =>
    (parseBlock fuel p2 []).bind fun body p3 =>
    (p3.consume TokenType.tEndWhile "Expect 'end' to close 'while' statement.").bind
      fun _ p4 => .ok (Stmt.whileStmt condition body p.m_current_token.line) p4
/-- The method `Parser::parseForStatement`. -/
def parseForStatement : Nat → Parser → PRes Stmt
  | 0, _ => .outOfFuel
  | fuel + 1, p =>
    (p.consume TokenType.tFor "Expect 'for'.").bind fun _ p1 =>
    (p1.consume TokenType.tIdentifier "Expect identifier for loop variable.").bind
      fun _ p2 =>
    (p2.consume TokenType.tIn "Expect 'in' after loop variable.").bind fun _ p3 =>
    (parseExpression fuel 0 p3).bind fun iterable p4 =>
    (parseBlock fuel p4 []).bind fun body p5 =>
    (p5.consume TokenType.tEndFor "Expect 'end' to close 'for' statement.").bind
      fun _ p6 =>
      .ok (Stmt.forStmt p1.m_current_token.lexema iterable body p.m_current_token.line) p6
/-- The parameter loop `do ... while(match(tComma))` of `Parser::parseFunctionLiteral`. -/
def parseParameters : Nat → Parser → List String → PRes (List String)
  | 0, _, _ => .outOfFuel
  | fuel + 1, p, acc =>
    (p.consume TokenType.tIdentifier "Expect parameter name.").bind fun _ p1 =>
    (p1.matchType TokenType.tComma).bind fun more p2 =>
      if more then parseParameters fuel p2 (acc ++ [p.m_current_token.lexema])
      else .ok (acc ++ [p.m_current_token.lexema]) p2
/-- The method `Parser::parseFunctionLiteral`. -/
def parseFunctionLiteral : Nat → Parser → PRes Expr
  | 0, _ => .outOfFuel
  | fuel + 1, p =>
    (p.consume TokenType.tFunc "Expect 'function'.").bind fun _ p1 =>
    (p1.consume TokenType.tLParenthesis
      "Expect '(' after 'function' keyword for parameters.").bind fun _ p2 =>
    (if !p2.check TokenType.tRParenthesis then parseParameters fuel p2 []
     else .ok [] p2).bind fun parameters p3 =>
    (p3.consume TokenType.tRParenthesis "Expect ')' after parameters.").bind fun _ p4 =>
    (parseBlock fuel p4 []).bind fun body p5 =>
    (p5.consume TokenType.tEndFunc
      "Expect 'end' to close 'function' literal definition.").bind fun _ p6 =>
      .ok (Expr.functionLit parameters body) p6
/-- The method `Parser::parseReturnStatement`. -/
def parseReturnStatement : Nat → Parser → PRes Stmt
  | 0, _ => .outOfFuel
  | fuel + 1, p =>
    (p.consume TokenType.tReturn "Expect 'return'.").bind fun _ p1 =>
      if p1.returnHasExpression then
        (parseExpression fuel 0 p1).bind fun value p2 => .ok (Stmt.returnStmt (some value)) p2
      else .ok (Stmt.returnStmt none) p1
/-- The method `Parser::parseExpression`. -/
def parseExpression : Nat → Nat → Parser → PRes Expr
  | 0, _, _ => .outOfFuel
  | fuel + 1, minPrecedence, p =>
    (parseUnary fuel p).bind fun left p1 => parseExpressionLoop fuel minPrecedence left p1
/-- The loop `while(!isAtEnd())` of `Parser::parseExpression`. -/
def parseExpressionLoop : Nat → Nat → Expr → Parser → PRes Expr
  | 0, _, _, _ => .outOfFuel
  | fuel + 1, minPrecedence, left, p =>
    if p.isAtEnd then .ok left p
    else
      let operatorType := p.m_current_token.type
      let precedence := getOperatorPrecedence operatorType
      if precedence = 0 ∨ precedence < minPrecedence then .ok left p
      else
        let isRightAssociative := operatorType == TokenType.tPower || isAssignRange operatorType
        let nextMinPrecedence := if isRightAssociative then precedence else precedence + 1
        (p.consume operatorType "Expect binary operator.").bind fun _ p1 =>
        (parseExpression fuel nextMinPrecedence p1).bind fun right p2 =>
          if isAssignRange p1.m_previous_token.type then
            parseExpressionLoop fuel minPrecedence
              (Expr.assignment left p1.m_previous_token.type right) p2
          else
            parseExpressionLoop fuel minPrecedence
              (Expr.binaryOp p1.m_previous_token.type left right) p2
/-- The method `Parser::parseUnary`. -/
def parseUnary : Nat → Parser → PRes Expr
  | 0, _ => .outOfFuel
  | fuel + 1, p =>
    (p.matchTypes [TokenType.tNot, TokenType.tMinus, TokenType.tPlus]).bind fun isOp p1 =>
      if isOp then
        (parseUnary fuel p1).bind fun operand p2 =>
          .ok (Expr.unaryOp p1.m_previous_token.type operand) p2
      else parsePostfixOperations fuel p1
/-- The method `Parser::parsePostfixOperations`. -/
def parsePostfixOperations : Nat → Parser → PRes Expr
  | 0, _ => .outOfFuel
  | fuel + 1, p => (parsePrimary fuel p).bind fun expr p1 => parsePostfixLoop fuel expr p1
/-- The loop `while(true)` of `Parser::parsePostfixOperations`. -/
def parsePostfixLoop : Nat → Expr → Parser → PRes Expr
  | 0, _, _ => .outOfFuel
  | fuel + 1, expr, p =>
    if p.check TokenType.tLParenthesis then
      (parseCall fuel expr p).bind fun e p1 => parsePostfixLoop fuel e p1
    else
      (p.matchType TokenType.tLBracket).bind fun isBracket p1 =>
        if isBracket then
          let lbracketToken := p1.m_previous_token
          if p1.check TokenType.tRBracket then
            .error lbracketToken
              "Subscript operator [] cannot be empty. For full slice, use [:] or specify indices."
          else
            (if p1.check TokenType.tColon then
              (p1.consume TokenType.tColon "Expect ':' for slice start.").bind fun _ p2 =>
                if !p2.check TokenType.tRBracket then
                  (parseExpression fuel 0 p2).bind fun secondArg p3 =>
                    .ok (true, (none : Option Expr), some secondArg) p3
                else .ok (true, none, none) p2
             else
              (parseExpression fuel 0 p1).bind fun firstArg p2 =>
              (p2.matchType TokenType.tColon).bind fun isColon p3 =>
                if isColon then
                  if !p3.check TokenType.tRBracket then
                    (parseExpression fuel 0 p3).bind fun secondArg p4 =>
                      .ok (true, some firstArg, some secondArg) p4
                  else .ok (true, some firstArg, none) p3
                else .ok (false, some firstArg, none) p3).bind fun args p5 =>
            (p5.consume TokenType.tRBracket
              "Expect ']' after index or slice arguments.").bind fun _ p6 =>
              if args.1 then
                parsePostfixLoop fuel (Expr.sliceExpr expr args.2.1 args.2.2) p6
              else
                match args.2.1 with
                | some firstArg => parsePostfixLoop fuel (Expr.indexExpr expr firstArg) p6
                | none => .error lbracketToken
                    "Index expression missing inside []. This should not happen."
        else .ok expr p1
/-- A loop `do elements.push_back(parseExpression()); while(match(tComma))`, shared by list
literals and call arguments. -/
def parseExpressionList : Nat → Parser → List Expr → PRes (List Expr)
  | 0, _, _ => .outOfFuel
  | fuel + 1, p, acc =>
    (parseExpression fuel 0 p).bind fun e p1 =>
    (p1.matchType TokenType.tComma).bind fun more p2 =>
      if more then parseExpressionList fuel p2 (acc ++ [e]) else .ok (acc ++ [e]) p2
/-- The method `Parser::parsePrimary`. The last error message is kept without the
description of the token that it appends; `std::stod` is exact, and its range error on
a literal beyond the range of `double` is outside the model. -/
def parsePrimary : Nat → Parser → PRes Expr
  | 0, _ => .outOfFuel
  | fuel + 1, p =>
    (p.matchType TokenType.tNumber).bind fun isNumber p1 =>
    if isNumber then .ok (Expr.numberLit (stod p1.m_previous_token.lexema.toList)) p1 else
    (p1.matchType TokenType.tString).bind fun isString p2 =>
    if isString then .ok (Expr.stringLit p2.m_previous_token.lexema) p2 else
    (p2.matchType TokenType.tTrue).bind fun isTrue p3 =>
    if isTrue then .ok (Expr.booleanLit true) p3 else
    (p3.matchType TokenType.tFalse).bind fun isFalse p4 =>
    if isFalse then .ok (Expr.booleanLit false) p4 else
    (p4.matchType TokenType.tNil).bind fun isNil p5 =>
    if isNil then .ok Expr.nilLit p5 else
    (p5.matchType TokenType.tIdentifier).bind fun isIdent p6 =>
    if isIdent then .ok (Expr.identifier p6.m_previous_token.lexema) p6 else
    (p6.matchType TokenType.tLBracket).bind fun isList p7 =>
    if isList then
      (if !p7.check TokenType.tRBracket then parseExpressionList fuel p7 []
       else .ok [] p7).bind fun elements p8 =>
      (p8.consume TokenType.tRBracket
        "Expect ']' after list elements or '[' for empty list.").bind fun _ p9 =>
        .ok (Expr.listLit elements) p9
    else if p7.m_current_token.type = TokenType.tFunc then parseFunctionLiteral fuel p7
    else
      (p7.matchType TokenType.tLParenthesis).bind fun isParen p8 =>
        if isParen then
          (parseExpression fuel 0 p8).bind fun expr p9 =>
          (p9.consume TokenType.tLParenthesis
            "Expect ')' after expression in parentheses.").bind fun _ p10 => .ok expr p10
        else
          .error p8.m_current_token
            "Expected primary expression(literal, identifier, list, function, or grouped expression)."
/-- The method `Parser::parseCall`. -/
def parseCall : Nat → Expr → Parser → PRes Expr
  | 0, _, _ => .outOfFuel
  | fuel + 1, callee, p =>
    (p.consume TokenType.tLParenthesis
      "Expect '(' to start function call arguments.").bind fun _ p1 =>
    (if !p1.check TokenType.tRParenthesis then parseExpressionList fuel p1 []
     else .ok [] p1).bind fun arguments p2 =>
    (p2.consume TokenType.tRParenthesis
      "Expect ')' or ',' in argument list to close function call.").bind fun _ p3 =>
      .ok (Expr.functionCall callee arguments p.m_current_token.line) p3
end

/-- The loop of `Parser::parseProgram`; `acc` holds the statements read so far. -/
def parseProgramLoop : Nat → Parser → List Stmt → PRes (List Stmt)
  | 0, _, _ => .outOfFuel
  | fuel + 1, p, acc =>
    if !p.isAtEnd then
      (parseStatement fuel p).bind fun st p1 => parseProgramLoop fuel p1 (acc ++ [st])
    else .ok acc p

/-- The front half of `interpret`: `Lexer lexer(source); Parser parser(lexer);
parser.parseProgram()`. The result is the list of statements of the `ProgramNode`. -/
def parseSource (fuel : Nat) (source : String) : PRes (List Stmt) :=
  parseProgramLoop fuel (Parser.new (Lexer.new source.toList)) []

/-! ## More binary and unary operators (`interpreter/binaryOperators.cpp`) -/

/-- The operator `Interpreter::divide`. -/
def divide (h : ListHeap) (left right : Value) : Except String (Value × ListHeap) :=
  match left, right with
  | .number a, .number b =>
    if b = 0 then .error (formatError "divide (/)" "division by zero")
    else .ok (.number (a / b), h)
  | _, _ => .error (typeError "divide (/)" left right)

/-- The operator `Interpreter::modulo`; `none` where `std::fmod` yields NaN (a zero
divisor), which the rational model cannot represent. -/
def modulo (h : ListHeap) (left right : Value) : Option (Except String (Value × ListHeap)) :=
  match left, right with
  | .number a, .number b =>
    if b = 0 then none else some (.ok (.number (a - b * (truncQ (a / b) : ℚ)), h))
  | _, _ => some (.error (typeError "modulo (%)" left right))

/-- The operator `Interpreter::power`; `none` where the result of `std::pow` need not be
rational (a non-integral exponent) or is infinite (zero to a negative power). -/
def power (h : ListHeap) (left right : Value) : Option (Except String (Value × ListHeap)) :=
  match left, right with
  | .number a, .number b =>
    if (⌊b⌋ : ℚ) = b then
      if 0 ≤ b then some (.ok (.number (a ^ (⌊b⌋).toNat), h))
      else if a = 0 then none
      else some (.ok (.number (1 / a ^ (-⌊b⌋).toNat), h))
    else none
  | _, _ => some (.error (typeError "power (^)" left right))

mutual
/-- The operator `Interpreter::equal`; the recursion through list elements is bounded
by `fuel`, and `none` is exhausted fuel. -/
def equal : Nat → ListHeap → Value → Value → Option Bool
  | 0, _, _, _ => none
  | fuel + 1, h, left, right =>
    match left, right with
    | .number a, .number b => some (decide (a = b))
    | .string a, .string b => some (decide (a = b))
    | .bool a, .bool b => some (decide (a = b))
    | .nil, .nil => some true
    | .list a, .list b =>
      if (derefList h a).length ≠ (derefList h b).length then some false
      else equalElements fuel h (derefList h a) (derefList h b)
    | .func a, .func b => some (decide (a = b))
    | _, _ => some false
/-- The element loop of the list case of `Interpreter::equal`. -/
def equalElements : Nat → ListHeap → List Value → List Value → Option Bool
  | 0, _, _, _ => none
  | fuel + 1, h, xs, ys =>
    match xs, ys with
    | x :: xs1, y :: ys1 =>
      match equal fuel h x y with
      | none => none
      | some false => some false
      | some true => equalElements fuel h xs1 ys1
    | _, _ => some true
end

/-- The comparison `<` of `std::string`: lexicographic on character codes. -/
def strLess : List Char → List Char → Bool
  | [], [] => false
  | [], _ :: _ => true
  | _ :: _, [] => false
  | a :: as, b :: bs => if a.toNat < b.toNat then true else if b.toNat < a.toNat then false
      else strLess as bs

/-- The operator `Interpreter::lessThan`. -/
def lessThan (left right : Value) : Except String Value :=
  match left, right with
  | .number a, .number b => .ok (.bool (decide (a < b)))
  | .string a, .string b => .ok (.bool (strLess a b))
  | _, _ => .error (typeError "less than (<)" left right)

/-- The operator `Interpreter::greaterThan`. -/
def greaterThan (left right : Value) : Except String Value :=
  match left, right with
  | .number a, .number b => .ok (.bool (decide (a > b)))
  | .string a, .string b => .ok (.bool (strLess b a))
  | _, _ => .error (typeError "greater than (>)" left right)

/-- The operator `Interpreter::lessThanOrEqual`. -/
def lessThanOrEqual (left right : Value) : Except String Value :=
  match left, right with
  | .number a, .number b => .ok (.bool (decide (a ≤ b)))
  | .string a, .string b => .ok (.bool (!strLess b a))
  | _, _ => .error (typeError "less than or equal (<=)" left right)

/-- The operator `Interpreter::greaterThanOrEqual`. -/
def greaterThanOrEqual (left right : Value) : Except String Value :=
  match left, right with
  | .number a, .number b => .ok (.bool (decide (a ≥ b)))
  | .string a, .string b => .ok (.bool (!strLess a b))
  | _, _ => .error (typeError "greater than or equal (>=)" left right)

/-- The dispatcher `Interpreter::applyBinaryOperator`; `equal` gets the fuel `fuel`, and
`none` is a result outside the model (exhausted fuel of `equal`, undefined behaviour,
NaN, an irrational power). -/
def applyBinaryOperator (fuel : Nat) (type : TokenType) (h : ListHeap)
    (left right : Value) : Option (Except String (Value × ListHeap)) :=
  match type with
  | .tPlus => some (add h left right)
  | .tMinus => some (subtract h left right)
  | .tMultiply => multiply h left right
  | .tDivide => some (divide h left right)
  | .tModule => modulo h left right
  | .tPower => power h left right
  | .tEqual => (equal fuel h left right).map fun b => .ok (.bool b, h)
  | .tNotEqual => (equal fuel h left right).map fun b => .ok (.bool (!b), h)
  | .tLess => some ((lessThan left right).map fun v => (v, h))
  | .tGreater => some ((greaterThan left right).map fun v => (v, h))
  | .tLessOrEqual => some ((lessThanOrEqual left right).map fun v => (v, h))
  | .tGreaterOrEqual => some ((greaterThanOrEqual left right).map fun v => (v, h))
  | _ => some (.error "applyBinaryOperator")

/-- The dispatcher `Interpreter::applyUnaryOperator`. -/
def applyUnaryOperator (type : TokenType) (operand : Value) : Except String Value :=
  match type with
  | .tMinus =>
    match operand with
    | .number x => .ok (.number (-x))
    | _ => .error (formatError "applyUnaryOperator" "argument must be number")
  | .tPlus =>
    match operand with
    | .number x => .ok (.number x)
    | _ => .error (formatError "applyUnaryOperator" "argument must be number")
  | .tNot => operand.asBool.map fun b => .bool (!b)
  | _ => .error "applyUnaryOperator"

/-- The switch of `visit(AssignmentNode)` from a compound assignment operator to its
binary operator; `none` is the `default:` case. -/
def compoundOperator : TokenType → Option TokenType
  | .tPlusAssign => some .tPlus
  | .tMinusAssign => some .tMinus
  | .tMultiplyAssign => some .tMultiply
  | .tDivideAssign => some .tDivide
  | .tModuleAssign => some .tModule
  | .tPowerAssign => some .tPower
  | _ => none

/-! ## Indexing and slicing on values (`interpreter/interpreter.cpp`, lines 413-526)

The parts of `visit(IndexExpressionNode)`, `resolve_slice_index`, `visit(SliceExpressionNode)`
and of the index branch of `visit(AssignmentNode)` that follow the evaluation of the
operand expressions. -/

/-- The body of `visit(IndexExpressionNode)` once `object` and `index_val` are evaluated. -/
def indexValue (h : ListHeap) (object index_val : Value) : Option (Except String Value) :=
  match index_val with
  | .number raw_idx =>
    if (⌊raw_idx⌋ : ℚ) ≠ raw_idx then
      some (.error (formatError "IndexExpressionNode" "index must be an integer."))
    else
      match castToInt 32 raw_idx with
      | none => none
      | some idx =>
        match object with
        | .list p =>
          let size := wrapInt 32 (derefList h p).length
          let idx1 := if idx < 0 then idx + size else idx
          if idx1 < 0 ∨ idx1 ≥ size then some (.ok .nil)
          else some (.ok ((derefList h p).getD idx1.toNat .nil))
        | .string str =>
          let size := wrapInt 32 str.length
          let idx1 := if idx < 0 then idx + size else idx
          if idx1 < 0 ∨ idx1 ≥ size then some (.ok .nil)
          else some (.ok (.string [str.getD idx1.toNat nulChar]))
        | _ => some (.error (formatError "IndexExpressionNode"
            "indexing operator [] can only be applied to lists and strings."))
  | _ => some (.error (formatError "IndexExpressionNode" "index must be a number."))

/-- The body of `resolve_slice_index` once the bound expression is evaluated to `val`. -/
def resolveSliceValue (val : Value) (size : Int) : Option (Except String Int) :=
  match val with
  | .number raw_idx =>
    if (⌊raw_idx⌋ : ℚ) ≠ raw_idx then
      some (.error (formatError "SliceExpressionNode" "slice indices must be integers."))
    else
      match castToInt 64 raw_idx with
      | none => none
      | some idx =>
        let idx1 := if idx < 0 then idx + size else idx
        some (.ok (max 0 (min idx1 size)))
  | _ => some (.error (formatError "SliceExpressionNode" "slice indices must be numbers."))

/-- The copy loop of the list case of `visit(SliceExpressionNode)`: the elements at the
positions `start`, ..., `stop - 1` when `start < stop`, else nothing. -/
def sliceList {α : Type} (xs : List α) (start stop : Int) : List α :=
  if start < stop then (xs.drop start.toNat).take (stop - start).toNat else []

/-- The checks of the index branch of `visit(AssignmentNode)` on a list of `length`
elements: the position to write, or the error thrown. -/
def assignIndexPosition (length : Nat) (index_val : Value) : Option (Except String Nat) :=
  match index_val with
  | .number raw_idx =>
    if (⌊raw_idx⌋ : ℚ) ≠ raw_idx then
      some (.error (formatError "AssignmentNode" "list index must be a number."))
    else
      match castToInt 32 raw_idx with
      | none => none
      | some idx =>
        let idx1 := if idx < 0 then wrapInt 32 (idx + length) else idx
        if idx1 < 0 ∨ idx1 ≥ (length : Int) then
          some (.error (formatError "AssignmentNode" "list index out of bounds."))
        else some (.ok idx1.toNat)
  | _ => some (.error (formatError "AssignmentNode" "list index must be a number."))

/-- The store `(*list_ptr)[idx] = rvalue` on the list object `p`. -/
def storeElement (h : ListHeap) (p idx : Nat) (rvalue : Value) : ListHeap :=
  h.set p ((derefList h p).set idx rvalue)

/-! ## Scopes (`interpreter/scope.h`, `interpreter/scope.cpp`)

A `Scope` object is a cell of the scope store; `outer_scope` names the parent cell. The
C++ constructor always links a new scope to an existing one, so in every reachable
store the parent of a cell has a smaller index than the cell. -/

/-- The object `Scope`: `vars` is its member `variables` (the `unordered_map`, as an
association list with distinct keys), `outer_scope` its parent. -/
structure Scope where
  vars : List (String × Value)
  outer_scope : Option Nat
  deriving DecidableEq, Repr

/-- The store of scope objects. -/
abbrev ScopeHeap := List Scope

/-- The map update `variables[name] = value`: overwrite the entry of `name`, or insert it. -/
def setVariable (name : String) (value : Value) : List (String × Value) → List (String × Value)
  | [] => [(name, value)]
  | (k, v) :: rest =>
    if k = name then (k, value) :: rest else (k, v) :: setVariable name value rest

/-- The method `Scope::define` on the scope object `self`. -/
def Scope.define (scopes : ScopeHeap) (self : Nat) (name : String) (value : Value) :
    ScopeHeap :=
  match scopes[self]? with
  | some sc => scopes.set self { sc with vars := setVariable name value sc.vars }
  | none => scopes

/-- The recursion of `Scope::assign` along the parent chain, at most `fuel` scopes deep. -/
def Scope.assignAux : Nat → ScopeHeap → Nat → String → Value → Bool × ScopeHeap
  | 0, scopes, _, _, _ => (false, scopes)
  | fuel + 1, scopes, self, name, value =>
    match scopes[self]? with
    | none => (false, scopes)
    | some sc =>
      if (sc.vars.lookup name).isSome then
        (true, scopes.set self { sc with vars := setVariable name value sc.vars })
      else
        match sc.outer_scope with
        | some outer => Scope.assignAux fuel scopes outer name value
        | none => (false, scopes)

/-- The method `Scope::assign` on the scope object `self`: a parent chain never has more
scopes than the store. -/
def Scope.assign (scopes : ScopeHeap) (self : Nat) (name : String) (value : Value) :
    Bool × ScopeHeap :=
  Scope.assignAux scopes.length scopes self name value

/-- The recursion of `Scope::get` along the parent chain, at most `fuel` scopes deep;
`none` is the failure that makes `get` throw. -/
def Scope.getAux : Nat → ScopeHeap → Nat → String → Option Value
  | 0, _, _, _ => none
  | fuel + 1, scopes, self, name =>
    match scopes[self]? with
    | none => none
    | some sc =>
      match sc.vars.lookup name with
      | some v => some v
      | none =>
        match sc.outer_scope with
        | some outer => Scope.getAux fuel scopes outer name
        | none => none

/-- The method `Scope::get` on the scope object `self`. -/
def Scope.get (scopes : ScopeHeap) (self : Nat) (name : String) : Except String Value :=
  match Scope.getAux scopes.length scopes self name with
  | some v => .ok v
  | none => .error (formatError "Scope"
      ("No access to " ++ String.mk [quoteChar] ++ name ++ String.mk [quoteChar]))

/-- The method `Scope::isDefinedLocally` on the scope object `self`. -/
def Scope.isDefinedLocally (scopes : ScopeHeap) (self : Nat) (name : String) : Bool :=
  match scopes[self]? with
  | some sc => (sc.vars.lookup name).isSome
  | none => false

/-! ## Standard library (`interpreter/stdlib.cpp`)

The functions of the library that the theorems are about. A result `none` is a result
outside the model: a square root that is not rational, or a loop that has not ended
within the fuel. -/

/-- The message of `ErrorManager(function, expected, received)`, the argument count error. -/
def argumentCountError (function : String) (expected received : Nat) : String :=
  formatError function
    ("expected " ++ toString expected ++ " argument(s), got " ++ toString received)

/-- The message of `ErrorManager(function, argIndex, expectedType, receivedType)`, the
argument type error. -/
def argumentTypeError (function : String) (argIndex : Nat) (expectedType : String)
    (receivedType : ValueType) : String :=
  formatError function ("argument " ++ toString (argIndex + 1) ++ " must be " ++ expectedType
    ++ ", got " ++ getTypeName receivedType)

/-- The library function `sqrt`; `std::sqrt` is the rational square root where there is one. -/
def StandardLibrary.sqrt (args : List Value) : Option (Except String Value) :=
  if args.length ≠ 1 then some (.error (argumentCountError "sqrt" 1 args.length))
  else
    match args with
    | [.number num] =>
      if num < 0 then
        some (.error (formatError "sqrt" "cannot take square root of negative number"))
      else if Rat.sqrt num * Rat.sqrt num = num then some (.ok (.number (Rat.sqrt num)))
      else none
    | [arg] => some (.error (argumentTypeError "sqrt" 0 "number" arg.getType))
    | _ => none

/-- The call `s.find(pat, pos)` of `std::string`: the least position from `pos` on at
which `pat` occurs in `s`, if any. -/
def findFrom (pat s : List Char) (pos : Nat) : Option Nat :=
  if pos > s.length then none else (findSub pat (s.drop pos)).map (· + pos)

/-- The loop `while((pos = s.find(oldStr, pos)) != npos)` of the library function
`replace`, at most `fuel` rounds; `none` when it has not ended by then. -/
def StandardLibrary.replaceLoop (oldStr newStr : List Char) : Nat → List Char → Nat →
    Option (List Char)
  | 0, _, _ => none
  | fuel + 1, s, pos =>
    match findFrom oldStr s pos with
    | some found =>
      StandardLibrary.replaceLoop oldStr newStr fuel
        (s.take found ++ newStr ++ s.drop (found + oldStr.length)) (found + newStr.length)
    | none => some s

/-- The library function `replace`. -/
def StandardLibrary.replace (fuel : Nat) (args : List Value) : Option (Except String Value) :=
  if args.length ≠ 3 then some (.error (argumentCountError "replace" 3 args.length))
  else
    match args with
    | [.string s, .string oldStr, .string newStr] =>
      (StandardLibrary.replaceLoop oldStr newStr fuel s 0).map fun r => .ok (.string r)
    | [.string _, .string _, arg] =>
      some (.error (argumentTypeError "replace" 2 "string" arg.getType))
    | [.string _, arg, _] => some (.error (argumentTypeError "replace" 1 "string" arg.getType))
    | [arg, _, _] => some (.error (argumentTypeError "replace" 0 "string" arg.getType))
    | _ => none

/-- The call of the function of the library that is defined under `name`; the functions
that are not modelled give `none`. -/
def StandardLibrary.call (fuel : Nat) (name : String) (args : List Value) :
    Option (Except String Value) :=
  if name = "sqrt" then StandardLibrary.sqrt args
  else if name = "replace" then StandardLibrary.replace fuel args
  else none

/-! ## Interpreter (`interpreter/interpreter.h`, `interpreter/interpreter.cpp`) -/

/-- A function object: a closure made by `visit(FunctionLiteralNode)`, which captures the
literal node only (its parameters and its body), or a function of the standard library. -/
inductive Function
  | user (parameters : List String) (body : List Stmt)
  | native (name : String)
  deriving Repr

/-- An entry of `call_stack_trace`: the text pushed by `pushCall`, kept structured. -/
inductive Frame
  | whileFrame (line : Nat)
  | forFrame (line : Nat)
  | callFrame (callee : Nat) (line : Nat)
  deriving DecidableEq, Repr

/-- The state of an `Interpreter` with the stores of the objects it can reach. The global
scope `m_global_scope` is the scope object 0. -/
structure Interpreter where
  scopes : ScopeHeap
  lists : ListHeap
  functions : List Function
  m_current_scope : Nat
  m_recursion_depth : Nat
  call_stack_trace : List Frame
  deriving Repr

/-- The constant `MAX_RECURSION_DEPTH`. -/
def MAX_RECURSION_DEPTH : Nat := 1000

/-- What a `throw` carries: the `std::runtime_error` of `ErrorManager`, or a signal. -/
inductive Signal
  | runtimeError (message : String)
  | returnValue (value : Value)
  | breakSignal
  | continueSignal
  deriving DecidableEq, Repr

/-- The result of an interpreter step: a value with the state after it; a throw with the
state at the throw; exhausted fuel; or a step outside the model (a call of a function
of the standard library that is not modelled, undefined behaviour, a NaN or irrational
arithmetic result). -/
inductive Res (α : Type)
  | ok (a : α) (st : Interpreter)
  | throw (sig : Signal) (st : Interpreter)
  | outOfFuel
  | unsupported
  deriving Repr

/-- Sequencing of interpreter steps: a throw propagates with its state. -/
def Res.bind {α β : Type} (r : Res α) (f : α → Interpreter → Res β) : Res β :=
  match r with
  | .ok a st => f a st
  | .throw sig st => .throw sig st
  | .outOfFuel => .outOfFuel
  | .unsupported => .unsupported

/-- The result of an operator on values, as an interpreter step in the state `st`. -/
def liftOp (r : Except String (Value × ListHeap)) (st : Interpreter) : Res Value :=
  match r with
  | .ok (v, h) => .ok v { st with lists := h }
  | .error e => .throw (.runtimeError e) st

/-- The result of an operator that may leave the model, as an interpreter step. -/
def liftOpt (r : Option (Except String (Value × ListHeap))) (st : Interpreter) : Res Value :=
  match r with
  | some x => liftOp x st
  | none => .unsupported

/-- The result of a check that does not touch the state and may leave the model, as an
interpreter step. -/
def liftPureOpt {α : Type} (r : Option (Except String α)) (st : Interpreter) : Res α :=
  match r with
  | some (.ok a) => .ok a st
  | some (.error e) => .throw (.runtimeError e) st
  | none => .unsupported

/-- The result of a check that does not touch the state, as an interpreter step. -/
def liftPure {α : Type} (r : Except String α) (st : Interpreter) : Res α :=
  match r with
  | .ok a => .ok a st
  | .error e => .throw (.runtimeError e) st

/-- The call `std::make_shared<Scope>(outer)`: a new scope object without variables. -/
def newScope (st : Interpreter) (outer : Nat) : Nat × Interpreter :=
  (st.scopes.length, { st with scopes := st.scopes ++ [{ vars := [], outer_scope := some outer }] })

/-- The method `Interpreter::pushCall`. -/
def pushCall (st : Interpreter) (frame : Frame) : Interpreter :=
  { st with call_stack_trace := st.call_stack_trace ++ [frame] }

/-- The method `Interpreter::popCall`. -/
def popCall (st : Interpreter) : Interpreter :=
  { st with call_stack_trace := st.call_stack_trace.dropLast }

/-- The positional binding loop of a user function:
`new_scope->define(node->parameters[i]->name, args[i])`. -/
def defineParameters (scopes : ScopeHeap) (self : Nat) :
    List String → List Value → ScopeHeap
  | name :: names, arg :: args =>
    defineParameters (Scope.define scopes self name arg) self names args
  | _, _ => scopes

mutual
/-- The method `Interpreter::evaluate`, with the `visit` method of every expression node.
An error message that prints a value (the callee that is not a function) is kept
without that value. -/
def evaluate : Nat → Expr → Interpreter → Res Value
  | 0, _, _ => .outOfFuel
  | fuel + 1, node, st =>
    match node with
    | .numberLit value => .ok (.number value) st
    | .stringLit value => .ok (.string value.toList) st
    | .booleanLit value => .ok (.bool value) st
    | .nilLit => .ok .nil st
    | .identifier name => liftPure (Scope.get st.scopes st.m_current_scope name) st
    | .listLit elements =>
      (evaluateAll fuel elements st []).bind fun list_values st1 =>
        .ok (allocList st1.lists list_values).1
          { st1 with lists := (allocList st1.lists list_values).2 }
    | .functionLit parameters body =>
      .ok (.func st.functions.length)
        { st with functions := st.functions ++ [Function.user parameters body] }
    | .binaryOp op left right =>
      (evaluate fuel left st).bind fun l st1 =>
        if op = TokenType.tAnd then
          (liftPure l.asBool st1).bind fun lb st2 =>
            if !lb then .ok (.bool false) st2
            else (evaluate fuel right st2).bind fun r st3 =>
              (liftPure r.asBool st3).bind fun rb st4 => .ok (.bool rb) st4
        else if op = TokenType.tOr then
          (liftPure l.asBool st1).bind fun lb st2 =>
            if lb then .ok (.bool true) st2
            else (evaluate fuel right st2).bind fun r st3 =>
              (liftPure r.asBool st3).bind fun rb st4 => .ok (.bool rb) st4
        else
          (evaluate fuel right st1).bind fun r st2 =>
            liftOpt (applyBinaryOperator fuel op st2.lists l r) st2
    | .unaryOp op operand =>
      (evaluate fuel operand st).bind fun v st1 => liftPure (applyUnaryOperator op v) st1
    | .assignment expression_l assignmentOp expression_r =>
      (evaluate fuel expression_r st).bind fun rvalue st1 =>
        match expression_l with
        | .identifier name =>
          if assignmentOp = TokenType.tAssign then
            let r := Scope.assign st1.scopes st1.m_current_scope name rvalue
            if !r.1 then
              .ok rvalue
                { st1 with scopes := Scope.define st1.scopes st1.m_current_scope name rvalue }
            else .ok rvalue { st1 with scopes := r.2 }
          else
            (liftPure (Scope.get st1.scopes st1.m_current_scope name) st1).bind
              fun lvalue st2 =>
              match compoundOperator assignmentOp with
              | none => .throw (.runtimeError "AssignmentNode") st2
              | some type =>
                (liftOpt (applyBinaryOperator fuel type st2.lists lvalue rvalue) st2).bind
                  fun rvalue1 st3 =>
                  let r := Scope.assign st3.scopes st3.m_current_scope name rvalue1
                  .ok rvalue1 { st3 with scopes := r.2 }
        | .indexExpr object index =>
          (evaluate fuel object st1).bind fun object_val st2 =>
          (evaluate fuel index st2).bind fun index_val st3 =>
            match object_val with
            | .list p =>
              (liftPureOpt (assignIndexPosition (derefList st3.lists p).length index_val)
                st3).bind fun idx st4 =>
                if assignmentOp = TokenType.tAssign then
                  .ok rvalue { st4 with lists := storeElement st4.lists p idx rvalue }
                else
                  match compoundOperator assignmentOp with
                  | none => .throw (.runtimeError "AssignmentNode") st4
                  | some type =>
                    (liftOpt (applyBinaryOperator fuel type st4.lists
                      ((derefList st4.lists p).getD idx .nil) rvalue) st4).bind
                      fun rvalue1 st5 =>
                      .ok rvalue1 { st5 with lists := storeElement st5.lists p idx rvalue1 }
            | _ => .throw (.runtimeError (formatError "AssignmentNode" "list[index]")) st3
        | _ => .throw (.runtimeError (formatError "AssignmentNode" "list[index]")) st1
    | .functionCall callee arguments line =>
      if st.m_recursion_depth ≥ MAX_RECURSION_DEPTH then
        .throw (.runtimeError
          (formatError "Stack overflow" "Maximum recursion depth exceeded.")) st
      else
        (evaluate fuel callee st).bind fun callee_val st1 =>
          match callee_val with
          | .func f =>
            (evaluateAll fuel arguments st1 []).bind fun args st2 =>
            (callFunction fuel f args
              (pushCall { st2 with m_recursion_depth := st2.m_recursion_depth + 1 }
                (Frame.callFrame f line))).bind fun v st3 =>
              .ok v (popCall { st3 with m_recursion_depth := st3.m_recursion_depth - 1 })
          | _ => .throw (.runtimeError (formatError "FunctionCallNode" "is not a function")) st1
    | .indexExpr object index =>
      (evaluate fuel object st).bind fun object_val st1 =>
      (evaluate fuel index st1).bind fun index_val st2 =>
        liftPureOpt (indexValue st2.lists object_val index_val) st2
    | .sliceExpr object start stop =>
      (evaluate fuel object st).bind fun object_val st1 =>
        match object_val with
        | .list p =>
          let size : Int := (derefList st1.lists p).length
          (resolve_slice_index fuel start size 0 st1).bind fun s st2 =>
          (resolve_slice_index fuel stop size size st2).bind fun e st3 =>
            .ok (allocList st3.lists (sliceList (derefList st3.lists p) s e)).1
              { st3 with lists := (allocList st3.lists (sliceList (derefList st3.lists p) s e)).2 }
        | .string str =>
          let size : Int := str.length
          (resolve_slice_index fuel start size 0 st1).bind fun s st2 =>
          (resolve_slice_index fuel stop size size st2).bind fun e st3 =>
            .ok (.string (sliceList str s e)) st3
        | _ => .throw (.runtimeError (formatError "SliceExpressionNode"
            "slicing operator [:] can only be applied to lists and strings.")) st1
termination_by structural fuel => fuel
/-- The element loops of `visit(ListLiteralNode)` and of the argument list of
`visit(FunctionCallNode)`: evaluation from left to right. -/
def evaluateAll : Nat → List Expr → Interpreter → List Value →
    Res (List Value)
  | 0, _, _, _ => .outOfFuel
  | fuel + 1, nodes, st, acc =>
    match nodes with
    | [] => .ok acc st
    | node :: rest =>
      (evaluate fuel node st).bind fun v st1 => evaluateAll fuel rest st1 (acc ++ [v])
termination_by structural fuel => fuel
/-- The method `Interpreter::resolve_slice_index`. -/
def resolve_slice_index : Nat → Option Expr → Int → Int → Interpreter →
    Res Int
  | 0, _, _, _, _ => .outOfFuel
  | fuel + 1, expr_node, size, default_val, st =>
    match expr_node with
    | none => .ok default_val st
    | some node =>
      (evaluate fuel node st).bind fun val st1 =>
        liftPureOpt (resolveSliceValue val size) st1
termination_by structural fuel => fuel
/-- The call `(*callee.asFunction())(args)` of the function object `f`: for a closure,
the lambda of `visit(FunctionLiteralNode)`; for a function of the library, its lambda in
`stdlib.cpp`. -/
def callFunction : Nat → Nat → List Value → Interpreter → Res Value
  | 0, _, _, _ => .outOfFuel
  | fuel + 1, f, args, st =>
    match st.functions[f]? with
    | some (Function.user parameters body) =>
      if args.length ≠ parameters.length then
        .throw (.runtimeError (formatError "FunctionLiteralNode" "args size hz")) st
      else
        let new_scope := (newScope st st.m_current_scope).1
        let st1 := (newScope st st.m_current_scope).2
        let st2 := { st1 with scopes := defineParameters st1.scopes new_scope parameters args }
        let old_scope := st2.m_current_scope
        let st3 := { st2 with m_current_scope := new_scope }
        match executeBlock fuel body st3.m_current_scope st3 with
        | .ok _ st4 => .ok .nil { st4 with m_current_scope := old_scope }
        | .throw (.returnValue value) st4 => .ok value { st4 with m_current_scope := old_scope }
        | .throw sig st4 => .throw sig st4
        | .outOfFuel => .outOfFuel
        | .unsupported => .unsupported
    | some (Function.native name) => liftPureOpt (StandardLibrary.call fuel name args) st
    | none => .unsupported
termination_by structural fuel => fuel
/-- The method `Interpreter::visitAndExecute`, with the `visit` method of every statement
node. An error message that prints a value (the iterable of a for loop that is neither a
List nor a String) is kept without that value. -/
def execute : Nat → Stmt → Interpreter → Res Unit
  | 0, _, _ => .outOfFuel
  | fuel + 1, node, st =>
    match node with
    | .expressionStmt expression =>
      (evaluate fuel expression st).bind fun _ st1 => .ok () st1
    | .block statements => executeBlock fuel statements st.m_current_scope st
    | .ifStmt condition thenBranch elseBranch =>
      (evaluate fuel condition st).bind fun condition_val st1 =>
        let block_env := (newScope st1 st1.m_current_scope).1
        let st2 := (newScope st1 st1.m_current_scope).2
        (liftPure condition_val.asBool st2).bind fun c st3 =>
          if c then executeBlock fuel thenBranch block_env st3
          else
            match elseBranch with
            | none => .ok () st3
            | some (.block else_block) => executeBlock fuel else_block block_env st3
            | some else_stmt => execute fuel else_stmt st3
    | .whileStmt condition body line =>
      whileLoop fuel condition body st.m_current_scope
        (pushCall st (Frame.whileFrame line))
    | .forStmt loopVariable iterable body line =>
      (evaluate fuel iterable st).bind fun iterable_value st1 =>
        match iterable_value with
        | .list p =>
          forListLoop fuel loopVariable body p 0 (derefList st1.lists p).length
            (pushCall st1 (Frame.forFrame line))
        | .string str =>
          forStringLoop fuel loopVariable body str (pushCall st1 (Frame.forFrame line))
        | _ => .throw (.runtimeError (formatError "ForStatementNode"
            "for loop can only iterate over lists and strings.")) st1
    | .returnStmt returnValue =>
      match returnValue with
      | some e => (evaluate fuel e st).bind fun result st1 =>
          .throw (.returnValue result) st1
      | none => .throw (.returnValue .nil) st
    | .breakStmt => .throw .breakSignal st
    | .continueStmt => .throw .continueSignal st
termination_by structural fuel => fuel
/-- The statement loop of `visit(ProgramNode)` and of `executeBlock`. -/
def executeStatements : Nat → List Stmt → Interpreter → Res Unit
  | 0, _, _ => .outOfFuel
  | fuel + 1, nodes, st =>
    match nodes with
    | [] => .ok () st
    | node :: rest =>
      (execute fuel node st).bind fun _ st1 => executeStatements fuel rest st1
termination_by structural fuel => fuel
/-- The method `Interpreter::executeBlock`: the scope pointer is restored after the last
statement, and only then (a throw leaves it where it is). -/
def executeBlock : Nat → List Stmt → Nat → Interpreter → Res Unit
  | 0, _, _, _ => .outOfFuel
  | fuel + 1, statements, env_for_block, st =>
    let previous_env := st.m_current_scope
    (executeStatements fuel statements { st with m_current_scope := env_for_block }).bind
      fun _ st1 => .ok () { st1 with m_current_scope := previous_env }
termination_by structural fuel => fuel
/-- The loop of `visit(WhileStatementNode)`, entered after `pushCall`; `loop_env_outer` is
the scope that was current before the loop. -/
def whileLoop : Nat → Expr → List Stmt → Nat → Interpreter → Res Unit
  | 0, _, _, _, _ => .outOfFuel
  | fuel + 1, condition, body, loop_env_outer, st =>
    (evaluate fuel condition st).bind fun condition_val st1 =>
    (liftPure condition_val.asBool st1).bind fun c st2 =>
      if c then
        let loop_body_env := (newScope st2 loop_env_outer).1
        let st3 := { (newScope st2 loop_env_outer).2 with m_current_scope := loop_body_env }
        match executeBlock fuel body loop_body_env st3 with
        | .ok _ st4 => whileLoop fuel condition body loop_env_outer st4
        | .throw .breakSignal st4 =>
          .ok () (popCall { st4 with m_current_scope := loop_env_outer })
        | .throw .continueSignal st4 => whileLoop fuel condition body loop_env_outer st4
        | .throw sig st4 => .throw sig (popCall { st4 with m_current_scope := loop_env_outer })
        | .outOfFuel => .outOfFuel
        | .unsupported => .unsupported
      else .ok () (popCall { st2 with m_current_scope := loop_env_outer })
termination_by structural fuel => fuel
/-- The list loop of `visit(ForStatementNode)`, entered after `pushCall`: the elements at
the positions `i`, ..., `n - 1` of the list object `p`, read when their turn comes. -/
def forListLoop : Nat → String → List Stmt → Nat → Nat → Nat →
    Interpreter → Res Unit
  | 0, _, _, _, _, _, _ => .outOfFuel
  | fuel + 1, loopVariable, body, p, i, n, st =>
    if i < n then
      let body_env := (newScope st st.m_current_scope).1
      let st1 := (newScope st st.m_current_scope).2
      let element := (derefList st1.lists p).getD i .nil
      let st2 := { st1 with scopes := Scope.define st1.scopes body_env loopVariable element }
      match executeBlock fuel body body_env st2 with
      | .ok _ st3 => forListLoop fuel loopVariable body p (i + 1) n st3
      | .throw .continueSignal st3 => forListLoop fuel loopVariable body p (i + 1) n st3
      | .throw .breakSignal st3 => .ok () (popCall st3)
      | .throw sig st3 => .throw sig (popCall st3)
      | .outOfFuel => .outOfFuel
      | .unsupported => .unsupported
    else .ok () (popCall st)
termination_by structural fuel => fuel
/-- The string loop of `visit(ForStatementNode)`, entered after `pushCall`. -/
def forStringLoop : Nat → String → List Stmt → List Char →
    Interpreter → Res Unit
  | 0, _, _, _, _ => .outOfFuel
  | fuel + 1, loopVariable, body, str, st =>
    match str with
    | [] => .ok () (popCall st)
    | c :: rest =>
      let body_env := (newScope st st.m_current_scope).1
      let st1 := (newScope st st.m_current_scope).2
      let st2 := { st1 with scopes := Scope.define st1.scopes body_env loopVariable (.string [c]) }
      match executeBlock fuel body body_env st2 with
      | .ok _ st3 => forStringLoop fuel loopVariable body rest st3
      | .throw .continueSignal st3 => forStringLoop fuel loopVariable body rest st3
      | .throw .breakSignal st3 => .ok () (popCall st3)
      | .throw sig st3 => .throw sig (popCall st3)
      | .outOfFuel => .outOfFuel
      | .unsupported => .unsupported
termination_by structural fuel => fuel
end

/-- The names that the constructor `StandardLibrary` defines in the global scope, in the
order of `stdlib.cpp`. -/
def standardLibraryNames : List String :=
  ["abs", "ceil", "floor", "round", "sqrt", "rnd", "parse_num", "to_string", "len", "lower",
   "upper", "split", "join", "replace", "range", "push", "pop", "insert", "remove", "sort",
   "print", "println", "read", "stacktrace", "show_ast", "exit", "help"]

/-- The definitions of the constructor `StandardLibrary`: the name at position `i` is bound
to the function object `i` (the names are distinct, so no definition overwrites another). -/
def standardLibraryVariables : List String → Nat → List (String × Value)
  | [], _ => []
  | name :: rest, i => (name, .func i) :: standardLibraryVariables rest (i + 1)

/-- The state of a new `Interpreter` after `StandardLibrary std_lib(...)`: the global scope
holds the library, and it is the current scope. -/
def Interpreter.initial : Interpreter :=
  { scopes := [{ vars := standardLibraryVariables standardLibraryNames 0, outer_scope := none }],
    lists := [],
    functions := standardLibraryNames.map Function.native,
    m_current_scope := 0,
    m_recursion_depth := 0,
    call_stack_trace := [] }

/-- The constructor `Interpreter::Interpreter`: `visit(ProgramNode)` on a new interpreter. -/
def runProgram (fuel : Nat) (program : List Stmt) : Res Unit :=
  executeStatements fuel program Interpreter.initial

/-- The outcome of the pipeline of `interpret`: the parser failed, or the interpreter ran
on the parsed program with the given result. -/
inductive Outcome
  | syntaxError (tok : Token) (message : String)
  | parserOutOfFuel
  | ran (result : Res Unit)
  deriving Repr

/-- The pipeline of `interpret`: lexer, parser, then the interpreter on the program. -/
def interpretSource (fuel : Nat) (source : String) : Outcome :=
  match parseSource fuel source with
  | .ok program _ => .ran (runProgram fuel program)
  | .error tok message => .syntaxError tok message
  | .outOfFuel => .parserOutOfFuel

/-! ## Observations and reference definitions used by the theorems -/

/-- The signal of a result that is a throw. -/
def Res.thrown {α : Type} : Res α → Option Signal
  | .throw sig _ => some sig
  | _ => none

/-- The value of a result that is a normal completion. -/
def Res.value {α : Type} : Res α → Option α
  | .ok a _ => some a
  | _ => none

/-- The interpreter state of a result: after a normal completion, or at a throw. -/
def Res.state {α : Type} : Res α → Option Interpreter
  | .ok _ st => some st
  | .throw _ st => some st
  | _ => none

/-- The scope store of a result, the observable part of its state. -/
def Res.scopes {α : Type} (r : Res α) : Option ScopeHeap :=
  r.state.map fun st => st.scopes

/-- The result of the interpreter in an outcome of the pipeline, if the parser succeeded. -/
def Outcome.result : Outcome → Option (Res Unit)
  | .ran r => some r
  | _ => none

/-- The syntax error of an outcome of the pipeline, if the parser failed. -/
def Outcome.syntaxErrorAt : Outcome → Option (Token × String)
  | .syntaxError tok message => some (tok, message)
  | _ => none

/-- The product `n * r` as the specification words it, on the elements of `r`: nothing
when `n <= 0`; otherwise `floor(n)` copies of `r`, followed, when the fractional remainder
`f = n - floor(n)` is positive, by the first `ceil(|r| * f)` elements of `r`. -/
def multiplySpec {α : Type} (n : ℚ) (r : List α) : List α :=
  if n ≤ 0 then []
  else
    (List.replicate (⌊n⌋).toNat r).flatten ++
      (if n - ⌊n⌋ > 0 then r.take (⌈(r.length : ℚ) * (n - ⌊n⌋)⌉).toNat else [])

/-- The reserved words other than `if`, each with the token kind of its own. -/
def otherReservedWords : List (String × TokenType) :=
  [("else", TokenType.tElse), ("then", TokenType.tThen), ("while", TokenType.tWhile),
   ("for", TokenType.tFor), ("function", TokenType.tFunc), ("in", TokenType.tIn),
   ("return", TokenType.tReturn), ("nil", TokenType.tNil), ("true", TokenType.tTrue),
   ("false", TokenType.tFalse), ("and", TokenType.tAnd), ("or", TokenType.tOr),
   ("not", TokenType.tNot), ("break", TokenType.tBreak), ("continue", TokenType.tContinue),
   ("end if", TokenType.tEndIf), ("end while", TokenType.tEndWhile),
   ("end for", TokenType.tEndFor), ("end function", TokenType.tEndFunc)]

/-- The program of the scenario of the while loop, as source text. -/
def whileScenarioSource : String :=
  "x = 1\nwhile x < 4\n  x = x + 1\nend while\nreturn x"

/-- The body `if n <= 1 then return 1 else return n * fact(n - 1) end if` of the factorial
function, as the statement list of its `BlockNode`. -/
def factBody : List Stmt :=
  [Stmt.ifStmt (Expr.binaryOp TokenType.tLessOrEqual (Expr.identifier "n") (Expr.numberLit 1))
    [Stmt.returnStmt (some (Expr.numberLit 1))]
    (some (Stmt.block [Stmt.returnStmt (some
      (Expr.binaryOp TokenType.tMultiply (Expr.identifier "n")
        (Expr.functionCall (Expr.identifier "fact")
          [Expr.binaryOp TokenType.tMinus (Expr.identifier "n") (Expr.numberLit 1)] 1)))]))]

/-- The program `fact = function(n) ... end function`, as the statement list of its
`ProgramNode`. -/
def factProgram : List Stmt :=
  [Stmt.expressionStmt
    (Expr.assignment (Expr.identifier "fact") TokenType.tAssign (Expr.functionLit ["n"] factBody))]

/-- The value of the call expression `fact(n)` evaluated at top level after `factProgram`
has run, with `fuel` for each of the two steps. -/
def factCall (fuel : Nat) (n : ℚ) : Option Value :=
  match runProgram fuel factProgram with
  | .ok _ st =>
    (evaluate fuel (Expr.functionCall (Expr.identifier "fact") [Expr.numberLit n] 2) st).value
  | _ => none

/-- The read `xs[i]` as the specification words it, on the elements of `xs`: the element
at position `i` when `0 <= i < n`, the element at position `i + n` when `-n <= i < 0`, and
nothing (`none`, which stands for Nil) for every other `i`. -/
def indexSpec {α : Type} (xs : List α) (i : Int) : Option α :=
  if 0 ≤ i ∧ i < xs.length then xs[i.toNat]?
  else if -(xs.length : Int) ≤ i ∧ i < 0 then xs[(i + xs.length).toNat]?
  else none

/-- The position that an index `i` denotes in a list of `n` elements: `i` itself, or
`i + n` for a negative `i`. -/
def indexPosition (n : Nat) (i : Int) : Nat :=
  (if i < 0 then i + n else i).toNat

/-- A slice bound as the specification resolves it on a sequence of `n` elements: the
default when the bound is omitted; otherwise `n` is added to a negative bound and the
result is clamped into `[0, n]`. -/
def resolveBoundSpec (n : Nat) (default : Int) : Option Int → Int
  | none => default
  | some a => max 0 (min (if a < 0 then a + n else a) n)

/-- The slice `xs[a:b]` as the specification words it: the elements at the positions from
the resolved start (inclusive) to the resolved end (exclusive), in order; nothing when
the resolved start is not below the resolved end. -/
def sliceSpec {α : Type} (xs : List α) (a b : Option Int) : List α :=
  if resolveBoundSpec xs.length 0 a ≥ resolveBoundSpec xs.length xs.length b then []
  else (List.range ((resolveBoundSpec xs.length xs.length b).toNat
      - (resolveBoundSpec xs.length 0 a).toNat)).filterMap
        fun j => xs[(resolveBoundSpec xs.length 0 a).toNat + j]?

/-- The syntax of an optional integral slice bound: a number literal, or nothing. -/
def boundExpr (a : Option Int) : Option Expr :=
  a.map fun x => Expr.numberLit (x : ℚ)

/-- The parent chain of the scope object `self`, innermost first, at most `fuel` scopes. -/
def Scope.chainAux : Nat → ScopeHeap → Nat → List Nat
  | 0, _, _ => []
  | fuel + 1, scopes, self =>
    match scopes[self]? with
    | none => []
    | some sc =>
      self :: (match sc.outer_scope with
        | some outer => Scope.chainAux fuel scopes outer
        | none => [])

/-- The parent chain of the scope object `self`: the scope, its parent, and so on. -/
def Scope.chain (scopes : ScopeHeap) (self : Nat) : List Nat :=
  Scope.chainAux scopes.length scopes self

/-- The nearest scope of the parent chain of `self` that binds `name`. -/
def Scope.nearest (scopes : ScopeHeap) (self : Nat) (name : String) : Option Nat :=
  (Scope.chain scopes self).find? fun s => Scope.isDefinedLocally scopes s name

/-- The binding of `name` in the scope object `t` itself. -/
def Scope.lookupLocal (scopes : ScopeHeap) (t : Nat) (name : String) : Option Value :=
  scopes[t]?.bind fun sc => sc.vars.lookup name

/-- The parent of the scope object `t`. -/
def Scope.parent (scopes : ScopeHeap) (t : Nat) : Option Nat :=
  scopes[t]?.bind fun sc => sc.outer_scope

/-- A scope store is well formed when every parent link points to an older scope object,
as in every store built by the constructor `Scope(outer)`. -/
def ScopeHeap.WellFormed (scopes : ScopeHeap) : Prop :=
  ∀ t outer, Scope.parent scopes t = some outer → outer < t

/-- The interpreter state `st` with the scope store replaced. -/
def Interpreter.withScopes (st : Interpreter) (scopes : ScopeHeap) : Interpreter :=
  { st with scopes := scopes }

/-- A scope store with a global scope that binds `x` to 1 and `y` to 2, a child scope that
binds `x` to 3, and an empty grandchild scope. -/
def sampleScopes : ScopeHeap :=
  [{ vars := [("x", .number 1), ("y", .number 2)], outer_scope := none },
   { vars := [("x", .number 3)], outer_scope := some 0 },
   { vars := [], outer_scope := some 1 }]

/-- An interpreter state over `sampleScopes` whose current scope is the grandchild. -/
def sampleState : Interpreter :=
  { Interpreter.initial with scopes := sampleScopes, m_current_scope := 2 }

/-! ## Definitions for calls, loops, equality and precedence -/

/-- The scope store at the start of the body of a user function called in the state `st`:
a new scope object whose parent is the scope current at the call, with the parameters
bound to the arguments. -/
def callEntryScopes (st : Interpreter) (parameters : List String) (args : List Value) :
    ScopeHeap :=
  defineParameters (st.scopes ++ [{ vars := [], outer_scope := some st.m_current_scope }])
    st.scopes.length parameters args

/-- The state at the start of the body of a user function called in the state `st`: the
new scope object is the current scope. -/
def callEntry (st : Interpreter) (parameters : List String) (args : List Value) :
    Interpreter :=
  { st with scopes := callEntryScopes st parameters args, m_current_scope := st.scopes.length }

/-- The result of a call whose body has run with the result `r`, for a caller whose current
scope is `old_scope`: a `ReturnValue` is caught and becomes the value, a normal end of the
body gives Nil, every other throw passes through. -/
def callResult (old_scope : Nat) : Res Unit → Res Value
  | .ok _ st4 => .ok .nil { st4 with m_current_scope := old_scope }
  | .throw (.returnValue value) st4 => .ok value { st4 with m_current_scope := old_scope }
  | .throw sig st4 => .throw sig st4
  | .outOfFuel => .outOfFuel
  | .unsupported => .unsupported

/-- The scope store with one more scope object: a new, empty child of `outer`. -/
def withChildScope (scopes : ScopeHeap) (outer : Nat) : ScopeHeap :=
  scopes ++ [{ vars := [], outer_scope := some outer }]

/-- The state in which `visit(IfStatementNode)` runs a branch by `executeBlock`: the scope
`block_env`, a new child of the current scope, is the last scope object of the store. -/
def ifEntry (st : Interpreter) : Interpreter :=
  { st with scopes := withChildScope st.scopes st.m_current_scope }

/-- The state in which an iteration of a while loop runs its body: the scope
`loop_body_env`, a new child of `loop_env_outer`, is the current scope. -/
def whileEntry (st : Interpreter) (loop_env_outer : Nat) : Interpreter :=
  { st with scopes := withChildScope st.scopes loop_env_outer, m_current_scope := st.scopes.length }

/-- The scope store in which an iteration of a for loop runs its body: the scope
`body_env`, a new child of the current scope, binds the loop variable to the element. -/
def forEntryScopes (st : Interpreter) (loopVariable : String) (element : Value) : ScopeHeap :=
  Scope.define (withChildScope st.scopes st.m_current_scope) st.scopes.length loopVariable element

/-- The state in which an iteration of a for loop runs its body by `executeBlock`. -/
def forEntry (st : Interpreter) (loopVariable : String) (element : Value) : Interpreter :=
  { st with scopes := forEntryScopes st loopVariable element }

/-- The source text of the first scenario of dynamic scope. -/
def dynamicScopeSource : String :=
  "g = function() return y end function\nf = function() y = 2 return g() end function\nr = f()"

/-- The source text of the second scenario of dynamic scope. -/
def blockFunctionSource : String :=
  "h = nil\nz = 7\nfor z in [5]\n h = function() return z end function\nend for\nr = h()"

/-- The values bound in the global scope to the given names in the last state of a run
(`none` for a name without a binding). -/
def Res.globals {α : Type} (r : Res α) (names : List String) : Option (List (Option Value)) :=
  r.state.map fun st => names.map fun n => Scope.lookupLocal st.scopes 0 n

/-- The values bound in the global scope to the given names in the last state of a run of
the pipeline. -/
def Outcome.globals (o : Outcome) (names : List String) : Option (List (Option Value)) :=
  o.result.bind fun r => r.globals names

/-- A state with one function object, the closure of `function(a) return a end function`. -/
def sampleCallState : Interpreter :=
  { Interpreter.initial with
    functions := [Function.user ["a"] [Stmt.returnStmt (some (Expr.identifier "a"))]] }

/-- The source text of the scenario of `return` inside loops. -/
def returnInLoopsSource : String :=
  "flag = 0\nf = function(xs) for x in xs while true return x flag = 1 end while flag = 2 end for flag = 3 end function\nr = f([7, 8])\ng = function() return end function\nu = g()\nk = function() done = 5 end function\nw = k()"

/-- The program of the scenario of `return` inside if statements: the function
`function(a) if false then else if true then if true then return a end if flag = 1
else return 0 end if  flag = 2  return 9 end function` is bound to `f`, and then
`r = f(7)` is executed. -/
def returnInIfProgram : List Stmt :=
  [.expressionStmt (.assignment (.identifier "flag") .tAssign (.numberLit 0)),
   .expressionStmt (.assignment (.identifier "f") .tAssign (.functionLit ["a"]
     [.ifStmt (.booleanLit false) [] (some (.ifStmt (.booleanLit true)
        [.ifStmt (.booleanLit true) [.returnStmt (some (.identifier "a"))] none,
         .expressionStmt (.assignment (.identifier "flag") .tAssign (.numberLit 1))]
        (some (.block [.returnStmt (some (.numberLit 0))])))),
      .expressionStmt (.assignment (.identifier "flag") .tAssign (.numberLit 2)),
      .returnStmt (some (.numberLit 9))])),
   .expressionStmt (.assignment (.identifier "r") .tAssign
     (.functionCall (.identifier "f") [.numberLit 7] 1))]

/-- The program of the scenario of `break`: with `c`, `i`, `n` and `after` set to 0, the loop
`while (c = c + 1) > 0  i = i + 1  if i == 3 then break end if  n = n + 1  end while`
and then `after = 1`. The variable `c` counts the evaluations of the condition, `i` the
iterations begun, and `n` the iterations that reached the statement after the if. -/
def breakProgram : List Stmt :=
  [.expressionStmt (.assignment (.identifier "c") .tAssign (.numberLit 0)),
   .expressionStmt (.assignment (.identifier "i") .tAssign (.numberLit 0)),
   .expressionStmt (.assignment (.identifier "n") .tAssign (.numberLit 0)),
   .expressionStmt (.assignment (.identifier "after") .tAssign (.numberLit 0)),
   .whileStmt (.binaryOp .tGreater
       (.assignment (.identifier "c") .tAssign
         (.binaryOp .tPlus (.identifier "c") (.numberLit 1)))
       (.numberLit 0))
     [.expressionStmt (.assignment (.identifier "i") .tAssign
        (.binaryOp .tPlus (.identifier "i") (.numberLit 1))),
      .ifStmt (.binaryOp .tEqual (.identifier "i") (.numberLit 3)) [.breakStmt] none,
      .expressionStmt (.assignment (.identifier "n") .tAssign
        (.binaryOp .tPlus (.identifier "n") (.numberLit 1)))] 5,
   .expressionStmt (.assignment (.identifier "after") .tAssign (.numberLit 1))]

/-- The body `if b then break end if  b = true` of a loop that breaks in its second
iteration when it starts with `b` false. -/
def breakBody : List Stmt :=
  [.ifStmt (.identifier "b") [.breakStmt] none,
   .expressionStmt (.assignment (.identifier "b") .tAssign (.booleanLit true))]

/-- The state of a new interpreter in which the global `b` is false. -/
def breakStart : Interpreter :=
  Interpreter.withScopes Interpreter.initial
    (Scope.define Interpreter.initial.scopes 0 "b" (.bool false))

/-- The state in which a result was produced (the state of a new interpreter when it has
none). -/
def Res.stateD {α : Type} (r : Res α) : Interpreter :=
  r.state.getD Interpreter.initial

/-- The states of the loop `while true` over `breakBody` from `breakStart`: the state
before the iteration `j + 1` is the state in which the iteration `j` ended. -/
def breakStates : Nat → Interpreter
  | 0 => breakStart
  | j + 1 =>
    (executeBlock 7 breakBody (breakStates j).scopes.length (whileEntry (breakStates j) 0)).stateD

/-- The source text of the scenario of a for loop over a List: `t` collects the values of
the loop variable in order, `k` counts the executions of the body. -/
def forListSource : String :=
  "t = 0\nk = 0\nfor x in [1, 2, 3]\n t = t * 10 + x\n k = k + 1\nend for"

/-- The source text of the scenario of a for loop over a String: `t` collects the values
of the loop variable, last first. -/
def forStringSource : String :=
  "t = \"\"\nk = 0\nfor ch in \"abc\"\n t = ch + t\n k = k + 1\nend for"

/-- The source text of the scenario of a for loop over a Number. -/
def forNumberSource : String :=
  "k = 0\nfor x in 5\n k = k + 1\nend for"

/-- The body `t = t + x` of a for loop. -/
def sumBody : List Stmt :=
  [.expressionStmt (.assignment (.identifier "t") .tAssign
    (.binaryOp .tPlus (.identifier "t") (.identifier "x")))]

/-- The state of a new interpreter in which the global `t` is 0 and the list object 0 is
`[1, 2]`. -/
def sumStart : Interpreter :=
  { Interpreter.initial with
    scopes := Scope.define Interpreter.initial.scopes 0 "t" (.number 0)
    lists := [[.number 1, .number 2]] }

/-- The states of the loop `for x in [1, 2]` (line 1) over `sumBody` from `sumStart`: the
state before the iteration `j + 1` is the state in which the iteration `j` ended. -/
def sumStates : Nat → Interpreter
  | 0 => pushCall sumStart (Frame.forFrame 1)
  | j + 1 =>
    (executeBlock 7 sumBody (sumStates j).scopes.length
      (forEntry (sumStates j) "x" ((derefList (sumStates j).lists 0).getD j .nil))).stateD

/-- The source text of a loop that calls, again and again, a function whose body is
`continue`: no call is ever made while another call is active. -/
def leakSource : String :=
  "while true\n function() continue end function()\nend while"

/-- The body of the loop of `leakSource`. -/
def leakBody : List Stmt :=
  [.expressionStmt (.functionCall (.functionLit [] [.continueStmt]) [] 2)]

/-- The program of `leakSource`. -/
def leakProgram : List Stmt :=
  [.whileStmt (.booleanLit true) leakBody 1]

/-- The source text of a loop that makes three such calls and ends. -/
def leakThreeSource : String :=
  "i = 0\nwhile i < 3\n i = i + 1\n function() continue end function()\nend while"

/-- The fatal error of the recursion guard of `visit(FunctionCallNode)`. -/
def stackOverflow : Signal :=
  .runtimeError (formatError "Stack overflow" "Maximum recursion depth exceeded.")

/-- The values whose lists nest at most `d` deep in the store `h`: a value that is not a
List, or a List whose elements nest at most `d - 1` deep. A list that contains itself,
directly or through its elements, nests to no depth. -/
def Value.depthWithin (h : ListHeap) : Nat → Value → Bool
  | 0, .list _ => false
  | d + 1, .list p => (derefList h p).all (Value.depthWithin h d)
  | _, _ => true

/-- The equality of the specification, on values that nest at most `d` deep: values of
the same kind that are equal Numbers, equal Strings, equal Bools, both Nil, Lists of the
same length whose elements are pairwise equal, or the same function object. -/
def equalSpec (h : ListHeap) : Nat → Value → Value → Bool
  | _, .number a, .number b => decide (a = b)
  | _, .string a, .string b => decide (a = b)
  | _, .bool a, .bool b => decide (a = b)
  | _, .nil, .nil => true
  | d + 1, .list p, .list q =>
    decide ((derefList h p).length = (derefList h q).length)
      && ((derefList h p).zip (derefList h q)).all fun xy => equalSpec h d xy.1 xy.2
  | _, .func a, .func b => decide (a = b)
  | _, _, _ => false

/-- The length of the longest list object of the store. -/
def maxLength (h : ListHeap) : Nat :=
  (h.map List.length).foldr max 0

/-- The source text that makes the list object 0 its own element. -/
def cyclicSource : String :=
  "L = [0]\nL[0] = L"

/-- The store after `cyclicSource`: the list object 0 has one element, itself. -/
def cyclicLists : ListHeap :=
  [[.list 0]]

/-- A store with two list objects that contain themselves and have different lengths:
`A = [A]` (0) and `B = [B, 0]` (1). -/
def cyclicPairLists : ListHeap :=
  [[.list 0], [.list 1, .number 0]]

/-- A store with the list objects `[1, [2]]` (0, with the inner list 1) and `[1, [2]]`
(2, with the inner list 3). -/
def nestedLists : ListHeap :=
  [[.number 1, .list 1], [.number 2], [.number 1, .list 3], [.number 2]]

mutual
/-- Equality of expression trees, as a Bool. -/
def Expr.beq : Expr → Expr → Bool
  | .numberLit a, e => match e with
    | .numberLit b => decide (a = b)
    | _ => false
  | .stringLit a, e => match e with
    | .stringLit b => decide (a = b)
    | _ => false
  | .booleanLit a, e => match e with
    | .booleanLit b => decide (a = b)
    | _ => false
  | .nilLit, e => match e with
    | .nilLit => true
    | _ => false
  | .identifier a, e => match e with
    | .identifier b => decide (a = b)
    | _ => false
  | .listLit a, e => match e with
    | .listLit b => Expr.beqList a b
    | _ => false
  | .functionLit p a, e => match e with
    | .functionLit q b => decide (p = q) && Stmt.beqList a b
    | _ => false
  | .binaryOp o a1 a2, e => match e with
    | .binaryOp o1 b1 b2 => decide (o = o1) && (Expr.beq a1 b1 && Expr.beq a2 b2)
    | _ => false
  | .unaryOp o a, e => match e with
    | .unaryOp o1 b => decide (o = o1) && Expr.beq a b
    | _ => false
  | .assignment a1 o a2, e => match e with
    | .assignment b1 o1 b2 => decide (o = o1) && (Expr.beq a1 b1 && Expr.beq a2 b2)
    | _ => false
  | .functionCall a as l, e => match e with
    | .functionCall b bs l1 => decide (l = l1) && (Expr.beq a b && Expr.beqList as bs)
    | _ => false
  | .indexExpr a1 a2, e => match e with
    | .indexExpr b1 b2 => Expr.beq a1 b1 && Expr.beq a2 b2
    | _ => false
  | .sliceExpr a a1 a2, e => match e with
    | .sliceExpr b b1 b2 => Expr.beq a b && (Expr.beqOption a1 b1 && Expr.beqOption a2 b2)
    | _ => false
termination_by structural a => a
/-- Equality of lists of expression trees. -/
def Expr.beqList : List Expr → List Expr → Bool
  | [], es => es.isEmpty
  | a :: as, es => match es with
    | b :: bs => Expr.beq a b && Expr.beqList as bs
    | [] => false
termination_by structural a => a
/-- Equality of optional expression trees. -/
def Expr.beqOption : Option Expr → Option Expr → Bool
  | none, e => e.isNone
  | some a, e => match e with
    | some b => Expr.beq a b
    | none => false
termination_by structural a => a
/-- Equality of statement trees, as a Bool. -/
def Stmt.beq : Stmt → Stmt → Bool
  | .expressionStmt a, s => match s with
    | .expressionStmt b => Expr.beq a b
    | _ => false
  | .block a, s => match s with
    | .block b => Stmt.beqList a b
    | _ => false
  | .ifStmt c a e, s => match s with
    | .ifStmt c1 b e1 => Expr.beq c c1 && (Stmt.beqList a b && Stmt.beqOption e e1)
    | _ => false
  | .whileStmt c a l, s => match s with
    | .whileStmt c1 b l1 => decide (l = l1) && (Expr.beq c c1 && Stmt.beqList a b)
    | _ => false
  | .forStmt v i a l, s => match s with
    | .forStmt v1 i1 b l1 =>
      decide (v = v1) && (decide (l = l1) && (Expr.beq i i1 && Stmt.beqList a b))
    | _ => false
  | .returnStmt a, s => match s with
    | .returnStmt b => Expr.beqOption a b
    | _ => false
  | .breakStmt, s => match s with
    | .breakStmt => true
    | _ => false
  | .continueStmt, s => match s with
    | .continueStmt => true
    | _ => false
termination_by structural a => a
/-- Equality of lists of statement trees. -/
def Stmt.beqList : List Stmt → List Stmt → Bool
  | [], ss => ss.isEmpty
  | a :: as, ss => match ss with
    | b :: bs => Stmt.beq a b && Stmt.beqList as bs
    | [] => false
termination_by structural a => a
/-- Equality of optional statement trees. -/
def Stmt.beqOption : Option Stmt → Option Stmt → Bool
  | none, s => s.isNone
  | some a, s => match s with
    | some b => Stmt.beq a b
    | none => false
termination_by structural a => a
end

/-- The program that the parser builds from a source text, when it builds one. -/
def parsedProgram (fuel : Nat) (source : String) : Option (List Stmt) :=
  match parseSource fuel source with
  | .ok program _ => some program
  | _ => none

/-- The test that the parser builds the program `expected` from a source text. -/
def parsesTo (fuel : Nat) (source : String) (expected : List Stmt) : Bool :=
  match parsedProgram fuel source with
  | some program => Stmt.beqList program expected
  | none => false

/-- The binary operator tokens with a precedence, each with its spelling, in the order of
`Parser::getOperatorPrecedence`. -/
def binaryOperators : List (TokenType × String) :=
  [(.tAssign, "="), (.tPlusAssign, "+="), (.tMinusAssign, "-="), (.tMultiplyAssign, "*="),
   (.tDivideAssign, "/="), (.tModuleAssign, "%="), (.tPowerAssign, "^="),
   (.tOr, "or"), (.tAnd, "and"), (.tEqual, "=="), (.tNotEqual, "!="),
   (.tLess, "<"), (.tGreater, ">"), (.tLessOrEqual, "<="), (.tGreaterOrEqual, ">="),
   (.tPlus, "+"), (.tMinus, "-"), (.tMultiply, "*"), (.tDivide, "/"), (.tModule, "%"),
   (.tPower, "^")]

/-- The node that `Parser::parseExpression` builds for the operator `op`: an
`AssignmentNode` for an assignment operator, a `BinaryOpNode` otherwise. -/
def operatorNode (op : TokenType) (left right : Expr) : Expr :=
  if isAssignRange op then .assignment left op right else .binaryOp op left right

/-- The source text `a p b q c` for the operator spellings `p` and `q`. -/
def threeOperands (p q : String) : String :=
  "a " ++ p ++ " b " ++ q ++ " c"

/-- The tree `p(a, q(b, c))`: the second operator binds first. -/
def groupedRight (p q : TokenType) : List Stmt :=
  [.expressionStmt (operatorNode p (.identifier "a")
    (operatorNode q (.identifier "b") (.identifier "c")))]

/-- The tree `q(p(a, b), c)`: the first operator binds first. -/
def groupedLeft (p q : TokenType) : List Stmt :=
  [.expressionStmt (operatorNode q (operatorNode p (.identifier "a") (.identifier "b"))
    (.identifier "c"))]

/-- The test of the precedence table on the pair of operators `p` and `q`, on the source
`a p b q c`: when `q` is in a higher tier the tree is `p(a, q(b, c))`, when `q` is in a
lower tier it is `q(p(a, b), c)`, and in the same tier it is `p(a, q(b, c))` for the
tiers 1 (assignment) and 8 (power) and `q(p(a, b), c)` for the others. -/
def precedenceTest (p q : TokenType × String) : Bool :=
  let tp := getOperatorPrecedence p.1
  let tq := getOperatorPrecedence q.1
  parsesTo 40 (threeOperands p.2 q.2)
    (if tp < tq ∨ (tp = tq ∧ (tp = 1 ∨ tp = 8)) then groupedRight p.1 q.1
      else groupedLeft p.1 q.1)

/-! ## Task scheduler (`src/TaskScheduler/lib/scheduler.h`)

The scheduler keeps its tasks in the order of the calls of `add`; the id of a task is its
index. Of a task the model keeps what `hasCycle` and `executeAll` depend on: the ids of
the `Future` arguments of the bound call and the flag that says whether the task has been
executed. The function of a task and its plain arguments are left out, and the function
is taken to return. -/

/-- The object `Task<R, Bound>`: `futures` are the ids of the `Future` arguments kept in
the tuple of `bound`, in the order of the arguments, and `have_result` is the flag set by
`Task::execute` (called `executed` in `Task<void, Bound>`). -/
structure Task where
  futures : List Nat
  have_result : Bool
  deriving DecidableEq, Repr

/-- The class `TTaskScheduler`: the tasks and, for every task, the ids it depends on. -/
structure TTaskScheduler where
  tasks_ : List Task
  deps_ : List (List Nat)
  deriving DecidableEq, Repr

/-- A scheduler without tasks, as the default constructor leaves it. -/
def TTaskScheduler.empty : TTaskScheduler :=
  { tasks_ := [], deps_ := [] }

/-- The method `add(func, args...)`, for a call whose `Future` arguments have the ids
`futures`: the new task is pushed to `tasks_`, the ids found by `extractDeps` are pushed
to `deps_`, and the id of the new task is returned. -/
def TTaskScheduler.add (s : TTaskScheduler) (futures : List Nat) : Nat × TTaskScheduler :=
  (s.tasks_.length,
   { tasks_ := s.tasks_ ++ [{ futures := futures, have_result := false }],
     deps_ := s.deps_ ++ [futures] })

/-- The scheduler after the calls of `add` with the given `Future` ids, one call for each
element of the list, in order. -/
def TTaskScheduler.ofAdds (adds : List (List Nat)) : TTaskScheduler :=
  adds.foldl (fun s futures => (s.add futures).2) TTaskScheduler.empty

/-- The inner loop `for (auto v : deps_[u])` of the first part of `hasCycle`, on the rest
of the row `deps_[u]`; the state is the pair of `inDeg` and `adj`. The result `none`
stands for the `return true` at an id `v >= n`. The counters of `inDeg` have the type
`int`; a counter is at most the number of arguments of one call of `add`, so it is
modelled by an integer without a bound. -/
def TTaskScheduler.buildRow (n u : Nat) :
    List Nat → List Int × List (List Nat) → Option (List Int × List (List Nat))
  | [], g => some g
  | v :: row, g =>
    if v ≥ n then none
    else TTaskScheduler.buildRow n u row
      (g.1.set u (g.1.getD u 0 + 1), g.2.set v (g.2.getD v [] ++ [u]))

/-- The outer loop `for (size_t u = 0; u < n; ++u)` of the first part of `hasCycle`, on the
rows `deps_[u], deps_[u + 1], ...`. -/
def TTaskScheduler.buildGraph (n : Nat) :
    Nat → List (List Nat) → List Int × List (List Nat) → Option (List Int × List (List Nat))
  | _, [], g => some g
  | u, row :: rows, g =>
    (TTaskScheduler.buildRow n u row g).bind (TTaskScheduler.buildGraph n (u + 1) rows)

/-- The loop `for (auto v : adj[u])` in the body of the while loop of `hasCycle`, on the
rest of `adj[u]`; the state is the pair of `inDeg` and the queue. -/
def TTaskScheduler.relax : List Nat → List Int × List Nat → List Int × List Nat
  | [], s => s
  | v :: rest, s =>
    TTaskScheduler.relax rest
      (s.1.set v (s.1.getD v 0 - 1), if s.1.getD v 0 - 1 = 0 then s.2 ++ [v] else s.2)

/-- The loop `while (!q.empty())` of `hasCycle`, with the queue as a list whose head is the
front; the result is the last value of `cnt`, and `none` when the fuel has run out. -/
def TTaskScheduler.countLoop (adj : List (List Nat)) :
    Nat → List Nat → List Int → Nat → Option Nat
  | 0, _, _, _ => none
  | _ + 1, [], _, cnt => some cnt
  | fuel + 1, u :: q, inDeg, cnt =>
    TTaskScheduler.countLoop adj fuel (TTaskScheduler.relax (adj.getD u []) (inDeg, q)).2
      (TTaskScheduler.relax (adj.getD u []) (inDeg, q)).1 (cnt + 1)

/-- The method `hasCycle()`; the fuel bounds the iterations of the while loop, and the
result is `none` when it has run out. -/
def TTaskScheduler.hasCycle (fuel : Nat) (s : TTaskScheduler) : Option Bool :=
  match TTaskScheduler.buildGraph s.deps_.length 0 s.deps_
      (List.replicate s.deps_.length 0, List.replicate s.deps_.length []) with
  | none => some true
  | some g =>
    (TTaskScheduler.countLoop g.2 fuel
      ((List.range s.deps_.length).filter fun i => g.1.getD i 0 = 0) g.1 0).map
      fun cnt => cnt != s.deps_.length

/-- A loop that applies `f` to the ids of a list in order and stops at the first call
without a result. -/
def TTaskScheduler.forEachId (f : Nat → TTaskScheduler → Option TTaskScheduler) :
    List Nat → TTaskScheduler → Option TTaskScheduler
  | [], s => some s
  | id :: rest, s => (f id s).bind (TTaskScheduler.forEachId f rest)

/-- The call `tasks_[id]->execute()`: `Task::execute`. A task that has its result is left
as it is. Otherwise `bound()` fetches every `Future` argument with `getResult`, which
executes the task of that id first, from the first argument to the last, and then the flag
of the task is set. The result is `none` when `id` is not an index of `tasks_` or when the
fuel, which bounds the depth of the calls, has run out. -/
def TTaskScheduler.execute : Nat → Nat → TTaskScheduler → Option TTaskScheduler
  | 0, _, _ => none
  | fuel + 1, id, s =>
    match s.tasks_[id]? with
    | none => none
    | some task =>
      if task.have_result then some s
      else
        (TTaskScheduler.forEachId (TTaskScheduler.execute fuel) task.futures s).map fun s1 =>
          { s1 with tasks_ := s1.tasks_.set id { task with have_result := true } }

/-- The ways in which `executeAll` ends. -/
inductive ExecuteAllResult
  | thrown (message : String)
  | finished (s : TTaskScheduler)
  deriving DecidableEq, Repr

/-- The method `executeAll()`; the result is `none` when the fuel has run out. -/
def TTaskScheduler.executeAll (fuel : Nat) (s : TTaskScheduler) : Option ExecuteAllResult :=
  match TTaskScheduler.hasCycle fuel s with
  | none => none
  | some true => some (.thrown "Cycle detected in task dependencies")
  | some false =>
    (TTaskScheduler.forEachId (TTaskScheduler.execute fuel) (List.range s.tasks_.length) s).map
      .finished

/-! ## Reference definitions for the lexer, the parser, the library and the scheduler -/

/-- The replacement of the specification, at most `n` steps over the text `s`: at an
occurrence of `old` the replacement `new` is written and the scan goes on after the
occurrence; elsewhere one character is copied. -/
def replaceSpecAux (old new : List Char) : Nat → List Char → List Char
  | 0, s => s
  | _ + 1, [] => []
  | n + 1, c :: s =>
    if old.isPrefixOf (c :: s) then new ++ replaceSpecAux old new n ((c :: s).drop old.length)
    else c :: replaceSpecAux old new n s

/-- The text `s` with every occurrence of the non-empty `old`, found scanning from left to
right and not overlapping an earlier one, replaced by `new`. -/
def replaceSpec (old new s : List Char) : List Char :=
  replaceSpecAux old new s.length s

/-- The lexer state `b` is the lexer state `a` with the cursor at the same place or further
on in the same source text. -/
def Lexer.Le (a b : Lexer) : Prop :=
  a.lexer_source = b.lexer_source ∧ a.lexer_current_pos ≤ b.lexer_current_pos

/-- The token ends the loop of `getAllTokens`: end of input, or a lexical error. -/
def Token.isTerminal (tok : Token) : Bool :=
  tok.type == TokenType.tEOF || tok.type == TokenType.tERROR

/-- The character that a backslash followed by `c` stands for in a string literal. -/
def decodeEscape (c : Char) : Char :=
  if c = quoteChar then quoteChar
  else if c = backslashChar then backslashChar
  else if c = 'n' then newlineChar
  else if c = 't' then Char.ofNat 9
  else c

/-- The body of a string literal decoded from left to right: a backslash and the character
after it give `decodeEscape` of that character, every other character is copied. -/
def decodeBody : List Char → List Char
  | [] => []
  | [c] => [c]
  | c :: d :: rest =>
    if c = backslashChar then decodeEscape d :: decodeBody rest
    else c :: decodeBody (d :: rest)

/-- The texts that are the body of a string literal whose closing quote the lexer finds:
read from left to right, a backslash is followed by a character, and a character that is
not taken by a backslash is no double quote and no newline. -/
def isLiteralBody : List Char → Bool
  | [] => true
  | [c] => c ≠ backslashChar && c ≠ quoteChar && c ≠ newlineChar
  | c :: d :: rest =>
    if c = backslashChar then isLiteralBody rest
    else c ≠ quoteChar && c ≠ newlineChar && isLiteralBody (d :: rest)

/-- The lexer state has read `before` and has `after` ahead. -/
def Lexer.At (lx : Lexer) (before after : List Char) : Prop :=
  lx.lexer_source = before ++ after ∧ lx.lexer_current_pos = before.length

/-- The lexer state `lx` with the cursor at `pos`. -/
def Lexer.withPos (lx : Lexer) (pos : Nat) : Lexer :=
  { lx with lexer_current_pos := pos }

/-- The number of tokens that a token supply can still give before it is at its end: the
characters left for a lexer, the tokens left for a stream. -/
def TokenSource.size : TokenSource → Nat
  | .lexer lx => lx.lexer_source.length - lx.lexer_current_pos
  | .stream tokens => tokens.length

/-- A bound on the tokens that a parser can still consume: none when its current token is
the end of input, otherwise the current one and those of the supply. -/
def Parser.remaining (p : Parser) : Nat :=
  if p.m_current_token.type = TokenType.tEOF then 0 else 1 + p.m_lexer.size

/-- The parser `q` is `p` after `advance`, and the token consumed by the step, the current
token of `p`, is neither a lexical-error token nor the end of input. -/
def Parser.Step (p q : Parser) : Prop :=
  p.m_current_token.type ≠ TokenType.tERROR ∧ p.m_current_token.type ≠ TokenType.tEOF
    ∧ q = p.advance

/-- The parser `q` is `p` after any number of steps. -/
def Parser.Reaches (p q : Parser) : Prop :=
  Relation.ReflTransGen Parser.Step p q

/-- The parser `q` is `p` after one step or more. -/
def Parser.Consumes (p q : Parser) : Prop :=
  Relation.TransGen Parser.Step p q

/-- The result of a parsing function started at `p` is there (the fuel was enough), and
if it is a value, the parser has got to its state by steps from `p`. -/
def PRes.Reaches {α : Type} (r : PRes α) (p : Parser) : Prop :=
  match r with
  | .ok _ q => p.Reaches q
  | .error _ _ => True
  | .outOfFuel => False

/-- The result of a parsing function started at `p` is there (the fuel was enough), and
if it is a value, the parser has consumed one token or more. -/
def PRes.Consumes {α : Type} (r : PRes α) (p : Parser) : Prop :=
  match r with
  | .ok _ q => p.Consumes q
  | .error _ _ => True
  | .outOfFuel => False

/-- Every parsing function gives its result with the fuel `fuel`, at every parser state
for which `fuel` is at least ten times the bound on the tokens left plus the rank of the
function, and the functions for statements and expressions consume a token when they give
a value. -/
structure ParserTerminates (fuel : Nat) : Prop where
  statement : ∀ p, 10 * p.remaining + 6 ≤ fuel → (parseStatement fuel p).Consumes p
  block : ∀ p acc, 10 * p.remaining + 7 ≤ fuel → (parseBlock fuel p acc).Reaches p
  ifInternal : ∀ b p, 10 * p.remaining + 6 ≤ fuel →
    (parseIfStatementInternal fuel b p).Reaches p
  ifStatement : ∀ p, 10 * p.remaining + 1 ≤ fuel → (parseIfStatement fuel p).Consumes p
  whileStatement : ∀ p, 10 * p.remaining + 1 ≤ fuel →
    (parseWhileStatement fuel p).Consumes p
  forStatement : ∀ p, 10 * p.remaining + 1 ≤ fuel → (parseForStatement fuel p).Consumes p
  parameters : ∀ p acc, 10 * p.remaining + 1 ≤ fuel → (parseParameters fuel p acc).Reaches p
  functionLiteral : ∀ p, 10 * p.remaining + 1 ≤ fuel →
    (parseFunctionLiteral fuel p).Consumes p
  returnStatement : ∀ p, 10 * p.remaining + 1 ≤ fuel →
    (parseReturnStatement fuel p).Consumes p
  expression : ∀ m p, 10 * p.remaining + 5 ≤ fuel → (parseExpression fuel m p).Consumes p
  expressionLoop : ∀ m left p, 10 * p.remaining + 1 ≤ fuel →
    (parseExpressionLoop fuel m left p).Reaches p
  unary : ∀ p, 10 * p.remaining + 4 ≤ fuel → (parseUnary fuel p).Consumes p
  postfixOperations : ∀ p, 10 * p.remaining + 3 ≤ fuel →
    (parsePostfixOperations fuel p).Consumes p
  postfixLoop : ∀ e p, 10 * p.remaining + 2 ≤ fuel → (parsePostfixLoop fuel e p).Reaches p
  expressionList : ∀ p acc, 10 * p.remaining + 6 ≤ fuel →
    (parseExpressionList fuel p acc).Reaches p
  primary : ∀ p, 10 * p.remaining + 2 ≤ fuel → (parsePrimary fuel p).Consumes p
  call : ∀ callee p, 10 * p.remaining + 1 ≤ fuel → (parseCall fuel callee p).Consumes p

/-- A parser on a token stream, with the tokens `tokens` still to come (the first of them
is the current token; after the last one the stream gives end-of-input tokens) and the
previous token `previous`. -/
def Parser.onStream (previous : Token) : List Token → Parser
  | [] =>
    { m_lexer := .stream [], m_current_token := { type := TokenType.tEOF, lexema := "", line := 0 },
      m_previous_token := previous }
  | tok :: tokens =>
    { m_lexer := .stream tokens, m_current_token := tok, m_previous_token := previous }

/-- The tokens `tokens` are a condition: with at least the fuel `n`, and with a `then`
token after them, `parseExpression` reads just these tokens and gives `condition`. -/
def ParsesCondition (n : Nat) (tokens : List Token) (condition : Expr) : Prop :=
  ∀ fuel, n ≤ fuel → ∀ (previous thenToken : Token) (rest : List Token),
    thenToken.type = TokenType.tThen →
    ∃ last, parseExpression fuel 0 (Parser.onStream previous (tokens ++ thenToken :: rest))
      = .ok condition (Parser.onStream last (thenToken :: rest))

/-- The tokens `tokens` are a block: with at least the fuel `n`, and with tokens `rest`
after them at which a block ends, `parseBlock` reads just these tokens and gives
`statements`. -/
def ParsesBlock (n : Nat) (tokens : List Token) (statements : List Stmt) : Prop :=
  ∀ fuel, n ≤ fuel → ∀ (previous : Token) (rest : List Token),
    (Parser.onStream previous rest).blockContinues = false →
    ∃ last, parseBlock fuel (Parser.onStream previous (tokens ++ rest)) []
      = .ok statements (Parser.onStream last rest)

/-- One link `c Then B` of an if chain: the tokens of the condition, the `then` token and
the tokens of the block, with the condition and the statements that they stand for. -/
structure IfLink where
  conditionTokens : List Token
  thenToken : Token
  blockTokens : List Token
  condition : Expr
  thenBranch : List Stmt

/-- An if chain, without its first `if` token and its closing `end if` token:
`c Then B`, or `c Then B Else B'`, or `c Then B Else If` followed by a chain. -/
inductive IfChain
  | single (link : IfLink)
  | withElse (link : IfLink) (elseToken : Token) (blockTokens : List Token)
      (elseBlock : List Stmt)
  | elseIf (link : IfLink) (elseToken ifToken : Token) (next : IfChain)

/-- The tokens of a link. -/
def IfLink.tokens (link : IfLink) : List Token :=
  link.conditionTokens ++ link.thenToken :: link.blockTokens

/-- The tokens of a chain. -/
def IfChain.tokens : IfChain → List Token
  | .single link => link.tokens
  | .withElse link elseToken blockTokens _ => link.tokens ++ elseToken :: blockTokens
  | .elseIf link elseToken ifToken next => link.tokens ++ elseToken :: ifToken :: next.tokens

/-- The right-nested tree of a chain: the else branch of a link is the tree of the chain
that follows it. -/
def IfChain.tree : IfChain → Stmt
  | .single link => .ifStmt link.condition link.thenBranch none
  | .withElse link _ _ elseBlock =>
    .ifStmt link.condition link.thenBranch (some (.block elseBlock))
  | .elseIf link _ _ next => .ifStmt link.condition link.thenBranch (some next.tree)

/-- The number of links of a chain. -/
def IfChain.length : IfChain → Nat
  | .single _ => 1
  | .withElse _ _ _ _ => 1
  | .elseIf _ _ _ next => next.length + 1

/-- The parts of a link are what they are said to be. -/
def IfLink.Parses (n : Nat) (link : IfLink) : Prop :=
  link.thenToken.type = TokenType.tThen
    ∧ ParsesCondition n link.conditionTokens link.condition
    ∧ ParsesBlock n link.blockTokens link.thenBranch

/-- The parts of a chain are what they are said to be: the tokens between the parts have
the types `then`, `else` and `if`, the conditions are conditions and the blocks are blocks,
and a last else block does not start with an `if` token. -/
def IfChain.Parses (n : Nat) : IfChain → Prop
  | .single link => link.Parses n
  | .withElse link elseToken blockTokens elseBlock =>
    link.Parses n ∧ elseToken.type = TokenType.tElse ∧ ParsesBlock n blockTokens elseBlock
      ∧ ∀ tok ∈ blockTokens.head?, tok.type ≠ TokenType.tIf
  | .elseIf link elseToken ifToken next =>
    link.Parses n ∧ elseToken.type = TokenType.tElse ∧ ifToken.type = TokenType.tIf
      ∧ next.Parses n

/-- The chain `a Then break Else If b Then continue Else break` of three parts. -/
def sampleIfChain : IfChain :=
  .elseIf
    { conditionTokens := [{ type := .tIdentifier, lexema := "a", line := 1 }],
      thenToken := { type := .tThen, lexema := "then", line := 1 },
      blockTokens := [{ type := .tBreak, lexema := "break", line := 2 }],
      condition := .identifier "a", thenBranch := [.breakStmt] }
    { type := .tElse, lexema := "else", line := 3 } { type := .tIf, lexema := "if", line := 3 }
    (.withElse
      { conditionTokens := [{ type := .tIdentifier, lexema := "b", line := 3 }],
        thenToken := { type := .tThen, lexema := "then", line := 3 },
        blockTokens := [{ type := .tContinue, lexema := "continue", line := 4 }],
        condition := .identifier "b", thenBranch := [.continueStmt] }
      { type := .tElse, lexema := "else", line := 5 }
      [{ type := .tBreak, lexema := "break", line := 6 }] [.breakStmt])

/-- The dependency graph of a scheduler whose rows of `deps_` are `deps`: the task `u` has
an edge to the task id `v` when `v` is among the `Future` arguments of `u`. -/
def DependsOn (deps : List (List Nat)) (u v : Nat) : Prop :=
  v ∈ deps.getD u []

/-- The dependency graph contains a directed cycle: some task reaches itself along one or
more edges. -/
def HasDirectedCycle (deps : List (List Nat)) : Prop :=
  ∃ u, Relation.TransGen (DependsOn deps) u u

/-- Some task refers to an id that is not the id of a registered task. -/
def RefersToUnregistered (deps : List (List Nat)) : Prop :=
  ∃ u v, DependsOn deps u v ∧ deps.length ≤ v

/-- The scheduler in which the tasks added by `adds` have all been executed. -/
def TTaskScheduler.allExecuted (adds : List (List Nat)) : TTaskScheduler :=
  { tasks_ := adds.map fun futures => { futures := futures, have_result := true },
    deps_ := adds }

/-- The arrays `inDeg` and `adj` after the rows `rows` of `deps_` have been read: `inDeg[w]`
is the length of the row of `w`, and `adj[v]` holds `w` as many times as the row of `w`
holds `v`. -/
def GraphOf (n : Nat) (rows : List (List Nat)) (g : List Int × List (List Nat)) : Prop :=
  g.1.length = n ∧ g.2.length = n
    ∧ (∀ w, g.1.getD w 0 = ((rows.getD w []).length : Int))
    ∧ (∀ v w, (g.2.getD v []).count w = (rows.getD w []).count v)

/-- The number of places of the row of `w` that hold a task not in `done`. -/
def remainingDeps (deps : List (List Nat)) (done : List Nat) (w : Nat) : Nat :=
  (deps.getD w []).countP fun v => decide (v ∉ done)

/-- A list of tasks in which every task comes before the tasks that depend on it, read
from the last element to the first. -/
def TopoList (deps : List (List Nat)) : List Nat → Prop
  | [] => True
  | u :: done => (∀ v ∈ deps.getD u [], v ∈ done) ∧ TopoList deps done

/-- The invariant of the loops of `hasCycle`: `done` are the tasks taken from the queue so
far, the last one first, `q` is the queue, and `rest` is what is left of `adj[u]` in the
inner loop. -/
structure KahnInv (deps : List (List Nat)) (done q : List Nat) (inDeg : List Int)
    (rest : List Nat) : Prop where
  length_eq : inDeg.length = deps.length
  inDeg_eq : ∀ w, w < deps.length →
    inDeg.getD w 0 = (remainingDeps deps done w : Int) + (rest.count w : Int)
  nodup : (q ++ done).Nodup
  zero_iff : ∀ w, w < deps.length → ((w ∈ q ∨ w ∈ done) ↔ inDeg.getD w 0 = 0)
  lt_length : ∀ w, w ∈ q ++ done → w < deps.length
  topo : TopoList deps done
  rest_lt : ∀ v ∈ rest, v < deps.length

/-- The task `w` of the scheduler has been executed. -/
def TTaskScheduler.Executed (s : TTaskScheduler) (w : Nat) : Prop :=
  ∃ task, s.tasks_[w]? = some task ∧ task.have_result = true

/-- The scheduler `s1` has the tasks and the dependencies of `s`, and every task executed
in `s` is executed in `s1`. -/
def TTaskScheduler.Extends (s s1 : TTaskScheduler) : Prop :=
  s1.deps_ = s.deps_ ∧ s1.tasks_.map Task.futures = s.tasks_.map Task.futures
    ∧ ∀ w, s.Executed w → s1.Executed w

/-! ## The library functions `split` and `join` (`interpreter/stdlib.cpp`) -/

/-- The method `Value::toString` on a String, a Bool and Nil. The text of a Number goes
through `std::to_string` of a `double`, that of a List through its elements and that of a
function through its address: these are outside the model (`none`). -/
def Value.toString : Value → Option (List Char)
  | .string s => some s
  | .bool b => some (if b then "true".toList else "false".toList)
  | .nil => some "nil".toList
  | _ => none

/-- The loop `while((end = s.find(delim, start)) != npos)` of the library function `split`
with the `push_back` after it, at most `fuel` rounds; `list` holds the parts read so far. -/
def StandardLibrary.splitLoop (delim : List Char) :
    Nat → List Char → Nat → List Value → Option (List Value)
  | 0, _, _, _ => none
  | fuel + 1, s, start, list =>
    match findFrom delim s start with
    | some stop =>
      StandardLibrary.splitLoop delim fuel s (stop + delim.length)
        (list ++ [.string ((s.drop start).take (stop - start))])
    | none => some (list ++ [.string (s.drop start)])

/-- The library function `split`; the result is a new list object. -/
def StandardLibrary.split (fuel : Nat) (h : ListHeap) (args : List Value) :
    Option (Except String (Value × ListHeap)) :=
  if args.length ≠ 2 then some (.error (argumentCountError "split" 2 args.length))
  else
    match args with
    | [.string s, .string delim] =>
      if delim.isEmpty then some (.ok (allocList h (s.map fun c => Value.string [c])))
      else (StandardLibrary.splitLoop delim fuel s 0 []).map fun list => .ok (allocList h list)
    | [.string _, arg] => some (.error (argumentTypeError "split" 1 "string" arg.getType))
    | [arg, _] => some (.error (argumentTypeError "split" 0 "string" arg.getType))
    | _ => none

/-- The loop of the library function `join` over the elements from the position `i` on;
`result` holds the text put together so far. -/
def StandardLibrary.joinLoop (delim : List Char) : List Value → Nat → List Char →
    Option (List Char)
  | [], _, result => some result
  | v :: rest, i, result =>
    match v.toString with
    | some text =>
      StandardLibrary.joinLoop delim rest (i + 1)
        ((if i > 0 then result ++ delim else result) ++ text)
    | none => none

/-- The library function `join`. -/
def StandardLibrary.join (h : ListHeap) (args : List Value) : Option (Except String Value) :=
  if args.length ≠ 2 then some (.error (argumentCountError "join" 2 args.length))
  else
    match args with
    | [.list p, .string delim] =>
      (StandardLibrary.joinLoop delim (derefList h p) 0 []).map fun r => .ok (.string r)
    | [.list _, arg] => some (.error (argumentTypeError "join" 1 "string" arg.getType))
    | [arg, _] => some (.error (argumentTypeError "join" 0 "list" arg.getType))
    | _ => none

/-- The call `join(split(s, d), d)` on two Strings, started with the list store `h`: the
list that `split` returns is passed to `join`, in the store that `split` leaves. -/
def joinOfSplit (fuel : Nat) (h : ListHeap) (s d : List Char) : Option (Except String Value) :=
  match StandardLibrary.split fuel h [.string s, .string d] with
  | some (.ok (list, h1)) => StandardLibrary.join h1 [list, .string d]
  | some (.error message) => some (.error message)
  | none => none

/-! ## The LRU cache (`src/ca25-emulator-Keyplexex-main/cache.cpp`, `config.hpp`)

The fields of type `uint8_t`, `uint32_t` and `uint64_t` are natural numbers: `age` never
passes 255 because the code increments it below 255 only, tags are parts of a 32-bit
address, and the counters of the statistics only grow by one per access. -/

/-- The constant `CACHE_WAY`. -/
def CACHE_WAY : Nat := 4

/-- The constant `CACHE_SET_COUNT`. -/
def CACHE_SET_COUNT : Nat := 16

/-- The constant `CACHE_OFFSET_LEN`. -/
def CACHE_OFFSET_LEN : Nat := 5

/-- The constant `CACHE_INDEX_LEN`. -/
def CACHE_INDEX_LEN : Nat := 4

/-- The struct `Line`. -/
structure Line where
  valid : Bool
  dirty : Bool
  tag : Nat
  age : Nat
  plru : Bool
  deriving DecidableEq, Repr

/-- A line as its member initialisers leave it. -/
def Line.new : Line :=
  { valid := false, dirty := false, tag := 0, age := 0, plru := false }

/-- The struct `Set` of the cache: its array `ways`. -/
structure CacheSet where
  ways : List Line
  deriving DecidableEq, Repr

/-- The enumeration `AccessKind`. -/
inductive AccessKind
  | Inst
  | Data
  deriving DecidableEq, Repr

/-- The struct `CacheStats`. -/
structure CacheStats where
  hits_total : Nat
  misses_total : Nat
  hits_inst : Nat
  misses_inst : Nat
  hits_data : Nat
  misses_data : Nat
  deriving DecidableEq, Repr

/-- The class `LRUCache` with the members of its base classes. -/
structure LRUCache where
  sets_ : List CacheSet
  st_ : CacheStats
  total_accesses_inst_ : Nat
  total_accesses_data_ : Nat
  deriving DecidableEq, Repr

/-- The cache that `make_lru_cache` returns: `CACHE_SET_COUNT` sets of `CACHE_WAY` lines. -/
def LRUCache.new : LRUCache :=
  { sets_ := List.replicate CACHE_SET_COUNT { ways := List.replicate CACHE_WAY Line.new },
    st_ := { hits_total := 0, misses_total := 0, hits_inst := 0, misses_inst := 0,
             hits_data := 0, misses_data := 0 },
    total_accesses_inst_ := 0, total_accesses_data_ := 0 }

/-- The function `addr_index`. -/
def addr_index (addr : Nat) : Nat :=
  (addr >>> CACHE_OFFSET_LEN) &&& ((1 <<< CACHE_INDEX_LEN) - 1)

/-- The function `addr_tag`. -/
def addr_tag (addr : Nat) : Nat :=
  addr >>> (CACHE_OFFSET_LEN + CACHE_INDEX_LEN)

/-- The method `stat_hit`. -/
def CacheStats.stat_hit (st : CacheStats) (k : AccessKind) : CacheStats :=
  match k with
  | .Inst => { st with hits_total := st.hits_total + 1, hits_inst := st.hits_inst + 1 }
  | .Data => { st with hits_total := st.hits_total + 1, hits_data := st.hits_data + 1 }

/-- The method `stat_miss`. -/
def CacheStats.stat_miss (st : CacheStats) (k : AccessKind) : CacheStats :=
  match k with
  | .Inst => { st with misses_total := st.misses_total + 1, misses_inst := st.misses_inst + 1 }
  | .Data => { st with misses_total := st.misses_total + 1, misses_data := st.misses_data + 1 }

/-- The method `count_access`. -/
def LRUCache.count_access (c : LRUCache) (k : AccessKind) : LRUCache :=
  match k with
  | .Inst => { c with total_accesses_inst_ := c.total_accesses_inst_ + 1 }
  | .Data => { c with total_accesses_data_ := c.total_accesses_data_ + 1 }

/-- The array `sets_[set_idx].ways`. -/
def LRUCache.ways (c : LRUCache) (set_idx : Nat) : List Line :=
  (c.sets_.getD set_idx { ways := [] }).ways

/-- The cache with the array `sets_[set_idx].ways` replaced. -/
def LRUCache.setWays (c : LRUCache) (set_idx : Nat) (ways : List Line) : LRUCache :=
  { c with sets_ := c.sets_.set set_idx { ways := ways } }

/-- The loop of `find_hit` over the ways from `w` on: the first way that is valid and has
the tag; `none` stands for the result -1. -/
def findHitFrom (tag : Nat) : Nat → List Line → Option Nat
  | _, [] => none
  | w, l :: rest => if l.valid && l.tag == tag then some w else findHitFrom tag (w + 1) rest

/-- The method `find_hit`, on the ways of the set. -/
def find_hit (ways : List Line) (tag : Nat) : Option Nat :=
  findHitFrom tag 0 ways

/-- The first loop of `victim_lru` over the ways from `w` on: the first way that is not
valid. -/
def firstInvalidFrom : Nat → List Line → Option Nat
  | _, [] => none
  | w, l :: rest => if !l.valid then some w else firstInvalidFrom (w + 1) rest

/-- The second loop of `victim_lru` over the ways from `w` on, with the values of `best`
and `vw`. -/
def maxAgeFrom : Nat → List Line → Nat → Nat → Nat
  | _, [], _, vw => vw
  | w, l :: rest, best, vw =>
    if l.age > best then maxAgeFrom (w + 1) rest l.age w else maxAgeFrom (w + 1) rest best vw

/-- The method `victim_lru`, on the ways of the set. -/
def victim_lru (ways : List Line) : Nat :=
  match firstInvalidFrom 0 ways with
  | some w => w
  | none =>
    match ways with
    | [] => 0
    | l :: rest => maxAgeFrom 1 rest l.age 0

/-- The loop of `touch_lru` over the ways from `w` on. -/
def touchFrom (used_way : Nat) : Nat → List Line → List Line
  | _, [] => []
  | w, l :: rest =>
    (if w = used_way then { l with age := 0 }
     else if l.valid && decide (l.age < 255) then { l with age := l.age + 1 }
     else l) :: touchFrom used_way (w + 1) rest

/-- The method `touch_lru`, on the ways of the set. -/
def touch_lru (ways : List Line) (used_way : Nat) : List Line :=
  touchFrom used_way 0 ways

/-- The method `fill_line`, on the ways of the set. -/
def fill_line (ways : List Line) (way tag : Nat) (dirty_on_fill : Bool) : List Line :=
  ways.modify (fun l => { l with valid := true, tag := tag, dirty := dirty_on_fill, age := 0 })
    way

/-- The method `LRUCache::read`: the result (hit or miss) and the cache after it. -/
def LRUCache.read (c : LRUCache) (addr : Nat) (k : AccessKind) : Bool × LRUCache :=
  let c1 := c.count_access k
  let si := addr_index addr
  let tag := addr_tag addr
  match find_hit (c1.ways si) tag with
  | some w =>
    (true, { c1 with st_ := c1.st_.stat_hit k }.setWays si (touch_lru (c1.ways si) w))
  | none =>
    let v := victim_lru (c1.ways si)
    (false, { c1 with st_ := c1.st_.stat_miss k }.setWays si
      (touch_lru (fill_line (c1.ways si) v tag false) v))

/-- The method `LRUCache::write`: the result (hit or miss) and the cache after it. -/
def LRUCache.write (c : LRUCache) (addr : Nat) (k : AccessKind) : Bool × LRUCache :=
  let c1 := c.count_access k
  let si := addr_index addr
  let tag := addr_tag addr
  match find_hit (c1.ways si) tag with
  | some w =>
    (true, { c1 with st_ := c1.st_.stat_hit k }.setWays si
      (touch_lru ((c1.ways si).modify (fun l => { l with dirty := true }) w) w))
  | none =>
    let v := victim_lru (c1.ways si)
    (false, { c1 with st_ := c1.st_.stat_miss k }.setWays si
      (touch_lru (fill_line (c1.ways si) v tag true) v))

/-! ## Emulator memory (`src/ca25-emulator-Keyplexex-main/memory.cpp`, `config.hpp`)

Addresses are `uint32_t`: natural numbers below `2 ^ 32`, and `addr + k` is taken modulo
`2 ^ 32`, as the code computes it before it compares the sum with `ram_.size()`. -/

/-- The constant `MEMORY_SIZE`. -/
def MEMORY_SIZE : Nat := 0x80000

/-- The class `Memory`: the bytes of `ram_`. -/
structure Memory where
  ram_ : List Nat
  deriving DecidableEq, Repr

/-- The constructor `Memory::Memory`. -/
def Memory.new : Memory :=
  { ram_ := List.replicate MEMORY_SIZE 0 }

/-- The ways in which an access function of `Memory` ends: it returns `false`, it returns
`true` with its result, or it gets to an element `ram_[index]` that `ram_` does not have
(the behaviour of the program is undefined from there on). -/
inductive Access (α : Type)
  | refused
  | done (a : α)
  | outOfBounds (index : Nat)
  deriving DecidableEq, Repr

/-- The sum `addr + k` of a `uint32_t` and a small constant. -/
def addU32 (addr k : Nat) : Nat :=
  (addr + k) % 2 ^ 32

/-- The read of the elements `ram_[i]` for the indices of a list, in order. -/
def Memory.readBytes (m : Memory) : List Nat → Access (List Nat)
  | [] => .done []
  | i :: rest =>
    match m.ram_[i]? with
    | none => .outOfBounds i
    | some b =>
      match Memory.readBytes m rest with
      | .done bs => .done (b :: bs)
      | .refused => .refused
      | .outOfBounds j => .outOfBounds j

/-- The assignments `ram_[i] = b` for a list of pairs of an index and a byte, in order. -/
def Memory.writeBytes (m : Memory) : List (Nat × Nat) → Access Memory
  | [] => .done m
  | (i, b) :: rest =>
    if i < m.ram_.length then Memory.writeBytes { ram_ := m.ram_.set i b } rest
    else .outOfBounds i

/-- The value of bytes read in little-endian order. -/
def littleEndian : List Nat → Nat
  | [] => 0
  | b :: bs => b ||| (littleEndian bs <<< 8)

/-- The result of an access with its bytes put together. -/
def Access.map {α β : Type} (f : α → β) : Access α → Access β
  | .refused => .refused
  | .done a => .done (f a)
  | .outOfBounds i => .outOfBounds i

/-- The method `Memory::read_u8`. -/
def Memory.read_u8 (m : Memory) (addr : Nat) : Access Nat :=
  if addr ≥ m.ram_.length then .refused
  else (m.readBytes [addr]).map littleEndian

/-- The method `Memory::read_u16`. -/
def Memory.read_u16 (m : Memory) (addr : Nat) : Access Nat :=
  if addU32 addr 1 ≥ m.ram_.length then .refused
  else (m.readBytes [addr, addU32 addr 1]).map littleEndian

/-- The method `Memory::read_u32`. -/
def Memory.read_u32 (m : Memory) (addr : Nat) : Access Nat :=
  if addU32 addr 3 ≥ m.ram_.length then .refused
  else (m.readBytes [addr, addU32 addr 1, addU32 addr 2, addU32 addr 3]).map littleEndian

/-- The method `Memory::write_u8`. -/
def Memory.write_u8 (m : Memory) (addr val : Nat) : Access Memory :=
  if addr ≥ m.ram_.length then .refused
  else m.writeBytes [(addr, val)]

/-- The method `Memory::write_u16`. -/
def Memory.write_u16 (m : Memory) (addr v : Nat) : Access Memory :=
  if addU32 addr 1 ≥ m.ram_.length then .refused
  else m.writeBytes [(addr, v &&& 0xFF), (addU32 addr 1, (v >>> 8) &&& 0xFF)]

/-- The method `Memory::write_u32`. -/
def Memory.write_u32 (m : Memory) (addr v : Nat) : Access Memory :=
  if addU32 addr 3 ≥ m.ram_.length then .refused
  else m.writeBytes [(addr, v &&& 0xFF), (addU32 addr 1, (v >>> 8) &&& 0xFF),
    (addU32 addr 2, (v >>> 16) &&& 0xFF), (addU32 addr 3, (v >>> 24) &&& 0xFF)]

/-! ## Observations and reference definitions for scopes, calls, slices and the cache -/

/-- The current-scope pointer in the last state of a run of the pipeline. -/
def Outcome.currentScope (o : Outcome) : Option Nat :=
  o.result.bind fun r => r.state.map fun st => st.m_current_scope

/-- The values that the given names have for a statement that would follow a run of the
pipeline: each name is read with `Scope::get` from the current scope of the last state
(`none` for a name that is not visible there). -/
def Outcome.visible (o : Outcome) (names : List String) : Option (List (Option Value)) :=
  o.result.bind fun r => r.state.map fun st =>
    names.map fun n => (Scope.get st.scopes st.m_current_scope n).toOption

/-- The signal with which a run of the pipeline ended, if it ended with one; `some none`
stands for a run that completed. -/
def Outcome.thrown (o : Outcome) : Option (Option Signal) :=
  o.result.map fun r => r.thrown

/-- The recursion depth and the call-stack trace in the last state of a run of the
pipeline. -/
def Outcome.depthAndTrace (o : Outcome) : Option (Nat × List Frame) :=
  o.result.bind fun r => r.state.map fun st => (st.m_recursion_depth, st.call_stack_trace)

/-- The source text of a for loop whose body ends with `break`, followed by a read of the
loop variable. -/
def forBreakSource : String :=
  "for x in [1, 2]\n y = x\n break\nend for\nr = x"

/-- The source text of a for loop whose body ends with `continue`; the second iteration
reads the name `y` that the first iteration defined in its body. -/
def forContinueSource : String :=
  "for x in [1, 2]\n t = x == 1 or y == 1\n y = 1\n continue\nend for"

/-- The source text of a while loop with `break` and of one with `continue`. -/
def whileBreakSource : String :=
  "i = 0\nwhile i < 2\n i = i + 1\n u = 1\n break\nend while\nj = 0\nwhile j < 2\n j = j + 1\n w = 1\n continue\nend while"

/-- The source text of a call whose callee executes `break` outside any loop of its own,
inside a loop that encloses the call. -/
def breakThroughCallSource : String :=
  "f = function() break end function\nwhile true\n f()\nend while"

/-- The source text of a call whose callee raises an error. -/
def errorThroughCallSource : String :=
  "g = function() return 1 + nil end function\ng()"

/-- The source text of calls that end with a result and with a handled `return`. -/
def plainCallSource : String :=
  "f = function() return 1 end function\ng = function() x = 1 end function\na = f()\nb = g()"

/-- The source text of a while loop whose condition reads the name `z`, which only the
loop body defines; the first evaluation of the condition does not get to `z`. -/
def whileConditionSource : String :=
  "i = 0\nwhile i == 0 or z == 1 and i < 2\n i = i + 1\n z = 1\nend while"

/-- The same loop when the first evaluation of the condition gets to `z`. -/
def whileConditionFirstSource : String :=
  "i = 1\nwhile i == 0 or z == 1 and i < 2\n i = i + 1\n z = 1\nend while"

/-- The expression `name[:k] + name[k:]`. -/
def splitConcatExpr (name : String) (k : Int) : Expr :=
  .binaryOp .tPlus (.sliceExpr (.identifier name) none (boundExpr (some k)))
    (.sliceExpr (.identifier name) (boundExpr (some k)) none)

/-- A state in which the global name `s` is bound to the String "hello". -/
def helloState : Interpreter :=
  { Interpreter.initial with
    scopes := Scope.define Interpreter.initial.scopes 0 "s" (.string "hello".toList) }

/-- The source text that splits the String "hello" and the List `[1, 2, 3]` at several
places and compares each sum of the two parts with the whole. -/
def splitConcatSource : String :=
  "a = \"hello\"\nb = [1, 2, 3]\nr1 = a[:2] + a[2:]\nr2 = a[:-2] + a[-2:]\nr3 = a[:0] + a[0:]\nr4 = a[:9] + a[9:]\nr5 = a[:-9] + a[-9:]\ne1 = b[:1] + b[1:] == b\ne2 = b[:-1] + b[-1:] == b\ne3 = b[:7] + b[7:] == b"

/-- An access to the cache: a read or a write of an address. -/
structure CacheOp where
  isWrite : Bool
  addr : Nat
  kind : AccessKind
  deriving DecidableEq, Repr

/-- The call of `read` or `write` for an access. -/
def LRUCache.access (c : LRUCache) (op : CacheOp) : Bool × LRUCache :=
  if op.isWrite then c.write op.addr op.kind else c.read op.addr op.kind

/-- The way of its set that an access uses in the cache `c`: the way of the hit, or the
way that `victim_lru` chooses on a miss. -/
def LRUCache.usedWay (c : LRUCache) (op : CacheOp) : Nat :=
  match find_hit (c.ways (addr_index op.addr)) (addr_tag op.addr) with
  | some w => w
  | none => victim_lru (c.ways (addr_index op.addr))

/-- A cache with the record of its accesses: `time` is the number of accesses so far, and
`lastUse s w` is the time of the most recent access that used the way `w` of the set `s`
(the first access has the time 0). -/
structure CacheTrace where
  cache : LRUCache
  time : Nat
  lastUse : Nat → Nat → Option Nat

/-- The record of a new cache. -/
def CacheTrace.start : CacheTrace :=
  { cache := LRUCache.new, time := 0, lastUse := fun _ _ => none }

/-- One access, recorded. -/
def CacheTrace.step (tr : CacheTrace) (op : CacheOp) : CacheTrace :=
  { cache := (tr.cache.access op).2, time := tr.time + 1,
    lastUse := fun s w =>
      if s = addr_index op.addr ∧ w = tr.cache.usedWay op then some tr.time
      else tr.lastUse s w }

/-- The invariant of a set of the cache and the record of its accesses: ages are at most
255, a way is valid exactly when it has been used, the times of use are in the past and
differ from way to way, and of two used ways the one used longer ago has the greater age,
unless its age is 255. -/
structure SetInv (ways : List Line) (stamp : Nat → Option Nat) (t : Nat) : Prop where
  length_eq : ways.length = CACHE_WAY
  age_le : ∀ (w : Nat) (l : Line), ways[w]? = some l → l.age ≤ 255
  valid_iff : ∀ (w : Nat) (l : Line), ways[w]? = some l → (l.valid = true ↔ (stamp w).isSome = true)
  stamp_lt : ∀ w x, stamp w = some x → x < t
  distinct : ∀ w w1 x, w ≠ w1 → stamp w = some x → stamp w1 ≠ some x
  older : ∀ (w w1 : Nat) (l l1 : Line) (x x1 : Nat), ways[w]? = some l → ways[w1]? = some l1 → stamp w = some x →
    stamp w1 = some x1 → x < x1 → l1.age < l.age ∨ l.age = 255

/-- The line after `touch_lru`, for the used way and for another way. -/
def Line.touched (used : Bool) (l : Line) : Line :=
  if used then { l with age := 0 }
  else if l.valid && decide (l.age < 255) then { l with age := l.age + 1 }
  else l

/-- The ways of a set after a read (`isWrite` false) or a write with the tag `tag`, as the
methods `read` and `write` leave them. -/
def accessWays (ways : List Line) (tag : Nat) (isWrite : Bool) : List Line :=
  match find_hit ways tag with
  | some w =>
    touch_lru (if isWrite then ways.modify (fun l => { l with dirty := true }) w else ways) w
  | none => touch_lru (fill_line ways (victim_lru ways) tag isWrite) (victim_lru ways)

/-- C1, at the failing input: for the Number 0.5 and the String "abc", in either operand
order, `multiply` returns "abcab" (one full copy, then the first two characters), whereas
the product described by the claim, zero copies followed by the first ceil(3 * 0.5) = 2
characters, is "ab"; likewise the List [1, 2] times 0.5 is the List [1, 2, 1], not [1]. -/
theorem multiply_half_keeps_a_full_copy :
    multiply [] (.string "abc".toList) (.number (1 / 2))
        = some (.ok (.string "abcab".toList, []))
      ∧ multiply [] (.number (1 / 2)) (.string "abc".toList)
        = some (.ok (.string "abcab".toList, []))
      ∧ multiplySpec (1 / 2) "abc".toList = "ab".toList
      ∧ (multiply [[.number 1, .number 2]] (.list 0) (.number (1 / 2))).map
          (fun r => r.map fun vh => derefList vh.2 2)
        = some (.ok [.number 1, .number 2, .number 1])
      ∧ multiplySpec (1 / 2) [Value.number 1, Value.number 2] = [Value.number 1] := by
  decide!

/-- C2, at the failing input: an If statement whose condition is the Number 1, a truthy
value for `isTruthy`, does not execute its then-branch: it raises the fatal error
"Value is not a boolean" of `asBool`; so does a While statement with that condition. -/
theorem if_and_while_reject_truthy_number :
    Value.isTruthy [] (.number 1) = true
      ∧ (execute 3 (Stmt.ifStmt (Expr.numberLit 1)
            [Stmt.expressionStmt (Expr.assignment (Expr.identifier "t") TokenType.tAssign
              (Expr.numberLit 1))] none) Interpreter.initial).thrown
          = some (Signal.runtimeError "Value is not a boolean")
      ∧ (execute 3 (Stmt.whileStmt (Expr.numberLit 1) [Stmt.breakStmt] 1)
            Interpreter.initial).thrown
          = some (Signal.runtimeError "Value is not a boolean") := by
  decide!

/-- C3, at the failing input: lexing the source text `if` yields one token of kind EndIf
(not If) followed by end-of-input, the kind that `end if` yields too; hence the statement
`if true then x = 1 end if` is not dispatched to the if-statement parser and the parse
fails with a syntax error at its first token. Each of the 19 other reserved words does
yield one token of its own kind followed by end-of-input. -/
theorem lexing_if_yields_end_if :
    (Lexer.new "if".toList).getAllTokens
        = some [⟨TokenType.tEndIf, "if", 1⟩, ⟨TokenType.tEOF, "", 1⟩]
      ∧ ((interpretSource 50 "if true then x = 1 end if").syntaxErrorAt.map fun e => e.1)
        = some ⟨TokenType.tEndIf, "if", 1⟩
      ∧ ∀ wk ∈ otherReservedWords, (Lexer.new wk.1.toList).getAllTokens
        = some [⟨wk.2, wk.1, 1⟩, ⟨TokenType.tEOF, "", 1⟩] := by
  decide!

/-- C4: the pipeline on the source text of the scenario parses without error; the run
reaches the top-level `return` with the value 4; at that moment the global scope binds
`x` to the Number 4 (next to the standard library), and the scope store holds, besides the
global scope, exactly the three body scopes that the loop created, one for each execution
of its body, all of them children of the global scope and empty. -/
theorem while_scenario_leaves_x_four :
    ((interpretSource 60 whileScenarioSource).result.bind fun r => r.thrown)
        = some (Signal.returnValue (.number 4))
      ∧ ((interpretSource 60 whileScenarioSource).result.bind fun r => r.scopes)
        = some [{ vars := standardLibraryVariables standardLibraryNames 0 ++ [("x", .number 4)],
                  outer_scope := none },
                { vars := [], outer_scope := some 0 },
                { vars := [], outer_scope := some 0 },
                { vars := [], outer_scope := some 0 }]
      ∧ ((interpretSource 60 whileScenarioSource).result.bind fun r => r.scopes).map
          (fun scopes => Scope.get scopes 0 "x")
        = some (.ok (.number 4)) := by
  decide!

/-- C5: after the program that binds `fact` to the one-parameter function with the body
`if n <= 1 then return 1 else return n * fact(n - 1) end if`, the call `fact(n)` evaluates
to the Number n! for every integer n from 0 to 18. -/
theorem fact_call_is_factorial (n : Nat) (hn : n ≤ 18) :
    factCall 400 (n : ℚ) = some (.number (n.factorial : ℚ)) := by
  revert n
  decide!

/-- C5, witness: `fact(10)` evaluates to 3628800. -/
theorem fact_call_is_factorial_witness :
    10 ≤ 18 ∧ factCall 400 ((10 : Nat) : ℚ) = some (.number ((3628800 : Nat) : ℚ)) :=
  ⟨by decide, fact_call_is_factorial 10 (by decide)⟩

/-! ### Auxiliary lemmas: machine integers, indexing, slicing -/

theorem truncQ_intCast (i : Int) : truncQ (i : ℚ) = i := by
  unfold truncQ
  split <;> simp

theorem castToInt_intCast (w : Nat) (i : Int) (h : -(2 ^ (w - 1)) ≤ i ∧ i < 2 ^ (w - 1)) :
    castToInt w (i : ℚ) = some i := by
  unfold castToInt
  rw [truncQ_intCast]
  simp [h]

theorem wrapInt_inRange (z : Int) (h : -(2 ^ 31) ≤ z ∧ z < 2 ^ 31) : wrapInt 32 z = z := by
  unfold wrapInt
  norm_num at h ⊢
  omega

theorem wrapInt_small (n : Nat) (h : n < 2 ^ 31) : wrapInt 32 (n : Int) = n := by
  unfold wrapInt
  norm_num at h ⊢
  omega

theorem indexValue_list (h : ListHeap) (p : Nat) (i : Int)
    (hi : -(2 ^ 31) ≤ i ∧ i < 2 ^ 31) (hp : (derefList h p).length < 2 ^ 31) :
    indexValue h (.list p) (.number (i : ℚ))
      = some (.ok ((indexSpec (derefList h p) i).getD .nil)) := by
  have hc : castToInt 32 (i : ℚ) = some i := castToInt_intCast 32 i (by simpa using hi)
  simp only [indexValue, Int.floor_intCast, ne_eq, not_true_eq_false, if_false, hc,
    wrapInt_small _ hp, indexSpec]
  by_cases h0 : i < 0
  · simp only [h0, if_true]
    by_cases h1 : i + ((derefList h p).length : Int) < 0
    · have : ¬ (-((derefList h p).length : Int) ≤ i) := by omega
      have h2 : ¬ (0 ≤ i) := by omega
      simp [h1, this, h2]
    · have h2 : ¬ (0 ≤ i) := by omega
      have h3 : -((derefList h p).length : Int) ≤ i := by omega
      have h4 : ¬ (i + ((derefList h p).length : Int) ≥ (derefList h p).length) := by omega
      have h5 : (i + ((derefList h p).length : Int)).toNat < (derefList h p).length := by omega
      simp [h1, h2, h3, h0, h4, List.getD_eq_getElem?_getD]
  · have h2 : 0 ≤ i := by omega
    simp only [h0, if_false]
    by_cases h1 : i ≥ ((derefList h p).length : Int)
    · have : ¬ (i < ((derefList h p).length : Int)) := by omega
      simp [h1, this, h0]
    · have h3 : i < ((derefList h p).length : Int) := by omega
      simp [h1, h2, h3, h0, List.getD_eq_getElem?_getD]


theorem indexValue_string (h : ListHeap) (str : List Char) (i : Int)
    (hi : -(2 ^ 31) ≤ i ∧ i < 2 ^ 31) (hp : str.length < 2 ^ 31) :
    indexValue h (.string str) (.number (i : ℚ))
      = some (.ok (((indexSpec str i).map fun c => Value.string [c]).getD .nil)) := by
  have hc : castToInt 32 (i : ℚ) = some i := castToInt_intCast 32 i (by simpa using hi)
  simp only [indexValue, Int.floor_intCast, ne_eq, not_true_eq_false, if_false, hc,
    wrapInt_small _ hp, indexSpec]
  by_cases h0 : i < 0
  · simp only [h0, if_true]
    by_cases h1 : i + (str.length : Int) < 0
    · have : ¬ (-(str.length : Int) ≤ i) := by omega
      have h2 : ¬ (0 ≤ i) := by omega
      simp [h1, this, h2]
    · have h2 : ¬ (0 ≤ i) := by omega
      have h3 : -(str.length : Int) ≤ i := by omega
      have h4 : ¬ (i + (str.length : Int) ≥ str.length) := by omega
      have h5 : (i + (str.length : Int)).toNat < str.length := by omega
      simp [h1, h2, h3, h0, h4, h5, List.getD_eq_getElem?_getD, List.getElem?_eq_getElem]
  · have h2 : 0 ≤ i := by omega
    simp only [h0, if_false]
    by_cases h1 : i ≥ (str.length : Int)
    · have : ¬ (i < (str.length : Int)) := by omega
      simp [h1, this, h0]
    · have h3 : i < (str.length : Int) := by omega
      have h5 : i.toNat < str.length := by omega
      simp [h1, h2, h3, h0, h5, List.getD_eq_getElem?_getD, List.getElem?_eq_getElem]

theorem indexValue_fractional (h : ListHeap) (object : Value) (x : ℚ) (hx : (⌊x⌋ : ℚ) ≠ x) :
    indexValue h object (.number x)
      = some (.error "IndexExpressionNode: index must be an integer.") := by
  simp only [indexValue, ne_eq, hx, not_false_eq_true, if_true]
  rfl

theorem indexSpec_last {α : Type} (xs : List α) (hne : xs ≠ []) :
    indexSpec xs (-1) = indexSpec xs ((xs.length : Int) - 1) ∧ (indexSpec xs (-1)).isSome
      ∧ indexSpec xs xs.length = none := by
  have hl : 0 < xs.length := List.length_pos.mpr hne
  have e1 : ((-1 : Int) + (xs.length : Int)).toNat = xs.length - 1 := by omega
  have e2 : ((xs.length : Int) - 1).toNat = xs.length - 1 := by omega
  have h1 : -(xs.length : Int) ≤ -1 := by omega
  have h2 : (0 : Int) ≤ (xs.length : Int) - 1 := by omega
  have h3 : xs.length - 1 < xs.length := by omega
  simp [indexSpec, e1, e2, h1, h2, h3, List.getElem?_eq_getElem]
theorem assignIndexPosition_int (n : Nat) (i : Int) (hi : -(2 ^ 31) ≤ i ∧ i < 2 ^ 31)
    (hn : n < 2 ^ 31) :
    assignIndexPosition n (.number (i : ℚ))
      = some (if -(n : Int) ≤ i ∧ i < n then .ok (indexPosition n i)
          else .error "AssignmentNode: list index out of bounds.") := by
  have hc : castToInt 32 (i : ℚ) = some i := castToInt_intCast 32 i (by simpa using hi)
  have hf : formatError "AssignmentNode" "list index out of bounds."
      = "AssignmentNode: list index out of bounds." := by decide
  simp only [assignIndexPosition, Int.floor_intCast, ne_eq, not_true_eq_false, if_false, hc,
    indexPosition, hf]
  by_cases h0 : i < 0
  · have hw : wrapInt 32 (i + (n : Int)) = i + n := by
      apply wrapInt_inRange
      norm_num at hi hn ⊢
      omega
    simp only [h0, if_true, hw]
    by_cases h1 : -(n : Int) ≤ i
    · have h2 : ¬ (i + (n : Int) < 0 ∨ i + (n : Int) ≥ n) := by omega
      have h3 : i < (n : Int) := by omega
      rw [if_neg h2, if_pos ⟨h1, h3⟩]
    · have h2 : (i + (n : Int) < 0 ∨ i + (n : Int) ≥ n) := by omega
      rw [if_pos h2, if_neg (fun hh => h1 hh.1)]
  · simp only [h0, if_false]
    by_cases h1 : i < (n : Int)
    · have h2 : ¬ (False ∨ i ≥ (n : Int)) := by
        rintro (hf | hg)
        · exact hf
        · omega
      have h3 : -(n : Int) ≤ i := by omega
      rw [if_neg h2, if_pos ⟨h3, h1⟩]
    · have h2 : (False ∨ i ≥ (n : Int)) := Or.inr (by omega)
      rw [if_pos h2, if_neg (fun hh => h1 hh.2)]

theorem derefList_storeElement (h : ListHeap) (p idx : Nat) (v : Value) (hp : p < h.length) :
    derefList (storeElement h p idx v) p = (derefList h p).set idx v := by
  simp [derefList, storeElement, List.getD_eq_getElem?_getD, hp]

theorem derefList_storeElement_other (h : ListHeap) (p q idx : Nat) (v : Value) (hq : q ≠ p) :
    derefList (storeElement h p idx v) q = derefList h q := by
  simp [derefList, storeElement, List.getD_eq_getElem?_getD, List.getElem?_set, Ne.symm hq]

theorem evaluate_indexAssign (fuel : Nat) (object index rhs : Expr)
    (st st1 st2 st3 : Interpreter) (rvalue : Value) (p : Nat) (iv : Value)
    (hr : evaluate fuel rhs st = .ok rvalue st1)
    (ho : evaluate fuel object st1 = .ok (.list p) st2)
    (hidx : evaluate fuel index st2 = .ok iv st3) :
    evaluate (fuel + 1) (.assignment (.indexExpr object index) TokenType.tAssign rhs) st
      = match assignIndexPosition (derefList st3.lists p).length iv with
        | some (.ok idx) => .ok rvalue { st3 with lists := storeElement st3.lists p idx rvalue }
        | some (.error e) => .throw (.runtimeError e) st3
        | none => .unsupported := by
  simp only [evaluate, hr, ho, hidx, Res.bind, liftPureOpt]
  cases assignIndexPosition (derefList st3.lists p).length iv with
  | none => rfl
  | some r => cases r <;> simp

theorem resolveSliceValue_int (a : Int) (n : Nat) (ha : -(2 ^ 63) ≤ a ∧ a < 2 ^ 63) :
    resolveSliceValue (.number (a : ℚ)) n = some (.ok (resolveBoundSpec n 0 (some a))) := by
  have hc : castToInt 64 (a : ℚ) = some a := castToInt_intCast 64 a (by simpa using ha)
  simp only [resolveSliceValue, Int.floor_intCast, ne_eq, not_true_eq_false, if_false, hc,
    resolveBoundSpec]

theorem resolve_slice_index_bound (fuel : Nat) (a : Option Int) (n : Nat) (default : Int)
    (st : Interpreter) (ha : ∀ x ∈ a, -(2 ^ 63) ≤ x ∧ x < 2 ^ 63) :
    resolve_slice_index (fuel + 2) (boundExpr a) n default st
      = .ok (resolveBoundSpec n default a) st := by
  cases a with
  | none => simp [resolve_slice_index, boundExpr, resolveBoundSpec]
  | some x =>
    have h := resolveSliceValue_int x n (ha x rfl)
    have hb : boundExpr (some x) = some (Expr.numberLit (x : ℚ)) := rfl
    rw [hb]
    simp only [resolve_slice_index, evaluate, Res.bind, h, liftPureOpt, resolveBoundSpec]

theorem resolveBoundSpec_range (n : Nat) (default : Int) (a : Option Int)
    (hd : 0 ≤ default ∧ default ≤ n) :
    0 ≤ resolveBoundSpec n default a ∧ resolveBoundSpec n default a ≤ n := by
  cases a with
  | none => simpa [resolveBoundSpec] using hd
  | some x =>
    simp only [resolveBoundSpec]
    omega

theorem drop_take_eq_filterMap {α : Type} (xs : List α) (s k : Nat) (h : s + k ≤ xs.length) :
    (xs.drop s).take k = (List.range k).filterMap fun j => xs[s + j]? := by
  induction k with
  | zero => simp
  | succ k ih =>
    have hlt : s + k < xs.length := by omega
    rw [List.range_succ, List.filterMap_append, ← ih (by omega)]
    simp only [List.filterMap_cons, List.filterMap_nil, List.getElem?_eq_getElem hlt]
    rw [List.take_succ]
    simp [List.getElem?_drop, List.getElem?_eq_getElem hlt]

theorem sliceList_eq_sliceSpec {α : Type} (xs : List α) (a b : Option Int) :
    sliceList xs (resolveBoundSpec xs.length 0 a) (resolveBoundSpec xs.length xs.length b)
      = sliceSpec xs a b := by
  have hs := resolveBoundSpec_range xs.length 0 a ⟨le_refl _, by omega⟩
  have he := resolveBoundSpec_range xs.length xs.length b ⟨by omega, le_refl _⟩
  unfold sliceList sliceSpec
  by_cases h : resolveBoundSpec xs.length 0 a < resolveBoundSpec xs.length xs.length b
  · have h2 : ¬ (resolveBoundSpec xs.length 0 a ≥ resolveBoundSpec xs.length xs.length b) := by
      omega
    rw [if_pos h, if_neg h2]
    have e : (resolveBoundSpec xs.length xs.length b - resolveBoundSpec xs.length 0 a).toNat
        = (resolveBoundSpec xs.length xs.length b).toNat
          - (resolveBoundSpec xs.length 0 a).toNat := by omega
    rw [e]
    exact drop_take_eq_filterMap xs _ _ (by omega)
  · have h2 : resolveBoundSpec xs.length 0 a ≥ resolveBoundSpec xs.length xs.length b := by
      omega
    rw [if_neg h, if_pos h2]

theorem evaluate_sliceExpr_string (f : Nat) (object : Expr) (start stop : Option Expr)
    (st st1 : Interpreter) (str : List Char)
    (ho : evaluate f object st = .ok (.string str) st1) :
    evaluate (f + 1) (.sliceExpr object start stop) st
      = (resolve_slice_index f start str.length 0 st1).bind fun s st2 =>
          (resolve_slice_index f stop str.length str.length st2).bind fun e st3 =>
            .ok (.string (sliceList str s e)) st3 := by
  simp only [evaluate, ho, Res.bind]

theorem evaluate_sliceExpr_list (f : Nat) (object : Expr) (start stop : Option Expr)
    (st st1 : Interpreter) (p : Nat)
    (ho : evaluate f object st = .ok (.list p) st1) :
    evaluate (f + 1) (.sliceExpr object start stop) st
      = (resolve_slice_index f start (derefList st1.lists p).length 0 st1).bind fun s st2 =>
          (resolve_slice_index f stop (derefList st1.lists p).length
              (derefList st1.lists p).length st2).bind fun e st3 =>
            .ok (allocList st3.lists (sliceList (derefList st3.lists p) s e)).1
              { st3 with lists :=
                  (allocList st3.lists (sliceList (derefList st3.lists p) s e)).2 } := by
  simp only [evaluate, ho, Res.bind]


/-! ### Auxiliary lemmas: scopes -/

theorem lookup_setVariable (name name1 : String) (value : Value) (vars : List (String × Value)) :
    (setVariable name value vars).lookup name1
      = if name1 = name then some value else vars.lookup name1 := by
  induction vars with
  | nil =>
    by_cases h : name1 = name
    · simp [setVariable, List.lookup, h]
    · have hb : (name1 == name) = false := by simpa using h
      simp [setVariable, List.lookup, h, hb]
  | cons kv rest ih =>
    obtain ⟨k, v⟩ := kv
    by_cases hk : k = name
    · subst hk
      by_cases h : name1 = k
      · simp [setVariable, List.lookup, h]
      · have hb : (name1 == k) = false := by simpa using h
        simp [setVariable, List.lookup, h, hb]
    · by_cases h1 : name1 = k
      · subst h1
        simp [setVariable, List.lookup, hk]
      · have hb : (name1 == k) = false := by simpa using h1
        simp [setVariable, List.lookup, hk, h1, ih, hb]

theorem lookupLocal_define (scopes : ScopeHeap) (s t : Nat) (name name1 : String)
    (value : Value) (hs : s < scopes.length) :
    Scope.lookupLocal (Scope.define scopes s name value) t name1
      = if t = s ∧ name1 = name then some value else Scope.lookupLocal scopes t name1 := by
  have hsome : scopes[s]? = some scopes[s] := List.getElem?_eq_getElem hs
  unfold Scope.lookupLocal Scope.define
  rw [hsome]
  by_cases hts : t = s
  · subst hts
    simp only [List.getElem?_set, hs, if_true, Option.bind, hsome, true_and]
    simp only [lookup_setVariable]
  · have : ¬ (t = s ∧ name1 = name) := fun h => hts h.1
    simp [List.getElem?_set, Ne.symm hts, this]

theorem parent_define (scopes : ScopeHeap) (s t : Nat) (name : String) (value : Value) :
    Scope.parent (Scope.define scopes s name value) t = Scope.parent scopes t := by
  unfold Scope.parent Scope.define
  cases hs : scopes[s]? with
  | none => rfl
  | some sc =>
    by_cases hts : t = s
    · subst hts
      have hlt : t < scopes.length := by
        by_contra hc
        rw [List.getElem?_eq_none (by omega)] at hs
        cases hs
      simp [List.getElem?_set, hlt, hs]
    · simp [List.getElem?_set, Ne.symm hts]

theorem length_define (scopes : ScopeHeap) (s : Nat) (name : String) (value : Value) :
    (Scope.define scopes s name value).length = scopes.length := by
  unfold Scope.define
  cases scopes[s]? <;> simp

theorem assignAux_eq (name : String) (value : Value) (scopes : ScopeHeap) :
    ∀ (fuel self : Nat), Scope.assignAux fuel scopes self name value
      = match (Scope.chainAux fuel scopes self).find?
            (fun s => Scope.isDefinedLocally scopes s name) with
        | some s => (true, Scope.define scopes s name value)
        | none => (false, scopes) := by
  intro fuel
  induction fuel with
  | zero => intro self; simp [Scope.assignAux, Scope.chainAux]
  | succ fuel ih =>
    intro self
    cases hs : scopes[self]? with
    | none => simp [Scope.assignAux, Scope.chainAux, hs]
    | some sc =>
      by_cases hb : (sc.vars.lookup name).isSome = true
      · simp [Scope.assignAux, Scope.chainAux, hs, hb, Scope.isDefinedLocally, Scope.define]
      · cases ho : sc.outer_scope with
        | none =>
          simp [Scope.assignAux, Scope.chainAux, hs, hb, Scope.isDefinedLocally, ho]
        | some outer =>
          simp only [Scope.assignAux, Scope.chainAux, hs, hb, ho, List.find?_cons,
            Scope.isDefinedLocally]
          simpa [hb] using ih outer

theorem getAux_eq (name : String) (scopes : ScopeHeap) :
    ∀ (fuel self : Nat), Scope.getAux fuel scopes self name
      = ((Scope.chainAux fuel scopes self).find?
            (fun s => Scope.isDefinedLocally scopes s name)).bind
          fun s => Scope.lookupLocal scopes s name := by
  intro fuel
  induction fuel with
  | zero => intro self; simp [Scope.getAux, Scope.chainAux]
  | succ fuel ih =>
    intro self
    cases hs : scopes[self]? with
    | none => simp [Scope.getAux, Scope.chainAux, hs]
    | some sc =>
      cases hl : sc.vars.lookup name with
      | some v =>
        simp [Scope.getAux, Scope.chainAux, hs, hl, Scope.isDefinedLocally, Scope.lookupLocal]
      | none =>
        cases ho : sc.outer_scope with
        | none =>
          simp [Scope.getAux, Scope.chainAux, hs, hl, Scope.isDefinedLocally, ho]
        | some outer =>
          simp only [Scope.getAux, Scope.chainAux, hs, hl, ho, List.find?_cons,
            Scope.isDefinedLocally]
          simpa using ih outer

theorem mem_chainAux (scopes : ScopeHeap) :
    ∀ (fuel self s : Nat), s ∈ Scope.chainAux fuel scopes self → s < scopes.length := by
  intro fuel
  induction fuel with
  | zero => intro self s h; simp [Scope.chainAux] at h
  | succ fuel ih =>
    intro self s h
    cases hs : scopes[self]? with
    | none => simp [Scope.chainAux, hs] at h
    | some sc =>
      have hlt : self < scopes.length := by
        by_contra hc
        rw [List.getElem?_eq_none (by omega)] at hs
        cases hs
      rw [Scope.chainAux, hs] at h
      simp only [List.mem_cons] at h
      rcases h with h | h
      · omega
      · cases ho : sc.outer_scope with
        | none => simp [ho] at h
        | some outer =>
          simp only [ho] at h
          exact ih outer s h

theorem chainAux_succ (scopes : ScopeHeap) (hwf : ScopeHeap.WellFormed scopes) :
    ∀ (fuel self : Nat), self < fuel →
      Scope.chainAux (fuel + 1) scopes self = Scope.chainAux fuel scopes self := by
  intro fuel
  induction fuel with
  | zero => intro self h; omega
  | succ fuel ih =>
    intro self hlt
    cases hs : scopes[self]? with
    | none => simp [Scope.chainAux, hs]
    | some sc =>
      cases ho : sc.outer_scope with
      | none => simp [Scope.chainAux, hs, ho]
      | some outer =>
        have hp : Scope.parent scopes self = some outer := by simp [Scope.parent, hs, ho]
        have hlt2 : outer < self := hwf self outer hp
        have := ih outer (by omega)
        rw [Scope.chainAux, hs]
        simp only [ho]
        rw [this]
        conv_rhs => rw [Scope.chainAux, hs]
        simp only [ho]

theorem chain_unfold (scopes : ScopeHeap) (hwf : ScopeHeap.WellFormed scopes) (self : Nat)
    (hself : self < scopes.length) :
    Scope.chain scopes self = self :: (match Scope.parent scopes self with
      | some outer => Scope.chain scopes outer
      | none => []) := by
  have hs : scopes[self]? = some scopes[self] := List.getElem?_eq_getElem hself
  unfold Scope.chain
  obtain ⟨n, hn⟩ : ∃ n, scopes.length = n + 1 := ⟨scopes.length - 1, by omega⟩
  rw [hn, Scope.chainAux, hs]
  cases ho : scopes[self].outer_scope with
  | none => simp [Scope.parent, hs, ho]
  | some outer =>
    have hp : Scope.parent scopes self = some outer := by simp [Scope.parent, hs, ho]
    have hlt2 : outer < self := hwf self outer hp
    simp only [hp]
    rw [chainAux_succ scopes hwf n outer (by omega)]
    simp only [ho]

theorem assign_eq_nearest (scopes : ScopeHeap) (self : Nat) (name : String) (value : Value) :
    Scope.assign scopes self name value
      = match Scope.nearest scopes self name with
        | some s => (true, Scope.define scopes s name value)
        | none => (false, scopes) :=
  assignAux_eq name value scopes scopes.length self

theorem get_eq_nearest (scopes : ScopeHeap) (self : Nat) (name : String) :
    Scope.get scopes self name
      = match (Scope.nearest scopes self name).bind fun s => Scope.lookupLocal scopes s name with
        | some v => .ok v
        | none => .error (formatError "Scope"
            ("No access to " ++ String.mk [quoteChar] ++ name ++ String.mk [quoteChar])) := by
  unfold Scope.get
  rw [getAux_eq]
  rfl

theorem evaluate_plainAssign (fuel : Nat) (name : String) (rhs : Expr)
    (st st1 : Interpreter) (v : Value) (hr : evaluate fuel rhs st = .ok v st1) :
    evaluate (fuel + 1) (.assignment (.identifier name) TokenType.tAssign rhs) st
      = .ok v (st1.withScopes (Scope.define st1.scopes
          ((Scope.nearest st1.scopes st1.m_current_scope name).getD st1.m_current_scope)
          name v)) := by
  simp only [evaluate, hr, Res.bind, assign_eq_nearest, Interpreter.withScopes]
  cases Scope.nearest st1.scopes st1.m_current_scope name <;> simp

theorem evaluate_compoundAssign (fuel : Nat) (name : String) (op type : TokenType) (rhs : Expr)
    (st st1 : Interpreter) (v : Value) (hr : evaluate fuel rhs st = .ok v st1)
    (hop : compoundOperator op = some type) :
    evaluate (fuel + 1) (.assignment (.identifier name) op rhs) st
      = (liftPure (Scope.get st1.scopes st1.m_current_scope name) st1).bind fun lvalue st2 =>
          (liftOpt (applyBinaryOperator fuel type st2.lists lvalue v) st2).bind fun w st3 =>
            Res.ok w
              { st3 with scopes := (Scope.assign st3.scopes st3.m_current_scope name w).2 } := by
  have hne : op ≠ TokenType.tAssign := by
    intro h
    rw [h] at hop
    simp [compoundOperator] at hop
  simp only [evaluate, hr, Res.bind, hne, if_false, hop]


theorem indexSpec_at_length {α : Type} (xs : List α) : indexSpec xs (xs.length : Int) = none := by
  have h0 : ¬ ((0 : Int) ≤ xs.length ∧ ((xs.length : Int) < xs.length)) := by omega
  have h1 : ¬ (-(xs.length : Int) ≤ xs.length ∧ ((xs.length : Int) < 0)) := by omega
  unfold indexSpec
  rw [if_neg h0, if_neg h1]

theorem sampleScopes_wellFormed : ScopeHeap.WellFormed sampleScopes := by
  intro t outer h
  rcases t with _ | _ | _ | t
  · simp [Scope.parent, sampleScopes] at h
  · simp [Scope.parent, sampleScopes] at h
    omega
  · simp [Scope.parent, sampleScopes] at h
    omega
  · simp [Scope.parent, sampleScopes] at h

/-! ### Index read, index assignment, slices -/

/-- C6: the index read `obj[i]` on a List (the list object `p` of the store `h`) or a String
`str` of fewer than 2^31 elements. It raises for every non-integral Number `x`. For every
integral `i` that fits an `int` it returns a value: element `i` when `0 <= i < n`, element
`i + n` when `-n <= i < 0`, and Nil otherwise (a String element is the one-character
String); in particular `L[-1]` equals `L[n - 1]` and is an element of `L` for a non-empty
`L`, and `L[n]` is Nil. -/
theorem index_read_total (h : ListHeap) (p : Nat) (str : List Char) (x : ℚ) (i : Int)
    (hx : (⌊x⌋ : ℚ) ≠ x) (hi : -(2 ^ 31) ≤ i ∧ i < 2 ^ 31)
    (hp : (derefList h p).length < 2 ^ 31) (hs : str.length < 2 ^ 31) :
    indexValue h (.list p) (.number x)
        = some (.error "IndexExpressionNode: index must be an integer.")
      ∧ indexValue h (.string str) (.number x)
        = some (.error "IndexExpressionNode: index must be an integer.")
      ∧ indexValue h (.list p) (.number (i : ℚ))
        = some (.ok ((indexSpec (derefList h p) i).getD .nil))
      ∧ indexValue h (.string str) (.number (i : ℚ))
        = some (.ok (((indexSpec str i).map fun c => Value.string [c]).getD .nil))
      ∧ (derefList h p ≠ [] →
          indexValue h (.list p) (.number ((-1 : Int) : ℚ))
            = indexValue h (.list p) (.number ((((derefList h p).length : Int) - 1 : Int) : ℚ))
          ∧ ∃ v, (derefList h p)[(derefList h p).length - 1]? = some v
            ∧ indexValue h (.list p) (.number ((-1 : Int) : ℚ)) = some (.ok v))
      ∧ indexValue h (.list p) (.number ((((derefList h p).length : Int) : Int) : ℚ))
        = some (.ok .nil) := by
  have hp2 : ((derefList h p).length : Int) < 2 ^ 31 := by exact_mod_cast hp
  refine ⟨indexValue_fractional h _ x hx, indexValue_fractional h _ x hx,
    indexValue_list h p i hi hp, indexValue_string h str i hi hs, ?_, ?_⟩
  · intro hne
    have hl : 0 < (derefList h p).length := List.length_pos.mpr hne
    have e := indexSpec_last (derefList h p) hne
    have r1 := indexValue_list h p (-1) (by norm_num) hp
    have r2 := indexValue_list h p (((derefList h p).length : Int) - 1)
      ⟨by norm_num at hp2 ⊢; omega, by omega⟩ hp
    refine ⟨by rw [r1, r2, e.1], ?_⟩
    have hlast : indexSpec (derefList h p) (-1)
        = (derefList h p)[(derefList h p).length - 1]? := by
      have h0 : ¬ ((0 : Int) ≤ -1 ∧ (-1 : Int) < ((derefList h p).length : Int)) := by omega
      have h1 : -((derefList h p).length : Int) ≤ -1 ∧ (-1 : Int) < 0 := by omega
      have e1 : ((-1 : Int) + ((derefList h p).length : Int)).toNat
          = (derefList h p).length - 1 := by omega
      unfold indexSpec
      rw [if_neg h0, if_pos h1, e1]
    obtain ⟨v, hv⟩ := Option.isSome_iff_exists.mp e.2.1
    refine ⟨v, by rw [← hlast, hv], ?_⟩
    rw [r1, hv]
    rfl
  · have r := indexValue_list h p ((derefList h p).length : Int)
      ⟨by norm_num at hp2 ⊢; omega, hp2⟩ hp
    rw [r, (indexSpec_at_length (derefList h p))]
    rfl

/-- C6, witness: on the List [10, 20, 30] the read at -1 yields 30, the read at 3 yields
Nil and the read at 0.5 raises; on the String "abc" the read at -1 yields "c". -/
theorem index_read_total_witness :
    indexValue [[.number 10, .number 20, .number 30]] (.list 0) (.number (1 / 2))
        = some (.error "IndexExpressionNode: index must be an integer.")
      ∧ indexValue [[.number 10, .number 20, .number 30]] (.list 0) (.number ((-1 : Int) : ℚ))
        = some (.ok (.number 30))
      ∧ indexValue [[.number 10, .number 20, .number 30]] (.string "abc".toList)
          (.number ((-1 : Int) : ℚ))
        = some (.ok (.string "c".toList))
      ∧ indexValue [[.number 10, .number 20, .number 30]] (.list 0) (.number ((3 : Int) : ℚ))
        = some (.ok .nil) := by
  have h := index_read_total [[.number 10, .number 20, .number 30]] 0 "abc".toList (1 / 2) (-1)
    (by decide!) (by decide) (by decide) (by decide)
  refine ⟨h.1, ?_, ?_, ?_⟩
  · rw [h.2.2.1]
    decide
  · rw [h.2.2.2.1]
    decide
  · exact h.2.2.2.2.2

/-- C7: the index assignment `L[i] = v`, where the right-hand side evaluates to `v`, the
object to the list object `p` (an object of the store, of fewer than 2^31 elements) and the
index to the integral Number `i` (within the range of `int`). When `-n <= i < n` the
assignment evaluates to `v` and replaces the element at position `k`, where `k` is `i`,
or `i + n` for a negative `i`: the length of the list, its other elements, the other list
objects and the scopes are unchanged, and a following read `L[i]` yields `v`. When
`i >= n` or `i < -n` it raises the fatal error "list index out of bounds" in the state
reached after the evaluation of the operands, so no list is changed. -/
theorem index_assignment_on_list (fuel : Nat) (object index rhs : Expr)
    (st st1 st2 st3 : Interpreter) (rvalue : Value) (p : Nat) (i : Int)
    (hr : evaluate fuel rhs st = .ok rvalue st1)
    (ho : evaluate fuel object st1 = .ok (.list p) st2)
    (hidx : evaluate fuel index st2 = .ok (.number (i : ℚ)) st3)
    (hp : p < st3.lists.length)
    (hlen : (derefList st3.lists p).length < 2 ^ 31)
    (hi : -(2 ^ 31) ≤ i ∧ i < 2 ^ 31) :
    (-((derefList st3.lists p).length : Int) ≤ i ∧ i < (derefList st3.lists p).length →
      ∃ (st4 : Interpreter) (k : Nat), evaluate (fuel + 1)
            (.assignment (.indexExpr object index) TokenType.tAssign rhs) st = .ok rvalue st4
        ∧ (k : Int) = (if i < 0 then i + (derefList st3.lists p).length else i)
        ∧ (derefList st4.lists p).length = (derefList st3.lists p).length
        ∧ (derefList st4.lists p)[k]? = some rvalue
        ∧ (∀ j, j ≠ k → (derefList st4.lists p)[j]? = (derefList st3.lists p)[j]?)
        ∧ (∀ q, q ≠ p → derefList st4.lists q = derefList st3.lists q)
        ∧ st4.scopes = st3.scopes
        ∧ indexValue st4.lists (.list p) (.number (i : ℚ)) = some (.ok rvalue))
    ∧ (i ≥ (derefList st3.lists p).length ∨ i < -((derefList st3.lists p).length : Int) →
        evaluate (fuel + 1) (.assignment (.indexExpr object index) TokenType.tAssign rhs) st
          = .throw (.runtimeError "AssignmentNode: list index out of bounds.") st3) := by
  have hev := evaluate_indexAssign fuel object index rhs st st1 st2 st3 rvalue p _ hr ho hidx
  rw [assignIndexPosition_int _ i hi hlen] at hev
  constructor
  · intro hin
    rw [if_pos hin] at hev
    have hk : indexPosition (derefList st3.lists p).length i < (derefList st3.lists p).length := by
      unfold indexPosition
      split <;> omega
    have hkz : ((indexPosition (derefList st3.lists p).length i : Nat) : Int)
        = (if i < 0 then i + (derefList st3.lists p).length else i) := by
      unfold indexPosition
      split <;> omega
    refine ⟨_, indexPosition (derefList st3.lists p).length i, hev, hkz, ?_, ?_, ?_, ?_, rfl, ?_⟩
    · simp [derefList_storeElement _ _ _ _ hp]
    · simp [derefList_storeElement _ _ _ _ hp, List.getElem?_set, hk]
    · intro j hj
      simp [derefList_storeElement _ _ _ _ hp, List.getElem?_set, Ne.symm hj]
    · intro q hq
      exact derefList_storeElement_other _ _ _ _ _ hq
    · have hlen2 : (derefList (storeElement st3.lists p
          (indexPosition (derefList st3.lists p).length i) rvalue) p).length < 2 ^ 31 := by
        simpa [derefList_storeElement _ _ _ _ hp] using hlen
      show indexValue (storeElement st3.lists p _ rvalue) (.list p) (.number (i : ℚ)) = _
      rw [indexValue_list _ _ i hi hlen2, derefList_storeElement _ _ _ _ hp]
      have e : indexSpec ((derefList st3.lists p).set
          (indexPosition (derefList st3.lists p).length i) rvalue) i = some rvalue := by
        unfold indexSpec indexPosition
        simp only [List.length_set]
        by_cases h0 : i < 0
        · have h1 : ¬ (0 ≤ i ∧ i < ((derefList st3.lists p).length : Int)) := by omega
          have h3 : (i + ((derefList st3.lists p).length : Int)).toNat
              < (derefList st3.lists p).length := by omega
          rw [if_neg h1, if_pos ⟨hin.1, h0⟩, if_pos h0]
          simp [List.getElem?_set, h3]
        · have h1 : (0 ≤ i ∧ i < ((derefList st3.lists p).length : Int)) := by omega
          have h3 : i.toNat < (derefList st3.lists p).length := by omega
          rw [if_pos h1, if_neg h0]
          simp [List.getElem?_set, h3]
      rw [e]
      rfl
  · intro hout
    have hn : ¬ (-((derefList st3.lists p).length : Int) ≤ i
        ∧ i < ((derefList st3.lists p).length : Int)) := by omega
    rw [if_neg hn] at hev
    exact hev

/-- C7, witness: `[1, 2, 3][-1] = 7` evaluates to 7 and stores 7 at position 2. -/
theorem index_assignment_on_list_witness :
    ∃ st4, evaluate 7 (.assignment
        (.indexExpr (.listLit [.numberLit 1, .numberLit 2, .numberLit 3])
          (.numberLit ((-1 : Int) : ℚ))) TokenType.tAssign (.numberLit 7)) Interpreter.initial
        = .ok (.number 7) st4
      ∧ (derefList st4.lists 0)[2]? = some (.number 7) := by
  have h := (index_assignment_on_list 6 (.listLit [.numberLit 1, .numberLit 2, .numberLit 3])
    (.numberLit ((-1 : Int) : ℚ)) (.numberLit 7) Interpreter.initial Interpreter.initial
    { Interpreter.initial with lists := [[.number 1, .number 2, .number 3]] }
    { Interpreter.initial with lists := [[.number 1, .number 2, .number 3]] }
    (.number 7) 0 (-1) rfl rfl rfl (by decide) (by decide) (by decide)).1 (by decide)
  obtain ⟨st4, k, h1, h2, _, h4, _⟩ := h
  have hk : k = 2 := by
    have : (k : Int) = 2 := by rw [h2]; decide
    omega
  subst hk
  exact ⟨st4, h1, h4⟩

/-- C8: the slice `obj[a:b]` with optional integral bounds `a` and `b` (within the range of
`long long`), where the object evaluates to a String `str` or to the list object `p`. The
result is the sub-sequence `sliceSpec`: the elements from the position `s` (inclusive) to
the position `e` (exclusive), where `s` resolves `a` (default 0) and `e` resolves `b`
(default `n`) by adding `n` to a negative bound and clamping into `[0, n]`, and the empty
sequence when `s >= e`; for a String it is a String, for a List a new list object. -/
theorem slice_matches_spec (fuel : Nat) (object : Expr) (st st1 : Interpreter)
    (a b : Option Int)
    (ha : ∀ x ∈ a, -(2 ^ 63) ≤ x ∧ x < 2 ^ 63) (hb : ∀ x ∈ b, -(2 ^ 63) ≤ x ∧ x < 2 ^ 63) :
    (∀ str, evaluate (fuel + 2) object st = .ok (.string str) st1 →
      evaluate (fuel + 3) (.sliceExpr object (boundExpr a) (boundExpr b)) st
        = .ok (.string (sliceSpec str a b)) st1)
    ∧ (∀ p, evaluate (fuel + 2) object st = .ok (.list p) st1 →
      evaluate (fuel + 3) (.sliceExpr object (boundExpr a) (boundExpr b)) st
        = .ok (.list st1.lists.length)
            { st1 with lists := st1.lists ++ [sliceSpec (derefList st1.lists p) a b] }) := by
  constructor
  · intro str ho
    rw [evaluate_sliceExpr_string (fuel + 2) object _ _ st st1 str ho]
    simp only [Res.bind, resolve_slice_index_bound _ a _ _ _ ha,
      resolve_slice_index_bound _ b _ _ _ hb, sliceList_eq_sliceSpec]
  · intro p ho
    rw [evaluate_sliceExpr_list (fuel + 2) object _ _ st st1 p ho]
    simp only [Res.bind, resolve_slice_index_bound _ a _ _ _ ha,
      resolve_slice_index_bound _ b _ _ _ hb, sliceList_eq_sliceSpec, allocList]

/-- C8, witness: `"hello"[-3:]` evaluates to "llo", and `"hello"[4:2]` to the empty String. -/
theorem slice_matches_spec_witness :
    evaluate 3 (.sliceExpr (.stringLit "hello") (boundExpr (some (-3))) (boundExpr none))
        Interpreter.initial = .ok (.string "llo".toList) Interpreter.initial
      ∧ evaluate 3 (.sliceExpr (.stringLit "hello") (boundExpr (some 4)) (boundExpr (some 2)))
        Interpreter.initial = .ok (.string []) Interpreter.initial := by
  have h1 := (slice_matches_spec 0 (.stringLit "hello") Interpreter.initial Interpreter.initial
    (some (-3)) none (by decide) (by decide)).1 "hello".toList rfl
  have h2 := (slice_matches_spec 0 (.stringLit "hello") Interpreter.initial Interpreter.initial
    (some 4) (some 2) (by decide) (by decide)).1 "hello".toList rfl
  have e1 : sliceSpec "hello".toList (some (-3)) none = "llo".toList := by decide
  have e2 : sliceSpec "hello".toList (some 4) (some 2) = [] := by decide
  rw [e1] at h1
  rw [e2] at h2
  exact ⟨h1, h2⟩

/-! ### Scopes and assignment to identifiers -/

/-- C9: assignment to the identifier `name` in the current scope `S` of a well-formed scope
store, where the right-hand side evaluates to `v`. A plain `name = v` evaluates to `v`
and writes `v` into the nearest scope of the parent chain of `S` that binds `name` when
there is one, and otherwise into `S` itself. A compound `name op= v` on a name that no
scope of the chain binds raises the fatal error of `Scope::get` and leaves the state as
it was after the evaluation of `v`; on a bound name with the value `old`, when `old op v`
is `w`, it evaluates to `w` and writes `w` into that nearest scope. A write into a scope
`s` changes the binding of `name` in `s` and nothing else: no other scope gets or loses a
binding, and no parent link changes. -/
theorem identifier_assignment_targets (fuel : Nat) (name : String) (rhs : Expr)
    (st st1 : Interpreter) (v : Value)
    (hr : evaluate fuel rhs st = .ok v st1)
    (hwf : ScopeHeap.WellFormed st1.scopes)
    (hcur : st1.m_current_scope < st1.scopes.length) :
    Scope.chain st1.scopes st1.m_current_scope
        = st1.m_current_scope :: (match Scope.parent st1.scopes st1.m_current_scope with
          | some outer => Scope.chain st1.scopes outer
          | none => [])
      ∧ (∀ s, Scope.nearest st1.scopes st1.m_current_scope name = some s →
          evaluate (fuel + 1) (.assignment (.identifier name) TokenType.tAssign rhs) st
            = .ok v { st1 with scopes := Scope.define st1.scopes s name v })
      ∧ (Scope.nearest st1.scopes st1.m_current_scope name = none →
          evaluate (fuel + 1) (.assignment (.identifier name) TokenType.tAssign rhs) st
            = .ok v
                { st1 with scopes := Scope.define st1.scopes st1.m_current_scope name v })
      ∧ (∀ op type, compoundOperator op = some type →
          Scope.nearest st1.scopes st1.m_current_scope name = none →
          evaluate (fuel + 1) (.assignment (.identifier name) op rhs) st
            = .throw (.runtimeError (formatError "Scope"
                ("No access to " ++ String.mk [quoteChar] ++ name ++ String.mk [quoteChar])))
                st1)
      ∧ (∀ op type s old w h1, compoundOperator op = some type →
          Scope.nearest st1.scopes st1.m_current_scope name = some s →
          Scope.lookupLocal st1.scopes s name = some old →
          applyBinaryOperator fuel type st1.lists old v = some (.ok (w, h1)) →
          evaluate (fuel + 1) (.assignment (.identifier name) op rhs) st
            = .ok w { st1 with lists := h1, scopes := Scope.define st1.scopes s name w })
      ∧ (∀ s t name1 w, s < st1.scopes.length →
          Scope.lookupLocal (Scope.define st1.scopes s name w) t name1
            = (if t = s ∧ name1 = name then some w else Scope.lookupLocal st1.scopes t name1)
          ∧ Scope.parent (Scope.define st1.scopes s name w) t = Scope.parent st1.scopes t) := by
  refine ⟨chain_unfold _ hwf _ hcur, ?_, ?_, ?_, ?_, ?_⟩
  · intro s hs
    rw [evaluate_plainAssign fuel name rhs st st1 v hr, hs]
    rfl
  · intro hs
    rw [evaluate_plainAssign fuel name rhs st st1 v hr, hs]
    rfl
  · intro op type hop hs
    rw [evaluate_compoundAssign fuel name op type rhs st st1 v hr hop, get_eq_nearest, hs]
    rfl
  · intro op type s old w h1 hop hs hold happ
    rw [evaluate_compoundAssign fuel name op type rhs st st1 v hr hop, get_eq_nearest, hs]
    simp only [Option.bind, hold, liftPure, Res.bind, happ, liftOpt, liftOp, assign_eq_nearest, hs]
  · intro s t name1 w hs
    exact ⟨lookupLocal_define _ s t name name1 w hs, parent_define _ s t name w⟩

/-- C9, witness: in the grandchild scope of `sampleScopes`, `x = 5` writes 5 into the child
scope, the nearest scope that binds `x` (the global `x` and the grandchild are untouched),
and `z = 5` creates `z` in the grandchild scope itself. -/
theorem identifier_assignment_targets_witness :
    evaluate 2 (.assignment (.identifier "x") TokenType.tAssign (.numberLit 5)) sampleState
        = .ok (.number 5)
            { sampleState with scopes := Scope.define sampleScopes 1 "x" (.number 5) }
      ∧ evaluate 2 (.assignment (.identifier "z") TokenType.tAssign (.numberLit 5)) sampleState
        = .ok (.number 5)
            { sampleState with scopes := Scope.define sampleScopes 2 "z" (.number 5) } :=
  ⟨(identifier_assignment_targets 1 "x" (.numberLit 5) sampleState sampleState (.number 5) rfl
      sampleScopes_wellFormed (by decide)).2.1 1 (by decide),
   (identifier_assignment_targets 1 "z" (.numberLit 5) sampleState sampleState (.number 5) rfl
      sampleScopes_wellFormed (by decide)).2.2.1 (by decide)⟩

/-- C10: `Scope::assign(name, value)` on the scope `self` of a well-formed scope store, whose
parent chain is `self`, its parent, and so on. It returns success exactly when some scope
of the chain binds `name`. On failure the store is returned unchanged. On success there
is a nearest scope `s` of the chain that binds `name`, and the only change is there: in
the new store the binding of `name` in `s` is `value`, every other binding of every scope
(of `name` further out, and of all other names) is what it was, and the parent links and
the number of scopes are unchanged. -/
theorem assign_changes_nearest_binding_only (scopes : ScopeHeap) (self : Nat) (name : String)
    (value : Value) (hwf : ScopeHeap.WellFormed scopes) (hself : self < scopes.length) :
    Scope.chain scopes self = self :: (match Scope.parent scopes self with
        | some outer => Scope.chain scopes outer
        | none => [])
      ∧ ((Scope.assign scopes self name value).1 = true
          ↔ ∃ s ∈ Scope.chain scopes self, (Scope.lookupLocal scopes s name).isSome = true)
      ∧ ((Scope.assign scopes self name value).1 = false
          → (Scope.assign scopes self name value).2 = scopes)
      ∧ ((Scope.assign scopes self name value).1 = true →
          ∃ s, Scope.nearest scopes self name = some s
            ∧ (∀ t name1, Scope.lookupLocal (Scope.assign scopes self name value).2 t name1
                = if t = s ∧ name1 = name then some value else Scope.lookupLocal scopes t name1)
            ∧ (∀ t, Scope.parent (Scope.assign scopes self name value).2 t
                = Scope.parent scopes t)
            ∧ (Scope.assign scopes self name value).2.length = scopes.length) := by
  have hd : ∀ s, Scope.isDefinedLocally scopes s name = (Scope.lookupLocal scopes s name).isSome := by
    intro s
    unfold Scope.isDefinedLocally Scope.lookupLocal
    cases scopes[s]? <;> rfl
  have hmem : ∀ s ∈ Scope.chain scopes self, s < scopes.length :=
    fun s hs => mem_chainAux scopes _ self s hs
  have key := assignAux_eq name value scopes scopes.length self
  refine ⟨chain_unfold scopes hwf self hself, ?_, ?_, ?_⟩
  · unfold Scope.assign
    rw [key]
    cases hf : (Scope.chainAux scopes.length scopes self).find?
        (fun s => Scope.isDefinedLocally scopes s name) with
    | none =>
      simp only [Bool.false_eq_true, false_iff, not_exists, not_and]
      intro s hs
      have := List.find?_eq_none.mp hf s hs
      simpa [hd] using this
    | some s =>
      simp only [true_iff]
      refine ⟨s, List.mem_of_find?_eq_some hf, ?_⟩
      have := List.find?_some hf
      simpa [hd] using this
  · unfold Scope.assign
    rw [key]
    cases hf : (Scope.chainAux scopes.length scopes self).find?
        (fun s => Scope.isDefinedLocally scopes s name) with
    | none => simp
    | some s => simp
  · unfold Scope.assign
    rw [key]
    cases hf : (Scope.chainAux scopes.length scopes self).find?
        (fun s => Scope.isDefinedLocally scopes s name) with
    | none => simp
    | some s =>
      intro _
      have hs : s < scopes.length := hmem s (List.mem_of_find?_eq_some hf)
      refine ⟨s, hf, ?_, ?_, ?_⟩
      · intro t name1
        exact lookupLocal_define scopes s t name name1 value hs
      · intro t
        exact parent_define scopes s t name value
      · exact length_define scopes s name value


/-- C10, witness: in `sampleScopes`, assigning 9 to `x` from the grandchild scope succeeds
and changes the binding of `x` in the child scope only: the global `x` is still 1. -/
theorem assign_changes_nearest_binding_only_witness :
    (Scope.assign sampleScopes 2 "x" (.number 9)).1 = true
      ∧ Scope.lookupLocal (Scope.assign sampleScopes 2 "x" (.number 9)).2 1 "x"
        = some (.number 9)
      ∧ Scope.lookupLocal (Scope.assign sampleScopes 2 "x" (.number 9)).2 0 "x"
        = some (.number 1) := by
  have h := assign_changes_nearest_binding_only sampleScopes 2 "x" (.number 9)
    sampleScopes_wellFormed (by decide)
  have hb : (Scope.assign sampleScopes 2 "x" (.number 9)).1 = true := by decide
  obtain ⟨s, hs, hl, _, _⟩ := h.2.2.2 hb
  have hs1 : s = 1 := by
    have : Scope.nearest sampleScopes 2 "x" = some 1 := by decide
    rw [this] at hs
    exact (Option.some.inj hs).symm
  subst hs1
  refine ⟨hb, ?_, ?_⟩
  · rw [hl 1 "x"]
    decide
  · rw [hl 0 "x"]
    decide

/-! ### Equality of syntax trees -/

mutual
theorem expr_eq_of_beq : ∀ (a b : Expr), Expr.beq a b = true → a = b
  | .numberLit a, b, h => by
    cases b <;> simp only [Expr.beq, Bool.false_eq_true, decide_eq_true_eq] at h
    rw [h]
  | .stringLit a, b, h => by
    cases b <;> simp only [Expr.beq, Bool.false_eq_true, decide_eq_true_eq] at h
    rw [h]
  | .booleanLit a, b, h => by
    cases b <;> simp only [Expr.beq, Bool.false_eq_true, decide_eq_true_eq] at h
    rw [h]
  | .nilLit, b, h => by
    cases b <;> simp only [Expr.beq, Bool.false_eq_true] at h
    rfl
  | .identifier a, b, h => by
    cases b <;> simp only [Expr.beq, Bool.false_eq_true, decide_eq_true_eq] at h
    rw [h]
  | .listLit a, b, h => by
    cases b <;> simp only [Expr.beq, Bool.false_eq_true] at h
    rw [exprList_eq_of_beq a _ h]
  | .functionLit p a, b, h => by
    cases b <;> simp only [Expr.beq, Bool.false_eq_true, Bool.and_eq_true, decide_eq_true_eq] at h
    rw [h.1, stmtList_eq_of_beq a _ h.2]
  | .binaryOp o a1 a2, b, h => by
    cases b <;> simp only [Expr.beq, Bool.false_eq_true, Bool.and_eq_true, decide_eq_true_eq] at h
    rw [h.1, expr_eq_of_beq a1 _ h.2.1, expr_eq_of_beq a2 _ h.2.2]
  | .unaryOp o a, b, h => by
    cases b <;> simp only [Expr.beq, Bool.false_eq_true, Bool.and_eq_true, decide_eq_true_eq] at h
    rw [h.1, expr_eq_of_beq a _ h.2]
  | .assignment a1 o a2, b, h => by
    cases b <;> simp only [Expr.beq, Bool.false_eq_true, Bool.and_eq_true, decide_eq_true_eq] at h
    rw [h.1, expr_eq_of_beq a1 _ h.2.1, expr_eq_of_beq a2 _ h.2.2]
  | .functionCall a as l, b, h => by
    cases b <;> simp only [Expr.beq, Bool.false_eq_true, Bool.and_eq_true, decide_eq_true_eq] at h
    rw [h.1, expr_eq_of_beq a _ h.2.1, exprList_eq_of_beq as _ h.2.2]
  | .indexExpr a1 a2, b, h => by
    cases b <;> simp only [Expr.beq, Bool.false_eq_true, Bool.and_eq_true] at h
    rw [expr_eq_of_beq a1 _ h.1, expr_eq_of_beq a2 _ h.2]
  | .sliceExpr a a1 a2, b, h => by
    cases b <;> simp only [Expr.beq, Bool.false_eq_true, Bool.and_eq_true] at h
    rw [expr_eq_of_beq a _ h.1, exprOption_eq_of_beq a1 _ h.2.1,
      exprOption_eq_of_beq a2 _ h.2.2]
theorem exprList_eq_of_beq : ∀ (a b : List Expr), Expr.beqList a b = true → a = b
  | [], b, h => by
    cases b <;> simp only [Expr.beqList, List.isEmpty, Bool.false_eq_true] at h
    rfl
  | a :: as, b, h => by
    cases b <;> simp only [Expr.beqList, Bool.false_eq_true, Bool.and_eq_true] at h
    rw [expr_eq_of_beq a _ h.1, exprList_eq_of_beq as _ h.2]
theorem exprOption_eq_of_beq : ∀ (a b : Option Expr), Expr.beqOption a b = true → a = b
  | none, b, h => by
    cases b <;> simp only [Expr.beqOption, Option.isNone, Bool.false_eq_true] at h
    rfl
  | some a, b, h => by
    cases b <;> simp only [Expr.beqOption, Bool.false_eq_true] at h
    rw [expr_eq_of_beq a _ h]
theorem stmt_eq_of_beq : ∀ (a b : Stmt), Stmt.beq a b = true → a = b
  | .expressionStmt a, b, h => by
    cases b <;> simp only [Stmt.beq, Bool.false_eq_true] at h
    rw [expr_eq_of_beq a _ h]
  | .block a, b, h => by
    cases b <;> simp only [Stmt.beq, Bool.false_eq_true] at h
    rw [stmtList_eq_of_beq a _ h]
  | .ifStmt c a e, b, h => by
    cases b <;> simp only [Stmt.beq, Bool.false_eq_true, Bool.and_eq_true] at h
    rw [expr_eq_of_beq c _ h.1, stmtList_eq_of_beq a _ h.2.1, stmtOption_eq_of_beq e _ h.2.2]
  | .whileStmt c a l, b, h => by
    cases b <;> simp only [Stmt.beq, Bool.false_eq_true, Bool.and_eq_true, decide_eq_true_eq] at h
    rw [h.1, expr_eq_of_beq c _ h.2.1, stmtList_eq_of_beq a _ h.2.2]
  | .forStmt v i a l, b, h => by
    cases b <;> simp only [Stmt.beq, Bool.false_eq_true, Bool.and_eq_true, decide_eq_true_eq] at h
    rw [h.1, h.2.1, expr_eq_of_beq i _ h.2.2.1, stmtList_eq_of_beq a _ h.2.2.2]
  | .returnStmt a, b, h => by
    cases b <;> simp only [Stmt.beq, Bool.false_eq_true] at h
    rw [exprOption_eq_of_beq a _ h]
  | .breakStmt, b, h => by
    cases b <;> simp only [Stmt.beq, Bool.false_eq_true] at h
    rfl
  | .continueStmt, b, h => by
    cases b <;> simp only [Stmt.beq, Bool.false_eq_true] at h
    rfl
theorem stmtList_eq_of_beq : ∀ (a b : List Stmt), Stmt.beqList a b = true → a = b
  | [], b, h => by
    cases b <;> simp only [Stmt.beqList, List.isEmpty, Bool.false_eq_true] at h
    rfl
  | a :: as, b, h => by
    cases b <;> simp only [Stmt.beqList, Bool.false_eq_true, Bool.and_eq_true] at h
    rw [stmt_eq_of_beq a _ h.1, stmtList_eq_of_beq as _ h.2]
theorem stmtOption_eq_of_beq : ∀ (a b : Option Stmt), Stmt.beqOption a b = true → a = b
  | none, b, h => by
    cases b <;> simp only [Stmt.beqOption, Option.isNone, Bool.false_eq_true] at h
    rfl
  | some a, b, h => by
    cases b <;> simp only [Stmt.beqOption, Bool.false_eq_true] at h
    rw [stmt_eq_of_beq a _ h]
end

theorem parsedProgram_of_parsesTo (fuel : Nat) (source : String) (expected : List Stmt)
    (h : parsesTo fuel source expected = true) : parsedProgram fuel source = some expected := by
  unfold parsesTo at h
  cases hp : parsedProgram fuel source with
  | none => rw [hp] at h; cases h
  | some program =>
    rw [hp] at h
    rw [stmtList_eq_of_beq program expected h]

/-! ### Calls, return, loops -/

theorem callFunction_user (fuel f : Nat) (args : List Value) (st : Interpreter)
    (parameters : List String) (body : List Stmt)
    (hf : st.functions[f]? = some (Function.user parameters body))
    (hlen : args.length = parameters.length) :
    callFunction (fuel + 1) f args st
      = callResult st.m_current_scope
          (executeBlock fuel body st.scopes.length (callEntry st parameters args)) := by
  simp only [callFunction, hf, hlen, ne_eq, not_true_eq_false, if_false, newScope]
  unfold callEntry callEntryScopes callResult
  split <;> simp_all

theorem parent_defineParameters (parameters : List String) :
    ∀ (args : List Value) (scopes : ScopeHeap) (self t : Nat),
      Scope.parent (defineParameters scopes self parameters args) t = Scope.parent scopes t := by
  induction parameters with
  | nil => intro args scopes self t; simp [defineParameters]
  | cons name names ih =>
    intro args scopes self t
    cases args with
    | nil => simp [defineParameters]
    | cons arg args =>
      simp only [defineParameters]
      rw [ih]
      unfold Scope.parent Scope.define
      cases hs : scopes[self]? with
      | none => rfl
      | some sc =>
        by_cases hts : t = self
        · subst hts
          have hlt : t < scopes.length := by
            by_contra hc
            rw [List.getElem?_eq_none (by omega)] at hs
            cases hs
          simp [List.getElem?_set, hlt, hs]
        · simp [List.getElem?_set, Ne.symm hts]

theorem execute_returnStmt_none (f : Nat) (st : Interpreter) :
    execute (f + 1) (.returnStmt none) st = .throw (.returnValue .nil) st := by
  simp only [execute]

theorem execute_returnStmt_some (f : Nat) (e : Expr) (st st1 : Interpreter) (v : Value)
    (he : evaluate f e st = .ok v st1) :
    execute (f + 1) (.returnStmt (some e)) st = .throw (.returnValue v) st1 := by
  simp only [execute, he, Res.bind]

theorem executeStatements_throw (f : Nat) (node : Stmt) (rest : List Stmt)
    (st st1 : Interpreter) (sig : Signal) (h : execute f node st = .throw sig st1) :
    executeStatements (f + 1) (node :: rest) st = .throw sig st1 := by
  simp only [executeStatements, h, Res.bind]

theorem executeStatements_ok (f : Nat) (node : Stmt) (rest : List Stmt)
    (st st1 : Interpreter) (h : execute f node st = .ok () st1) :
    executeStatements (f + 1) (node :: rest) st = executeStatements f rest st1 := by
  simp only [executeStatements, h, Res.bind]

theorem executeBlock_throw (f : Nat) (statements : List Stmt) (env : Nat)
    (st st1 : Interpreter) (sig : Signal)
    (h : executeStatements f statements { st with m_current_scope := env } = .throw sig st1) :
    executeBlock (f + 1) statements env st = .throw sig st1 := by
  simp only [executeBlock, h, Res.bind]

theorem execute_ifStmt_then (f : Nat) (condition : Expr) (thenBranch : List Stmt)
    (elseBranch : Option Stmt) (st st1 : Interpreter)
    (hc : evaluate f condition st = .ok (.bool true) st1) :
    execute (f + 1) (.ifStmt condition thenBranch elseBranch) st
      = executeBlock f thenBranch st1.scopes.length (ifEntry st1) := by
  simp [execute, hc, Res.bind, liftPure, Value.asBool, newScope, ifEntry, withChildScope]

theorem execute_ifStmt_elseBlock (f : Nat) (condition : Expr) (thenBranch elseBlock : List Stmt)
    (st st1 : Interpreter) (hc : evaluate f condition st = .ok (.bool false) st1) :
    execute (f + 1) (.ifStmt condition thenBranch (some (.block elseBlock))) st
      = executeBlock f elseBlock st1.scopes.length (ifEntry st1) := by
  simp [execute, hc, Res.bind, liftPure, Value.asBool, newScope, ifEntry, withChildScope]

theorem execute_ifStmt_elseIf (f : Nat) (condition : Expr) (thenBranch : List Stmt)
    (c2 : Expr) (t2 : List Stmt) (e2 : Option Stmt) (st st1 : Interpreter)
    (hc : evaluate f condition st = .ok (.bool false) st1) :
    execute (f + 1) (.ifStmt condition thenBranch (some (.ifStmt c2 t2 e2))) st
      = execute f (.ifStmt c2 t2 e2) (ifEntry st1) := by
  simp [execute, hc, Res.bind, liftPure, Value.asBool, newScope, ifEntry, withChildScope]

theorem execute_ifStmt_noElse (f : Nat) (condition : Expr) (thenBranch : List Stmt)
    (st st1 : Interpreter) (hc : evaluate f condition st = .ok (.bool false) st1) :
    execute (f + 1) (.ifStmt condition thenBranch none) st = .ok () (ifEntry st1) := by
  simp [execute, hc, Res.bind, liftPure, Value.asBool, newScope, ifEntry, withChildScope]

theorem execute_whileStmt (f : Nat) (condition : Expr) (body : List Stmt) (line : Nat)
    (st : Interpreter) :
    execute (f + 1) (.whileStmt condition body line) st
      = whileLoop f condition body st.m_current_scope (pushCall st (Frame.whileFrame line)) := by
  simp only [execute]

theorem execute_forStmt_list (f : Nat) (loopVariable : String) (iterable : Expr)
    (body : List Stmt) (line : Nat) (st st1 : Interpreter) (p : Nat)
    (hi : evaluate f iterable st = .ok (.list p) st1) :
    execute (f + 1) (.forStmt loopVariable iterable body line) st
      = forListLoop f loopVariable body p 0 (derefList st1.lists p).length
          (pushCall st1 (Frame.forFrame line)) := by
  simp only [execute, hi, Res.bind]

theorem execute_forStmt_string (f : Nat) (loopVariable : String) (iterable : Expr)
    (body : List Stmt) (line : Nat) (st st1 : Interpreter) (str : List Char)
    (hi : evaluate f iterable st = .ok (.string str) st1) :
    execute (f + 1) (.forStmt loopVariable iterable body line) st
      = forStringLoop f loopVariable body str (pushCall st1 (Frame.forFrame line)) := by
  simp only [execute, hi, Res.bind]

theorem execute_forStmt_other (f : Nat) (loopVariable : String) (iterable : Expr)
    (body : List Stmt) (line : Nat) (st st1 : Interpreter) (v : Value)
    (hi : evaluate f iterable st = .ok v st1)
    (hv : v.getType ≠ ValueType.kList ∧ v.getType ≠ ValueType.kString) :
    execute (f + 1) (.forStmt loopVariable iterable body line) st
      = .throw (.runtimeError (formatError "ForStatementNode"
          "for loop can only iterate over lists and strings.")) st1 := by
  cases v <;> simp_all [execute, Res.bind, Value.getType]

theorem whileLoop_return (f : Nat) (condition : Expr) (body : List Stmt) (outer : Nat)
    (st st1 st4 : Interpreter) (v : Value)
    (hc : evaluate f condition st = .ok (.bool true) st1)
    (hb : executeBlock f body st1.scopes.length (whileEntry st1 outer)
        = .throw (.returnValue v) st4) :
    whileLoop (f + 1) condition body outer st
      = .throw (.returnValue v) (popCall { st4 with m_current_scope := outer }) := by
  simp only [whileEntry, withChildScope] at hb
  simp only [whileLoop, hc, Res.bind, liftPure, Value.asBool, if_true, newScope, hb]

theorem forListLoop_return (f : Nat) (loopVariable : String) (body : List Stmt) (p i n : Nat)
    (st st3 : Interpreter) (v : Value) (hi : i < n)
    (hb : executeBlock f body st.scopes.length
        (forEntry st loopVariable ((derefList st.lists p).getD i .nil))
      = .throw (.returnValue v) st3) :
    forListLoop (f + 1) loopVariable body p i n st = .throw (.returnValue v) (popCall st3) := by
  simp only [forEntry, forEntryScopes, withChildScope] at hb
  simp only [forListLoop, hi, if_true, newScope, hb]

theorem forStringLoop_return (f : Nat) (loopVariable : String) (body : List Stmt) (c : Char)
    (rest : List Char) (st st3 : Interpreter) (v : Value)
    (hb : executeBlock f body st.scopes.length (forEntry st loopVariable (.string [c]))
      = .throw (.returnValue v) st3) :
    forStringLoop (f + 1) loopVariable body (c :: rest) st
      = .throw (.returnValue v) (popCall st3) := by
  simp only [forEntry, forEntryScopes, withChildScope] at hb
  simp only [forStringLoop, newScope, hb]

theorem whileLoop_break (f : Nat) (condition : Expr) (body : List Stmt) (outer : Nat)
    (st st1 st4 : Interpreter)
    (hc : evaluate f condition st = .ok (.bool true) st1)
    (hb : executeBlock f body st1.scopes.length (whileEntry st1 outer)
        = .throw .breakSignal st4) :
    whileLoop (f + 1) condition body outer st
      = .ok () (popCall { st4 with m_current_scope := outer }) := by
  simp only [whileEntry, withChildScope] at hb
  simp only [whileLoop, hc, Res.bind, liftPure, Value.asBool, if_true, newScope, hb]

theorem whileLoop_next (f : Nat) (condition : Expr) (body : List Stmt) (outer : Nat)
    (st st1 st4 : Interpreter)
    (hc : evaluate f condition st = .ok (.bool true) st1)
    (hb : executeBlock f body st1.scopes.length (whileEntry st1 outer) = .ok () st4
      ∨ executeBlock f body st1.scopes.length (whileEntry st1 outer)
        = .throw .continueSignal st4) :
    whileLoop (f + 1) condition body outer st = whileLoop f condition body outer st4 := by
  simp only [whileEntry, withChildScope] at hb
  rcases hb with hb | hb <;>
    simp only [whileLoop, hc, Res.bind, liftPure, Value.asBool, if_true, newScope, hb]

theorem whileLoop_false (f : Nat) (condition : Expr) (body : List Stmt) (outer : Nat)
    (st st1 : Interpreter) (hc : evaluate f condition st = .ok (.bool false) st1) :
    whileLoop (f + 1) condition body outer st
      = .ok () (popCall { st1 with m_current_scope := outer }) := by
  simp [whileLoop, hc, Res.bind, liftPure, Value.asBool]

theorem whileLoop_iterations (f : Nat) (condition : Expr) (body : List Stmt) (outer : Nat)
    (st4 : Interpreter) :
    ∀ (k : Nat) (s c : Nat → Interpreter),
      (∀ j, j ≤ k → evaluate (f + (k - j)) condition (s j) = .ok (.bool true) (c j)) →
      (∀ j, j < k →
        executeBlock (f + (k - j)) body (c j).scopes.length (whileEntry (c j) outer)
            = .ok () (s (j + 1))
          ∨ executeBlock (f + (k - j)) body (c j).scopes.length (whileEntry (c j) outer)
            = .throw .continueSignal (s (j + 1))) →
      executeBlock f body (c k).scopes.length (whileEntry (c k) outer)
        = .throw .breakSignal st4 →
      whileLoop (f + k + 1) condition body outer (s 0)
        = .ok () (popCall { st4 with m_current_scope := outer }) := by
  intro k
  induction k with
  | zero =>
    intro s c hcond _ hbreak
    exact whileLoop_break f condition body outer (s 0) (c 0) st4 (hcond 0 (le_refl 0)) hbreak
  | succ k ih =>
    intro s c hcond hbody hbreak
    have h0 := hcond 0 (Nat.zero_le _)
    have hb0 := hbody 0 (Nat.succ_pos k)
    simp only [Nat.sub_zero] at h0 hb0
    have e : f + (k + 1) + 1 = (f + (k + 1)) + 1 := rfl
    rw [e, whileLoop_next (f + (k + 1)) condition body outer (s 0) (c 0) (s (0 + 1)) h0 hb0]
    have := ih (fun j => s (j + 1)) (fun j => c (j + 1))
      (fun j hj => by
        have := hcond (j + 1) (Nat.succ_le_succ hj)
        simpa [Nat.succ_sub_succ] using this)
      (fun j hj => by
        have := hbody (j + 1) (Nat.succ_lt_succ hj)
        simpa [Nat.succ_sub_succ] using this)
      hbreak
    simpa using this

theorem executeBlock_ok_scope (f : Nat) (statements : List Stmt) (env : Nat)
    (st st1 : Interpreter) (h : executeBlock f statements env st = .ok () st1) :
    st1.m_current_scope = st.m_current_scope := by
  cases f with
  | zero => simp [executeBlock] at h
  | succ f =>
    simp only [executeBlock] at h
    cases hs : executeStatements f statements { st with m_current_scope := env } with
    | ok a st2 =>
      rw [hs] at h
      simp only [Res.bind, Res.ok.injEq, true_and] at h
      rw [← h]
    | throw sig st2 => rw [hs] at h; simp [Res.bind] at h
    | outOfFuel => rw [hs] at h; simp [Res.bind] at h
    | unsupported => rw [hs] at h; simp [Res.bind] at h

theorem forListLoop_next (f : Nat) (loopVariable : String) (body : List Stmt) (p i n : Nat)
    (st st3 : Interpreter) (hi : i < n)
    (hb : executeBlock f body st.scopes.length
          (forEntry st loopVariable ((derefList st.lists p).getD i .nil)) = .ok () st3
      ∨ executeBlock f body st.scopes.length
          (forEntry st loopVariable ((derefList st.lists p).getD i .nil))
        = .throw .continueSignal st3) :
    forListLoop (f + 1) loopVariable body p i n st
      = forListLoop f loopVariable body p (i + 1) n st3 := by
  simp only [forEntry, forEntryScopes, withChildScope] at hb
  rcases hb with hb | hb <;> simp only [forListLoop, hi, if_true, newScope, hb]

theorem forListLoop_end (f : Nat) (loopVariable : String) (body : List Stmt) (p i n : Nat)
    (st : Interpreter) (hi : ¬ i < n) :
    forListLoop (f + 1) loopVariable body p i n st = .ok () (popCall st) := by
  simp only [forListLoop, hi, if_false]

theorem forStringLoop_next (f : Nat) (loopVariable : String) (body : List Stmt) (c : Char)
    (rest : List Char) (st st3 : Interpreter)
    (hb : executeBlock f body st.scopes.length (forEntry st loopVariable (.string [c]))
        = .ok () st3
      ∨ executeBlock f body st.scopes.length (forEntry st loopVariable (.string [c]))
        = .throw .continueSignal st3) :
    forStringLoop (f + 1) loopVariable body (c :: rest) st
      = forStringLoop f loopVariable body rest st3 := by
  simp only [forEntry, forEntryScopes, withChildScope] at hb
  rcases hb with hb | hb <;> simp only [forStringLoop, newScope, hb]

theorem forStringLoop_end (f : Nat) (loopVariable : String) (body : List Stmt)
    (st : Interpreter) :
    forStringLoop (f + 1) loopVariable body [] st = .ok () (popCall st) := by
  simp only [forStringLoop]

theorem forListLoop_iterations (f : Nat) (loopVariable : String) (body : List Stmt) (p : Nat) :
    ∀ (m i : Nat) (s : Nat → Interpreter),
      (∀ j, j < m →
        executeBlock (f + (m - j)) body (s j).scopes.length
            (forEntry (s j) loopVariable ((derefList (s j).lists p).getD (i + j) .nil))
          = .ok () (s (j + 1))) →
      forListLoop (f + m + 1) loopVariable body p i (i + m) (s 0) = .ok () (popCall (s m)) := by
  intro m
  induction m with
  | zero =>
    intro i s _
    exact forListLoop_end f loopVariable body p i (i + 0) (s 0) (by omega)
  | succ m ih =>
    intro i s hbody
    have hb0 := hbody 0 (Nat.succ_pos m)
    simp only [Nat.sub_zero, Nat.add_zero] at hb0
    have e : f + (m + 1) + 1 = (f + (m + 1)) + 1 := rfl
    rw [e, forListLoop_next (f + (m + 1)) loopVariable body p i (i + (m + 1)) (s 0) (s (0 + 1))
      (by omega) (Or.inl hb0)]
    have := ih (i + 1) (fun j => s (j + 1)) (fun j hj => by
      have := hbody (j + 1) (Nat.succ_lt_succ hj)
      simpa [Nat.succ_sub_succ, Nat.add_assoc, Nat.add_comm 1 j] using this)
    simpa [Nat.add_assoc, Nat.add_comm 1 m] using this

theorem forStringLoop_iterations (f : Nat) (loopVariable : String) (body : List Stmt) :
    ∀ (str : List Char) (s : Nat → Interpreter),
      (∀ j c, str[j]? = some c →
        executeBlock (f + (str.length - j)) body (s j).scopes.length
            (forEntry (s j) loopVariable (.string [c]))
          = .ok () (s (j + 1))) →
      forStringLoop (f + str.length + 1) loopVariable body str (s 0)
        = .ok () (popCall (s str.length)) := by
  intro str
  induction str with
  | nil =>
    intro s _
    exact forStringLoop_end f loopVariable body (s 0)
  | cons c rest ih =>
    intro s hbody
    have hb0 := hbody 0 c (by simp)
    simp only [Nat.sub_zero, List.length_cons] at hb0
    have e : f + (c :: rest).length + 1 = (f + (rest.length + 1)) + 1 := rfl
    rw [e, forStringLoop_next (f + (rest.length + 1)) loopVariable body c rest (s 0) (s (0 + 1))
      (Or.inl hb0)]
    have := ih (fun j => s (j + 1)) (fun j d hj => by
      have := hbody (j + 1) d (by simpa using hj)
      simpa [Nat.succ_sub_succ] using this)
    simpa using this

theorem forEntry_scope (st : Interpreter) (loopVariable : String) (element : Value) :
    (forEntry st loopVariable element).scopes.length = st.scopes.length + 1
      ∧ Scope.lookupLocal (forEntry st loopVariable element).scopes st.scopes.length
          loopVariable = some element
      ∧ Scope.parent (forEntry st loopVariable element).scopes st.scopes.length
          = some st.m_current_scope
      ∧ (forEntry st loopVariable element).m_current_scope = st.m_current_scope := by
  refine ⟨?_, ?_, ?_, rfl⟩
  · simp [forEntry, forEntryScopes, withChildScope, length_define]
  · show Scope.lookupLocal (forEntryScopes st loopVariable element) _ _ = _
    unfold forEntryScopes
    rw [lookupLocal_define _ _ _ _ _ _ (by simp [withChildScope])]
    simp
  · show Scope.parent (forEntryScopes st loopVariable element) _ = _
    unfold forEntryScopes
    rw [parent_define]
    simp [Scope.parent, withChildScope]

theorem iteration_scope (body : List Stmt) (s : Nat → Interpreter) (n : Nat)
    (entry : Nat → Interpreter) (he : ∀ j, (entry j).m_current_scope = (s j).m_current_scope)
    (hbody : ∀ j, j < n →
      ∃ g, executeBlock g body (s j).scopes.length (entry j) = .ok () (s (j + 1))) :
    ∀ j, j ≤ n → (s j).m_current_scope = (s 0).m_current_scope := by
  intro j
  induction j with
  | zero => intro _; rfl
  | succ j ih =>
    intro hj
    obtain ⟨g, hg⟩ := hbody j (by omega)
    rw [executeBlock_ok_scope g body _ _ _ hg, he, ih (by omega)]

theorem evaluate_functionCall_guard (f : Nat) (callee : Expr) (arguments : List Expr)
    (line : Nat) (st : Interpreter) (hd : MAX_RECURSION_DEPTH ≤ st.m_recursion_depth) :
    evaluate (f + 1) (.functionCall callee arguments line) st = .throw stackOverflow st := by
  simp only [evaluate, ge_iff_le, hd, if_true, stackOverflow]

theorem leakBody_step (f env : Nat) (st : Interpreter)
    (hd : st.m_recursion_depth < MAX_RECURSION_DEPTH) :
    ∃ st1, executeBlock (f + 8) leakBody env st = .throw .continueSignal st1
      ∧ st1.m_recursion_depth = st.m_recursion_depth + 1 := by
  have hd1 : ¬ MAX_RECURSION_DEPTH ≤ st.m_recursion_depth := by omega
  simp only [leakBody, executeBlock, executeStatements, execute, evaluate, evaluateAll,
    callFunction, Res.bind, ge_iff_le, hd1, if_false, pushCall, newScope, defineParameters]
  simp

theorem leakBody_guard (f env : Nat) (st : Interpreter)
    (hd : MAX_RECURSION_DEPTH ≤ st.m_recursion_depth) :
    executeBlock (f + 4) leakBody env st
      = .throw stackOverflow { st with m_current_scope := env } := by
  simp only [leakBody, executeBlock, executeStatements, execute, Res.bind]
  rw [evaluate_functionCall_guard f _ _ _ { st with m_current_scope := env } hd]

theorem whileLoop_error (f : Nat) (condition : Expr) (body : List Stmt) (outer : Nat)
    (st st1 st4 : Interpreter) (message : String)
    (hc : evaluate f condition st = .ok (.bool true) st1)
    (hb : executeBlock f body st1.scopes.length (whileEntry st1 outer)
        = .throw (.runtimeError message) st4) :
    whileLoop (f + 1) condition body outer st
      = .throw (.runtimeError message) (popCall { st4 with m_current_scope := outer }) := by
  simp only [whileEntry, withChildScope] at hb
  simp only [whileLoop, hc, Res.bind, liftPure, Value.asBool, if_true, newScope, hb]

theorem leak_loop (outer : Nat) :
    ∀ (k f : Nat) (st : Interpreter), st.m_recursion_depth + k = MAX_RECURSION_DEPTH →
      (whileLoop (f + k + 9) (.booleanLit true) leakBody outer st).thrown
        = some stackOverflow := by
  intro k
  induction k with
  | zero =>
    intro f st hd
    have hc : evaluate (f + 8) (.booleanLit true) st = .ok (.bool true) st := by
      simp only [evaluate]
    have hd0 : MAX_RECURSION_DEPTH ≤ (whileEntry st outer).m_recursion_depth :=
      (show MAX_RECURSION_DEPTH ≤ st.m_recursion_depth by omega)
    have hb := leakBody_guard (f + 4) st.scopes.length (whileEntry st outer) hd0
    have e : f + 0 + 9 = (f + 8) + 1 := rfl
    rw [e, whileLoop_error (f + 8) _ _ outer st st _ _ hc hb]
    rfl
  | succ k ih =>
    intro f st hd
    have hc : evaluate (f + (k + 1) + 8) (.booleanLit true) st = .ok (.bool true) st := by
      simp only [evaluate]
    have hd0 : (whileEntry st outer).m_recursion_depth < MAX_RECURSION_DEPTH :=
      (show st.m_recursion_depth < MAX_RECURSION_DEPTH by omega)
    obtain ⟨st1, hb, hd1⟩ := leakBody_step (f + (k + 1)) st.scopes.length (whileEntry st outer)
      hd0
    have e : f + (k + 1) + 9 = (f + (k + 1) + 8) + 1 := rfl
    rw [e, whileLoop_next (f + (k + 1) + 8) _ _ outer st st st1 hc (Or.inr hb)]
    have hd2 : st1.m_recursion_depth = st.m_recursion_depth + 1 := hd1
    have := ih f st1 (by omega)
    have e2 : f + (k + 1) + 8 = f + k + 9 := by omega
    rw [e2]
    exact this

theorem thrown_executeStatements (f : Nat) (node : Stmt) (rest : List Stmt) (st : Interpreter)
    (sig : Signal) (h : (execute f node st).thrown = some sig) :
    (executeStatements (f + 1) (node :: rest) st).thrown = some sig := by
  cases he : execute f node st with
  | ok a st1 => rw [he] at h; cases h
  | throw sig1 st1 =>
    rw [he] at h
    rw [executeStatements_throw f node rest st st1 sig1 he]
    exact h
  | outOfFuel => rw [he] at h; cases h
  | unsupported => rw [he] at h; cases h

theorem leakProgram_overflows (k : Nat) :
    (runProgram (k + 1011) leakProgram).thrown = some stackOverflow := by
  have h := leak_loop Interpreter.initial.m_current_scope MAX_RECURSION_DEPTH k
    (pushCall Interpreter.initial (Frame.whileFrame 1)) (Nat.zero_add _)
  have e : k + 1011 = (k + MAX_RECURSION_DEPTH + 9 + 1) + 1 := by
    show k + 1011 = (k + 1000 + 9 + 1) + 1
    omega
  rw [e]
  apply thrown_executeStatements
  rw [execute_whileStmt]
  exact h

/-- C11: a call of the closure `f` of `function(parameters) body end function` with as many
arguments as parameters, in the state `st`. The body is executed in a new scope object
(its index is the length of the scope store), which becomes the current scope and whose
parent is `st.m_current_scope`, the scope current at the call; the closure records no
scope of its definition. In the run of `dynamicScopeSource` the function `g`, defined at
top level where `y` is unbound, reads `y` when called from inside `f`, which binds `y`
to 2 locally: the call gives 2, and `y` is still unbound at top level. In the run of
`blockFunctionSource` the function `h` is defined in the body of a for loop whose
variable `z` is 5 and called after the loop: it runs and reads the global `z`, 7. -/
theorem call_scope_parent_is_call_site (fuel f : Nat) (args : List Value) (st : Interpreter)
    (parameters : List String) (body : List Stmt)
    (hf : st.functions[f]? = some (Function.user parameters body))
    (hlen : args.length = parameters.length) :
    callFunction (fuel + 1) f args st
        = callResult st.m_current_scope
            (executeBlock fuel body st.scopes.length (callEntry st parameters args))
      ∧ (callEntry st parameters args).m_current_scope = st.scopes.length
      ∧ Scope.parent (callEntry st parameters args).scopes st.scopes.length
          = some st.m_current_scope
      ∧ (interpretSource 60 dynamicScopeSource).globals ["r", "y"]
          = some [some (.number 2), none]
      ∧ (interpretSource 60 blockFunctionSource).globals ["r", "z"]
          = some [some (.number 7), some (.number 7)] := by
  refine ⟨callFunction_user fuel f args st parameters body hf hlen, rfl, ?_, by decide!,
    by decide!⟩
  show Scope.parent (callEntryScopes st parameters args) st.scopes.length = _
  unfold callEntryScopes
  rw [parent_defineParameters]
  simp [Scope.parent]

/-- C11, witness: for the closure of `function(a) return a end function`, called at top
level with the argument 1, the scope of the call is the scope object 1, its parent is
the global scope 0, and it binds `a` to 1. -/
theorem call_scope_parent_is_call_site_witness :
    Scope.parent (callEntry sampleCallState ["a"] [.number 1]).scopes 1 = some 0
      ∧ Scope.lookupLocal (callEntry sampleCallState ["a"] [.number 1]).scopes 1 "a"
        = some (.number 1) :=
  ⟨(call_scope_parent_is_call_site 4 0 [.number 1] sampleCallState ["a"]
    [Stmt.returnStmt (some (Expr.identifier "a"))] rfl rfl).2.2.1, by decide⟩

/-- C12: a call of the closure `f` of `function(parameters) body end function` with as many
arguments as parameters. The call evaluates to the value `v` carried by the `ReturnValue`
signal with which the execution of the body ends, and to Nil when the body ends without
executing a return. The signal is raised by a return statement, with Nil when it has no
expression, and it reaches the call from any depth: in a statement list the statements
before it complete normally and the statements after it are not executed (the result does
not depend on `rest`), and a block, the branch of an if statement (then, else, else if),
an iteration of a while loop and an iteration of a for loop over a List or a String end
with the signal with which their statements end. Two runs: a return inside a while loop
inside a for loop gives the call the value 7 and skips `flag = 1`, `flag = 2` and
`flag = 3`, a return without expression and a body without return give Nil; a return
inside nested if statements gives 7 and leaves `flag` at 0. -/
theorem return_value_reaches_the_call (fuel f : Nat) (args : List Value) (st : Interpreter)
    (parameters : List String) (body : List Stmt)
    (hf : st.functions[f]? = some (Function.user parameters body))
    (hlen : args.length = parameters.length) :
    (∀ v st4, executeBlock fuel body st.scopes.length (callEntry st parameters args)
          = .throw (.returnValue v) st4 →
        callFunction (fuel + 1) f args st = .ok v { st4 with m_current_scope := st.m_current_scope })
      ∧ (∀ st4, executeBlock fuel body st.scopes.length (callEntry st parameters args)
          = .ok () st4 →
        callFunction (fuel + 1) f args st
          = .ok .nil { st4 with m_current_scope := st.m_current_scope })
      ∧ (∀ s, execute (fuel + 1) (.returnStmt none) s = .throw (.returnValue .nil) s)
      ∧ (∀ e s s1 v, evaluate fuel e s = .ok v s1 →
        execute (fuel + 1) (.returnStmt (some e)) s = .throw (.returnValue v) s1)
      ∧ (∀ node rest s s1, execute fuel node s = .ok () s1 →
        executeStatements (fuel + 1) (node :: rest) s = executeStatements fuel rest s1)
      ∧ (∀ node rest s s1 v, execute fuel node s = .throw (.returnValue v) s1 →
        executeStatements (fuel + 1) (node :: rest) s = .throw (.returnValue v) s1)
      ∧ (∀ statements env s s1 v,
        executeStatements fuel statements { s with m_current_scope := env }
          = .throw (.returnValue v) s1 →
        executeBlock (fuel + 1) statements env s = .throw (.returnValue v) s1)
      ∧ (∀ condition thenBranch elseBranch s s1,
        evaluate fuel condition s = .ok (.bool true) s1 →
        execute (fuel + 1) (.ifStmt condition thenBranch elseBranch) s
          = executeBlock fuel thenBranch s1.scopes.length (ifEntry s1))
      ∧ (∀ condition thenBranch elseBlock s s1,
        evaluate fuel condition s = .ok (.bool false) s1 →
        execute (fuel + 1) (.ifStmt condition thenBranch (some (.block elseBlock))) s
          = executeBlock fuel elseBlock s1.scopes.length (ifEntry s1))
      ∧ (∀ condition thenBranch c2 t2 e2 s s1,
        evaluate fuel condition s = .ok (.bool false) s1 →
        execute (fuel + 1) (.ifStmt condition thenBranch (some (.ifStmt c2 t2 e2))) s
          = execute fuel (.ifStmt c2 t2 e2) (ifEntry s1))
      ∧ (∀ condition wbody outer s s1 s4 v,
        evaluate fuel condition s = .ok (.bool true) s1 →
        executeBlock fuel wbody s1.scopes.length (whileEntry s1 outer)
          = .throw (.returnValue v) s4 →
        whileLoop (fuel + 1) condition wbody outer s
          = .throw (.returnValue v) (popCall { s4 with m_current_scope := outer }))
      ∧ (∀ loopVariable fbody p i n s s3 v, i < n →
        executeBlock fuel fbody s.scopes.length
            (forEntry s loopVariable ((derefList s.lists p).getD i .nil))
          = .throw (.returnValue v) s3 →
        forListLoop (fuel + 1) loopVariable fbody p i n s = .throw (.returnValue v) (popCall s3))
      ∧ (∀ loopVariable fbody c rest s s3 v,
        executeBlock fuel fbody s.scopes.length (forEntry s loopVariable (.string [c]))
          = .throw (.returnValue v) s3 →
        forStringLoop (fuel + 1) loopVariable fbody (c :: rest) s
          = .throw (.returnValue v) (popCall s3))
      ∧ (interpretSource 60 returnInLoopsSource).globals ["r", "flag", "u", "w", "done"]
          = some [some (.number 7), some (.number 0), some .nil, some .nil, none]
      ∧ (runProgram 20 returnInIfProgram).globals ["r", "flag"]
          = some [some (.number 7), some (.number 0)] := by
  have hcall := callFunction_user fuel f args st parameters body hf hlen
  refine ⟨?_, ?_, fun s => execute_returnStmt_none fuel s,
    fun e s s1 v he => execute_returnStmt_some fuel e s s1 v he,
    fun node rest s s1 h => executeStatements_ok fuel node rest s s1 h,
    fun node rest s s1 v h => executeStatements_throw fuel node rest s s1 _ h,
    fun statements env s s1 v h => executeBlock_throw fuel statements env s s1 _ h,
    fun condition thenBranch elseBranch s s1 hc =>
      execute_ifStmt_then fuel condition thenBranch elseBranch s s1 hc,
    fun condition thenBranch elseBlock s s1 hc =>
      execute_ifStmt_elseBlock fuel condition thenBranch elseBlock s s1 hc,
    fun condition thenBranch c2 t2 e2 s s1 hc =>
      execute_ifStmt_elseIf fuel condition thenBranch c2 t2 e2 s s1 hc,
    fun condition wbody outer s s1 s4 v hc hb =>
      whileLoop_return fuel condition wbody outer s s1 s4 v hc hb,
    fun loopVariable fbody p i n s s3 v hi hb =>
      forListLoop_return fuel loopVariable fbody p i n s s3 v hi hb,
    fun loopVariable fbody c rest s s3 v hb =>
      forStringLoop_return fuel loopVariable fbody c rest s s3 v hb,
    by decide!, by decide!⟩
  · intro v st4 hb
    rw [hcall, hb, callResult]
  · intro st4 hb
    rw [hcall, hb, callResult]

/-- C12, witness: the call of the closure of `function(a) return a end function` with the
argument 1 evaluates to 1. -/
theorem return_value_reaches_the_call_witness :
    (callFunction 5 0 [.number 1] sampleCallState).value = some (.number 1) := by
  rw [(return_value_reaches_the_call 4 0 [.number 1] sampleCallState ["a"]
    [Stmt.returnStmt (some (Expr.identifier "a"))] rfl rfl).1 (.number 1) _ rfl]
  rfl

/-- C13: a while loop (condition `condition`, body `body`, scope before the loop `outer`)
whose body executes `break` in its iteration number `k + 1`. The states `s j` and `c j`
are the states before and after the evaluation number `j + 1` of the condition, which is
true each time; each of the first `k` iterations ends normally or by `continue` in the
state `s (j + 1)`; the iteration `k + 1` ends with the break signal in the state `st4`.
Then the loop completes normally in the state `st4` itself, with only the current scope
set back to `outer` and the trace frame of the loop popped: after the break no statement
is executed and the condition is not evaluated again, so exactly `k + 1` iterations are
begun. A `break` statement raises the signal, the statements after it in a statement
list are not executed (the result does not depend on `rest`), and after a loop that
completes the statement list goes on with the statement that follows. In the run of
`breakProgram`, whose body breaks in the third iteration, the condition is evaluated 3
times (`c`), 3 iterations are begun (`i`), 2 reach the statement after the if (`n`), and
the statement after the loop is executed (`after`). -/
theorem while_break_ends_loop (f k : Nat) (condition : Expr) (body : List Stmt) (outer : Nat)
    (s c : Nat → Interpreter) (st4 : Interpreter)
    (hcond : ∀ j, j ≤ k → evaluate (f + (k - j)) condition (s j) = .ok (.bool true) (c j))
    (hbody : ∀ j, j < k →
      executeBlock (f + (k - j)) body (c j).scopes.length (whileEntry (c j) outer)
          = .ok () (s (j + 1))
        ∨ executeBlock (f + (k - j)) body (c j).scopes.length (whileEntry (c j) outer)
          = .throw .continueSignal (s (j + 1)))
    (hbreak : executeBlock f body (c k).scopes.length (whileEntry (c k) outer)
      = .throw .breakSignal st4) :
    whileLoop (f + k + 1) condition body outer (s 0)
        = .ok () (popCall { st4 with m_current_scope := outer })
      ∧ (∀ line st, execute (f + k + 2) (.whileStmt condition body line) st
          = whileLoop (f + k + 1) condition body st.m_current_scope
              (pushCall st (Frame.whileFrame line)))
      ∧ (∀ st, execute (f + 1) .breakStmt st = .throw .breakSignal st)
      ∧ (∀ node rest st st1, execute f node st = .throw .breakSignal st1 →
          executeStatements (f + 1) (node :: rest) st = .throw .breakSignal st1)
      ∧ (∀ node rest st st1, execute f node st = .ok () st1 →
          executeStatements (f + 1) (node :: rest) st = executeStatements f rest st1)
      ∧ (runProgram 30 breakProgram).globals ["c", "i", "n", "after"]
          = some [some (.number 3), some (.number 3), some (.number 2), some (.number 1)] := by
  refine ⟨whileLoop_iterations f condition body outer st4 k s c hcond hbody hbreak,
    fun line st => execute_whileStmt (f + k + 1) condition body line st,
    fun st => by simp only [execute],
    fun node rest st st1 h => executeStatements_throw f node rest st st1 _ h,
    fun node rest st st1 h => executeStatements_ok f node rest st st1 h,
    by decide!⟩

/-- C13, witness: the loop `while true  if b then break end if  b = true  end while`, started
with `b` false, breaks in its second iteration and completes normally. -/
theorem while_break_ends_loop_witness :
    (whileLoop 9 (.booleanLit true) breakBody 0 breakStart).value = some () := by
  show (whileLoop (7 + 1 + 1) (.booleanLit true) breakBody 0 (breakStates 0)).value = some ()
  rw [(while_break_ends_loop 7 1 (.booleanLit true) breakBody 0 breakStates breakStates
    (executeBlock 7 breakBody (breakStates 1).scopes.length (whileEntry (breakStates 1) 0)).stateD
    (fun j hj => by interval_cases j <;> rfl)
    (fun j hj => by interval_cases j; exact Or.inl rfl)
    rfl).1]
  rfl

/-- C14: the statement `for loopVariable in iterable body end for`, executed in the state
`st`. When the iterable evaluates to the list object `p` of `n` elements and every
execution of the body completes normally (`s j` is the state before the execution number
`j + 1`, `s 0` the state in which the loop starts), the statement completes after exactly
`n` executions of the body, in the state `s n` with the trace frame popped; the execution
number `j + 1` runs in the state `forEntry`, in which the scope object with the new
index `(s j).scopes.length` binds the loop variable to the element at position `j` (as
the list is at that moment) and has as its parent the scope that was current when the
loop started. When the iterable evaluates to the String `str`, the same holds with the
one-character String of the character at position `j`. When it evaluates to a value of
another kind, the statement raises the error in the state `st1` in which the iterable
was evaluated, without executing the body. Three runs: over `[1, 2, 3]` the body runs 3
times with `x` = 1, 2, 3 in this order (`t` is 123); over "abc" 3 times with `ch` =
"a", "b", "c" (`t` is "cba"); over 5 the error is raised and `k` is still 0. -/
theorem for_loop_runs_body_per_element (f : Nat) (loopVariable : String) (iterable : Expr)
    (body : List Stmt) (line : Nat) (st st1 : Interpreter) :
    (∀ (p n : Nat) (s : Nat → Interpreter),
        evaluate (f + n + 1) iterable st = .ok (.list p) st1 →
        (derefList st1.lists p).length = n →
        s 0 = pushCall st1 (Frame.forFrame line) →
        (∀ j, j < n →
          executeBlock (f + (n - j)) body (s j).scopes.length
              (forEntry (s j) loopVariable ((derefList (s j).lists p).getD j .nil))
            = .ok () (s (j + 1))) →
        execute (f + n + 2) (.forStmt loopVariable iterable body line) st
            = .ok () (popCall (s n))
          ∧ ∀ j, j < n →
            (s j).scopes.length < (forEntry (s j) loopVariable
                ((derefList (s j).lists p).getD j .nil)).scopes.length
              ∧ Scope.lookupLocal (forEntry (s j) loopVariable
                  ((derefList (s j).lists p).getD j .nil)).scopes (s j).scopes.length
                  loopVariable = some ((derefList (s j).lists p).getD j .nil)
              ∧ Scope.parent (forEntry (s j) loopVariable
                  ((derefList (s j).lists p).getD j .nil)).scopes (s j).scopes.length
                = some st1.m_current_scope)
      ∧ (∀ (str : List Char) (s : Nat → Interpreter),
        evaluate (f + str.length + 1) iterable st = .ok (.string str) st1 →
        s 0 = pushCall st1 (Frame.forFrame line) →
        (∀ j c, str[j]? = some c →
          executeBlock (f + (str.length - j)) body (s j).scopes.length
              (forEntry (s j) loopVariable (.string [c]))
            = .ok () (s (j + 1))) →
        execute (f + str.length + 2) (.forStmt loopVariable iterable body line) st
            = .ok () (popCall (s str.length))
          ∧ ∀ j c, str[j]? = some c →
            (s j).scopes.length < (forEntry (s j) loopVariable (.string [c])).scopes.length
              ∧ Scope.lookupLocal (forEntry (s j) loopVariable (.string [c])).scopes
                  (s j).scopes.length loopVariable = some (.string [c])
              ∧ Scope.parent (forEntry (s j) loopVariable (.string [c])).scopes
                  (s j).scopes.length = some st1.m_current_scope)
      ∧ (∀ v, evaluate f iterable st = .ok v st1 →
        v.getType ≠ ValueType.kList ∧ v.getType ≠ ValueType.kString →
        execute (f + 1) (.forStmt loopVariable iterable body line) st
          = .throw (.runtimeError (formatError "ForStatementNode"
              "for loop can only iterate over lists and strings.")) st1)
      ∧ (interpretSource 40 forListSource).globals ["t", "k", "x"]
          = some [some (.number 123), some (.number 3), none]
      ∧ (interpretSource 40 forStringSource).globals ["t", "k", "ch"]
          = some [some (.string "cba".toList), some (.number 3), none]
      ∧ ((interpretSource 40 forNumberSource).result.bind fun r => r.thrown)
          = some (.runtimeError (formatError "ForStatementNode"
              "for loop can only iterate over lists and strings."))
      ∧ (interpretSource 40 forNumberSource).globals ["k"] = some [some (.number 0)] := by
  refine ⟨?_, ?_, fun v hi hv =>
    execute_forStmt_other f loopVariable iterable body line st st1 v hi hv,
    by decide!, by decide!, by decide!, by decide!⟩
  · intro p n s hi hn hs0 hbody
    constructor
    · have e : f + n + 2 = (f + n + 1) + 1 := rfl
      rw [e, execute_forStmt_list (f + n + 1) loopVariable iterable body line st st1 p hi, hn,
        ← hs0]
      have := forListLoop_iterations f loopVariable body p n 0 s (fun j hj => by
        simpa using hbody j hj)
      simpa using this
    · intro j hj
      have hscope := iteration_scope body s n
        (fun j => forEntry (s j) loopVariable ((derefList (s j).lists p).getD j .nil))
        (fun j => rfl) (fun j hj => ⟨_, hbody j hj⟩) j (by omega)
      have h := forEntry_scope (s j) loopVariable ((derefList (s j).lists p).getD j .nil)
      refine ⟨by omega, h.2.1, ?_⟩
      rw [h.2.2.1, hscope, hs0]
      rfl
  · intro str s hi hs0 hbody
    constructor
    · have e : f + str.length + 2 = (f + str.length + 1) + 1 := rfl
      rw [e, execute_forStmt_string (f + str.length + 1) loopVariable iterable body line st st1
        str hi, ← hs0]
      exact forStringLoop_iterations f loopVariable body str s hbody
    · intro j c hj
      have hlt : j < str.length := by
        by_contra hc
        rw [List.getElem?_eq_none (by omega)] at hj
        cases hj
      have hscope := iteration_scope body s str.length
        (fun j => forEntry (s j) loopVariable (.string [str.getD j c]))
        (fun j => rfl) (fun j hj => ⟨_, by
          have := hbody j (str.getD j c) (by
            rw [List.getD_eq_getElem?_getD, List.getElem?_eq_getElem hj]; rfl)
          exact this⟩) j (by omega)
      have h := forEntry_scope (s j) loopVariable (.string [c])
      refine ⟨by omega, h.2.1, ?_⟩
      rw [h.2.2.1, hscope, hs0]
      rfl

/-- C14, witness: `for x in [1, 2]  t = t + x  end for`, started with `t` = 0, completes
after two executions of the body with `t` = 3. -/
theorem for_loop_runs_body_per_element_witness :
    (execute 11 (.forStmt "x" (.listLit [.numberLit 1, .numberLit 2]) sumBody 1)
        (Interpreter.withScopes Interpreter.initial
          (Scope.define Interpreter.initial.scopes 0 "t" (.number 0)))).globals ["t"]
      = some [some (.number 3)] := by
  have h := ((for_loop_runs_body_per_element 7 "x" (.listLit [.numberLit 1, .numberLit 2])
    sumBody 1 (Interpreter.withScopes Interpreter.initial
      (Scope.define Interpreter.initial.scopes 0 "t" (.number 0))) sumStart).1 0 2 sumStates
    rfl rfl rfl (fun j hj => by interval_cases j <;> rfl)).1
  rw [h]
  decide!

/-! ### The recursion guard -/

/-- C15: the guard of `visit(FunctionCallNode)` compares the counter `m_recursion_depth`,
not the number of active calls: a call is rejected with the stack-overflow error whenever
the counter is at least 1000, and the counter is not decremented when a signal leaves the
call. The program `leakProgram` of the text `leakSource` makes its calls one after the
other, each left by the `continue` of the function body before the next begins, and yet
(with any fuel from 1011 on) it ends with the stack-overflow error, raised by its call
number 1001. The run of
`leakThreeSource`, which makes three such calls, completes normally with the counter at 3
and three call frames left on the trace. -/
theorem stack_overflow_without_active_calls :
    parsedProgram 40 leakSource = some leakProgram
      ∧ (∀ k, (runProgram (k + 1011) leakProgram).thrown = some stackOverflow)
      ∧ (∀ f callee arguments line st, MAX_RECURSION_DEPTH ≤ st.m_recursion_depth →
          evaluate (f + 1) (.functionCall callee arguments line) st = .throw stackOverflow st)
      ∧ (∀ f env st, st.m_recursion_depth < MAX_RECURSION_DEPTH →
          ∃ st1, executeBlock (f + 8) leakBody env st = .throw .continueSignal st1
            ∧ st1.m_recursion_depth = st.m_recursion_depth + 1)
      ∧ ((interpretSource 40 leakThreeSource).result.bind fun r => r.thrown) = none
      ∧ ((interpretSource 40 leakThreeSource).result.bind fun r => r.state).map
          (fun st => (st.m_recursion_depth, st.call_stack_trace.length)) = some (3, 3) :=
  ⟨parsedProgram_of_parsesTo _ _ _ (by decide!), leakProgram_overflows,
    fun f callee arguments line st hd =>
      evaluate_functionCall_guard f callee arguments line st hd,
    fun f env st hd => leakBody_step f env st hd, by decide!, by decide!⟩

/-! ### Equality -/

theorem length_derefList_le (h : ListHeap) (p : Nat) : (derefList h p).length ≤ maxLength h := by
  unfold derefList maxLength
  induction h generalizing p with
  | nil => simp
  | cons xs h ih =>
    cases p with
    | zero => simp
    | succ p =>
      have := ih p
      simp only [List.getD_cons_succ, List.map_cons, List.foldr_cons]
      omega

theorem equal_of_not_list (f : Nat) (h : ListHeap) (d : Nat) (a b : Value)
    (hk : a.getType ≠ ValueType.kList ∨ b.getType ≠ ValueType.kList) :
    equal (f + 1) h a b = some (equalSpec h d a b) := by
  cases a <;> cases b <;> simp_all [equal, equalSpec, Value.getType]

theorem equalElements_eq (h : ListHeap) (d m : Nat)
    (ih : ∀ (a b : Value) (fuel : Nat),
      (a.depthWithin h d = true ∨ b.depthWithin h d = true) → m ≤ fuel →
      equal fuel h a b = some (equalSpec h d a b)) :
    ∀ (xs ys : List Value) (fuel : Nat),
      ((∀ x ∈ xs, x.depthWithin h d = true) ∨ (∀ y ∈ ys, y.depthWithin h d = true)) →
      m + xs.length + 1 ≤ fuel →
      equalElements fuel h xs ys
        = some ((xs.zip ys).all fun xy => equalSpec h d xy.1 xy.2) := by
  intro xs
  induction xs with
  | nil =>
    intro ys fuel _ hf
    obtain ⟨f, rfl⟩ : ∃ f, fuel = f + 1 := ⟨fuel - 1, by omega⟩
    simp [equalElements]
  | cons x xs ihx =>
    intro ys fuel hd hf
    obtain ⟨f, rfl⟩ : ∃ f, fuel = f + 1 := ⟨fuel - 1, by omega⟩
    cases ys with
    | nil => simp [equalElements]
    | cons y ys =>
      have hxy := ih x y f (by
        rcases hd with hd | hd
        · exact Or.inl (hd x (List.mem_cons_self _ _))
        · exact Or.inr (hd y (List.mem_cons_self _ _))) (by simp at hf; omega)
      have hrest := ihx ys f (by
        rcases hd with hd | hd
        · exact Or.inl fun z hz => hd z (List.mem_cons_of_mem _ hz)
        · exact Or.inr fun z hz => hd z (List.mem_cons_of_mem _ hz)) (by simp at hf; omega)
      simp only [equalElements, hxy, List.zip_cons_cons, List.all_cons]
      cases equalSpec h d x y with
      | false => simp
      | true => simp [hrest]

theorem equal_eq_equalSpec (h : ListHeap) :
    ∀ (d : Nat) (a b : Value) (fuel : Nat),
      (a.depthWithin h d = true ∨ b.depthWithin h d = true) →
      (d + 1) * (maxLength h + 2) ≤ fuel →
      equal fuel h a b = some (equalSpec h d a b) := by
  intro d
  induction d with
  | zero =>
    intro a b fuel hd hf
    obtain ⟨f, rfl⟩ : ∃ f, fuel = f + 1 := ⟨fuel - 1, by omega⟩
    apply equal_of_not_list
    rcases hd with hd | hd
    · left; cases a <;> simp_all [Value.depthWithin, Value.getType]
    · right; cases b <;> simp_all [Value.depthWithin, Value.getType]
  | succ d ih =>
    intro a b fuel hd hf
    have hf1 : 1 ≤ fuel := by
      have : 1 ≤ (d + 1 + 1) * (maxLength h + 2) := Nat.mul_pos (by omega) (by omega)
      omega
    obtain ⟨f, rfl⟩ : ∃ f, fuel = f + 1 := ⟨fuel - 1, by omega⟩
    by_cases hk : a.getType ≠ ValueType.kList ∨ b.getType ≠ ValueType.kList
    · exact equal_of_not_list f h (d + 1) a b hk
    · cases a <;> cases b <;> simp [Value.getType] at hk
      rename_i p q
      simp only [equal, equalSpec]
      by_cases hl : (derefList h p).length = (derefList h q).length
      · have hlen := length_derefList_le h p
        have hfuel : (d + 1) * (maxLength h + 2) + (derefList h p).length + 1 ≤ f := by
          have e : (d + 1 + 1) * (maxLength h + 2)
              = (d + 1) * (maxLength h + 2) + (maxLength h + 2) := by ring
          omega
        have := equalElements_eq h d ((d + 1) * (maxLength h + 2)) ih (derefList h p)
          (derefList h q) f (by
            rcases hd with hd | hd
            · left; simpa [Value.depthWithin] using hd
            · right; simpa [Value.depthWithin] using hd) hfuel
        simp [hl, this]
      · simp [hl]

theorem equal_cyclic (fuel : Nat) :
    equal fuel cyclicLists (.list 0) (.list 0) = none
      ∧ equalElements fuel cyclicLists [.list 0] [.list 0] = none := by
  induction fuel with
  | zero => exact ⟨rfl, rfl⟩
  | succ f ih =>
    constructor
    · simp only [equal]
      have : derefList cyclicLists 0 = [.list 0] := rfl
      simp [this, ih.2]
    · simp only [equalElements, ih.1]

theorem depthWithin_cyclic (d : Nat) : Value.depthWithin cyclicLists d (.list 0) = false := by
  induction d with
  | zero => rfl
  | succ d ih =>
    have : derefList cyclicLists 0 = [.list 0] := rfl
    simp [Value.depthWithin, this, ih]

theorem all_zip_iff {α : Type} (f : α × α → Bool) :
    ∀ (xs ys : List α), (xs.zip ys).all f = true
      ↔ ∀ (i : Nat) (x y : α), xs[i]? = some x → ys[i]? = some y → f (x, y) = true := by
  intro xs
  induction xs with
  | nil => intro ys; simp
  | cons x xs ih =>
    intro ys
    cases ys with
    | nil => simp
    | cons y ys =>
      simp only [List.zip_cons_cons, List.all_cons, Bool.and_eq_true, ih]
      constructor
      · rintro ⟨h0, hr⟩ i a b ha hb
        cases i with
        | zero =>
          simp only [List.getElem?_cons_zero, Option.some.injEq] at ha hb
          subst ha; subst hb; exact h0
        | succ i =>
          simp only [List.getElem?_cons_succ] at ha hb
          exact hr i a b ha hb
      · intro hall
        exact ⟨hall 0 x y (by simp) (by simp), fun i a b ha hb => hall (i + 1) a b (by simpa using ha)
          (by simpa using hb)⟩

theorem equal_fuel_succ (h : ListHeap) :
    ∀ (fuel : Nat),
      (∀ (a b : Value) (r : Bool), equal fuel h a b = some r → equal (fuel + 1) h a b = some r)
        ∧ (∀ (xs ys : List Value) (r : Bool), equalElements fuel h xs ys = some r →
            equalElements (fuel + 1) h xs ys = some r) := by
  intro fuel
  induction fuel with
  | zero =>
    constructor
    · intro a b r hr
      simp [equal] at hr
    · intro xs ys r hr
      simp [equalElements] at hr
  | succ f ih =>
    constructor
    · intro a b r hr
      cases a <;> cases b <;> simp only [equal] at hr ⊢ <;> try exact hr
      rename_i p q
      by_cases hl : (derefList h p).length ≠ (derefList h q).length
      · rw [if_pos hl] at hr ⊢
        exact hr
      · rw [if_neg hl] at hr ⊢
        exact ih.2 _ _ r hr
    · intro xs ys r hr
      cases xs with
      | nil => simp only [equalElements] at hr ⊢; exact hr
      | cons x xs =>
        cases ys with
        | nil => simp only [equalElements] at hr ⊢; exact hr
        | cons y ys =>
          simp only [equalElements] at hr ⊢
          cases hxy : equal f h x y with
          | none => rw [hxy] at hr; cases hr
          | some v =>
            rw [hxy] at hr
            rw [ih.1 x y v hxy]
            cases v with
            | false => exact hr
            | true => exact ih.2 xs ys r hr

theorem equal_fuel_le (h : ListHeap) (a b : Value) (r : Bool) (f : Nat)
    (hr : equal f h a b = some r) : ∀ g, f ≤ g → equal g h a b = some r := by
  intro g hg
  induction hg with
  | refl => exact hr
  | step _ ih => exact (equal_fuel_succ h _).1 a b r ih

theorem equal_deterministic (h : ListHeap) (a b : Value) (r s : Bool) (f g : Nat)
    (hr : equal f h a b = some r) (hs : equal g h a b = some s) : r = s := by
  have h1 := equal_fuel_le h a b r f hr (max f g) (Nat.le_max_left _ _)
  have h2 := equal_fuel_le h a b s g hs (max f g) (Nat.le_max_right _ _)
  rw [h1] at h2
  exact Option.some.inj h2

theorem equalElements_true (h : ListHeap) :
    ∀ (xs ys : List Value) (f : Nat), equalElements f h xs ys = some true →
      ∀ (i : Nat) (x y : Value), xs[i]? = some x → ys[i]? = some y →
        ∃ g, equal g h x y = some true := by
  intro xs
  induction xs with
  | nil => intro ys f _ i x y hx; simp at hx
  | cons x0 xs ih =>
    intro ys f hr i x y hx hy
    cases ys with
    | nil => simp at hy
    | cons y0 ys =>
      cases f with
      | zero => simp [equalElements] at hr
      | succ f =>
        simp only [equalElements] at hr
        cases hxy : equal f h x0 y0 with
        | none => rw [hxy] at hr; cases hr
        | some v =>
          rw [hxy] at hr
          cases v with
          | false => cases hr
          | true =>
            cases i with
            | zero =>
              simp only [List.getElem?_cons_zero, Option.some.injEq] at hx hy
              subst hx; subst hy
              exact ⟨f, hxy⟩
            | succ i =>
              simp only [List.getElem?_cons_succ] at hx hy
              exact ih ys f hr i x y hx hy

theorem equalElements_false (h : ListHeap) :
    ∀ (xs ys : List Value) (f : Nat), equalElements f h xs ys = some false →
      ∃ (i : Nat) (x y : Value), xs[i]? = some x ∧ ys[i]? = some y
        ∧ ∃ g, equal g h x y = some false := by
  intro xs
  induction xs with
  | nil =>
    intro ys f hr
    cases f with
    | zero => simp [equalElements] at hr
    | succ f => simp [equalElements] at hr
  | cons x0 xs ih =>
    intro ys f hr
    cases f with
    | zero => simp [equalElements] at hr
    | succ f =>
      cases ys with
      | nil => simp [equalElements] at hr
      | cons y0 ys =>
        simp only [equalElements] at hr
        cases hxy : equal f h x0 y0 with
        | none => rw [hxy] at hr; cases hr
        | some v =>
          rw [hxy] at hr
          cases v with
          | false => exact ⟨0, x0, y0, by simp, by simp, f, hxy⟩
          | true =>
            obtain ⟨i, x, y, hx, hy, hg⟩ := ih ys f hr
            exact ⟨i + 1, x, y, by simpa using hx, by simpa using hy, hg⟩

theorem equal_lists_returned (h : ListHeap) (p q : Nat) (f : Nat) (r : Bool)
    (hr : equal f h (.list p) (.list q) = some r) :
    (r = true ↔ (derefList h p).length = (derefList h q).length
      ∧ ∀ (i : Nat) (x y : Value), (derefList h p)[i]? = some x →
          (derefList h q)[i]? = some y → ∃ g, equal g h x y = some true) := by
  cases f with
  | zero => simp [equal] at hr
  | succ f =>
    simp only [equal] at hr
    by_cases hl : (derefList h p).length ≠ (derefList h q).length
    · rw [if_pos hl] at hr
      cases hr
      constructor
      · intro e; cases e
      · intro e; exact absurd e.1 hl
    · rw [if_neg hl] at hr
      have hl2 : (derefList h p).length = (derefList h q).length := not_not.1 hl
      cases r with
      | true =>
        exact ⟨fun _ => ⟨hl2, equalElements_true h _ _ f hr⟩, fun _ => rfl⟩
      | false =>
        constructor
        · intro e; cases e
        · intro e
          obtain ⟨i, x, y, hx, hy, g, hg⟩ := equalElements_false h _ _ f hr
          obtain ⟨g2, hg2⟩ := e.2 i x y hx hy
          exact equal_deterministic h x y false true g g2 hg hg2

/-- C16, counterexample: the program `L = [0]` then `L[0] = L` leaves `L` bound to the list
object 0 whose only element is that object itself. On it `equal` does not return: with
every fuel the result of `L == L`, and of `L != L`, is exhausted fuel (in the C++ code an
unbounded recursion). The list nests to no depth. -/
theorem equal_never_returns_on_cyclic_list :
    (((interpretSource 20 cyclicSource).result.bind fun r => r.state).map
        fun st => (Scope.lookupLocal st.scopes 0 "L", st.lists))
        = some (some (.list 0), cyclicLists)
      ∧ (∀ fuel, equal fuel cyclicLists (.list 0) (.list 0) = none)
      ∧ (∀ fuel, applyBinaryOperator fuel .tEqual cyclicLists (.list 0) (.list 0) = none)
      ∧ (∀ fuel, applyBinaryOperator fuel .tNotEqual cyclicLists (.list 0) (.list 0) = none)
      ∧ (∀ d, Value.depthWithin cyclicLists d (.list 0) = false) := by
  refine ⟨by decide!, fun fuel => (equal_cyclic fuel).1, fun fuel => ?_, fun fuel => ?_,
    depthWithin_cyclic⟩
  · simp [applyBinaryOperator, (equal_cyclic fuel).1]
  · simp [applyBinaryOperator, (equal_cyclic fuel).1]

/-- C16, amended: for values `a` and `b` of which one nests its lists at most `d` deep in
the store `h` (no list reached from it contains itself), and with enough fuel, `a == b`
does not raise and is the Bool `equalSpec`, and `a != b` is its negation; the store is
unchanged. `equalSpec` is true exactly for two equal Numbers, two equal Strings, two
equal Bools, Nil and Nil, two Lists of the same length whose elements at the same
positions are equal in this sense, and twice the same function object; it is false for
values of different kinds, so `1 == true` is false. And for all values `x` and `y` of the
store, also two lists that both contain themselves: whenever `equal` returns a Bool `r`,
`x == y` is `r` without an error and `x != y` is its negation, `r` is false for values of
different kinds, `r` is `equalSpec` when one of the values is no List, and for two Lists
`r` is true exactly when they have the same length and `equal` returns true on the
elements at the same positions; on two Lists of different lengths `equal` returns false
at once, whatever they contain. -/
theorem equal_on_finite_depth (h : ListHeap) (d : Nat) (a b : Value) (fuel : Nat)
    (hd : a.depthWithin h d = true ∨ b.depthWithin h d = true)
    (hfuel : (d + 1) * (maxLength h + 2) ≤ fuel) :
    equal fuel h a b = some (equalSpec h d a b)
      ∧ applyBinaryOperator fuel .tEqual h a b = some (.ok (.bool (equalSpec h d a b), h))
      ∧ applyBinaryOperator fuel .tNotEqual h a b
          = some (.ok (.bool (!equalSpec h d a b), h))
      ∧ (a.getType ≠ b.getType → equalSpec h d a b = false)
      ∧ (∀ x y, equalSpec h d (.number x) (.number y) = true ↔ x = y)
      ∧ (∀ x y, equalSpec h d (.string x) (.string y) = true ↔ x = y)
      ∧ (∀ x y, equalSpec h d (.bool x) (.bool y) = true ↔ x = y)
      ∧ equalSpec h d .nil .nil = true
      ∧ (∀ p q, equalSpec h (d + 1) (.list p) (.list q) = true
          ↔ (derefList h p).length = (derefList h q).length
            ∧ ∀ (i : Nat) (x y : Value), (derefList h p)[i]? = some x →
                (derefList h q)[i]? = some y →
                equalSpec h d x y = true)
      ∧ (∀ x y, equalSpec h d (.func x) (.func y) = true ↔ x = y)
      ∧ equalSpec h d (.number 1) (.bool true) = false
      ∧ (∀ (x y : Value) (f : Nat) (r : Bool), equal f h x y = some r →
          applyBinaryOperator f .tEqual h x y = some (.ok (.bool r, h))
            ∧ applyBinaryOperator f .tNotEqual h x y = some (.ok (.bool (!r), h))
            ∧ (x.getType ≠ y.getType → r = false)
            ∧ (x.getType ≠ ValueType.kList ∨ y.getType ≠ ValueType.kList →
                r = equalSpec h d x y))
      ∧ (∀ (p q : Nat) (f : Nat) (r : Bool), equal f h (.list p) (.list q) = some r →
          (r = true ↔ (derefList h p).length = (derefList h q).length
            ∧ ∀ (i : Nat) (x y : Value), (derefList h p)[i]? = some x →
                (derefList h q)[i]? = some y → ∃ g, equal g h x y = some true))
      ∧ (∀ (p q : Nat) (f : Nat), (derefList h p).length ≠ (derefList h q).length →
          equal (f + 1) h (.list p) (.list q) = some false) := by
  have he := equal_eq_equalSpec h d a b fuel hd hfuel
  refine ⟨he, by simp [applyBinaryOperator, he], by simp [applyBinaryOperator, he], ?_,
    fun x y => by simp [equalSpec], fun x y => by simp [equalSpec],
    fun x y => by simp [equalSpec], by simp [equalSpec], fun p q => ?_,
    fun x y => by simp [equalSpec], by simp [equalSpec], ?_,
    fun p q f r hr => equal_lists_returned h p q f r hr, ?_⟩
  · intro hk
    cases a <;> cases b <;> simp_all [equalSpec, Value.getType]
  · simp only [equalSpec, Bool.and_eq_true, decide_eq_true_eq, all_zip_iff]
  · intro x y f r hr
    have hnl : x.getType ≠ ValueType.kList ∨ y.getType ≠ ValueType.kList →
        r = equalSpec h d x y := by
      intro hk
      cases f with
      | zero => simp [equal] at hr
      | succ f =>
        rw [equal_of_not_list f h d x y hk] at hr
        exact (Option.some.inj hr).symm
    refine ⟨by simp [applyBinaryOperator, hr], by simp [applyBinaryOperator, hr], ?_, hnl⟩
    intro hk
    have hk2 : x.getType ≠ ValueType.kList ∨ y.getType ≠ ValueType.kList := by
      by_contra hc
      simp only [not_or, not_not] at hc
      exact hk (hc.1.trans hc.2.symm)
    rw [hnl hk2]
    cases x <;> cases y <;> simp_all [equalSpec, Value.getType]
  · intro p q f hl
    simp only [equal, if_pos hl]

/-- C16, witness: in `nestedLists` the list objects 0 and 2, both `[1, [2]]`, are equal; and
in `cyclicPairLists` the list object 0, `A = [A]`, and the list object 1, `B = [B, 0]`, which
both contain themselves, are unequal, because their lengths differ. -/
theorem equal_on_finite_depth_witness :
    equal 12 nestedLists (.list 0) (.list 2) = some true
      ∧ equal 1 cyclicPairLists (.list 0) (.list 1) = some false := by
  have h := (equal_on_finite_depth nestedLists 2 (.list 0) (.list 2) 12 (Or.inl (by decide))
    (by decide)).1
  have h2 := (equal_on_finite_depth cyclicPairLists 0 .nil .nil 4 (Or.inl (by decide))
    (by decide)).2.2.2.2.2.2.2.2.2.2.2.2.2 0 1 0 (by decide)
  refine ⟨?_, h2⟩
  rw [h]
  decide!

/-! ### Subtraction of Strings -/

theorem findSub_spec (b : List Char) :
    ∀ (a : List Char),
      (∀ n, findSub b a = some n →
        (∃ p s, a = p ++ b ++ s ∧ p.length = n)
          ∧ ∀ p s, a = p ++ b ++ s → n ≤ p.length)
      ∧ (findSub b a = none → ∀ p s, a ≠ p ++ b ++ s) := by
  intro a
  induction a with
  | nil =>
    constructor
    · intro n hn
      by_cases hb : b = []
      · subst hb
        simp [findSub] at hn
        subst hn
        exact ⟨⟨[], [], rfl, rfl⟩, fun _ _ _ => Nat.zero_le _⟩
      · have : b.isEmpty = false := by cases b <;> simp_all
        simp [findSub, this] at hn
    · intro hn p s h
      have hb : b = [] := by
        have := congrArg List.length h
        simp at this
        exact List.length_eq_zero.mp (by omega)
      subst hb
      simp [findSub] at hn
  | cons c a ih =>
    by_cases hpre : b.isPrefixOf (c :: a) = true
    · have hf : findSub b (c :: a) = some 0 := by simp [findSub, hpre]
      constructor
      · intro n hn
        rw [hf] at hn
        cases hn
        obtain ⟨t, ht⟩ := List.isPrefixOf_iff_prefix.mp hpre
        exact ⟨⟨[], t, by simpa using ht.symm, rfl⟩, fun _ _ _ => Nat.zero_le _⟩
      · intro hn
        rw [hf] at hn
        cases hn
    · have hf : findSub b (c :: a) = (findSub b a).map (· + 1) := by simp [findSub, hpre]
      have hnot : ∀ s, c :: a ≠ b ++ s := by
        intro s h
        exact hpre (List.isPrefixOf_iff_prefix.mpr ⟨s, h.symm⟩)
      constructor
      · intro n hn
        rw [hf] at hn
        cases hm : findSub b a with
        | none => rw [hm] at hn; cases hn
        | some m =>
          rw [hm] at hn
          simp only [Option.map_some', Option.some.injEq] at hn
          subst hn
          obtain ⟨⟨p, s, hps, hp⟩, hmin⟩ := ih.1 m hm
          refine ⟨⟨c :: p, s, by simp [hps], by simp [hp]⟩, ?_⟩
          intro p1 s1 h1
          cases p1 with
          | nil => exact absurd (by simpa using h1) (hnot s1)
          | cons c1 p1 =>
            simp only [List.cons_append, List.cons.injEq] at h1
            have := hmin p1 s1 h1.2
            simp only [List.length_cons]
            omega
      · intro hn p1 s1 h1
        rw [hf] at hn
        cases hm : findSub b a with
        | some m => rw [hm] at hn; cases hn
        | none =>
          cases p1 with
          | nil => exact absurd (by simpa using h1) (hnot s1)
          | cons c1 p1 =>
            simp only [List.cons_append, List.cons.injEq] at h1
            exact ih.2 hm p1 s1 h1.2

/-- C17: the difference `a - b` of two Strings. When `b` occurs nowhere in `a` (there is no
way to write `a` as `p + b + s`), the result is `a`. When `a` is `p + b + s` and this
occurrence is the first (every other occurrence starts at a position at least the length
of `p`), the result is `p + s`. The store is unchanged and no error is raised. For
example "hello" - "l" is "helo" and "hello" - "z" is "hello". -/
theorem subtract_removes_first_occurrence (h : ListHeap) (a b : List Char) :
    ((∀ p s, a ≠ p ++ b ++ s) → subtract h (.string a) (.string b) = .ok (.string a, h))
      ∧ (∀ p s, a = p ++ b ++ s → (∀ p1 s1, a = p1 ++ b ++ s1 → p.length ≤ p1.length) →
          subtract h (.string a) (.string b) = .ok (.string (p ++ s), h))
      ∧ subtract [] (.string "hello".toList) (.string "l".toList)
          = .ok (.string "helo".toList, [])
      ∧ subtract [] (.string "hello".toList) (.string "z".toList)
          = .ok (.string "hello".toList, [])
      ∧ (evaluate 3 (.binaryOp .tMinus (.stringLit "hello") (.stringLit "l"))
          Interpreter.initial).value = some (.string "helo".toList) := by
  refine ⟨?_, ?_, by decide, by decide, by decide!⟩
  · intro hno
    cases hf : findSub b a with
    | none => simp [subtract, hf]
    | some n =>
      obtain ⟨⟨p, s, hps, _⟩, _⟩ := (findSub_spec b a).1 n hf
      exact absurd hps (hno p s)
  · intro p s hps hfirst
    cases hf : findSub b a with
    | none => exact absurd hps ((findSub_spec b a).2 hf p s)
    | some n =>
      obtain ⟨⟨p0, s0, hps0, hp0⟩, hmin⟩ := (findSub_spec b a).1 n hf
      have hn : p.length = n := by
        have h1 := hmin p s hps
        have h2 := hfirst p0 s0 hps0
        omega
      simp only [subtract, hf]
      subst hn
      rw [hps]
      simp [List.take_append_eq_append_take, List.drop_append_eq_append_drop, Nat.add_comm]

/-- C17, witness: "banana" - "an" is "bana", the first of the two occurrences removed. -/
theorem subtract_removes_first_occurrence_witness :
    subtract [] (.string "banana".toList) (.string "an".toList)
      = .ok (.string "bana".toList, []) := by
  have h := (subtract_removes_first_occurrence [] "banana".toList "an".toList).2.1
    "b".toList "ana".toList (by decide) (by
      intro p1 s1 h1
      cases p1 with
      | nil => simp at h1
      | cons c p1 => simp)
  exact h

/-! ### Multiplication examples and `not` -/

/-- C18: `"abc" * 2.5` and `2.5 * "abc"` are the String "abcabcab", on the operator and
through the number literal `2.5` of the lexer and the interpreter; `[1,2] * 0` and
`0 * [1,2]` are a new, empty list object (the list object 1, where `[1,2]` is the list
object 0), on the operator and in the runs of `r = [1,2] * 0` and `r = 0 * [1,2]`. -/
theorem multiply_examples :
    multiply [] (.string "abc".toList) (.number (5 / 2))
        = some (.ok (.string "abcabcab".toList, []))
      ∧ multiply [] (.number (5 / 2)) (.string "abc".toList)
        = some (.ok (.string "abcabcab".toList, []))
      ∧ stod "2.5".toList = 5 / 2
      ∧ (evaluate 3 (.binaryOp TokenType.tMultiply (.stringLit "abc") (.numberLit (stod "2.5".toList)))
          Interpreter.initial).value = some (.string "abcabcab".toList)
      ∧ (multiply [[.number 1, .number 2]] (.list 0) (.number 0)).map
          (fun r => r.map fun vh => (vh.1, derefList vh.2 1))
        = some (.ok (.list 1, []))
      ∧ (multiply [[.number 1, .number 2]] (.number 0) (.list 0)).map
          (fun r => r.map fun vh => (vh.1, derefList vh.2 1))
        = some (.ok (.list 1, []))
      ∧ ((interpretSource 20 "r = [1,2] * 0").result.bind fun r => r.state).map
          (fun st => (Scope.get st.scopes 0 "r", st.lists))
        = some (.ok (.list 1), [[.number 1, .number 2], []])
      ∧ ((interpretSource 20 "r = 0 * [1,2]").result.bind fun r => r.state).map
          (fun st => (Scope.get st.scopes 0 "r", st.lists))
        = some (.ok (.list 1), [[.number 1, .number 2], []]) := by
  decide!

/-- C19: `not` on the Number 0, whose truthiness is false, does not give true:
`applyUnaryOperator` reads the operand with `asBool`, which raises "Value is not a
boolean" for every value that is not a Bool (the Number 0, the empty String, a List, Nil,
the Number 1, a Function), and the run of `r = not 0` ends with this error. Only on a
Bool does `not` give the negation. -/
theorem not_rejects_non_bool :
    (!(Value.isTruthy [] (.number 0))) = true
      ∧ applyUnaryOperator TokenType.tNot (.number 0) = .error "Value is not a boolean"
      ∧ applyUnaryOperator TokenType.tNot (.string []) = .error "Value is not a boolean"
      ∧ applyUnaryOperator TokenType.tNot (.list 0) = .error "Value is not a boolean"
      ∧ applyUnaryOperator TokenType.tNot .nil = .error "Value is not a boolean"
      ∧ applyUnaryOperator TokenType.tNot (.number 1) = .error "Value is not a boolean"
      ∧ applyUnaryOperator TokenType.tNot (.func 0) = .error "Value is not a boolean"
      ∧ ((interpretSource 20 "r = not 0").result.bind fun r => r.thrown)
        = some (Signal.runtimeError "Value is not a boolean")
      ∧ applyUnaryOperator TokenType.tNot (.bool true) = .ok (.bool false)
      ∧ applyUnaryOperator TokenType.tNot (.bool false) = .ok (.bool true) := by
  decide!

/-! ### Operator precedence -/

theorem precedenceTest_assign :
    binaryOperators.all (precedenceTest (TokenType.tAssign, "=")) = true := by
  decide!

theorem precedenceTest_plusAssign :
    binaryOperators.all (precedenceTest (TokenType.tPlusAssign, "+=")) = true := by
  decide!

theorem precedenceTest_minusAssign :
    binaryOperators.all (precedenceTest (TokenType.tMinusAssign, "-=")) = true := by
  decide!

theorem precedenceTest_multiplyAssign :
    binaryOperators.all (precedenceTest (TokenType.tMultiplyAssign, "*=")) = true := by
  decide!

theorem precedenceTest_divideAssign :
    binaryOperators.all (precedenceTest (TokenType.tDivideAssign, "/=")) = true := by
  decide!

theorem precedenceTest_moduleAssign :
    binaryOperators.all (precedenceTest (TokenType.tModuleAssign, "%=")) = true := by
  decide!

theorem precedenceTest_powerAssign :
    binaryOperators.all (precedenceTest (TokenType.tPowerAssign, "^=")) = true := by
  decide!

theorem precedenceTest_or :
    binaryOperators.all (precedenceTest (TokenType.tOr, "or")) = true := by
  decide!

theorem precedenceTest_and :
    binaryOperators.all (precedenceTest (TokenType.tAnd, "and")) = true := by
  decide!

theorem precedenceTest_equal :
    binaryOperators.all (precedenceTest (TokenType.tEqual, "==")) = true := by
  decide!

theorem precedenceTest_notEqual :
    binaryOperators.all (precedenceTest (TokenType.tNotEqual, "!=")) = true := by
  decide!

theorem precedenceTest_less :
    binaryOperators.all (precedenceTest (TokenType.tLess, "<")) = true := by
  decide!

theorem precedenceTest_greater :
    binaryOperators.all (precedenceTest (TokenType.tGreater, ">")) = true := by
  decide!

theorem precedenceTest_lessOrEqual :
    binaryOperators.all (precedenceTest (TokenType.tLessOrEqual, "<=")) = true := by
  decide!

theorem precedenceTest_greaterOrEqual :
    binaryOperators.all (precedenceTest (TokenType.tGreaterOrEqual, ">=")) = true := by
  decide!

theorem precedenceTest_plus :
    binaryOperators.all (precedenceTest (TokenType.tPlus, "+")) = true := by
  decide!

theorem precedenceTest_minus :
    binaryOperators.all (precedenceTest (TokenType.tMinus, "-")) = true := by
  decide!

theorem precedenceTest_multiply :
    binaryOperators.all (precedenceTest (TokenType.tMultiply, "*")) = true := by
  decide!

theorem precedenceTest_divide :
    binaryOperators.all (precedenceTest (TokenType.tDivide, "/")) = true := by
  decide!

theorem precedenceTest_module :
    binaryOperators.all (precedenceTest (TokenType.tModule, "%")) = true := by
  decide!

theorem precedenceTest_power :
    binaryOperators.all (precedenceTest (TokenType.tPower, "^")) = true := by
  decide!

theorem precedenceTest_all (p : TokenType × String) (hp : p ∈ binaryOperators) :
    binaryOperators.all (precedenceTest p) = true := by
  have hp1 : p ∈ [(TokenType.tAssign, "="), (.tPlusAssign, "+="), (.tMinusAssign, "-="),
      (.tMultiplyAssign, "*="), (.tDivideAssign, "/="), (.tModuleAssign, "%="),
      (.tPowerAssign, "^="), (.tOr, "or"), (.tAnd, "and"), (.tEqual, "=="), (.tNotEqual, "!="),
      (.tLess, "<"), (.tGreater, ">"), (.tLessOrEqual, "<="), (.tGreaterOrEqual, ">="),
      (.tPlus, "+"), (.tMinus, "-"), (.tMultiply, "*"), (.tDivide, "/"), (.tModule, "%"),
      (.tPower, "^")] := hp
  simp only [List.mem_cons, List.mem_singleton, List.not_mem_nil, or_false] at hp1
  rcases hp1 with rfl | rfl | rfl | rfl | rfl | rfl | rfl | rfl | rfl | rfl | rfl | rfl | rfl | rfl | rfl | rfl | rfl | rfl | rfl | rfl | rfl
  · exact precedenceTest_assign
  · exact precedenceTest_plusAssign
  · exact precedenceTest_minusAssign
  · exact precedenceTest_multiplyAssign
  · exact precedenceTest_divideAssign
  · exact precedenceTest_moduleAssign
  · exact precedenceTest_powerAssign
  · exact precedenceTest_or
  · exact precedenceTest_and
  · exact precedenceTest_equal
  · exact precedenceTest_notEqual
  · exact precedenceTest_less
  · exact precedenceTest_greater
  · exact precedenceTest_lessOrEqual
  · exact precedenceTest_greaterOrEqual
  · exact precedenceTest_plus
  · exact precedenceTest_minus
  · exact precedenceTest_multiply
  · exact precedenceTest_divide
  · exact precedenceTest_module
  · exact precedenceTest_power

/-- C20: the trees that the parser builds from `a p b q c`, for every pair of binary
operators `p` and `q` (the 21 operator tokens with a precedence, written as the lexer
reads them). The tiers of `getOperatorPrecedence` are assignment 1, `or` 2, `and` 3,
equality 4, relational 5, additive 6, multiplicative 7, power 8. When `q` is in a
higher tier than `p`, `a p b q c` is `p(a, q(b, c))` and `a q b p c` is `p(q(a, b), c)`.
Two operators of the same tier give `q(p(a, b), c)` (grouping to the left), except in the
tiers of the assignment operators and of `^`, where they give `p(a, q(b, c))` (grouping
to the right). An assignment operator builds an `AssignmentNode`, every other operator a
`BinaryOpNode`. -/
theorem parser_follows_precedence_table (p q : TokenType × String)
    (hp : p ∈ binaryOperators) (hq : q ∈ binaryOperators) :
    (getOperatorPrecedence p.1 < getOperatorPrecedence q.1 →
        parsedProgram 40 (threeOperands p.2 q.2) = some (groupedRight p.1 q.1)
          ∧ parsedProgram 40 (threeOperands q.2 p.2) = some (groupedLeft q.1 p.1))
      ∧ (getOperatorPrecedence p.1 = getOperatorPrecedence q.1 →
          getOperatorPrecedence p.1 ≠ 1 → getOperatorPrecedence p.1 ≠ 8 →
          parsedProgram 40 (threeOperands p.2 q.2) = some (groupedLeft p.1 q.1))
      ∧ (getOperatorPrecedence p.1 = getOperatorPrecedence q.1 →
          getOperatorPrecedence p.1 = 1 ∨ getOperatorPrecedence p.1 = 8 →
          parsedProgram 40 (threeOperands p.2 q.2) = some (groupedRight p.1 q.1))
      ∧ binaryOperators.map (fun o => getOperatorPrecedence o.1)
          = [1, 1, 1, 1, 1, 1, 1, 2, 3, 4, 4, 5, 5, 5, 5, 6, 6, 7, 7, 7, 8]
      ∧ parsedProgram 40 "a - b - c" = some [.expressionStmt
          (.binaryOp .tMinus (.binaryOp .tMinus (.identifier "a") (.identifier "b"))
            (.identifier "c"))]
      ∧ parsedProgram 40 "a ^ b ^ c" = some [.expressionStmt
          (.binaryOp .tPower (.identifier "a")
            (.binaryOp .tPower (.identifier "b") (.identifier "c")))]
      ∧ parsedProgram 40 "a = b = 1" = some [.expressionStmt
          (.assignment (.identifier "a") .tAssign
            (.assignment (.identifier "b") .tAssign (.numberLit 1)))] := by
  have hpq := List.all_eq_true.mp (precedenceTest_all p hp) q hq
  have hqp := List.all_eq_true.mp (precedenceTest_all q hq) p hp
  unfold precedenceTest at hpq hqp
  simp only at hpq hqp
  refine ⟨?_, ?_, ?_, by decide, ?_, ?_, ?_⟩
  · intro hlt
    constructor
    · rw [if_pos (Or.inl hlt)] at hpq
      exact parsedProgram_of_parsesTo _ _ _ hpq
    · rw [if_neg (by omega)] at hqp
      exact parsedProgram_of_parsesTo _ _ _ hqp
  · intro he h1 h8
    rw [if_neg (by omega)] at hpq
    exact parsedProgram_of_parsesTo _ _ _ hpq
  · intro he h18
    rw [if_pos (Or.inr ⟨he, h18⟩)] at hpq
    exact parsedProgram_of_parsesTo _ _ _ hpq
  · exact parsedProgram_of_parsesTo _ _ _ (by decide!)
  · exact parsedProgram_of_parsesTo _ _ _ (by decide!)
  · exact parsedProgram_of_parsesTo _ _ _ (by decide!)

/-- C20, witness: `a + b * c` is `a + (b * c)` and `a * b + c` is `(a * b) + c`. -/
theorem parser_follows_precedence_table_witness :
    parsedProgram 40 "a + b * c" = some [.expressionStmt
        (.binaryOp .tPlus (.identifier "a")
          (.binaryOp .tMultiply (.identifier "b") (.identifier "c")))]
      ∧ parsedProgram 40 "a * b + c" = some [.expressionStmt
        (.binaryOp .tPlus (.binaryOp .tMultiply (.identifier "a") (.identifier "b"))
          (.identifier "c"))] :=
  (parser_follows_precedence_table (.tPlus, "+") (.tMultiply, "*") (by decide) (by decide)).1
    (by decide)

/-! ### Assignment targets -/

/-- C21, at the failing inputs: the parser accepts an assignment whose left-hand side is
no Identifier, Index or Slice. `1 = 2`, `a + b = c`, `f() = 3` and the compound `1 += 2`
each parse to a program whose statement is an `AssignmentNode` with the number literal,
the sum, or the call as its target. -/
theorem parser_accepts_any_assignment_target :
    parsedProgram 40 "1 = 2"
        = some [.expressionStmt (.assignment (.numberLit 1) .tAssign (.numberLit 2))]
      ∧ parsedProgram 40 "a + b = c"
        = some [.expressionStmt (.assignment
            (.binaryOp .tPlus (.identifier "a") (.identifier "b")) .tAssign (.identifier "c"))]
      ∧ parsedProgram 40 "f() = 3"
        = some [.expressionStmt (.assignment
            (.functionCall (.identifier "f") [] 1) .tAssign (.numberLit 3))]
      ∧ parsedProgram 40 "1 += 2"
        = some [.expressionStmt (.assignment (.numberLit 1) .tPlusAssign (.numberLit 2))] :=
  ⟨parsedProgram_of_parsesTo _ _ _ (by decide!), parsedProgram_of_parsesTo _ _ _ (by decide!),
    parsedProgram_of_parsesTo _ _ _ (by decide!), parsedProgram_of_parsesTo _ _ _ (by decide!)⟩

/-! ### The lexer moves forward -/

theorem Lexer.Le.refl (a : Lexer) : Lexer.Le a a := ⟨rfl, Nat.le_refl _⟩

theorem Lexer.Le.trans {a b c : Lexer} (h1 : Lexer.Le a b) (h2 : Lexer.Le b c) : Lexer.Le a c :=
  ⟨h1.1.trans h2.1, Nat.le_trans h1.2 h2.2⟩

theorem Lexer.le_advance (lx : Lexer) : Lexer.Le lx lx.advance := by
  unfold Lexer.advance
  split
  · exact Lexer.Le.refl lx
  · exact ⟨rfl, Nat.le_succ _⟩

theorem Lexer.advance_pos (lx : Lexer) (h : lx.isEnd = false) :
    lx.advance.lexer_current_pos = lx.lexer_current_pos + 1 := by
  simp [Lexer.advance, h]

theorem Lexer.le_withLine (lx : Lexer) (n : Nat) : Lexer.Le lx { lx with lexer_line := n } :=
  ⟨rfl, Nat.le_refl _⟩

theorem Lexer.le_advanceWhile (cond : Lexer → Bool) :
    ∀ (fuel : Nat) (lx : Lexer), Lexer.Le lx (Lexer.advanceWhile cond fuel lx) := by
  intro fuel
  induction fuel with
  | zero => intro lx; exact Lexer.Le.refl lx
  | succ fuel ih =>
    intro lx
    simp only [Lexer.advanceWhile]
    split
    · exact (Lexer.le_advance lx).trans (ih _)
    · exact Lexer.Le.refl lx

theorem Lexer.le_matchChar (lx : Lexer) (c : Char) : Lexer.Le lx (lx.matchChar c).2 := by
  unfold Lexer.matchChar
  split
  · exact Lexer.Le.refl lx
  · split
    · exact Lexer.Le.refl lx
    · exact ⟨rfl, Nat.le_succ _⟩

theorem Lexer.le_skipSpaceAndComments :
    ∀ (fuel : Nat) (lx : Lexer), Lexer.Le lx (Lexer.skipSpaceAndComments fuel lx) := by
  intro fuel
  induction fuel with
  | zero => intro lx; exact Lexer.Le.refl lx
  | succ fuel ih =>
    intro lx
    simp only [Lexer.skipSpaceAndComments]
    split
    · exact Lexer.Le.refl lx
    · split
      · exact (Lexer.le_advance lx).trans (ih _)
      · split
        · exact ((Lexer.le_advance lx).trans (Lexer.le_withLine _ _)).trans (ih _)
        · split
          · split
            · exact (((Lexer.le_advance lx).trans (Lexer.le_advance _)).trans
                (Lexer.le_advanceWhile _ _ _)).trans (ih _)
            · exact Lexer.Le.refl lx
          · exact Lexer.Le.refl lx

theorem Lexer.le_readStringBody :
    ∀ (fuel : Nat) (lx : Lexer) (value : List Char),
      Lexer.Le lx (Lexer.readStringBody fuel lx value).2 := by
  intro fuel
  induction fuel with
  | zero => intro lx value; exact Lexer.Le.refl lx
  | succ fuel ih =>
    intro lx value
    simp only [Lexer.readStringBody]
    split
    · split
      · exact Lexer.Le.refl lx
      · split
        · split
          · exact Lexer.le_advance lx
          · exact ((Lexer.le_advance lx).trans (Lexer.le_advance _)).trans (ih _ _)
        · exact (Lexer.le_advance lx).trans (ih _ _)
    · split
      · exact Lexer.Le.refl lx
      · exact Lexer.le_advance lx

theorem Lexer.le_opToken (lx : Lexer) (two one : TokenType) :
    Lexer.Le lx (lx.opToken two one).2 :=
  Lexer.le_matchChar lx '='

theorem Lexer.lt_of_advance_le (lx lx1 : Lexer) (h : lx.isEnd = false)
    (hle : Lexer.Le lx.advance lx1) : lx.lexer_current_pos < lx1.lexer_current_pos := by
  have := hle.2
  rw [Lexer.advance_pos lx h] at this
  omega

theorem Lexer.lt_readIdentifierOrKeyWord (lx : Lexer) (h : lx.isEnd = false)
    (hc : (lx.peek.isAlpha || lx.peek == '_') = true) :
    lx.lexer_current_pos < lx.readIdentifierOrKeyWord.2.lexer_current_pos := by
  have h1 : Lexer.Le lx.advance
      (Lexer.advanceWhile isIdentChar lx.lexer_source.length lx.advance) :=
    Lexer.le_advanceWhile _ _ _
  have h2 : Lexer.Le lx.advance lx.readIdentifierOrKeyWord.2 := by
    simp only [Lexer.readIdentifierOrKeyWord, hc, if_true]
    split <;> split
    · exact h1.trans ((Lexer.le_advance _).trans (Lexer.le_advanceWhile _ _ _))
    · exact h1
    · exact h1.trans ((Lexer.le_advance _).trans (Lexer.le_advanceWhile _ _ _))
    · exact h1
  exact Lexer.lt_of_advance_le lx _ h h2

theorem Lexer.le_advance_right {a b : Lexer} (h : Lexer.Le a b) : Lexer.Le a b.advance :=
  h.trans (Lexer.le_advance b)

theorem Lexer.le_advanceWhile_right {a b : Lexer} (cond : Lexer → Bool) (fuel : Nat)
    (h : Lexer.Le a b) : Lexer.Le a (Lexer.advanceWhile cond fuel b) :=
  h.trans (Lexer.le_advanceWhile cond fuel b)

theorem Lexer.le_readNumberLiteral_of_mid (lx : Lexer) :
    Lexer.Le
      (if (Lexer.advanceWhile isDigitAhead lx.lexer_source.length lx).peek = '.'
          ∧ (Lexer.advanceWhile isDigitAhead lx.lexer_source.length lx).peekNext.isDigit then
        Lexer.advanceWhile isDigitAhead lx.lexer_source.length
          (Lexer.advanceWhile isDigitAhead lx.lexer_source.length lx).advance
      else Lexer.advanceWhile isDigitAhead lx.lexer_source.length lx)
      lx.readNumberLiteral.2 := by
  unfold Lexer.readNumberLiteral
  simp only []
  split_ifs <;>
    repeat (first
      | exact Lexer.Le.refl _
      | apply Lexer.le_advanceWhile_right
      | apply Lexer.le_advance_right)

theorem Lexer.advanceWhile_first (cond : Lexer → Bool) (fuel : Nat) (lx : Lexer)
    (hc : cond lx = true) :
    Lexer.advanceWhile cond (fuel + 1) lx = Lexer.advanceWhile cond fuel lx.advance := by
  simp [Lexer.advanceWhile, hc]

theorem Lexer.advanceWhile_stop (cond : Lexer → Bool) (fuel : Nat) (lx : Lexer)
    (hc : cond lx = false) : Lexer.advanceWhile cond fuel lx = lx := by
  cases fuel <;> simp [Lexer.advanceWhile, hc]

theorem Lexer.length_pos_of_not_isEnd (lx : Lexer) (h : lx.isEnd = false) :
    ∃ n, lx.lexer_source.length = n + 1 := by
  simp [Lexer.isEnd] at h
  exact ⟨lx.lexer_source.length - 1, by omega⟩

theorem Lexer.lt_readNumberLiteral (lx : Lexer) (h : lx.isEnd = false)
    (hc : (lx.peek.isDigit || (lx.peek == '.' && lx.peekNext.isDigit)) = true) :
    lx.lexer_current_pos < lx.readNumberLiteral.2.lexer_current_pos := by
  obtain ⟨n, hn⟩ := Lexer.length_pos_of_not_isEnd lx h
  have hmid := Lexer.le_readNumberLiteral_of_mid lx
  apply Lexer.lt_of_advance_le lx _ h
  refine Lexer.Le.trans ?_ hmid
  by_cases hd : lx.peek.isDigit = true
  · have h1 : Lexer.advanceWhile isDigitAhead lx.lexer_source.length lx
        = Lexer.advanceWhile isDigitAhead n lx.advance := by
      rw [hn, Lexer.advanceWhile_first _ _ _ (by simpa [isDigitAhead] using hd)]
    rw [h1]
    split
    · exact Lexer.le_advanceWhile_right _ _ (Lexer.le_advance_right
        (Lexer.le_advanceWhile _ _ _))
    · exact Lexer.le_advanceWhile _ _ _
  · have hd1 : lx.peek.isDigit = false := by simpa using hd
    have h1 : Lexer.advanceWhile isDigitAhead lx.lexer_source.length lx = lx :=
      Lexer.advanceWhile_stop _ _ _ (by simpa [isDigitAhead] using hd1)
    rw [h1]
    simp only [hd1, Bool.false_or, Bool.and_eq_true, beq_iff_eq] at hc
    rw [if_pos hc]
    exact Lexer.le_advanceWhile _ _ _

theorem Lexer.lt_readStringLiteral (lx : Lexer) (h : lx.isEnd = false) :
    lx.lexer_current_pos < lx.readStringLiteral.2.lexer_current_pos :=
  Lexer.lt_of_advance_le lx _ h (Lexer.le_readStringBody _ _ _)

theorem ite_cases {α : Type} (P : α → Prop) (c : Prop) [Decidable c] (a b : α)
    (ha : c → P a) (hb : ¬ c → P b) : P (if c then a else b) := by
  split
  · exact ha ‹_›
  · exact hb ‹_›

theorem Lexer.getNextToken_atEnd (lx sk : Lexer)
    (hs : Lexer.skipSpaceAndComments (lx.lexer_source.length + 1) lx = sk)
    (hend : sk.isEnd = true) : lx.getNextToken = (sk.makeToken TokenType.tEOF "", sk) := by
  unfold Lexer.getNextToken
  rw [hs]
  simp only [hend, if_true]

theorem Lexer.le_readIdentifierOrKeyWord (lx : Lexer) :
    Lexer.Le lx lx.readIdentifierOrKeyWord.2 := by
  unfold Lexer.readIdentifierOrKeyWord
  simp only []
  split_ifs <;> (try split) <;>
    repeat (first
      | exact Lexer.Le.refl _
      | apply Lexer.le_advanceWhile_right
      | apply Lexer.le_advance_right)

theorem Lexer.le_readNumberLiteral (lx : Lexer) : Lexer.Le lx lx.readNumberLiteral.2 := by
  refine Lexer.Le.trans ?_ (Lexer.le_readNumberLiteral_of_mid lx)
  split
  · exact Lexer.le_advanceWhile_right _ _ (Lexer.le_advance_right (Lexer.le_advanceWhile _ _ _))
  · exact Lexer.le_advanceWhile _ _ _

theorem Lexer.getNextToken_lt (lx sk : Lexer)
    (hs : Lexer.skipSpaceAndComments (lx.lexer_source.length + 1) lx = sk)
    (hend : sk.isEnd = false) :
    sk.lexer_current_pos < lx.getNextToken.2.lexer_current_pos := by
  unfold Lexer.getNextToken
  rw [hs]
  simp only [hend, Bool.false_eq_true, if_false]
  refine ite_cases (fun r : Token × Lexer => sk.lexer_current_pos < r.2.lexer_current_pos) _ _ _
    (fun _ => Lexer.lt_readStringLiteral sk hend) (fun _ => ?_)
  refine ite_cases (fun r : Token × Lexer => sk.lexer_current_pos < r.2.lexer_current_pos) _ _ _
    (fun h2 => Lexer.lt_readNumberLiteral sk hend h2) (fun _ => ?_)
  refine ite_cases (fun r : Token × Lexer => sk.lexer_current_pos < r.2.lexer_current_pos) _ _ _
    (fun h3 => Lexer.lt_readIdentifierOrKeyWord sk hend h3) (fun _ => ?_)
  have hop : ∀ r : Token × Lexer, Lexer.Le sk.advance r.2 →
      sk.lexer_current_pos < r.2.lexer_current_pos :=
    fun r hr => Lexer.lt_of_advance_le sk _ hend hr
  repeat' apply ite_cases (fun r : Token × Lexer => sk.lexer_current_pos < r.2.lexer_current_pos) _ _ _ <;> intro
  all_goals
    apply hop
    first
      | exact Lexer.le_opToken _ _ _
      | exact Lexer.le_matchChar _ _
      | exact Lexer.Le.refl _

theorem Lexer.getNextToken_le (lx sk : Lexer)
    (hs : Lexer.skipSpaceAndComments (lx.lexer_source.length + 1) lx = sk) :
    Lexer.Le sk lx.getNextToken.2 := by
  unfold Lexer.getNextToken
  rw [hs]
  simp only []
  refine ite_cases (fun r : Token × Lexer => Lexer.Le sk r.2) _ _ _ (fun _ => Lexer.Le.refl _) (fun _ => ?_)
  refine ite_cases (fun r : Token × Lexer => Lexer.Le sk r.2) _ _ _
    (fun _ => (Lexer.le_advance _).trans (Lexer.le_readStringBody _ _ _)) (fun _ => ?_)
  refine ite_cases (fun r : Token × Lexer => Lexer.Le sk r.2) _ _ _
    (fun _ => Lexer.le_readNumberLiteral _) (fun _ => ?_)
  refine ite_cases (fun r : Token × Lexer => Lexer.Le sk r.2) _ _ _
    (fun _ => Lexer.le_readIdentifierOrKeyWord _) (fun _ => ?_)
  have hop : ∀ r : Token × Lexer, Lexer.Le sk.advance r.2 → Lexer.Le sk r.2 :=
    fun r hr => (Lexer.le_advance sk).trans hr
  repeat' apply ite_cases (fun r : Token × Lexer => Lexer.Le sk r.2) _ _ _ <;> intro
  all_goals
    apply hop
    first
      | exact Lexer.le_opToken _ _ _
      | exact Lexer.le_matchChar _ _
      | exact Lexer.Le.refl _

theorem Lexer.getNextToken_advances (lx : Lexer) :
    Lexer.Le lx lx.getNextToken.2
      ∧ (lx.getNextToken.1.type ≠ TokenType.tEOF →
          lx.lexer_current_pos < lx.getNextToken.2.lexer_current_pos
            ∧ lx.lexer_current_pos < lx.lexer_source.length) := by
  have hskip := Lexer.le_skipSpaceAndComments (lx.lexer_source.length + 1) lx
  have hle := Lexer.getNextToken_le lx _ rfl
  refine ⟨hskip.trans hle, fun hne => ?_⟩
  by_cases hend : (Lexer.skipSpaceAndComments (lx.lexer_source.length + 1) lx).isEnd = true
  · rw [Lexer.getNextToken_atEnd lx _ rfl hend] at hne
    exact absurd rfl hne
  · have hend1 : (Lexer.skipSpaceAndComments (lx.lexer_source.length + 1) lx).isEnd = false := by
      simpa using hend
    have hlt := Lexer.getNextToken_lt lx _ rfl hend1
    have h1 := hskip.2
    have h2 : (Lexer.skipSpaceAndComments (lx.lexer_source.length + 1) lx).lexer_current_pos
        < (Lexer.skipSpaceAndComments (lx.lexer_source.length + 1) lx).lexer_source.length := by
      simpa [Lexer.isEnd] using hend1
    rw [← hskip.1] at h2
    exact ⟨by omega, by omega⟩

/-! ### The parser: every parse ends -/

theorem Parser.Step.remaining_decreases {p q : Parser} (h : p.Step q) : q.remaining < p.remaining := by
  obtain ⟨_, h2, rfl⟩ := h
  unfold Parser.remaining
  rw [if_neg h2]
  by_cases he : p.advance.m_current_token.type = TokenType.tEOF
  · rw [if_pos he]; omega
  · rw [if_neg he]
    cases hsrc : p.m_lexer with
    | lexer lx =>
      have hadv := Lexer.getNextToken_advances lx
      have he2 : lx.getNextToken.1.type ≠ TokenType.tEOF := by
        simpa [Parser.advance, hsrc, TokenSource.getNextToken] using he
      obtain ⟨h3, h4⟩ := hadv.2 he2
      have hsame := hadv.1.1
      simp only [Parser.advance, hsrc, TokenSource.getNextToken, TokenSource.size, ← hsame]
      omega
    | stream tokens =>
      cases tokens with
      | nil =>
        exfalso
        apply he
        simp [Parser.advance, hsrc, TokenSource.getNextToken]
      | cons tok tokens =>
        simp [Parser.advance, hsrc, TokenSource.getNextToken, TokenSource.size]

theorem Parser.Reaches.remaining_le {p q : Parser} (h : p.Reaches q) :
    q.remaining ≤ p.remaining := by
  induction h with
  | refl => exact Nat.le_refl _
  | tail _ hs ih => exact Nat.le_trans (Nat.le_of_lt hs.remaining_decreases) ih

theorem Parser.Consumes.remaining_lt {p q : Parser} (h : p.Consumes q) :
    q.remaining < p.remaining := by
  obtain ⟨m, hm, hs⟩ := Relation.TransGen.tail'_iff.1 h
  exact Nat.lt_of_lt_of_le hs.remaining_decreases (Parser.Reaches.remaining_le hm)

theorem Parser.Consumes.weaken {p q : Parser} (h : p.Consumes q) : p.Reaches q :=
  Relation.TransGen.to_reflTransGen h

theorem Parser.Reaches.rfl {p : Parser} : p.Reaches p :=
  Relation.ReflTransGen.refl

theorem Parser.Step.consumes {p q : Parser} (h : p.Step q) : p.Consumes q :=
  Relation.TransGen.single h

theorem PRes.ok_bind {α β : Type} (a : α) (q : Parser) (g : α → Parser → PRes β) :
    (PRes.ok a q).bind g = g a q :=
  rfl

theorem PRes.Consumes.reaches {α : Type} {r : PRes α} {p : Parser} (h : r.Consumes p) :
    r.Reaches p := by
  cases r with
  | ok a q => exact Parser.Consumes.weaken h
  | error t m => trivial
  | outOfFuel => exact h

theorem PRes.reaches_bind {α β : Type} {r : PRes α} {g : α → Parser → PRes β} {p : Parser}
    (h : r.Reaches p) (hg : ∀ a q, p.Reaches q → (g a q).Reaches q) :
    (r.bind g).Reaches p := by
  cases r with
  | ok a q =>
    have h1 : p.Reaches q := h
    have h2 := hg a q h1
    show (g a q).Reaches p
    cases hr : g a q with
    | ok b q2 => rw [hr] at h2; exact Relation.ReflTransGen.trans h1 h2
    | error t m => trivial
    | outOfFuel => rw [hr] at h2; exact h2
  | error t m => trivial
  | outOfFuel => exact h

theorem PRes.consumes_bind {α β : Type} {r : PRes α} {g : α → Parser → PRes β} {p : Parser}
    (h : r.Consumes p) (hg : ∀ a q, p.Consumes q → (g a q).Reaches q) :
    (r.bind g).Consumes p := by
  cases r with
  | ok a q =>
    have h1 : p.Consumes q := h
    have h2 := hg a q h1
    show (g a q).Consumes p
    cases hr : g a q with
    | ok b q2 => rw [hr] at h2; exact Relation.TransGen.trans_left h1 h2
    | error t m => trivial
    | outOfFuel => rw [hr] at h2; exact h2
  | error t m => trivial
  | outOfFuel => exact h

/-- A result got at a later state counts from an earlier one. -/
theorem PRes.Reaches.of_reaches {α : Type} {r : PRes α} {p q : Parser} (h : r.Reaches q)
    (hpq : p.Reaches q) : r.Reaches p := by
  cases r with
  | ok a q2 => exact Relation.ReflTransGen.trans hpq h
  | error t m => trivial
  | outOfFuel => exact h

theorem PRes.Reaches.of_consumes {α : Type} {r : PRes α} {p q : Parser} (h : r.Reaches q)
    (hpq : p.Consumes q) : r.Consumes p := by
  cases r with
  | ok a q2 => exact Relation.TransGen.trans_left hpq h
  | error t m => trivial
  | outOfFuel => exact h

theorem Parser.check_step (p : Parser) (type : TokenType) (h : p.check type = true)
    (hne : type ≠ TokenType.tERROR) : p.Step p.advance := by
  unfold Parser.check Parser.isAtEnd at h
  by_cases he : p.m_current_token.type = TokenType.tEOF
  · simp [he] at h
  · simp only [beq_iff_eq, he, if_false] at h
    exact ⟨by rw [h]; exact hne, he, rfl⟩

theorem Parser.consume_consumes (p : Parser) (type : TokenType) (message : String)
    (hne : type ≠ TokenType.tERROR) : (p.consume type message).Consumes p := by
  unfold Parser.consume
  split_ifs with h1 h2
  · trivial
  · exact (Parser.check_step p type h2 hne).consumes
  · trivial

theorem Parser.matchType_cases (p : Parser) (type : TokenType)
    (hne : type ≠ TokenType.tERROR) :
    (∃ t m, p.matchType type = .error t m)
      ∨ (p.matchType type = .ok true p.advance ∧ p.Step p.advance)
      ∨ p.matchType type = .ok false p := by
  unfold Parser.matchType
  split_ifs with h1 h2
  · exact Or.inl ⟨_, _, rfl⟩
  · exact Or.inr (Or.inl ⟨rfl, Parser.check_step p type h2 hne⟩)
  · exact Or.inr (Or.inr rfl)

theorem Parser.matchTypes_cases (p : Parser) (types : List TokenType)
    (hne : TokenType.tERROR ∉ types) :
    (∃ t m, p.matchTypes types = .error t m)
      ∨ (p.matchTypes types = .ok true p.advance ∧ p.Step p.advance)
      ∨ p.matchTypes types = .ok false p := by
  unfold Parser.matchTypes
  split_ifs with h1 h2
  · exact Or.inl ⟨_, _, rfl⟩
  · refine Or.inr (Or.inl ⟨rfl, ?_⟩)
    obtain ⟨type, ht, hc⟩ := List.any_eq_true.1 h2
    exact Parser.check_step p type hc (fun h => hne (h ▸ ht))
  · exact Or.inr (Or.inr rfl)

/-! ### The parser: if chains on token streams -/

theorem Parser.consume_onStream (previous tok : Token) (tokens : List Token)
    (type : TokenType) (message : String) (h : tok.type = type)
    (h1 : type ≠ TokenType.tERROR) (h2 : type ≠ TokenType.tEOF) :
    (Parser.onStream previous (tok :: tokens)).consume type message
      = .ok () (Parser.onStream tok tokens) := by
  subst h
  cases tokens <;>
    simp [Parser.consume, Parser.onStream, Parser.check, Parser.isAtEnd, Parser.advance,
      TokenSource.getNextToken, h1, h2]

theorem Parser.matchType_onStream (previous tok : Token) (tokens : List Token)
    (type : TokenType) (h : tok.type = type)
    (h1 : type ≠ TokenType.tERROR) (h2 : type ≠ TokenType.tEOF) :
    (Parser.onStream previous (tok :: tokens)).matchType type
      = .ok true (Parser.onStream tok tokens) := by
  subst h
  cases tokens <;>
    simp [Parser.matchType, Parser.onStream, Parser.check, Parser.isAtEnd, Parser.advance,
      TokenSource.getNextToken, h1, h2]

theorem Parser.matchType_of_ne (p : Parser) (type : TokenType)
    (h : p.m_current_token.type ≠ type) (h1 : p.m_current_token.type ≠ TokenType.tERROR) :
    p.matchType type = .ok false p := by
  simp [Parser.matchType, Parser.check, h, h1]

theorem Parser.consume_of_ne (p : Parser) (type : TokenType) (message : String)
    (h : p.m_current_token.type ≠ type) (h1 : p.m_current_token.type ≠ TokenType.tERROR) :
    p.consume type message = .error p.m_current_token message := by
  simp [Parser.consume, Parser.check, h, h1]

theorem Parser.not_error_of_stop (p : Parser) (h : p.blockContinues = false) :
    p.m_current_token.type ≠ TokenType.tERROR := by
  intro he
  simp [Parser.blockContinues, Parser.isAtEnd, he] at h

theorem Parser.not_if_of_stop (p : Parser) (h : p.blockContinues = false) :
    p.m_current_token.type ≠ TokenType.tIf := by
  intro he
  simp [Parser.blockContinues, Parser.isAtEnd, he] at h

theorem IfChain.length_pos (chain : IfChain) : 0 < chain.length := by
  cases chain <;> simp [IfChain.length]

theorem Parser.onStream_current_cons (previous tok : Token) (tokens : List Token) :
    (Parser.onStream previous (tok :: tokens)).m_current_token = tok :=
  rfl

theorem Parser.blockContinues_onStream (previous last : Token) (tokens : List Token) :
    (Parser.onStream previous tokens).blockContinues
      = (Parser.onStream last tokens).blockContinues := by
  cases tokens <;> rfl

theorem Parser.current_onStream (previous last : Token) (tokens : List Token) :
    (Parser.onStream previous tokens).m_current_token
      = (Parser.onStream last tokens).m_current_token := by
  cases tokens <;> rfl

theorem parseIfStatementInternal_chain (n : Nat) :
    ∀ (chain : IfChain), chain.Parses n → ∀ (fuel : Nat), n + chain.length ≤ fuel →
      ∀ (b : Bool) (p : Parser) (previous : Token) (rest : List Token),
        (if b = true then
            p.consume TokenType.tIf "Expect 'if' after 'else' for an 'else if' construct."
          else .ok () p) = .ok () (Parser.onStream previous (chain.tokens ++ rest)) →
        (Parser.onStream previous rest).blockContinues = false →
        (Parser.onStream previous rest).m_current_token.type ≠ TokenType.tElse →
        ∃ last, parseIfStatementInternal fuel b p
          = .ok chain.tree (Parser.onStream last rest) := by
  intro chain
  induction chain with
  | single link =>
    intro h fuel hfuel b p previous rest hb hstop helse
    obtain ⟨f, rfl⟩ : ∃ f, fuel = f + 1 := ⟨fuel - 1, by simp [IfChain.length] at hfuel; omega⟩
    simp only [IfChain.length] at hfuel
    obtain ⟨hthen, hcond, hblock⟩ := h
    simp only [parseIfStatementInternal]
    rw [hb]
    simp only [PRes.ok_bind, IfChain.tokens, IfLink.tokens, List.append_assoc, List.cons_append]
    obtain ⟨l1, e1⟩ := hcond f (by omega) previous link.thenToken (link.blockTokens ++ rest) hthen
    rw [e1]
    simp only [PRes.ok_bind]
    rw [Parser.consume_onStream _ _ _ _ _ hthen (by decide) (by decide)]
    simp only [PRes.ok_bind]
    obtain ⟨l2, e2⟩ := hblock f (by omega) link.thenToken rest
      (by rw [← hstop]; exact Parser.blockContinues_onStream _ _ _)
    rw [e2]
    simp only [PRes.ok_bind]
    have hcur := Parser.current_onStream l2 previous rest
    have hstop2 : (Parser.onStream l2 rest).blockContinues = false := by
      rw [← hstop]; exact Parser.blockContinues_onStream _ _ _
    rw [Parser.matchType_of_ne _ _ (by rw [hcur]; exact helse)
      (Parser.not_error_of_stop _ hstop2)]
    simp only [PRes.ok_bind, Bool.false_eq_true, if_false]
    exact ⟨l2, rfl⟩
  | withElse link elseToken blockTokens elseBlock =>
    intro h fuel hfuel b p previous rest hb hstop helse
    obtain ⟨f, rfl⟩ : ∃ f, fuel = f + 1 := ⟨fuel - 1, by simp [IfChain.length] at hfuel; omega⟩
    simp only [IfChain.length] at hfuel
    obtain ⟨⟨hthen, hcond, hblock⟩, helseTok, helseBlock, hhead⟩ := h
    simp only [parseIfStatementInternal]
    rw [hb]
    simp only [PRes.ok_bind, IfChain.tokens, IfLink.tokens, List.append_assoc, List.cons_append]
    obtain ⟨l1, e1⟩ := hcond f (by omega) previous link.thenToken
      (link.blockTokens ++ elseToken :: (blockTokens ++ rest)) hthen
    rw [e1]
    simp only [PRes.ok_bind]
    rw [Parser.consume_onStream _ _ _ _ _ hthen (by decide) (by decide)]
    simp only [PRes.ok_bind]
    obtain ⟨l2, e2⟩ := hblock f (by omega) link.thenToken (elseToken :: (blockTokens ++ rest))
      (by simp [Parser.onStream, Parser.blockContinues, helseTok])
    rw [e2]
    simp only [PRes.ok_bind]
    rw [Parser.matchType_onStream _ _ _ _ helseTok (by decide) (by decide)]
    simp only [PRes.ok_bind, if_true]
    have hnotIf : (Parser.onStream elseToken (blockTokens ++ rest)).m_current_token.type
        ≠ TokenType.tIf := by
      cases blockTokens with
      | nil =>
        rw [List.nil_append, Parser.current_onStream elseToken previous rest]
        exact Parser.not_if_of_stop _ hstop
      | cons tok toks => exact hhead tok (by simp)
    rw [if_neg hnotIf]
    obtain ⟨l3, e3⟩ := helseBlock f (by omega) elseToken rest
      (by rw [← hstop]; exact Parser.blockContinues_onStream _ _ _)
    rw [e3]
    exact ⟨l3, rfl⟩
  | elseIf link elseToken ifToken next ih =>
    intro h fuel hfuel b p previous rest hb hstop helse
    obtain ⟨f, rfl⟩ : ∃ f, fuel = f + 1 := ⟨fuel - 1, by simp [IfChain.length] at hfuel; omega⟩
    simp only [IfChain.length] at hfuel
    obtain ⟨⟨hthen, hcond, hblock⟩, helseTok, hifTok, hnext⟩ := h
    simp only [parseIfStatementInternal]
    rw [hb]
    simp only [PRes.ok_bind, IfChain.tokens, IfLink.tokens, List.append_assoc, List.cons_append]
    obtain ⟨l1, e1⟩ := hcond f (by omega) previous link.thenToken
      (link.blockTokens ++ elseToken :: ifToken :: (next.tokens ++ rest)) hthen
    rw [e1]
    simp only [PRes.ok_bind]
    rw [Parser.consume_onStream _ _ _ _ _ hthen (by decide) (by decide)]
    simp only [PRes.ok_bind]
    obtain ⟨l2, e2⟩ := hblock f (by omega) link.thenToken
      (elseToken :: ifToken :: (next.tokens ++ rest))
      (by simp [Parser.onStream, Parser.blockContinues, helseTok])
    rw [e2]
    simp only [PRes.ok_bind]
    rw [Parser.matchType_onStream _ _ _ _ helseTok (by decide) (by decide)]
    simp only [PRes.ok_bind, if_true]
    rw [if_pos (by rw [Parser.onStream_current_cons]; exact hifTok)]
    obtain ⟨l3, e3⟩ := ih hnext f (by omega) true
      (Parser.onStream elseToken (ifToken :: (next.tokens ++ rest))) ifToken rest
      (by
        rw [if_pos rfl]
        exact Parser.consume_onStream _ _ _ _ _ hifTok (by decide) (by decide))
      (by rw [← hstop]; exact Parser.blockContinues_onStream _ _ _)
      (by rw [Parser.current_onStream ifToken previous rest]; exact helse)
    rw [e3]
    exact ⟨l3, rfl⟩

theorem parsesCondition_identifier (name : String) (line : Nat) :
    ParsesCondition 6 [{ type := .tIdentifier, lexema := name, line := line }]
      (.identifier name) := by
  intro fuel hfuel previous thenToken rest hthen
  obtain ⟨f, rfl⟩ : ∃ f, fuel = f + 6 := ⟨fuel - 6, by omega⟩
  obtain ⟨ty, lex, ln⟩ := thenToken
  simp only at hthen
  subst hthen
  refine ⟨{ type := .tIdentifier, lexema := name, line := line }, ?_⟩
  cases rest <;>
    simp [parseExpression, parseUnary, parsePostfixOperations, parsePrimary, parsePostfixLoop,
      parseExpressionLoop, Parser.matchTypes, Parser.matchType, Parser.check, Parser.isAtEnd,
      Parser.onStream, Parser.advance, TokenSource.getNextToken, getOperatorPrecedence,
      PRes.bind]

theorem parsesBlock_one (n : Nat) (tok : Token) (statement : Stmt)
    (h : ∀ fuel, n ≤ fuel → ∀ (previous : Token) (rest : List Token),
      (Parser.onStream previous (tok :: rest)).blockContinues = true
        ∧ parseStatement fuel (Parser.onStream previous (tok :: rest))
          = .ok statement (Parser.onStream tok rest)) :
    ParsesBlock (n + 2) [tok] [statement] := by
  intro fuel hfuel previous rest hstop
  obtain ⟨f, rfl⟩ : ∃ f, fuel = f + 2 := ⟨fuel - 2, by omega⟩
  obtain ⟨h1, h2⟩ := h (f + 1) (by omega) previous rest
  have h3 := (h f (by omega) previous rest)
  refine ⟨tok, ?_⟩
  have hstop2 : (Parser.onStream tok rest).blockContinues = false := by
    rw [← hstop]; exact Parser.blockContinues_onStream _ _ _
  simp only [parseBlock, List.singleton_append, h1, if_true, h2, PRes.ok_bind, hstop2,
    Bool.false_eq_true, if_false, List.nil_append]

theorem parsesBlock_break (lexema : String) (line : Nat) :
    ParsesBlock 3 [{ type := .tBreak, lexema := lexema, line := line }] [.breakStmt] := by
  apply parsesBlock_one 1
  intro fuel hfuel previous rest
  obtain ⟨f, rfl⟩ : ∃ f, fuel = f + 1 := ⟨fuel - 1, by omega⟩
  refine ⟨rfl, ?_⟩
  simp only [parseStatement, Parser.onStream_current_cons]
  rw [Parser.consume_onStream _ _ _ _ _ rfl (fun h => by cases h) (fun h => by cases h)]
  rfl

theorem parsesBlock_continue (lexema : String) (line : Nat) :
    ParsesBlock 3 [{ type := .tContinue, lexema := lexema, line := line }] [.continueStmt] := by
  apply parsesBlock_one 1
  intro fuel hfuel previous rest
  obtain ⟨f, rfl⟩ : ∃ f, fuel = f + 1 := ⟨fuel - 1, by omega⟩
  refine ⟨rfl, ?_⟩
  simp only [parseStatement, Parser.onStream_current_cons]
  rw [Parser.consume_onStream _ _ _ _ _ rfl (fun h => by cases h) (fun h => by cases h)]
  rfl

theorem ParsesBlock.mono {n m : Nat} {tokens : List Token} {statements : List Stmt}
    (h : ParsesBlock n tokens statements) (hnm : n ≤ m) : ParsesBlock m tokens statements :=
  fun fuel hfuel => h fuel (Nat.le_trans hnm hfuel)

theorem sampleIfChain_parses : sampleIfChain.Parses 6 :=
  ⟨⟨rfl, parsesCondition_identifier "a" 1, (parsesBlock_break "break" 2).mono (by decide)⟩,
    rfl, rfl,
    ⟨rfl, parsesCondition_identifier "b" 3,
      (parsesBlock_continue "continue" 4).mono (by decide)⟩,
    rfl, (parsesBlock_break "break" 6).mono (by decide),
    fun tok htok => by
      simp only [List.head?, Option.mem_def, Option.some.injEq] at htok
      subst htok
      decide⟩

/-- C22: an if chain on a token stream. `chain` is a chain of any length, `c1 Then B1`
followed by any number of parts `Else If c Then B` and at most one last part `Else B`,
whose conditions and blocks are token lists that `parseExpression` and `parseBlock` read
as such (`chain.Parses n`). On the stream `If chain EndIf rest`, with enough fuel,
`parseIfStatement` gives the right-nested tree `chain.tree`, in which the else branch of
every part is the tree of the parts after it, and it leaves the parser just after the
one `EndIf` token, at `rest`: the parts of the chain have no `EndIf` token of their own.
`parseStatement` gives the same. On the stream without the `EndIf` token, where `rest`
starts with a token at which a block ends and which is neither `Else` nor `EndIf`, or is
empty, the result is the syntax error for the missing `end`. -/
theorem if_chain_is_right_nested (chain : IfChain) (n : Nat) (h : chain.Parses n)
    (fuel : Nat) (hfuel : n + chain.length < fuel) (previous ifToken endToken : Token)
    (rest : List Token) (hif : ifToken.type = TokenType.tIf)
    (hend : endToken.type = TokenType.tEndIf) :
    parseIfStatement fuel (Parser.onStream previous (ifToken :: (chain.tokens ++ endToken :: rest)))
        = .ok chain.tree (Parser.onStream endToken rest)
      ∧ parseStatement (fuel + 1)
          (Parser.onStream previous (ifToken :: (chain.tokens ++ endToken :: rest)))
        = .ok chain.tree (Parser.onStream endToken rest)
      ∧ ((Parser.onStream previous rest).blockContinues = false →
          (Parser.onStream previous rest).m_current_token.type ≠ TokenType.tElse →
          (Parser.onStream previous rest).m_current_token.type ≠ TokenType.tEndIf →
          parseIfStatement fuel (Parser.onStream previous (ifToken :: (chain.tokens ++ rest)))
            = .error (Parser.onStream previous rest).m_current_token
                "Expect 'end' to close 'if/else if/else' statement chain.") := by
  obtain ⟨f, rfl⟩ : ∃ f, fuel = f + 1 := ⟨fuel - 1, by omega⟩
  have hmain : parseIfStatement (f + 1)
      (Parser.onStream previous (ifToken :: (chain.tokens ++ endToken :: rest)))
        = .ok chain.tree (Parser.onStream endToken rest) := by
    have hstop : (Parser.onStream ifToken (endToken :: rest)).blockContinues = false := by
      simp [Parser.onStream, Parser.blockContinues, hend]
    obtain ⟨last, e⟩ := parseIfStatementInternal_chain n chain h f (by omega) false
      (Parser.onStream ifToken (chain.tokens ++ endToken :: rest)) ifToken (endToken :: rest)
      (by simp) hstop (by rw [Parser.onStream_current_cons, hend]; decide)
    simp only [parseIfStatement]
    rw [Parser.consume_onStream _ _ _ _ _ hif (by decide) (by decide)]
    simp only [PRes.ok_bind]
    rw [e]
    simp only [PRes.ok_bind]
    rw [Parser.consume_onStream _ _ _ _ _ hend (by decide) (by decide)]
    rfl
  refine ⟨hmain, ?_, ?_⟩
  · rw [← hmain]
    simp only [parseStatement, Parser.onStream, hif]
  · intro hstop helse hnoend
    obtain ⟨last, e⟩ := parseIfStatementInternal_chain n chain h f (by omega) false
      (Parser.onStream ifToken (chain.tokens ++ rest)) ifToken rest
      (by simp) (by rw [← hstop]; exact Parser.blockContinues_onStream _ _ _)
      (by rw [Parser.current_onStream ifToken previous rest]; exact helse)
    simp only [parseIfStatement]
    rw [Parser.consume_onStream _ _ _ _ _ hif (by decide) (by decide)]
    simp only [PRes.ok_bind]
    rw [e]
    simp only [PRes.ok_bind]
    have hstop2 : (Parser.onStream last rest).blockContinues = false := by
      rw [← hstop]; exact Parser.blockContinues_onStream _ _ _
    rw [Parser.consume_of_ne _ _ _
      (by rw [Parser.current_onStream last previous rest]; exact hnoend)
      (Parser.not_error_of_stop _ hstop2)]
    rw [Parser.current_onStream last previous rest]
    rfl

/-- C22, witness: the stream `If a Then break Else If b Then continue Else break EndIf`
gives the tree `If(a, [break], If(b, [continue], [break]))`, and the parser is at the end
of the stream, after the one `EndIf` token. -/
theorem if_chain_is_right_nested_witness :
    parseIfStatement 9
        (Parser.ofSource (.stream
          [{ type := .tIf, lexema := "if", line := 1 },
           { type := .tIdentifier, lexema := "a", line := 1 },
           { type := .tThen, lexema := "then", line := 1 },
           { type := .tBreak, lexema := "break", line := 2 },
           { type := .tElse, lexema := "else", line := 3 },
           { type := .tIf, lexema := "if", line := 3 },
           { type := .tIdentifier, lexema := "b", line := 3 },
           { type := .tThen, lexema := "then", line := 3 },
           { type := .tContinue, lexema := "continue", line := 4 },
           { type := .tElse, lexema := "else", line := 5 },
           { type := .tBreak, lexema := "break", line := 6 },
           { type := .tEndIf, lexema := "end if", line := 7 }]))
      = .ok
          (.ifStmt (.identifier "a") [.breakStmt]
            (some (.ifStmt (.identifier "b") [.continueStmt] (some (.block [.breakStmt])))))
          (Parser.onStream { type := .tEndIf, lexema := "end if", line := 7 } []) :=
  (if_chain_is_right_nested sampleIfChain 6 sampleIfChain_parses 9 (by decide)
    { type := .tERROR, lexema := "", line := 0 } { type := .tIf, lexema := "if", line := 1 }
    { type := .tEndIf, lexema := "end if", line := 7 } [] rfl rfl).1

/-! ### The parser: every function ends -/

theorem parseCall_terminates (fuel : Nat) (ih : ParserTerminates fuel) (callee : Expr)
    (p : Parser) (hf : 10 * p.remaining + 1 ≤ fuel + 1) :
    (parseCall (fuel + 1) callee p).Consumes p := by
  simp only [parseCall]
  apply PRes.consumes_bind (Parser.consume_consumes _ _ _ (by decide))
  intro _ p1 h1
  have m1 := h1.remaining_lt
  apply PRes.reaches_bind
  · split_ifs
    · exact ih.expressionList p1 [] (by omega)
    · exact Parser.Reaches.rfl
  intro arguments p2 h2
  apply PRes.reaches_bind (Parser.consume_consumes _ _ _ (by decide)).reaches
  intro _ p3 _
  exact Parser.Reaches.rfl

theorem parseStatement_terminates (fuel : Nat) (ih : ParserTerminates fuel) (p : Parser)
    (hf : 10 * p.remaining + 6 ≤ fuel + 1) : (parseStatement (fuel + 1) p).Consumes p := by
  simp only [parseStatement]
  split
  · exact ih.ifStatement p (by omega)
  · exact ih.whileStatement p (by omega)
  · exact ih.forStatement p (by omega)
  · exact ih.returnStatement p (by omega)
  · apply PRes.consumes_bind (Parser.consume_consumes _ _ _ (by decide))
    intro _ p1 _
    exact Parser.Reaches.rfl
  · apply PRes.consumes_bind (Parser.consume_consumes _ _ _ (by decide))
    intro _ p1 _
    exact Parser.Reaches.rfl
  · apply PRes.consumes_bind (ih.expression 0 p (by omega))
    intro _ p1 _
    exact Parser.Reaches.rfl

theorem parseBlock_terminates (fuel : Nat) (ih : ParserTerminates fuel) (p : Parser)
    (acc : List Stmt) (hf : 10 * p.remaining + 7 ≤ fuel + 1) :
    (parseBlock (fuel + 1) p acc).Reaches p := by
  simp only [parseBlock]
  split_ifs
  · refine (PRes.consumes_bind (ih.statement p (by omega)) ?_).reaches
    intro st p1 h1
    have m1 := h1.remaining_lt
    exact ih.block p1 _ (by omega)
  · exact Parser.Reaches.rfl

theorem parseIfStatementInternal_terminates (fuel : Nat) (ih : ParserTerminates fuel)
    (b : Bool) (p : Parser) (hf : 10 * p.remaining + 6 ≤ fuel + 1) :
    (parseIfStatementInternal (fuel + 1) b p).Reaches p := by
  simp only [parseIfStatementInternal]
  apply PRes.reaches_bind
  · split_ifs
    · exact (Parser.consume_consumes _ _ _ (by decide)).reaches
    · exact Parser.Reaches.rfl
  intro _ p0 h0
  have m0 := h0.remaining_le
  refine (PRes.consumes_bind (ih.expression 0 p0 (by omega)) ?_).reaches
  intro condition p1 h1
  have m1 := h1.remaining_lt
  apply PRes.reaches_bind (Parser.consume_consumes _ _ _ (by decide)).reaches
  intro _ p2 h2
  have m2 := h2.remaining_le
  apply PRes.reaches_bind (ih.block p2 [] (by omega))
  intro thenBranch p3 h3
  have m3 := h3.remaining_le
  rcases Parser.matchType_cases p3 TokenType.tElse (by decide) with ⟨t, m, e⟩ | ⟨e, hs⟩ | e
  · rw [e]; exact True.intro
  · rw [e]
    have m4 := hs.remaining_decreases
    refine PRes.Reaches.of_reaches ?_ hs.consumes.weaken
    simp only [PRes.ok_bind, if_true]
    split_ifs
    · apply PRes.reaches_bind (ih.ifInternal true _ (by omega))
      intro _ p5 _
      exact Parser.Reaches.rfl
    · apply PRes.reaches_bind (ih.block _ [] (by omega))
      intro _ p5 _
      exact Parser.Reaches.rfl
  · rw [e]
    exact Parser.Reaches.rfl

theorem parseIfStatement_terminates (fuel : Nat) (ih : ParserTerminates fuel) (p : Parser)
    (hf : 10 * p.remaining + 1 ≤ fuel + 1) : (parseIfStatement (fuel + 1) p).Consumes p := by
  simp only [parseIfStatement]
  apply PRes.consumes_bind (Parser.consume_consumes _ _ _ (by decide))
  intro _ p1 h1
  have m1 := h1.remaining_lt
  apply PRes.reaches_bind (ih.ifInternal false p1 (by omega))
  intro node p2 _
  apply PRes.reaches_bind (Parser.consume_consumes _ _ _ (by decide)).reaches
  intro _ p3 _
  exact Parser.Reaches.rfl

theorem parseWhileStatement_terminates (fuel : Nat) (ih : ParserTerminates fuel) (p : Parser)
    (hf : 10 * p.remaining + 1 ≤ fuel + 1) :
    (parseWhileStatement (fuel + 1) p).Consumes p := by
  simp only [parseWhileStatement]
  apply PRes.consumes_bind (Parser.consume_consumes _ _ _ (by decide))
  intro _ p1 h1
  have m1 := h1.remaining_lt
  apply PRes.reaches_bind (ih.expression 0 p1 (by omega)).reaches
  intro condition p2 h2
  have m2 := h2.remaining_le
  apply PRes.reaches_bind (ih.block p2 [] (by omega))
  intro body p3 _
  apply PRes.reaches_bind (Parser.consume_consumes _ _ _ (by decide)).reaches
  intro _ p4 _
  exact Parser.Reaches.rfl

theorem parseForStatement_terminates (fuel : Nat) (ih : ParserTerminates fuel) (p : Parser)
    (hf : 10 * p.remaining + 1 ≤ fuel + 1) :
    (parseForStatement (fuel + 1) p).Consumes p := by
  simp only [parseForStatement]
  apply PRes.consumes_bind (Parser.consume_consumes _ _ _ (by decide))
  intro _ p1 h1
  have m1 := h1.remaining_lt
  apply PRes.reaches_bind (Parser.consume_consumes _ _ _ (by decide)).reaches
  intro _ p2 h2
  have m2 := h2.remaining_le
  apply PRes.reaches_bind (Parser.consume_consumes _ _ _ (by decide)).reaches
  intro _ p3 h3
  have m3 := h3.remaining_le
  apply PRes.reaches_bind (ih.expression 0 p3 (by omega)).reaches
  intro iterable p4 h4
  have m4 := h4.remaining_le
  apply PRes.reaches_bind (ih.block p4 [] (by omega))
  intro body p5 _
  apply PRes.reaches_bind (Parser.consume_consumes _ _ _ (by decide)).reaches
  intro _ p6 _
  exact Parser.Reaches.rfl

theorem parseParameters_terminates (fuel : Nat) (ih : ParserTerminates fuel) (p : Parser)
    (acc : List String) (hf : 10 * p.remaining + 1 ≤ fuel + 1) :
    (parseParameters (fuel + 1) p acc).Reaches p := by
  simp only [parseParameters]
  refine (PRes.consumes_bind (Parser.consume_consumes _ _ _ (by decide)) ?_).reaches
  intro _ p1 h1
  have m1 := h1.remaining_lt
  rcases Parser.matchType_cases p1 TokenType.tComma (by decide) with ⟨t, m, e⟩ | ⟨e, hs⟩ | e
  · rw [e]; exact True.intro
  · rw [e]
    have m2 := hs.remaining_decreases
    refine PRes.Reaches.of_reaches ?_ hs.consumes.weaken
    simp only [PRes.ok_bind, if_true]
    exact ih.parameters _ _ (by omega)
  · rw [e]
    exact Parser.Reaches.rfl

theorem parseFunctionLiteral_terminates (fuel : Nat) (ih : ParserTerminates fuel)
    (p : Parser) (hf : 10 * p.remaining + 1 ≤ fuel + 1) :
    (parseFunctionLiteral (fuel + 1) p).Consumes p := by
  simp only [parseFunctionLiteral]
  apply PRes.consumes_bind (Parser.consume_consumes _ _ _ (by decide))
  intro _ p1 h1
  have m1 := h1.remaining_lt
  apply PRes.reaches_bind (Parser.consume_consumes _ _ _ (by decide)).reaches
  intro _ p2 h2
  have m2 := h2.remaining_le
  apply PRes.reaches_bind
  · split_ifs
    · exact ih.parameters p2 [] (by omega)
    · exact Parser.Reaches.rfl
  intro parameters p3 h3
  have m3 := h3.remaining_le
  apply PRes.reaches_bind (Parser.consume_consumes _ _ _ (by decide)).reaches
  intro _ p4 h4
  have m4 := h4.remaining_le
  apply PRes.reaches_bind (ih.block p4 [] (by omega))
  intro body p5 _
  apply PRes.reaches_bind (Parser.consume_consumes _ _ _ (by decide)).reaches
  intro _ p6 _
  exact Parser.Reaches.rfl

theorem parseReturnStatement_terminates (fuel : Nat) (ih : ParserTerminates fuel)
    (p : Parser) (hf : 10 * p.remaining + 1 ≤ fuel + 1) :
    (parseReturnStatement (fuel + 1) p).Consumes p := by
  simp only [parseReturnStatement]
  apply PRes.consumes_bind (Parser.consume_consumes _ _ _ (by decide))
  intro _ p1 h1
  have m1 := h1.remaining_lt
  split_ifs
  · apply PRes.reaches_bind (ih.expression 0 p1 (by omega)).reaches
    intro _ p2 _
    exact Parser.Reaches.rfl
  · exact Parser.Reaches.rfl

theorem parseExpression_terminates (fuel : Nat) (ih : ParserTerminates fuel) (m : Nat)
    (p : Parser) (hf : 10 * p.remaining + 5 ≤ fuel + 1) :
    (parseExpression (fuel + 1) m p).Consumes p := by
  simp only [parseExpression]
  apply PRes.consumes_bind (ih.unary p (by omega))
  intro left p1 h1
  have m1 := h1.remaining_lt
  exact ih.expressionLoop _ _ p1 (by omega)

theorem parseExpressionLoop_terminates (fuel : Nat) (ih : ParserTerminates fuel) (m : Nat)
    (left : Expr) (p : Parser) (hf : 10 * p.remaining + 1 ≤ fuel + 1) :
    (parseExpressionLoop (fuel + 1) m left p).Reaches p := by
  have key : ∀ n : Nat, getOperatorPrecedence p.m_current_token.type ≠ 0 →
      ((p.consume p.m_current_token.type "Expect binary operator.").bind fun _ p1 =>
        (parseExpression fuel n p1).bind fun right p2 =>
          if isAssignRange p1.m_previous_token.type = true then
            parseExpressionLoop fuel m (left.assignment p1.m_previous_token.type right) p2
          else
            parseExpressionLoop fuel m (Expr.binaryOp p1.m_previous_token.type left right)
              p2).Reaches p := by
    intro n h0
    have hne : p.m_current_token.type ≠ TokenType.tERROR := by
      intro h
      apply h0
      rw [h]
      rfl
    refine (PRes.consumes_bind (Parser.consume_consumes _ _ _ hne) ?_).reaches
    intro _ p1 h1
    have m1 := h1.remaining_lt
    apply PRes.reaches_bind (ih.expression _ p1 (by omega)).reaches
    intro right p2 h2
    have m2 := h2.remaining_le
    split_ifs <;> exact ih.expressionLoop _ _ p2 (by omega)
  simp only [parseExpressionLoop]
  split_ifs with h1 h2 h3
  · exact Parser.Reaches.rfl
  · exact Parser.Reaches.rfl
  · exact key _ (fun h => h2 (Or.inl h))
  · exact key _ (fun h => h2 (Or.inl h))

theorem parseUnary_terminates (fuel : Nat) (ih : ParserTerminates fuel) (p : Parser)
    (hf : 10 * p.remaining + 4 ≤ fuel + 1) : (parseUnary (fuel + 1) p).Consumes p := by
  simp only [parseUnary]
  rcases Parser.matchTypes_cases p [TokenType.tNot, TokenType.tMinus, TokenType.tPlus]
    (by decide) with ⟨t, m, e⟩ | ⟨e, hs⟩ | e
  · rw [e]; exact True.intro
  · rw [e]
    have m1 := hs.remaining_decreases
    refine PRes.Reaches.of_consumes ?_ hs.consumes
    simp only [PRes.ok_bind, if_true]
    apply PRes.reaches_bind (ih.unary _ (by omega)).reaches
    intro _ p2 _
    exact Parser.Reaches.rfl
  · rw [e]
    simp only [PRes.ok_bind, Bool.false_eq_true, if_false]
    exact ih.postfixOperations p (by omega)

theorem parsePostfixOperations_terminates (fuel : Nat) (ih : ParserTerminates fuel)
    (p : Parser) (hf : 10 * p.remaining + 3 ≤ fuel + 1) :
    (parsePostfixOperations (fuel + 1) p).Consumes p := by
  simp only [parsePostfixOperations]
  apply PRes.consumes_bind (ih.primary p (by omega))
  intro e p1 h1
  have m1 := h1.remaining_lt
  exact ih.postfixLoop _ p1 (by omega)

theorem parseExpressionList_terminates (fuel : Nat) (ih : ParserTerminates fuel) (p : Parser)
    (acc : List Expr) (hf : 10 * p.remaining + 6 ≤ fuel + 1) :
    (parseExpressionList (fuel + 1) p acc).Reaches p := by
  simp only [parseExpressionList]
  refine (PRes.consumes_bind (ih.expression 0 p (by omega)) ?_).reaches
  intro x p1 h1
  have m1 := h1.remaining_lt
  rcases Parser.matchType_cases p1 TokenType.tComma (by decide) with ⟨t, m, e⟩ | ⟨e, hs⟩ | e
  · rw [e]; exact True.intro
  · rw [e]
    have m2 := hs.remaining_decreases
    refine PRes.Reaches.of_reaches ?_ hs.consumes.weaken
    simp only [PRes.ok_bind, if_true]
    exact ih.expressionList _ _ (by omega)
  · rw [e]
    exact Parser.Reaches.rfl

theorem parsePostfixLoop_terminates (fuel : Nat) (ih : ParserTerminates fuel) (expr : Expr)
    (p : Parser) (hf : 10 * p.remaining + 2 ≤ fuel + 1) :
    (parsePostfixLoop (fuel + 1) expr p).Reaches p := by
  simp only [parsePostfixLoop]
  split_ifs with hc
  · refine (PRes.consumes_bind (ih.call expr p (by omega)) ?_).reaches
    intro e p1 h1
    have m1 := h1.remaining_lt
    exact ih.postfixLoop e p1 (by omega)
  · rcases Parser.matchType_cases p TokenType.tLBracket (by decide) with
      ⟨t, m, e⟩ | ⟨e, hs⟩ | e
    · rw [e]; exact True.intro
    · rw [e]
      have m1 := hs.remaining_decreases
      refine PRes.Reaches.of_reaches ?_ hs.consumes.weaken
      simp only [PRes.ok_bind, if_true]
      by_cases hr : p.advance.check TokenType.tRBracket = true
      · rw [if_pos hr]
        exact True.intro
      · rw [if_neg hr]
        apply PRes.reaches_bind
        · split_ifs with hcolon
          · apply PRes.reaches_bind (Parser.consume_consumes _ _ _ (by decide)).reaches
            intro _ p2 h2
            have m2 := h2.remaining_le
            split_ifs
            · apply PRes.reaches_bind (ih.expression 0 p2 (by omega)).reaches
              intro _ p3 _
              exact Parser.Reaches.rfl
            · exact Parser.Reaches.rfl
          · apply PRes.reaches_bind (ih.expression 0 _ (by omega)).reaches
            intro firstArg p2 h2
            have m2 := h2.remaining_le
            rcases Parser.matchType_cases p2 TokenType.tColon (by decide) with
              ⟨t, m, e2⟩ | ⟨e2, hs2⟩ | e2
            · rw [e2]; exact True.intro
            · rw [e2]
              have m3 := hs2.remaining_decreases
              refine PRes.Reaches.of_reaches ?_ hs2.consumes.weaken
              simp only [PRes.ok_bind, if_true]
              split_ifs
              · apply PRes.reaches_bind (ih.expression 0 _ (by omega)).reaches
                intro _ p4 _
                exact Parser.Reaches.rfl
              · exact Parser.Reaches.rfl
            · rw [e2]
              exact Parser.Reaches.rfl
        intro args p5 h5
        have m5 := h5.remaining_le
        apply PRes.reaches_bind (Parser.consume_consumes _ _ _ (by decide)).reaches
        intro _ p6 h6
        have m6 := h6.remaining_le
        split_ifs
        · exact ih.postfixLoop _ p6 (by omega)
        · split
          · exact ih.postfixLoop _ p6 (by omega)
          · exact True.intro
    · rw [e]
      exact Parser.Reaches.rfl

theorem parsePrimary_terminates (fuel : Nat) (ih : ParserTerminates fuel) (p : Parser)
    (hf : 10 * p.remaining + 2 ≤ fuel + 1) : (parsePrimary (fuel + 1) p).Consumes p := by
  simp only [parsePrimary]
  rcases Parser.matchType_cases p TokenType.tNumber (by decide) with ⟨t, m, e⟩ | ⟨e, hs⟩ | e
  · rw [e]; exact True.intro
  · rw [e]; exact hs.consumes
  rw [e]
  simp only [PRes.ok_bind, Bool.false_eq_true, if_false]
  rcases Parser.matchType_cases p TokenType.tString (by decide) with ⟨t, m, e⟩ | ⟨e, hs⟩ | e
  · rw [e]; exact True.intro
  · rw [e]; exact hs.consumes
  rw [e]
  simp only [PRes.ok_bind, Bool.false_eq_true, if_false]
  rcases Parser.matchType_cases p TokenType.tTrue (by decide) with ⟨t, m, e⟩ | ⟨e, hs⟩ | e
  · rw [e]; exact True.intro
  · rw [e]; exact hs.consumes
  rw [e]
  simp only [PRes.ok_bind, Bool.false_eq_true, if_false]
  rcases Parser.matchType_cases p TokenType.tFalse (by decide) with ⟨t, m, e⟩ | ⟨e, hs⟩ | e
  · rw [e]; exact True.intro
  · rw [e]; exact hs.consumes
  rw [e]
  simp only [PRes.ok_bind, Bool.false_eq_true, if_false]
  rcases Parser.matchType_cases p TokenType.tNil (by decide) with ⟨t, m, e⟩ | ⟨e, hs⟩ | e
  · rw [e]; exact True.intro
  · rw [e]; exact hs.consumes
  rw [e]
  simp only [PRes.ok_bind, Bool.false_eq_true, if_false]
  rcases Parser.matchType_cases p TokenType.tIdentifier (by decide) with
    ⟨t, m, e⟩ | ⟨e, hs⟩ | e
  · rw [e]; exact True.intro
  · rw [e]; exact hs.consumes
  rw [e]
  simp only [PRes.ok_bind, Bool.false_eq_true, if_false]
  rcases Parser.matchType_cases p TokenType.tLBracket (by decide) with
    ⟨t, m, e⟩ | ⟨e, hs⟩ | e
  · rw [e]; exact True.intro
  · rw [e]
    have m1 := hs.remaining_decreases
    refine PRes.Reaches.of_consumes ?_ hs.consumes
    simp only [PRes.ok_bind, if_true]
    apply PRes.reaches_bind
    · split_ifs
      · exact ih.expressionList _ [] (by omega)
      · exact Parser.Reaches.rfl
    intro elements p8 _
    apply PRes.reaches_bind (Parser.consume_consumes _ _ _ (by decide)).reaches
    intro _ p9 _
    exact Parser.Reaches.rfl
  rw [e]
  simp only [PRes.ok_bind, Bool.false_eq_true, if_false]
  split_ifs with hfunc
  · exact ih.functionLiteral p (by omega)
  · rcases Parser.matchType_cases p TokenType.tLParenthesis (by decide) with
      ⟨t, m, e⟩ | ⟨e, hs⟩ | e
    · rw [e]; exact True.intro
    · rw [e]
      have m1 := hs.remaining_decreases
      refine PRes.Reaches.of_consumes ?_ hs.consumes
      simp only [PRes.ok_bind, if_true]
      apply PRes.reaches_bind (ih.expression 0 _ (by omega)).reaches
      intro _ p9 _
      apply PRes.reaches_bind (Parser.consume_consumes _ _ _ (by decide)).reaches
      intro _ p10 _
      exact Parser.Reaches.rfl
    · rw [e]
      exact True.intro

/-- Every parsing function ends: see `ParserTerminates`. -/
theorem parserTerminates : ∀ fuel, ParserTerminates fuel := by
  intro fuel
  induction fuel with
  | zero =>
    constructor <;> intros <;> omega
  | succ fuel ih =>
    exact
      { statement := parseStatement_terminates fuel ih
        block := parseBlock_terminates fuel ih
        ifInternal := parseIfStatementInternal_terminates fuel ih
        ifStatement := parseIfStatement_terminates fuel ih
        whileStatement := parseWhileStatement_terminates fuel ih
        forStatement := parseForStatement_terminates fuel ih
        parameters := parseParameters_terminates fuel ih
        functionLiteral := parseFunctionLiteral_terminates fuel ih
        returnStatement := parseReturnStatement_terminates fuel ih
        expression := parseExpression_terminates fuel ih
        expressionLoop := parseExpressionLoop_terminates fuel ih
        unary := parseUnary_terminates fuel ih
        postfixOperations := parsePostfixOperations_terminates fuel ih
        postfixLoop := parsePostfixLoop_terminates fuel ih
        expressionList := parseExpressionList_terminates fuel ih
        primary := parsePrimary_terminates fuel ih
        call := parseCall_terminates fuel ih }

theorem parseProgramLoop_terminates :
    ∀ (fuel : Nat) (p : Parser) (acc : List Stmt), 10 * p.remaining + 8 ≤ fuel →
      (∃ t m, parseProgramLoop fuel p acc = .error t m)
        ∨ ∃ program q, parseProgramLoop fuel p acc = .ok program q ∧ p.Reaches q
            ∧ q.m_current_token.type = TokenType.tEOF := by
  intro fuel
  induction fuel with
  | zero => intro p acc h; omega
  | succ fuel ih =>
    intro p acc hf
    simp only [parseProgramLoop]
    by_cases hend : p.isAtEnd = true
    · right
      refine ⟨acc, p, by simp [hend], Parser.Reaches.rfl, ?_⟩
      simpa [Parser.isAtEnd] using hend
    · simp only [hend, Bool.not_false, if_true, Bool.false_eq_true, not_false_eq_true]
      have hst := (parserTerminates fuel).statement p (by omega)
      cases hr : parseStatement fuel p with
      | ok st p1 =>
        rw [hr] at hst
        have h1 : p.Consumes p1 := hst
        have m1 := h1.remaining_lt
        simp only [PRes.ok_bind]
        rcases ih p1 (acc ++ [st]) (by omega) with ⟨t, m, e⟩ | ⟨program, q, e, hq, hq2⟩
        · exact Or.inl ⟨t, m, e⟩
        · exact Or.inr ⟨program, q, e, Relation.ReflTransGen.trans h1.weaken hq, hq2⟩
      | error t m => exact Or.inl ⟨t, m, rfl⟩
      | outOfFuel => rw [hr] at hst; exact absurd hst (fun h => h)

theorem Parser.Reaches.stream_tokens {p q : Parser} (h : p.Reaches q)
    (hq : q.m_current_token.type = TokenType.tEOF) :
    ∀ tokens, p.m_lexer = .stream tokens →
      q.m_lexer
          = .stream ((p.m_current_token :: tokens).dropWhile
              fun t => t.type != TokenType.tEOF).tail
        ∧ ∀ tok ∈ (p.m_current_token :: tokens).takeWhile (fun t => t.type != TokenType.tEOF),
            tok.type ≠ TokenType.tERROR := by
  induction h using Relation.ReflTransGen.head_induction_on with
  | refl =>
    intro tokens hsrc
    simp [List.dropWhile, List.takeWhile, hq, hsrc]
  | @head a c hs _ ih =>
    intro tokens hsrc
    obtain ⟨h1, h2, rfl⟩ := hs
    have hne : (a.m_current_token.type != TokenType.tEOF) = true := by simpa using h2
    have hd : ∀ l : List Token, (a.m_current_token :: l).dropWhile
        (fun t => t.type != TokenType.tEOF) = l.dropWhile fun t => t.type != TokenType.tEOF :=
      fun l => List.dropWhile_cons_of_pos hne
    have htk : ∀ l : List Token, (a.m_current_token :: l).takeWhile
        (fun t => t.type != TokenType.tEOF)
          = a.m_current_token :: l.takeWhile fun t => t.type != TokenType.tEOF :=
      fun l => List.takeWhile_cons_of_pos hne
    rw [hd, htk]
    cases tokens with
    | nil =>
      have := ih [] (by simp [Parser.advance, hsrc, TokenSource.getNextToken])
      simp only [Parser.advance, hsrc, TokenSource.getNextToken] at this
      refine ⟨by simpa [List.dropWhile] using this.1, ?_⟩
      intro tok htok
      simp only [List.takeWhile, List.mem_singleton] at htok
      rw [htok]
      exact h1
    | cons t tokens =>
      have := ih tokens (by simp [Parser.advance, hsrc, TokenSource.getNextToken])
      simp only [Parser.advance, hsrc, TokenSource.getNextToken] at this
      refine ⟨this.1, ?_⟩
      intro tok htok
      rcases List.mem_cons.1 htok with rfl | htok
      · exact h1
      · exact this.2 tok htok

theorem Parser.ofSource_stream_remaining (tokens : List Token) :
    (Parser.ofSource (.stream tokens)).remaining ≤ tokens.length := by
  cases tokens with
  | nil => simp [Parser.ofSource, Parser.advance, TokenSource.getNextToken, Parser.remaining]
  | cons t tokens =>
    simp only [Parser.ofSource, Parser.advance, TokenSource.getNextToken, Parser.remaining,
      TokenSource.size, List.length_cons]
    split_ifs <;> omega

theorem Parser.new_remaining (source : List Char) :
    (Parser.new (Lexer.new source)).remaining ≤ source.length + 1 := by
  simp only [Parser.new, Parser.ofSource, Parser.advance, TokenSource.getNextToken,
    Parser.remaining, TokenSource.size]
  have h := (Lexer.getNextToken_advances (Lexer.new source)).1.1
  split_ifs
  · omega
  · rw [← h]
    simp only [Lexer.new]
    omega

/-- C23: the parse of a program on a token stream `tokens` (followed by end-of-input
tokens), with any fuel of at least ten times the number of tokens plus eight. The parse
gives its result: a syntax error, or a program together with a parser whose current token
is the end of input, whose stream is what follows the first end-of-input token of
`tokens`, and then no token of `tokens` before the first end-of-input token is a
lexical-error token. A statement parse, at any parser state for which the fuel is enough,
gives its result, and if it gives a statement, the parser has consumed one token or more,
none of them a lexical-error token or the end of input. The parse of a source text gives
its result as well: a syntax error, or a program with the parser at the end of input. -/
theorem parse_program_terminates (tokens : List Token) (fuel : Nat)
    (hfuel : 10 * tokens.length + 8 ≤ fuel) :
    ((∃ tok message,
          parseProgramLoop fuel (Parser.ofSource (.stream tokens)) [] = .error tok message)
        ∨ ∃ program q,
            parseProgramLoop fuel (Parser.ofSource (.stream tokens)) [] = .ok program q
              ∧ q.m_current_token.type = TokenType.tEOF
              ∧ q.m_lexer
                  = .stream (tokens.dropWhile fun t => t.type != TokenType.tEOF).tail
              ∧ ∀ tok ∈ tokens.takeWhile (fun t => t.type != TokenType.tEOF),
                  tok.type ≠ TokenType.tERROR)
      ∧ (∀ p : Parser, 10 * p.remaining + 6 ≤ fuel →
          parseStatement fuel p ≠ .outOfFuel
            ∧ ∀ st q, parseStatement fuel p = .ok st q →
                p.Consumes q ∧ q.remaining < p.remaining)
      ∧ (∀ source : String, 10 * source.length + 18 ≤ fuel →
          (∃ tok message, parseSource fuel source = .error tok message)
            ∨ ∃ program q, parseSource fuel source = .ok program q
                ∧ q.m_current_token.type = TokenType.tEOF) := by
  refine ⟨?_, ?_, ?_⟩
  · have hrem := Parser.ofSource_stream_remaining tokens
    rcases parseProgramLoop_terminates fuel (Parser.ofSource (.stream tokens)) [] (by omega)
      with ⟨t, m, e⟩ | ⟨program, q, e, hq, hq2⟩
    · exact Or.inl ⟨t, m, e⟩
    · refine Or.inr ⟨program, q, e, hq2, ?_⟩
      cases tokens with
      | nil =>
        have := hq.stream_tokens hq2 [] rfl
        simp only [List.dropWhile, List.takeWhile]
        refine ⟨?_, fun tok htok => by cases htok⟩
        simpa [Parser.ofSource, Parser.advance, TokenSource.getNextToken, List.dropWhile]
          using this.1
      | cons t tokens =>
        exact hq.stream_tokens hq2 tokens rfl
  · intro p hp
    have h := (parserTerminates fuel).statement p hp
    constructor
    · intro e
      rw [e] at h
      exact h
    · intro st q e
      rw [e] at h
      exact ⟨h, Parser.Consumes.remaining_lt h⟩
  · intro source hs
    have hrem := Parser.new_remaining source.toList
    have hlen : source.toList.length = source.length := rfl
    rcases parseProgramLoop_terminates fuel (Parser.new (Lexer.new source.toList)) []
      (by omega) with ⟨t, m, e⟩ | ⟨program, q, e, _, hq2⟩
    · exact Or.inl ⟨t, m, e⟩
    · exact Or.inr ⟨program, q, e, hq2⟩

/-- C23, witness: the parse of the one-token stream `break` with the fuel 18 gives its
result. -/
theorem parse_program_terminates_witness :
    (∃ tok message,
        parseProgramLoop 18
          (Parser.ofSource (.stream [{ type := .tBreak, lexema := "break", line := 1 }])) []
          = .error tok message)
      ∨ ∃ program q,
          parseProgramLoop 18
            (Parser.ofSource (.stream [{ type := .tBreak, lexema := "break", line := 1 }])) []
            = .ok program q
            ∧ q.m_current_token.type = TokenType.tEOF
            ∧ q.m_lexer
                = .stream (([{ type := .tBreak, lexema := "break", line := 1 }] :
                    List Token).dropWhile fun t => t.type != TokenType.tEOF).tail
            ∧ ∀ tok ∈ ([{ type := .tBreak, lexema := "break", line := 1 }] :
                    List Token).takeWhile (fun t => t.type != TokenType.tEOF),
                tok.type ≠ TokenType.tERROR :=
  (parse_program_terminates [{ type := .tBreak, lexema := "break", line := 1 }] 18
    (by decide)).1

/-! ### The token sequence of a source text -/

theorem Lexer.collectTokens_spec :
    ∀ (bound : Nat) (lx : Lexer) (acc : List Token),
      lx.lexer_source.length - lx.lexer_current_pos < bound →
      ∃ tokens last,
        (∀ fuel, lx.lexer_source.length - lx.lexer_current_pos < fuel →
          Lexer.collectTokens fuel lx acc = some (acc ++ tokens ++ [last]))
        ∧ last.isTerminal = true ∧ ∀ tok ∈ tokens, tok.isTerminal = false := by
  intro bound
  induction bound with
  | zero => intro lx acc h; omega
  | succ bound ih =>
    intro lx acc hb
    have hadv := Lexer.getNextToken_advances lx
    by_cases hterm : lx.getNextToken.1.isTerminal = true
    · refine ⟨[], lx.getNextToken.1, ?_, hterm, by simp⟩
      intro fuel hf
      obtain ⟨f, rfl⟩ : ∃ f, fuel = f + 1 := ⟨fuel - 1, by omega⟩
      have hc : ¬ (lx.getNextToken.1.type ≠ TokenType.tEOF
          ∧ lx.getNextToken.1.type ≠ TokenType.tERROR) := by
        simp only [Token.isTerminal, Bool.or_eq_true, beq_iff_eq] at hterm
        tauto
      simp only [Lexer.collectTokens]
      rw [if_neg hc]
      simp
    · have hterm1 : lx.getNextToken.1.isTerminal = false := by simpa using hterm
      have hc : lx.getNextToken.1.type ≠ TokenType.tEOF
          ∧ lx.getNextToken.1.type ≠ TokenType.tERROR := by
        simp only [Token.isTerminal, Bool.or_eq_false_iff, beq_eq_false_iff_ne] at hterm1
        exact hterm1
      obtain ⟨hlt, hpos⟩ := hadv.2 hc.1
      have hsrc := hadv.1.1
      have hrem : lx.getNextToken.2.lexer_source.length - lx.getNextToken.2.lexer_current_pos
          < lx.lexer_source.length - lx.lexer_current_pos := by
        rw [← hsrc]; omega
      obtain ⟨tokens, last, hrun, hlast, htoks⟩ :=
        ih lx.getNextToken.2 (acc ++ [lx.getNextToken.1]) (by omega)
      refine ⟨lx.getNextToken.1 :: tokens, last, ?_, hlast, ?_⟩
      · intro fuel hf
        obtain ⟨f, rfl⟩ : ∃ f, fuel = f + 1 := ⟨fuel - 1, by omega⟩
        simp only [Lexer.collectTokens]
        rw [if_pos hc, hrun f (by omega)]
        simp
      · intro tok htok
        rcases List.mem_cons.mp htok with h | h
        · rw [h]; exact hterm1
        · exact htoks tok h

/-- C24: for every source text, `getAllTokens` returns a sequence of tokens `tokens` followed
by one token `last`: `last` is an end-of-input or a lexical-error token, and no token of
`tokens` is of either kind; the loop ends within `length + 1` calls of `getNextToken`,
and with every larger fuel the result is the same. From every lexer state a call of
`getNextToken` leaves the source text as it is, never moves the cursor back, and either
returns the end-of-input token or moves the cursor forward by at least one character. -/
theorem all_tokens_ends_with_one_terminal (source : List Char) :
    (∃ tokens last,
        (Lexer.new source).getAllTokens = some (tokens ++ [last])
          ∧ (∀ fuel, source.length < fuel →
              Lexer.collectTokens fuel (Lexer.new source) [] = some (tokens ++ [last]))
          ∧ (last.type = TokenType.tEOF ∨ last.type = TokenType.tERROR)
          ∧ ∀ tok ∈ tokens, tok.type ≠ TokenType.tEOF ∧ tok.type ≠ TokenType.tERROR)
      ∧ (∀ lx : Lexer, lx.getNextToken.2.lexer_source = lx.lexer_source
          ∧ lx.lexer_current_pos ≤ lx.getNextToken.2.lexer_current_pos
          ∧ (lx.getNextToken.1.type = TokenType.tEOF
            ∨ lx.lexer_current_pos < lx.getNextToken.2.lexer_current_pos)) := by
  constructor
  · obtain ⟨tokens, last, hrun, hlast, htoks⟩ :=
      Lexer.collectTokens_spec (source.length + 1) (Lexer.new source) [] (by
        simp [Lexer.new])
    refine ⟨tokens, last, ?_, ?_, ?_, ?_⟩
    · have := hrun (source.length + 1) (by simp [Lexer.new])
      simpa [Lexer.getAllTokens, Lexer.new] using this
    · intro fuel hf
      have := hrun fuel (by simpa [Lexer.new] using hf)
      simpa using this
    · simpa [Token.isTerminal] using hlast
    · intro tok htok
      have := htoks tok htok
      simpa [Token.isTerminal] using this
  · intro lx
    have h := Lexer.getNextToken_advances lx
    refine ⟨h.1.1.symm, h.1.2, ?_⟩
    by_cases he : lx.getNextToken.1.type = TokenType.tEOF
    · exact Or.inl he
    · exact Or.inr (h.2 he).1

/-- C25, at the failing input: after the word `end` the lexer skips one character, whatever
it is, and goes on reading letters, digits and underscores; when the lexeme so read is
no keyword it becomes an Identifier token. So `end x` is one Identifier token with the
lexeme "end x", which contains a space, and `end+1` is one Identifier token with the
lexeme "end+1"; in `x = end y` the third token is the Identifier "end y". -/
theorem identifier_lexeme_after_end :
    (Lexer.new "end x".toList).getAllTokens
        = some [⟨.tIdentifier, "end x", 1⟩, ⟨.tEOF, "", 1⟩]
      ∧ (Lexer.new "end+1".toList).getAllTokens
        = some [⟨.tIdentifier, "end+1", 1⟩, ⟨.tEOF, "", 1⟩]
      ∧ (Lexer.new "x = end y".toList).getAllTokens
        = some [⟨.tIdentifier, "x", 1⟩, ⟨.tAssign, "=", 1⟩, ⟨.tIdentifier, "end y", 1⟩,
            ⟨.tEOF, "", 1⟩] := by
  decide!

/-! ### String literals -/

theorem Lexer.At.isEnd_cons {lx : Lexer} {a b : List Char} {c : Char}
    (h : Lexer.At lx a (c :: b)) : lx.isEnd = false := by
  simp [Lexer.isEnd, h.1, h.2]

theorem Lexer.At.peek_cons {lx : Lexer} {a b : List Char} {c : Char}
    (h : Lexer.At lx a (c :: b)) : lx.peek = c := by
  have e : (a ++ c :: b)[a.length]? = some c := by
    rw [List.getElem?_append_right (Nat.le_refl _)]
    simp
  simp [Lexer.peek, h.isEnd_cons, h.1, h.2, List.getD_eq_getElem?_getD, e]

theorem Lexer.At.advance_cons {lx : Lexer} {a b : List Char} {c : Char}
    (h : Lexer.At lx a (c :: b)) :
    lx.advance = lx.withPos (a.length + 1) ∧ Lexer.At lx.advance (a ++ [c]) b := by
  have e : lx.advance = lx.withPos (a.length + 1) := by
    simp [Lexer.advance, h.isEnd_cons, Lexer.withPos, h.2]
  refine ⟨e, ?_⟩
  rw [e]
  exact ⟨by simp [Lexer.withPos, h.1], by simp [Lexer.withPos]⟩

theorem Lexer.At.isEnd_nil {lx : Lexer} {a : List Char} (h : Lexer.At lx a []) :
    lx.isEnd = true := by
  simp [Lexer.isEnd, h.1, h.2]

theorem Lexer.readStringBody_literal (post : List Char) :
    ∀ (n : Nat) (body : List Char), body.length ≤ n → isLiteralBody body = true →
    ∀ (fuel : Nat) (lx : Lexer) (before value : List Char), body.length < fuel →
      Lexer.At lx before (body ++ quoteChar :: post) →
      Lexer.readStringBody fuel lx value
        = ((lx.withPos (before.length + body.length + 1)).makeToken TokenType.tString
            (String.mk (value ++ decodeBody body)),
           lx.withPos (before.length + body.length + 1)) := by
  intro n
  induction n with
  | zero =>
    intro body hn _ fuel lx before value hf hat
    have hb : body = [] := List.length_eq_zero.mp (by omega)
    subst hb
    obtain ⟨f, rfl⟩ : ∃ f, fuel = f + 1 := ⟨fuel - 1, by simp at hf; omega⟩
    have hat1 : Lexer.At lx before (quoteChar :: post) := hat
    simp only [Lexer.readStringBody, hat1.peek_cons, ne_eq, not_true_eq_false, false_and,
      if_false, hat1.isEnd_cons, Bool.false_eq_true]
    rw [hat1.advance_cons.1]
    simp [decodeBody]
  | succ n ih =>
    intro body hn hok fuel lx before value hf hat
    obtain ⟨f, rfl⟩ : ∃ f, fuel = f + 1 := ⟨fuel - 1, by omega⟩
    match body, hn, hok, hf, hat with
    | [], _, _, _, hat =>
      have hat1 : Lexer.At lx before (quoteChar :: post) := hat
      simp only [Lexer.readStringBody, hat1.peek_cons, ne_eq, not_true_eq_false, false_and,
        if_false, hat1.isEnd_cons, Bool.false_eq_true]
      rw [hat1.advance_cons.1]
      simp [decodeBody]
    | [c], _, hok, hf, hat =>
      have hat1 : Lexer.At lx before (c :: quoteChar :: post) := hat
      simp only [isLiteralBody, Bool.and_eq_true, decide_eq_true_eq] at hok
      obtain ⟨⟨hc1, hc2⟩, hc3⟩ := hok
      have hstep := ih [] (Nat.zero_le _) rfl f lx.advance (before ++ [c]) (value ++ [c])
        (by simp at hf ⊢; omega) hat1.advance_cons.2
      simp only [Lexer.readStringBody, hat1.peek_cons, ne_eq, hc2, not_false_eq_true,
        hat1.isEnd_cons, Bool.not_false, and_self, if_true, hc3, if_false, hc1]
      rw [hstep, hat1.advance_cons.1]
      simp [decodeBody, Lexer.withPos, Nat.add_assoc]
    | c :: d :: rest, hn, hok, hf, hat =>
      have hat1 : Lexer.At lx before (c :: d :: (rest ++ quoteChar :: post)) := hat
      by_cases hc : c = backslashChar
      · subst hc
        have hok1 : isLiteralBody rest = true := by simpa [isLiteralBody] using hok
        have hat2 := hat1.advance_cons.2
        obtain ⟨f1, rfl⟩ : ∃ f1, f = f1 + 1 := ⟨f - 1, by simp at hf; omega⟩
        have hstep := ih rest (by simp at hn; omega) hok1 (f1 + 1) lx.advance.advance
          (before ++ [backslashChar] ++ [d]) (value ++ [decodeEscape d])
          (by simp at hf ⊢; omega) hat2.advance_cons.2
        have hq : backslashChar ≠ quoteChar := by decide
        have hnl : backslashChar ≠ newlineChar := by decide
        simp only [Lexer.readStringBody, hat1.peek_cons, ne_eq, hq, not_false_eq_true,
          hat1.isEnd_cons, Bool.not_false, and_self, if_true, hnl, if_false,
          hat2.isEnd_cons, Bool.false_eq_true, hat2.peek_cons] at hstep ⊢
        have hd : (if d = quoteChar then quoteChar
            else if d = backslashChar then backslashChar
            else if d = 'n' then newlineChar
            else if d = 't' then Char.ofNat 9 else d) = decodeEscape d := rfl
        rw [hd, hstep, hat2.advance_cons.1, hat1.advance_cons.1]
        simp [decodeBody, Lexer.withPos, Nat.add_assoc, Nat.add_comm, Nat.add_left_comm]
      · have hok1 : (c ≠ quoteChar ∧ c ≠ newlineChar) ∧ isLiteralBody (d :: rest) = true := by
          simpa [isLiteralBody, hc] using hok
        have hstep := ih (d :: rest) (by simp at hn ⊢; omega) hok1.2 f lx.advance
          (before ++ [c]) (value ++ [c]) (by simp at hf ⊢; omega) hat1.advance_cons.2
        simp only [Lexer.readStringBody, hat1.peek_cons, ne_eq, hok1.1.1, not_false_eq_true,
          hat1.isEnd_cons, Bool.not_false, and_self, if_true, hok1.1.2, if_false, hc]
        rw [hstep, hat1.advance_cons.1]
        simp [decodeBody, hc, Lexer.withPos, Nat.add_assoc, Nat.add_comm, Nat.add_left_comm]

theorem Lexer.skipSpaceAndComments_quote (fuel : Nat) (lx : Lexer)
    (hp : lx.peek = quoteChar) : Lexer.skipSpaceAndComments fuel lx = lx := by
  cases fuel with
  | zero => rfl
  | succ fuel =>
    have h1 : ¬ (quoteChar = ' ' ∨ quoteChar = Char.ofNat 13 ∨ quoteChar = Char.ofNat 9) := by
      decide
    have h2 : ¬ quoteChar = newlineChar := by decide
    have h3 : ¬ quoteChar = '/' := by decide
    simp only [Lexer.skipSpaceAndComments, hp, h1, h2, h3, if_false, ite_self]

/-- C26: a string literal in the source: the lexer stands at its opening quote, after it
come the body `body`, the closing quote and the rest `post` of the source, where the body
is one the scan gets through (`isLiteralBody`: every backslash is followed by a
character, and no double quote and no newline stands outside such a pair). Then
`readStringLiteral`, and `getNextToken` as well, returns a String token whose lexeme is
`decodeBody body`, and leaves the cursor just after the closing quote. `decodeBody`
reads the body from left to right: a backslash with the character after it gives
`decodeEscape` of that character (a double quote for a double quote, a backslash for a
backslash, a newline for `n`, a tab for `t`, the character itself otherwise), and every
other character is copied. -/
theorem string_literal_is_decoded (lx : Lexer) (before body post : List Char)
    (hat : Lexer.At lx before (quoteChar :: (body ++ quoteChar :: post)))
    (hbody : isLiteralBody body = true) :
    lx.readStringLiteral
        = ({ type := .tString, lexema := String.mk (decodeBody body), line := lx.lexer_line },
           lx.withPos (before.length + body.length + 2))
      ∧ lx.getNextToken
        = ({ type := .tString, lexema := String.mk (decodeBody body), line := lx.lexer_line },
           lx.withPos (before.length + body.length + 2))
      ∧ decodeEscape quoteChar = quoteChar
      ∧ decodeEscape backslashChar = backslashChar
      ∧ decodeEscape 'n' = newlineChar
      ∧ decodeEscape 't' = Char.ofNat 9
      ∧ (∀ c, c ≠ quoteChar → c ≠ backslashChar → c ≠ 'n' → c ≠ 't' → decodeEscape c = c)
      ∧ decodeBody [] = []
      ∧ (∀ d rest, decodeBody (backslashChar :: d :: rest) = decodeEscape d :: decodeBody rest)
      ∧ (∀ c rest, c ≠ backslashChar → decodeBody (c :: rest) = c :: decodeBody rest) := by
  have hread : lx.readStringLiteral
      = ({ type := .tString, lexema := String.mk (decodeBody body), line := lx.lexer_line },
         lx.withPos (before.length + body.length + 2)) := by
    unfold Lexer.readStringLiteral
    rw [Lexer.readStringBody_literal post body.length body (Nat.le_refl _) hbody
      (lx.lexer_source.length + 1) lx.advance (before ++ [quoteChar]) []
      (by rw [hat.1]; simp only [List.length_append, List.length_cons]; omega)
      hat.advance_cons.2, hat.advance_cons.1]
    have e : 1 + (body.length + 1) = body.length + 2 := by omega
    simp [Lexer.withPos, Lexer.makeToken, Nat.add_assoc, e]
  refine ⟨hread, ?_, by decide, by decide, by decide, by decide, ?_, rfl, ?_, ?_⟩
  · rw [← hread]
    unfold Lexer.getNextToken
    rw [Lexer.skipSpaceAndComments_quote _ lx hat.peek_cons]
    simp only [hat.isEnd_cons, Bool.false_eq_true, if_false, hat.peek_cons, if_true]
  · intro c h1 h2 h3 h4
    simp [decodeEscape, h1, h2, h3, h4]
  · intro d rest
    simp [decodeBody]
  · intro c rest hc
    cases rest with
    | nil => simp [decodeBody]
    | cons d rest => simp [decodeBody, hc]

/-- C26, witness: the literal `"a\nb\"c"` (with the two-character escapes written out) is
the String token with the lexeme `a`, newline, `b`, double quote, `c`, and the cursor ends
at position 10, after the closing quote. -/
theorem string_literal_is_decoded_witness :
    (Lexer.new [quoteChar, 'a', backslashChar, 'n', 'b', backslashChar, quoteChar, 'c',
        quoteChar, ' ', 'x']).readStringLiteral
      = ({ type := .tString, lexema := String.mk ['a', newlineChar, 'b', quoteChar, 'c'],
           line := 1 },
         { lexer_source := [quoteChar, 'a', backslashChar, 'n', 'b', backslashChar, quoteChar,
             'c', quoteChar, ' ', 'x'],
           lexer_current_pos := 9, lexer_line := 1 }) :=
  (string_literal_is_decoded _ [] ['a', backslashChar, 'n', 'b', backslashChar, quoteChar, 'c']
    [' ', 'x'] ⟨rfl, rfl⟩ (by decide)).1

/-- C27, at the failing input: in the string literal whose body is `a`, a backslash, a raw
newline character and `b`, the raw newline stands between the opening and the closing
quote, and the lexer returns a String token whose lexeme contains that newline: the test
for a newline is made at the start of each body item only, and the character after a
backslash is copied without it. Without the backslash the same literal is a
lexical-error token, and so is a literal cut by the end of the input. -/
theorem escaped_raw_newline_is_accepted :
    (Lexer.new [quoteChar, 'a', backslashChar, newlineChar, 'b', quoteChar]).getAllTokens
        = some [⟨.tString, String.mk ['a', newlineChar, 'b'], 1⟩, ⟨.tEOF, "", 1⟩]
      ∧ (Lexer.new [quoteChar, 'a', newlineChar, 'b', quoteChar]).getAllTokens
        = some [⟨.tERROR, "Newline in string or unterminated string", 1⟩]
      ∧ (Lexer.new [quoteChar, 'a', 'b']).getAllTokens
        = some [⟨.tERROR, "Unterminated string", 1⟩]
      ∧ (Lexer.new [quoteChar, 'a', backslashChar]).getAllTokens
        = some [⟨.tERROR, "Unterminated escape sequence", 1⟩] := by
  decide!

/-! ### The task scheduler: the graph built by `hasCycle` -/

theorem TTaskScheduler.ofAdds_eq (adds : List (List Nat)) :
    TTaskScheduler.ofAdds adds
      = { tasks_ := adds.map fun futures => { futures := futures, have_result := false },
          deps_ := adds } := by
  have h : ∀ (l : List (List Nat)) (s : TTaskScheduler),
      l.foldl (fun s futures => (s.add futures).2) s
        = { tasks_ := s.tasks_ ++ l.map fun futures => { futures := futures, have_result := false },
            deps_ := s.deps_ ++ l } := by
    intro l
    induction l with
    | nil => intro s; simp
    | cons a l ih => intro s; rw [List.foldl_cons, ih]; simp [TTaskScheduler.add]
  simp [TTaskScheduler.ofAdds, h, TTaskScheduler.empty]

theorem TTaskScheduler.buildRow_eq_none (n u : Nat) (row : List Nat) :
    ∀ g, TTaskScheduler.buildRow n u row g = none ↔ ∃ v ∈ row, n ≤ v := by
  induction row with
  | nil => intro g; simp [TTaskScheduler.buildRow]
  | cons v row ih =>
    intro g
    by_cases hv : n ≤ v
    · simp only [TTaskScheduler.buildRow, ge_iff_le, hv, if_true, true_iff]
      exact ⟨v, List.mem_cons_self _ _, hv⟩
    · simp only [TTaskScheduler.buildRow, ge_iff_le, hv, if_false, ih, List.mem_cons,
        exists_eq_or_imp, false_or]

theorem TTaskScheduler.buildGraph_eq_none (n : Nat) (rows : List (List Nat)) :
    ∀ u g, TTaskScheduler.buildGraph n u rows g = none ↔ ∃ row ∈ rows, ∃ v ∈ row, n ≤ v := by
  induction rows with
  | nil => intro u g; simp [TTaskScheduler.buildGraph]
  | cons row rows ih =>
    intro u g
    simp only [TTaskScheduler.buildGraph, List.mem_cons, exists_eq_or_imp]
    cases h : TTaskScheduler.buildRow n u row g with
    | none =>
      simp only [Option.none_bind, true_iff]
      exact Or.inl ((TTaskScheduler.buildRow_eq_none n u row g).1 h)
    | some g1 =>
      simp only [Option.some_bind, ih]
      have hno : ¬ ∃ v ∈ row, n ≤ v := by
        intro hex
        rw [(TTaskScheduler.buildRow_eq_none n u row g).2 hex] at h
        cases h
      simp [hno]

theorem TTaskScheduler.buildRow_spec (n u : Nat) (hu : u < n) (row : List Nat) :
    ∀ g g1, g.1.length = n → g.2.length = n → TTaskScheduler.buildRow n u row g = some g1 →
      g1.1.length = n ∧ g1.2.length = n
        ∧ (∀ w, g1.1.getD w 0 = g.1.getD w 0 + if w = u then (row.length : Int) else 0)
        ∧ (∀ v w, (g1.2.getD v []).count w
            = (g.2.getD v []).count w + if w = u then row.count v else 0) := by
  induction row with
  | nil =>
    intro g g1 h1 h2 hb
    simp only [TTaskScheduler.buildRow, Option.some.injEq] at hb
    subst hb
    simp [h1, h2]
  | cons x row ih =>
    intro g g1 h1 h2 hb
    by_cases hx : n ≤ x
    · simp [TTaskScheduler.buildRow, hx] at hb
    · simp only [TTaskScheduler.buildRow, ge_iff_le, hx, if_false] at hb
      obtain ⟨a1, a2, a3, a4⟩ := ih _ g1 (by simp [h1]) (by simp [h2]) hb
      refine ⟨a1, a2, ?_, ?_⟩
      · intro w
        rw [a3 w]
        by_cases hw : w = u
        · subst hw
          simp only [List.getD_eq_getElem?_getD, List.getElem?_set, h1, hu, if_true,
            Option.getD_some, List.length_cons, Nat.cast_add, Nat.cast_one]
          ring
        · simp [List.getD_eq_getElem?_getD, List.getElem?_set, hw, Ne.symm hw]
      · intro v w
        rw [a4 v w]
        by_cases hv : v = x
        · subst hv
          have hvn : v < g.2.length := by omega
          by_cases hw : w = u
          · subst hw
            simp only [List.getD_eq_getElem?_getD, List.getElem?_set, hvn, if_true,
              Option.getD_some, List.count_append, List.count_cons_self, List.count_nil]
            omega
          · simp [List.getD_eq_getElem?_getD, List.getElem?_set, hvn, hw, Ne.symm hw,
              List.count_cons]
        · have hxv : ¬ x = v := fun h => hv h.symm
          simp [List.getD_eq_getElem?_getD, List.getElem?_set, hv, hxv, List.count_cons]

theorem TTaskScheduler.buildGraph_spec (n : Nat) (rows : List (List Nat)) :
    ∀ (before : List (List Nat)) g g1, before.length + rows.length = n → GraphOf n before g →
      TTaskScheduler.buildGraph n before.length rows g = some g1 →
      GraphOf n (before ++ rows) g1 := by
  induction rows with
  | nil =>
    intro before g g1 _ hg hb
    simp only [TTaskScheduler.buildGraph, Option.some.injEq] at hb
    subst hb
    simpa using hg
  | cons row rows ih =>
    intro before g g1 hlen hg hb
    simp only [TTaskScheduler.buildGraph] at hb
    cases h : TTaskScheduler.buildRow n before.length row g with
    | none => rw [h] at hb; cases hb
    | some g2 =>
      rw [h, Option.some_bind] at hb
      simp only [List.length_cons] at hlen
      obtain ⟨a1, a2, a3, a4⟩ :=
        TTaskScheduler.buildRow_spec n before.length (by omega) row g g2 hg.1 hg.2.1 h
      have hb2 : TTaskScheduler.buildGraph n (before ++ [row]).length rows g2 = some g1 := by
        simpa using hb
      have := ih (before ++ [row]) g2 g1 (by simp; omega) ?_ hb2
      · simpa using this
      · refine ⟨a1, a2, ?_, ?_⟩
        · intro w
          rw [a3 w, hg.2.2.1 w]
          by_cases hw : w = before.length
          · subst hw
            simp [List.getD_eq_getElem?_getD]
          · rcases Nat.lt_or_gt_of_ne hw with hlt | hgt
            · simp [List.getD_eq_getElem?_getD, List.getElem?_append_left hlt, hw]
            · have e1 : before[w]? = none := List.getElem?_eq_none (by omega)
              have e2 : (before ++ [row])[w]? = none :=
                List.getElem?_eq_none (by simp; omega)
              simp [List.getD_eq_getElem?_getD, e1, e2, hw]
        · intro v w
          rw [a4 v w, hg.2.2.2 v w]
          by_cases hw : w = before.length
          · subst hw
            simp [List.getD_eq_getElem?_getD]
          · rcases Nat.lt_or_gt_of_ne hw with hlt | hgt
            · simp [List.getD_eq_getElem?_getD, List.getElem?_append_left hlt, hw]
            · have e1 : before[w]? = none := List.getElem?_eq_none (by omega)
              have e2 : (before ++ [row])[w]? = none :=
                List.getElem?_eq_none (by simp; omega)
              simp [List.getD_eq_getElem?_getD, e1, e2, hw]

theorem graphOf_replicate (n : Nat) :
    GraphOf n [] (List.replicate n 0, List.replicate n []) := by
  refine ⟨by simp, by simp, ?_, ?_⟩
  · intro w
    by_cases hw : w < n
    · simp [List.getD_eq_getElem?_getD, List.getElem?_replicate, hw]
    · simp [List.getD_eq_getElem?_getD, List.getElem?_replicate, hw]
  · intro v w
    by_cases hv : v < n
    · simp [List.getD_eq_getElem?_getD, List.getElem?_replicate, hv]
    · simp [List.getD_eq_getElem?_getD, List.getElem?_replicate, hv]

/-! ### The task scheduler: the while loop of `hasCycle` -/

theorem KahnInv.relax (deps : List (List Nat)) (done : List Nat) (rest : List Nat) :
    ∀ (q : List Nat) (inDeg : List Int), KahnInv deps done q inDeg rest →
      KahnInv deps done (TTaskScheduler.relax rest (inDeg, q)).2
        (TTaskScheduler.relax rest (inDeg, q)).1 [] := by
  induction rest with
  | nil => intro q inDeg h; exact h
  | cons v rest ih =>
    intro q inDeg h
    simp only [TTaskScheduler.relax]
    apply ih
    have hv : v < deps.length := h.rest_lt v (List.mem_cons_self _ _)
    have hvl : v < inDeg.length := by rw [h.length_eq]; exact hv
    have hval := h.inDeg_eq v hv
    simp only [List.count_cons_self, Nat.cast_add, Nat.cast_one] at hval
    have hne : inDeg.getD v 0 ≠ 0 := by omega
    have hnot : ¬ (v ∈ q ∨ v ∈ done) := fun hm => hne ((h.zero_iff v hv).1 hm)
    have hget : ∀ w d, (inDeg.set v d).getD w 0 = if w = v then d else inDeg.getD w 0 := by
      intro w d
      by_cases hw : w = v
      · subst hw
        simp [List.getD_eq_getElem?_getD, List.getElem?_set, hvl]
      · simp [List.getD_eq_getElem?_getD, List.getElem?_set, hw, Ne.symm hw]
    by_cases hd : inDeg.getD v 0 - 1 = 0
    · simp only [hd, if_true]
      refine ⟨by simp [h.length_eq], ?_, ?_, ?_, ?_, h.topo, ?_⟩
      · intro w hw
        rw [hget]
        by_cases hwv : w = v
        · subst hwv
          simp only [if_true]
          omega
        · have := h.inDeg_eq w hw
          simp only [hwv, if_false, List.count_cons, beq_iff_eq, Ne.symm hwv] at this ⊢
          simpa using this
      · have hnd := h.nodup
        rw [List.append_assoc]
        rw [List.nodup_append] at hnd ⊢
        refine ⟨hnd.1, ?_, ?_⟩
        · simp only [List.singleton_append, List.nodup_cons]
          exact ⟨fun hm => hnot (Or.inr hm), hnd.2.1⟩
        · intro a ha ha2
          simp only [List.singleton_append, List.mem_cons] at ha2
          rcases ha2 with rfl | ha2
          · exact hnot (Or.inl ha)
          · exact hnd.2.2 ha ha2
      · intro w hw
        rw [hget]
        by_cases hwv : w = v
        · subst hwv
          simp
        · simp only [hwv, if_false, List.mem_append, List.mem_singleton, or_false]
          exact h.zero_iff w hw
      · intro w hw
        simp only [List.mem_append, List.mem_singleton] at hw
        rcases hw with (hw | rfl) | hw
        · exact h.lt_length w (List.mem_append_left _ hw)
        · exact hv
        · exact h.lt_length w (List.mem_append_right _ hw)
      · intro x hx
        exact h.rest_lt x (List.mem_cons_of_mem _ hx)
    · simp only [hd, if_false]
      refine ⟨by simp [h.length_eq], ?_, h.nodup, ?_, h.lt_length, h.topo, ?_⟩
      · intro w hw
        rw [hget]
        by_cases hwv : w = v
        · subst hwv
          simp only [if_true]
          omega
        · have := h.inDeg_eq w hw
          simp only [hwv, if_false, List.count_cons, beq_iff_eq, Ne.symm hwv] at this ⊢
          simpa using this
      · intro w hw
        rw [hget]
        by_cases hwv : w = v
        · subst hwv
          simp only [if_true]
          exact ⟨fun hm => absurd hm hnot, fun h0 => absurd h0 hd⟩
        · simp only [hwv, if_false]
          exact h.zero_iff w hw
      · intro x hx
        exact h.rest_lt x (List.mem_cons_of_mem _ hx)

theorem remainingDeps_cons (deps : List (List Nat)) (done : List Nat) (u w : Nat)
    (hu : u ∉ done) :
    remainingDeps deps done w = remainingDeps deps (u :: done) w + (deps.getD w []).count u := by
  unfold remainingDeps
  generalize deps.getD w [] = l
  induction l with
  | nil => simp
  | cons x l ih =>
    simp only [List.countP_cons, List.count_cons, ih, List.mem_cons, not_or, beq_iff_eq,
      decide_eq_true_eq]
    by_cases hx : x = u
    · subst hx
      simp [hu]
      omega
    · by_cases hxd : x ∈ done
      · simp [hx, hxd]
      · simp [hx, hxd]
        omega

theorem remainingDeps_eq_zero (deps : List (List Nat)) (done : List Nat) (w : Nat)
    (h : remainingDeps deps done w = 0) : ∀ v ∈ deps.getD w [], v ∈ done := by
  intro v hv
  unfold remainingDeps at h
  rw [List.countP_eq_zero] at h
  simpa using h v hv

theorem remainingDeps_pos (deps : List (List Nat)) (done : List Nat) (w : Nat)
    (h : remainingDeps deps done w ≠ 0) : ∃ v ∈ deps.getD w [], v ∉ done := by
  by_contra hno
  push_neg at hno
  apply h
  unfold remainingDeps
  rw [List.countP_eq_zero]
  simpa using hno

theorem KahnInv.pop (deps adj : List (List Nat)) (done q : List Nat) (inDeg : List Int)
    (u : Nat) (hadj : ∀ v w, (adj.getD v []).count w = (deps.getD w []).count v)
    (h : KahnInv deps done (u :: q) inDeg []) :
    KahnInv deps (u :: done) q inDeg (adj.getD u []) := by
  have hnd := h.nodup
  simp only [List.cons_append, List.nodup_cons, List.mem_append, not_or] at hnd
  have hu : u < deps.length := h.lt_length u (by simp)
  have hu0 : inDeg.getD u 0 = 0 := (h.zero_iff u hu).1 (Or.inl (List.mem_cons_self _ _))
  refine ⟨h.length_eq, ?_, ?_, ?_, ?_, ⟨?_, h.topo⟩, ?_⟩
  · intro w hw
    have := h.inDeg_eq w hw
    rw [this, remainingDeps_cons deps done u w hnd.1.2, hadj u w]
    simp
  · exact (List.perm_middle.nodup_iff).2 h.nodup
  · intro w hw
    rw [← h.zero_iff w hw]
    simp only [List.mem_cons]
    tauto
  · intro w hw
    apply h.lt_length
    simp only [List.mem_append, List.mem_cons] at hw ⊢
    tauto
  · apply remainingDeps_eq_zero
    have := h.inDeg_eq u hu
    rw [hu0] at this
    simp only [List.count_nil, Nat.cast_zero, add_zero] at this
    exact_mod_cast this.symm
  · intro v hv
    have hc : 0 < (adj.getD u []).count v := List.count_pos_iff.2 hv
    rw [hadj] at hc
    have hm : u ∈ deps.getD v [] := List.count_pos_iff.1 hc
    by_contra hlt
    rw [List.getD_eq_getElem?_getD, List.getElem?_eq_none (by omega)] at hm
    simp at hm

theorem nodup_length_le (l : List Nat) (n : Nat) (hnd : l.Nodup) (hlt : ∀ w ∈ l, w < n) :
    l.length ≤ n := by
  have hsub : l.toFinset ⊆ Finset.range n := by
    intro x hx
    simp only [List.mem_toFinset] at hx
    simpa using hlt x hx
  have := Finset.card_le_card hsub
  rwa [List.toFinset_card_of_nodup hnd, Finset.card_range] at this

theorem mem_of_nodup_length_eq (l : List Nat) (n : Nat) (hnd : l.Nodup)
    (hlt : ∀ w ∈ l, w < n) (hlen : l.length = n) : ∀ w, w < n → w ∈ l := by
  have hsub : l.toFinset ⊆ Finset.range n := by
    intro x hx
    simp only [List.mem_toFinset] at hx
    simpa using hlt x hx
  have heq : l.toFinset = Finset.range n :=
    Finset.eq_of_subset_of_card_le hsub
      (by rw [List.toFinset_card_of_nodup hnd, Finset.card_range, hlen])
  intro w hw
  have : w ∈ l.toFinset := by rw [heq]; simpa using hw
  simpa using this

theorem KahnInv.initial (deps : List (List Nat)) (g : List Int × List (List Nat))
    (hg : GraphOf deps.length deps g) :
    KahnInv deps [] ((List.range deps.length).filter fun i => g.1.getD i 0 = 0) g.1 [] := by
  refine ⟨hg.1, ?_, ?_, ?_, ?_, trivial, ?_⟩
  · intro w _
    rw [hg.2.2.1 w]
    simp [remainingDeps]
  · simpa using (List.nodup_range deps.length).filter _
  · intro w hw
    simp [List.mem_filter, hw]
  · intro w hw
    simp only [List.append_nil, List.mem_filter, List.mem_range] at hw
    exact hw.1
  · intro v hv
    cases hv

theorem KahnInv.countLoop (deps adj : List (List Nat))
    (hadj : ∀ v w, (adj.getD v []).count w = (deps.getD w []).count v) :
    ∀ (fuel : Nat) (done q : List Nat) (inDeg : List Int), KahnInv deps done q inDeg [] →
      deps.length < fuel + done.length →
      ∃ done1 inDeg1, TTaskScheduler.countLoop adj fuel q inDeg done.length = some done1.length
        ∧ KahnInv deps done1 [] inDeg1 [] := by
  intro fuel
  induction fuel with
  | zero =>
    intro done q inDeg h hlt
    have := nodup_length_le (q ++ done) deps.length h.nodup h.lt_length
    simp only [List.length_append] at this
    omega
  | succ fuel ih =>
    intro done q inDeg h hlt
    cases q with
    | nil => exact ⟨done, inDeg, rfl, h⟩
    | cons u q =>
      have h2 := (KahnInv.pop deps adj done q inDeg u hadj h).relax
      obtain ⟨done1, inDeg1, e, h3⟩ := ih (u :: done) _ _ h2
        (by simp only [List.length_cons]; omega)
      exact ⟨done1, inDeg1, e, h3⟩

theorem TopoList.step_mem (deps : List (List Nat)) :
    ∀ done, TopoList deps done → ∀ u ∈ done, ∀ v, DependsOn deps u v → v ∈ done := by
  intro done
  induction done with
  | nil => intro _ u hu; cases hu
  | cons u0 done ih =>
    intro h u hu v hv
    rcases List.mem_cons.1 hu with rfl | hu
    · exact List.mem_cons_of_mem _ (h.1 v hv)
    · exact List.mem_cons_of_mem _ (ih h.2 u hu v hv)

theorem TopoList.reach_mem (deps : List (List Nat)) (done : List Nat) (h : TopoList deps done)
    (u v : Nat) (hr : Relation.ReflTransGen (DependsOn deps) u v) (hu : u ∈ done) :
    v ∈ done := by
  induction hr with
  | refl => exact hu
  | tail _ hbc ih => exact TopoList.step_mem deps done h _ ih _ hbc

theorem TopoList.acyclic (deps : List (List Nat)) :
    ∀ done, TopoList deps done → done.Nodup →
      ∀ u ∈ done, ¬ Relation.TransGen (DependsOn deps) u u := by
  intro done
  induction done with
  | nil => intro _ _ u hu; cases hu
  | cons u0 done ih =>
    intro h hnd u hu hcyc
    rw [List.nodup_cons] at hnd
    rcases List.mem_cons.1 hu with rfl | hu
    · obtain ⟨b, hb, hbu⟩ := Relation.TransGen.head'_iff.1 hcyc
      exact hnd.1 (TopoList.reach_mem deps done h.2 b u hbu (h.1 b hb))
    · exact ih h.2 hnd.2 u hu hcyc

theorem exists_cycle_of_successors (R : Nat → Nat → Prop) (n : Nat) (S : Nat → Prop)
    (hS : ∀ w, S w → w < n) (hsucc : ∀ w, S w → ∃ v, R w v ∧ S v) (w0 : Nat) (h0 : S w0) :
    ∃ u, Relation.TransGen R u u := by
  by_contra hno
  push_neg at hno
  let r : Fin n → Fin n → Prop := fun a b => Relation.TransGen R b.1 a.1
  haveI : IsTrans (Fin n) r := ⟨fun a b c hab hbc => Relation.TransGen.trans hbc hab⟩
  haveI : IsIrrefl (Fin n) r := ⟨fun a h => hno a.1 h⟩
  have wf : WellFounded r := Finite.wellFounded_of_trans_of_irrefl r
  obtain ⟨m, hm, hmin⟩ := wf.has_min {x : Fin n | S x.1} ⟨⟨w0, hS w0 h0⟩, h0⟩
  obtain ⟨v, hRv, hSv⟩ := hsucc m.1 hm
  exact hmin ⟨v, hS v hSv⟩ hSv (Relation.TransGen.single hRv)

theorem refersToUnregistered_iff (deps : List (List Nat)) :
    RefersToUnregistered deps ↔ ∃ row ∈ deps, ∃ v ∈ row, deps.length ≤ v := by
  constructor
  · rintro ⟨u, v, huv, hv⟩
    unfold DependsOn at huv
    by_cases hu : u < deps.length
    · refine ⟨deps[u], List.getElem_mem _, v, ?_, hv⟩
      simpa [List.getD_eq_getElem?_getD, List.getElem?_eq_getElem hu] using huv
    · rw [List.getD_eq_getElem?_getD, List.getElem?_eq_none (by omega)] at huv
      simp at huv
  · rintro ⟨row, hrow, v, hv, hlen⟩
    obtain ⟨u, hu, rfl⟩ := List.getElem_of_mem hrow
    refine ⟨u, v, ?_, hlen⟩
    unfold DependsOn
    simpa [List.getD_eq_getElem?_getD, List.getElem?_eq_getElem hu] using hv

theorem dependsOn_lt (deps : List (List Nat)) (u v : Nat) (h : DependsOn deps u v) :
    u < deps.length := by
  by_contra hlt
  unfold DependsOn at h
  rw [List.getD_eq_getElem?_getD, List.getElem?_eq_none (by omega)] at h
  simp at h

/-- What `hasCycle` returns, with enough fuel: `true` when a row of `deps_` holds an id that
is not registered; otherwise `false` when the tasks can be listed so that every task comes
after the tasks it depends on, and `true` when the graph has a directed cycle. -/
theorem TTaskScheduler.hasCycle_cases (s : TTaskScheduler) (fuel : Nat)
    (hfuel : s.deps_.length < fuel) :
    (RefersToUnregistered s.deps_ ∧ TTaskScheduler.hasCycle fuel s = some true)
      ∨ (¬ RefersToUnregistered s.deps_ ∧ HasDirectedCycle s.deps_
          ∧ TTaskScheduler.hasCycle fuel s = some true)
      ∨ (¬ RefersToUnregistered s.deps_ ∧ ¬ HasDirectedCycle s.deps_
          ∧ TTaskScheduler.hasCycle fuel s = some false
          ∧ ∃ done, TopoList s.deps_ done ∧ done.length = s.deps_.length
              ∧ ∀ w, w ∈ done ↔ w < s.deps_.length) := by
  cases hb : TTaskScheduler.buildGraph s.deps_.length 0 s.deps_
      (List.replicate s.deps_.length 0, List.replicate s.deps_.length []) with
  | none =>
    left
    refine ⟨(refersToUnregistered_iff _).2 ((TTaskScheduler.buildGraph_eq_none _ _ _ _).1 hb), ?_⟩
    simp only [TTaskScheduler.hasCycle, hb]
  | some g =>
    right
    have hnot : ¬ RefersToUnregistered s.deps_ := by
      intro hr
      rw [(TTaskScheduler.buildGraph_eq_none _ _ _ _).2 ((refersToUnregistered_iff _).1 hr)] at hb
      cases hb
    have hrange : ∀ u v, DependsOn s.deps_ u v → v < s.deps_.length := by
      intro u v huv
      by_contra hlt
      exact hnot ⟨u, v, huv, by omega⟩
    have hg : GraphOf s.deps_.length s.deps_ g := by
      have := TTaskScheduler.buildGraph_spec s.deps_.length s.deps_ [] _ g (by simp)
        (graphOf_replicate _) hb
      simpa using this
    obtain ⟨done, inDeg, e, hinv⟩ := KahnInv.countLoop s.deps_ g.2 hg.2.2.2 fuel [] _ g.1
      (KahnInv.initial s.deps_ g hg) (by simpa using hfuel)
    have hres : TTaskScheduler.hasCycle fuel s = some (done.length != s.deps_.length) := by
      simp only [TTaskScheduler.hasCycle, hb]
      simp only [List.length_nil] at e
      rw [e]
      rfl
    have hnd : done.Nodup := by simpa using hinv.nodup
    have hlt : ∀ w ∈ done, w < s.deps_.length := by
      intro w hw
      exact hinv.lt_length w (by simpa using hw)
    by_cases hlen : done.length = s.deps_.length
    · right
      have hall := mem_of_nodup_length_eq done _ hnd hlt hlen
      refine ⟨hnot, ?_, ?_, done, hinv.topo, hlen, fun w => ⟨hlt w, hall w⟩⟩
      · rintro ⟨u, hu⟩
        obtain ⟨b, hb1, _⟩ := Relation.TransGen.head'_iff.1 hu
        exact TopoList.acyclic s.deps_ done hinv.topo hnd u
          (hall u (dependsOn_lt _ _ _ hb1)) hu
      · rw [hres]
        simp [hlen]
    · left
      refine ⟨hnot, ?_, ?_⟩
      · have hex : ∃ w, w < s.deps_.length ∧ w ∉ done := by
          by_contra hno
          push_neg at hno
          have h1 := nodup_length_le done _ hnd hlt
          have h2 : (List.range s.deps_.length).length ≤ done.length := by
            have hsub : (List.range s.deps_.length).toFinset ⊆ done.toFinset := by
              intro x hx
              simp only [List.mem_toFinset, List.mem_range] at hx ⊢
              exact hno x hx
            have := Finset.card_le_card hsub
            rwa [List.toFinset_card_of_nodup (List.nodup_range _),
              List.toFinset_card_of_nodup hnd] at this
          simp only [List.length_range] at h2
          omega
        obtain ⟨w0, hw0, hw0d⟩ := hex
        apply exists_cycle_of_successors (DependsOn s.deps_) s.deps_.length
          (fun w => w < s.deps_.length ∧ w ∉ done) (fun w hw => hw.1) ?_ w0 ⟨hw0, hw0d⟩
        intro w hw
        have hz : inDeg.getD w 0 ≠ 0 := by
          intro h0
          have := (hinv.zero_iff w hw.1).2 h0
          simp only [List.not_mem_nil, false_or] at this
          exact hw.2 this
        have hrem : remainingDeps s.deps_ done w ≠ 0 := by
          intro h0
          have := hinv.inDeg_eq w hw.1
          rw [h0] at this
          simp only [Nat.cast_zero, List.count_nil, add_zero] at this
          exact hz this
        obtain ⟨v, hv, hvd⟩ := remainingDeps_pos s.deps_ done w hrem
        exact ⟨v, hv, hrange w v hv, hvd⟩
      · rw [hres]
        simp [hlen]

/-! ### The task scheduler: `executeAll` -/

theorem TTaskScheduler.extends_refl (s : TTaskScheduler) : s.Extends s :=
  ⟨rfl, rfl, fun _ h => h⟩

theorem TTaskScheduler.extends_trans {s s1 s2 : TTaskScheduler} (h1 : s.Extends s1)
    (h2 : s1.Extends s2) : s.Extends s2 :=
  ⟨h2.1.trans h1.1, h2.2.1.trans h1.2.1, fun w hw => h2.2.2 w (h1.2.2 w hw)⟩

theorem TTaskScheduler.forEachId_spec (deps : List (List Nat))
    (f : Nat → TTaskScheduler → Option TTaskScheduler) (l : List Nat)
    (hf : ∀ v ∈ l, ∀ s : TTaskScheduler, s.tasks_.map Task.futures = deps →
      ∃ s1, f v s = some s1 ∧ s.Extends s1 ∧ s1.Executed v) :
    ∀ s : TTaskScheduler, s.tasks_.map Task.futures = deps →
      ∃ s1, TTaskScheduler.forEachId f l s = some s1 ∧ s.Extends s1
        ∧ ∀ v ∈ l, s1.Executed v := by
  induction l with
  | nil =>
    intro s _
    exact ⟨s, rfl, TTaskScheduler.extends_refl s, fun v hv => by cases hv⟩
  | cons x l ih =>
    intro s hs
    obtain ⟨s1, e1, x1, d1⟩ := hf x (List.mem_cons_self _ _) s hs
    obtain ⟨s2, e2, x2, d2⟩ := ih (fun v hv => hf v (List.mem_cons_of_mem _ hv)) s1
      (x1.2.1.trans hs)
    refine ⟨s2, ?_, TTaskScheduler.extends_trans x1 x2, ?_⟩
    · simp only [TTaskScheduler.forEachId, e1, Option.some_bind, e2]
    · intro v hv
      rcases List.mem_cons.1 hv with rfl | hv
      · exact x2.2.2 _ d1
      · exact d2 v hv

theorem TTaskScheduler.execute_spec (deps : List (List Nat)) :
    ∀ done, TopoList deps done → (∀ w ∈ done, w < deps.length) →
      ∀ u ∈ done, ∀ fuel, done.length < fuel →
      ∀ s : TTaskScheduler, s.tasks_.map Task.futures = deps →
        ∃ s1, TTaskScheduler.execute fuel u s = some s1 ∧ s.Extends s1 ∧ s1.Executed u := by
  intro done
  induction done with
  | nil => intro _ _ u hu; cases hu
  | cons u0 done ih =>
    intro h hlt u hu fuel hfuel s hs
    have ih2 := ih h.2 (fun w hw => hlt w (List.mem_cons_of_mem _ hw))
    simp only [List.length_cons] at hfuel
    rcases List.mem_cons.1 hu with rfl | hu
    · obtain ⟨f, rfl⟩ : ∃ f, fuel = f + 1 := ⟨fuel - 1, by omega⟩
      have hun : u < s.tasks_.length := by
        have := hlt u (List.mem_cons_self _ _)
        rw [← hs] at this
        simpa using this
      have hfut : s.tasks_[u].futures = deps.getD u [] := by
        subst hs
        simp [List.getD_eq_getElem?_getD, List.getElem?_map, List.getElem?_eq_getElem hun]
      simp only [TTaskScheduler.execute, List.getElem?_eq_getElem hun]
      by_cases hr : s.tasks_[u].have_result = true
      · simp only [hr, if_true]
        exact ⟨s, rfl, TTaskScheduler.extends_refl s,
          ⟨s.tasks_[u], List.getElem?_eq_getElem hun, hr⟩⟩
      · simp only [hr, if_false]
        obtain ⟨s1, e1, x1, _⟩ := TTaskScheduler.forEachId_spec deps
          (TTaskScheduler.execute f) s.tasks_[u].futures
          (fun v hv s2 hs2 => ih2 v (h.1 v (by rw [← hfut]; exact hv)) f (by omega) s2 hs2)
          s hs
        rw [e1]
        have hlen1 : s1.tasks_.length = s.tasks_.length := by
          have := congrArg List.length x1.2.1
          simpa using this
        have hun1 : u < s1.tasks_.length := by omega
        refine ⟨{ s1 with tasks_ := s1.tasks_.set u { s.tasks_[u] with have_result := true } },
          rfl, TTaskScheduler.extends_trans x1 ⟨rfl, ?_, ?_⟩, ?_⟩
        · show (s1.tasks_.set u { s.tasks_[u] with have_result := true }).map Task.futures
            = s1.tasks_.map Task.futures
          apply List.ext_getElem?
          intro i
          by_cases hi : i = u
          · subst hi
            have e : (s1.tasks_.map Task.futures)[i]? = (s.tasks_.map Task.futures)[i]? := by
              rw [x1.2.1]
            simp only [List.getElem?_map, List.getElem?_eq_getElem hun,
              List.getElem?_eq_getElem hun1, Option.map_some'] at e
            simp only [List.getElem?_map, List.getElem?_set, hun1, if_true,
              List.getElem?_eq_getElem hun1, Option.map_some', e]
          · simp [List.getElem?_map, List.getElem?_set, Ne.symm hi]
        · rintro w ⟨task, ht, hres⟩
          show ∃ task, (s1.tasks_.set u { s.tasks_[u] with have_result := true })[w]? = some task
            ∧ task.have_result = true
          by_cases hw : w = u
          · subst hw
            exact ⟨{ s.tasks_[w] with have_result := true },
              by simp [List.getElem?_set, hun1], rfl⟩
          · exact ⟨task, by simp [List.getElem?_set, Ne.symm hw, ht], hres⟩
        · show ∃ task, (s1.tasks_.set u { s.tasks_[u] with have_result := true })[u]? = some task
            ∧ task.have_result = true
          exact ⟨{ s.tasks_[u] with have_result := true },
            by simp [List.getElem?_set, hun1], rfl⟩
    · exact ih2 u hu fuel (by omega) s hs

theorem TTaskScheduler.eq_allExecuted (adds : List (List Nat)) (s : TTaskScheduler)
    (hd : s.deps_ = adds) (ht : s.tasks_.map Task.futures = adds)
    (hall : ∀ w, w < adds.length → s.Executed w) : s = TTaskScheduler.allExecuted adds := by
  cases s with
  | mk tasks deps =>
    simp only at hd ht
    subst hd
    simp only [TTaskScheduler.allExecuted, TTaskScheduler.mk.injEq, and_true]
    apply List.ext_getElem?
    intro i
    by_cases hi : i < tasks.length
    · obtain ⟨task, h1, h2⟩ := hall i (by rw [← ht]; simpa using hi)
      simp only at h1
      have h3 : (tasks.map Task.futures)[i]? = some task.futures := by
        simp [List.getElem?_map, h1]
      rw [h1, List.getElem?_map, ← ht, h3]
      cases task
      simp_all
    · have h1 : tasks.length ≤ i := by omega
      have h2 : (List.map (fun futures => ({ futures := futures, have_result := true } : Task))
          deps).length ≤ i := by
        rw [← ht]
        simpa using h1
      rw [List.getElem?_eq_none h1, List.getElem?_eq_none h2]

/-- C28: for the scheduler after any calls of `add` (`adds` lists the `Future` ids of each
call) and any fuel above the number of tasks: the rows of `deps_` are `adds`; if the
dependency graph has a directed cycle or some task refers to an id that is not registered,
`hasCycle` returns `true` and `executeAll` throws the cycle error; otherwise `hasCycle`
returns `false` and `executeAll` ends with every task executed. A task that depends on
itself and two tasks that depend on each other make `executeAll` throw, as does an id that
is not registered; a task that depends on a task added after it, and a task that takes
the same `Future` twice, are executed. -/
theorem executeAll_throws_iff_cycle (adds : List (List Nat)) (fuel : Nat)
    (hfuel : adds.length < fuel) :
    (TTaskScheduler.ofAdds adds).deps_ = adds
      ∧ (HasDirectedCycle adds ∨ RefersToUnregistered adds →
          TTaskScheduler.hasCycle fuel (TTaskScheduler.ofAdds adds) = some true
            ∧ TTaskScheduler.executeAll fuel (TTaskScheduler.ofAdds adds)
              = some (.thrown "Cycle detected in task dependencies"))
      ∧ (¬ (HasDirectedCycle adds ∨ RefersToUnregistered adds) →
          TTaskScheduler.hasCycle fuel (TTaskScheduler.ofAdds adds) = some false
            ∧ TTaskScheduler.executeAll fuel (TTaskScheduler.ofAdds adds)
              = some (.finished (TTaskScheduler.allExecuted adds)))
      ∧ TTaskScheduler.executeAll 2 (TTaskScheduler.ofAdds [[0]])
          = some (.thrown "Cycle detected in task dependencies")
      ∧ TTaskScheduler.executeAll 3 (TTaskScheduler.ofAdds [[1], [0]])
          = some (.thrown "Cycle detected in task dependencies")
      ∧ TTaskScheduler.executeAll 3 (TTaskScheduler.ofAdds [[], [5]])
          = some (.thrown "Cycle detected in task dependencies")
      ∧ TTaskScheduler.executeAll 3 (TTaskScheduler.ofAdds [[1], []])
          = some (.finished (TTaskScheduler.allExecuted [[1], []]))
      ∧ TTaskScheduler.executeAll 3 (TTaskScheduler.ofAdds [[], [0, 0]])
          = some (.finished (TTaskScheduler.allExecuted [[], [0, 0]])) := by
  have hd : (TTaskScheduler.ofAdds adds).deps_ = adds := by
    rw [TTaskScheduler.ofAdds_eq]
  have ht : (TTaskScheduler.ofAdds adds).tasks_.map Task.futures = adds := by
    rw [TTaskScheduler.ofAdds_eq]
    simp [Function.comp_def]
  have hcases := TTaskScheduler.hasCycle_cases (TTaskScheduler.ofAdds adds) fuel
    (by rw [hd]; exact hfuel)
  rw [hd] at hcases
  refine ⟨hd, ?_, ?_, by decide, by decide, by decide, by decide, by decide⟩
  · intro hbad
    rcases hcases with ⟨_, e⟩ | ⟨_, _, e⟩ | ⟨h1, h2, _⟩
    · exact ⟨e, by simp only [TTaskScheduler.executeAll, e]⟩
    · exact ⟨e, by simp only [TTaskScheduler.executeAll, e]⟩
    · rcases hbad with hbad | hbad
      · exact absurd hbad h2
      · exact absurd hbad h1
  · intro hgood
    rcases hcases with ⟨h1, _⟩ | ⟨_, h2, _⟩ | ⟨_, _, e, done, htopo, hlen, hmem⟩
    · exact absurd (Or.inr h1) hgood
    · exact absurd (Or.inl h2) hgood
    · refine ⟨e, ?_⟩
      have hn : (TTaskScheduler.ofAdds adds).tasks_.length = adds.length := by
        have := congrArg List.length ht
        simpa using this
      obtain ⟨s1, e1, x1, d1⟩ := TTaskScheduler.forEachId_spec adds
        (TTaskScheduler.execute fuel) (List.range (TTaskScheduler.ofAdds adds).tasks_.length)
        (fun v hv s2 hs2 => TTaskScheduler.execute_spec adds done htopo
          (fun w hw => (hmem w).1 hw) v
          ((hmem v).2 (by rw [← hn]; exact List.mem_range.1 hv)) fuel (by omega) s2 hs2)
        (TTaskScheduler.ofAdds adds) ht
      simp only [TTaskScheduler.executeAll, e, e1, Option.map_some']
      rw [TTaskScheduler.eq_allExecuted adds s1 (x1.1.trans hd) (x1.2.1.trans ht)
        (fun w hw => d1 w (by rw [hn]; exact List.mem_range.2 hw))]

/-- C28, witness: a task that takes its own result as a `Future`, as in the test
`DetectSelfCycle`: `hasCycle` returns `true` and `executeAll` throws. -/
theorem executeAll_throws_iff_cycle_witness :
    TTaskScheduler.hasCycle 2 (TTaskScheduler.ofAdds [[0]]) = some true
      ∧ TTaskScheduler.executeAll 2 (TTaskScheduler.ofAdds [[0]])
          = some (.thrown "Cycle detected in task dependencies") :=
  (executeAll_throws_iff_cycle [[0]] 2 (by decide)).2.1
    (Or.inl ⟨0, Relation.TransGen.single (by simp [DependsOn])⟩)

/-! ### The library functions `sqrt` and `replace` -/

/-- C29, at the failing input: for every negative Number the library function `sqrt` raises
the error "sqrt: cannot take square root of negative number" instead of returning nil;
the run of `r = sqrt(-4)` ends with this error and leaves `r` unbound. (On the square of
a Number `y >= 0` it returns `y`.) -/
theorem sqrt_raises_on_negative :
    (∀ x : ℚ, x < 0 → StandardLibrary.sqrt [.number x]
        = some (.error "sqrt: cannot take square root of negative number"))
      ∧ Interpreter.initial.functions[4]? = some (Function.native "sqrt")
      ∧ Scope.get Interpreter.initial.scopes 0 "sqrt" = .ok (.func 4)
      ∧ ((interpretSource 30 "r = sqrt(-4)").result.bind fun r => r.thrown)
        = some (.runtimeError "sqrt: cannot take square root of negative number")
      ∧ (interpretSource 30 "r = sqrt(-4)").globals ["r"] = some [none]
      ∧ (∀ y : ℚ, 0 ≤ y → StandardLibrary.sqrt [.number (y * y)] = some (.ok (.number y))) := by
  refine ⟨?_, rfl, by decide, by decide!, by decide!, ?_⟩
  · intro x hx
    simp [StandardLibrary.sqrt, hx, formatError]
  · intro y hy
    have h1 : ¬ y * y < 0 := not_lt.mpr (mul_self_nonneg y)
    have h2 : Rat.sqrt (y * y) = y := by rw [Rat.sqrt_eq, abs_of_nonneg hy]
    simp [StandardLibrary.sqrt, h1, h2]

theorem findSub_nil (s : List Char) : findSub [] s = some 0 := by
  cases s <;> simp [findSub]

theorem replaceLoop_empty_old (newStr : List Char) :
    ∀ (fuel : Nat) (s : List Char) (pos : Nat), pos ≤ s.length →
      StandardLibrary.replaceLoop [] newStr fuel s pos = none := by
  intro fuel
  induction fuel with
  | zero => intro s pos _; rfl
  | succ fuel ih =>
    intro s pos hpos
    have hf : findFrom [] s pos = some pos := by
      simp [findFrom, findSub_nil, Nat.not_lt.mpr hpos]
    simp only [StandardLibrary.replaceLoop, hf]
    apply ih
    simp only [List.length_append, List.length_take, List.length_drop, List.length_nil]
    omega

theorem findFrom_append (old done rest : List Char) :
    findFrom old (done ++ rest) done.length = (findSub old rest).map (· + done.length) := by
  simp [findFrom]

theorem replaceSpecAux_stable (old new : List Char) (hold : old ≠ []) :
    ∀ (n m : Nat) (s : List Char), s.length ≤ n → s.length ≤ m →
      replaceSpecAux old new n s = replaceSpecAux old new m s := by
  intro n
  induction n with
  | zero =>
    intro m s hn _
    have hs : s = [] := List.length_eq_zero.mp (by omega)
    subst hs
    cases m <;> rfl
  | succ n ih =>
    intro m s hn hm
    cases s with
    | nil => cases m <;> rfl
    | cons c s =>
      obtain ⟨m, rfl⟩ : ∃ k, m = k + 1 := ⟨m - 1, by simp at hm; omega⟩
      have hlen : 0 < old.length := List.length_pos.mpr hold
      simp only [List.length_cons] at hn hm
      simp only [replaceSpecAux]
      rw [ih m s (by omega) (by omega),
        ih m ((c :: s).drop old.length) (by simp only [List.length_drop, List.length_cons]; omega)
          (by simp only [List.length_drop, List.length_cons]; omega)]

theorem replaceSpec_cons (old new : List Char) (hold : old ≠ []) (c : Char) (s : List Char) :
    replaceSpec old new (c :: s)
      = if old.isPrefixOf (c :: s) then new ++ replaceSpec old new ((c :: s).drop old.length)
        else c :: replaceSpec old new s := by
  have hlen : 0 < old.length := List.length_pos.mpr hold
  unfold replaceSpec
  simp only [List.length_cons, replaceSpecAux]
  rw [replaceSpecAux_stable old new hold s.length _ ((c :: s).drop old.length)
    (by simp only [List.length_drop, List.length_cons]; omega) (le_refl _)]

theorem replaceSpec_noOccurrence (old new : List Char) (hold : old ≠ []) :
    ∀ (s : List Char), (∀ p t, s ≠ p ++ old ++ t) → replaceSpec old new s = s := by
  intro s
  induction s with
  | nil => intro _; rfl
  | cons c s ih =>
    intro hno
    have hpre : ¬ old.isPrefixOf (c :: s) = true := by
      intro h
      obtain ⟨t, ht⟩ := List.isPrefixOf_iff_prefix.mp h
      exact hno [] t (by simpa using ht.symm)
    rw [replaceSpec_cons old new hold, if_neg hpre, ih]
    intro p t h
    exact hno (c :: p) t (by simp [h])

theorem replaceSpec_first (old new : List Char) (hold : old ≠ []) :
    ∀ (p t : List Char), (∀ p1 t1, p ++ old ++ t = p1 ++ old ++ t1 → p.length ≤ p1.length) →
      replaceSpec old new (p ++ old ++ t) = p ++ new ++ replaceSpec old new t := by
  intro p
  induction p with
  | nil =>
    intro t _
    obtain ⟨o, os, rfl⟩ : ∃ o os, old = o :: os := by
      cases old with
      | nil => exact absurd rfl hold
      | cons o os => exact ⟨o, os, rfl⟩
    have hpre : (o :: os).isPrefixOf (o :: (os ++ t)) = true :=
      List.isPrefixOf_iff_prefix.mpr ⟨t, by simp⟩
    have e : [] ++ (o :: os) ++ t = o :: (os ++ t) := by simp
    rw [e, replaceSpec_cons _ new hold, if_pos hpre]
    simp
  | cons c p ih =>
    intro t hmin
    have hpre : ¬ old.isPrefixOf (c :: (p ++ old ++ t)) = true := by
      intro h
      obtain ⟨t1, ht1⟩ := List.isPrefixOf_iff_prefix.mp h
      have := hmin [] t1 (by simpa using ht1.symm)
      simp at this
    have e : (c :: p) ++ old ++ t = c :: (p ++ old ++ t) := by simp
    rw [e, replaceSpec_cons old new hold, if_neg hpre, ih t]
    · simp
    · intro p1 t1 h1
      have := hmin (c :: p1) t1 (by simp [h1])
      simpa using this

theorem replaceLoop_eq_replaceSpec (old new : List Char) (hold : old ≠ []) :
    ∀ (fuel : Nat) (rest done : List Char), rest.length < fuel →
      StandardLibrary.replaceLoop old new fuel (done ++ rest) done.length
        = some (done ++ replaceSpec old new rest) := by
  intro fuel
  induction fuel with
  | zero => intro rest done h; omega
  | succ fuel ih =>
    intro rest done hlt
    simp only [StandardLibrary.replaceLoop, findFrom_append]
    cases hf : findSub old rest with
    | none =>
      simp only [Option.map_none']
      rw [replaceSpec_noOccurrence old new hold rest ((findSub_spec old rest).2 hf)]
    | some k =>
      obtain ⟨⟨p, t, hpt, hp⟩, hmin⟩ := (findSub_spec old rest).1 k hf
      subst hp
      simp only [Option.map_some']
      have hlen : 0 < old.length := List.length_pos.mpr hold
      have e1 : List.take (p.length + done.length) (done ++ rest) ++ new
          ++ List.drop (p.length + done.length + old.length) (done ++ rest)
          = (done ++ p ++ new) ++ t := by
        subst hpt
        have h1 : List.take (p.length + done.length) (done ++ (p ++ old ++ t)) = done ++ p := by
          rw [Nat.add_comm, List.take_append]
          simp [List.append_assoc]
        have h2 : List.drop (p.length + done.length + old.length) (done ++ (p ++ old ++ t))
            = t := by
          have : p.length + done.length + old.length = (done ++ p ++ old).length := by
            simp only [List.length_append]; omega
          rw [this, show done ++ (p ++ old ++ t) = (done ++ p ++ old) ++ t by
            simp [List.append_assoc], List.drop_left]
        rw [h1, h2]
      have e2 : p.length + done.length + new.length = (done ++ p ++ new).length := by
        simp only [List.length_append]; omega
      rw [e1, e2, ih t (done ++ p ++ new) (by
        have := congrArg List.length hpt
        simp only [List.length_append] at this
        omega)]
      rw [hpt, replaceSpec_first old new hold p t (by
        intro p1 t1 h1
        exact hmin p1 t1 (by rw [hpt]; exact h1))]
      simp [List.append_assoc]

/-- C30: the library function `replace(s, old, new)` on three Strings. With the empty String
as `old` the call does not return, whatever `s` and `new` are: the loop finds the empty
String at its position every time, with every fuel (in the C++ code, without end, `s`
growing by `new` at each round). With a non-empty `old` (and fuel above the length of
`s`) it returns `replaceSpec`: `s` with every occurrence of `old`, found from left to
right, replaced by `new`, the scan going on after the replacement. For example
`replace("banana", "an", "x")` is "bxxa" and `replace("aaa", "a", "aa")` is "aaaaaa". -/
theorem replace_loops_on_empty_old :
    (∀ fuel s new, StandardLibrary.replace fuel [.string s, .string [], .string new] = none)
      ∧ (∀ fuel, StandardLibrary.call fuel "replace"
          [.string "abc".toList, .string [], .string "x".toList] = none)
      ∧ Interpreter.initial.functions[13]? = some (Function.native "replace")
      ∧ (∀ fuel s old new, old ≠ [] → s.length < fuel →
          StandardLibrary.replace fuel [.string s, .string old, .string new]
            = some (.ok (.string (replaceSpec old new s))))
      ∧ replaceSpec "an".toList "x".toList "banana".toList = "bxxa".toList
      ∧ replaceSpec "a".toList "aa".toList "aaa".toList = "aaaaaa".toList
      ∧ (interpretSource 30 "r = replace(\"banana\", \"an\", \"x\")").globals ["r"]
        = some [some (.string "bxxa".toList)] := by
  refine ⟨fun fuel s new => ?_, fun fuel => ?_, rfl, fun fuel s old new hold hlt => ?_,
    by decide, by decide, by decide!⟩
  · simp [StandardLibrary.replace, replaceLoop_empty_old new fuel s 0 (Nat.zero_le _)]
  · have h := replaceLoop_empty_old ['x'] fuel ['a', 'b', 'c'] 0 (Nat.zero_le _)
    simp [StandardLibrary.call, StandardLibrary.replace, h]
  · have := replaceLoop_eq_replaceSpec old new hold fuel s [] hlt
    simp only [List.nil_append, List.length_nil] at this
    simp [StandardLibrary.replace, this]

/-! ### Scope pointer, call boundary and loop conditions -/

/-- C31, at the failing inputs: a for loop does not put the current-scope pointer back
when its body executes `break` or `continue`. After `for x in [1, 2]  y = x  break  end
for` the pointer is the scope object 1, the scope of the body, and not the global scope 0
that was current before the loop, so the following statement `r = x` reads the loop
variable (and `y`) without an error. With `continue` the pointer stays in the scope of
the body too, the scope of the next iteration is made a child of it, and the second
iteration reads the name `y` that the first one defined: `x == 1 or y == 1` is true for
`x` = 2. A while loop that handles `break` or `continue` does put the pointer back. -/
theorem for_loop_leaves_scope_pointer_in_body :
    (interpretSource 60 forBreakSource).thrown = some none
      ∧ (interpretSource 60 forBreakSource).currentScope = some 1
      ∧ (interpretSource 60 forBreakSource).visible ["x", "y", "r"]
          = some [some (.number 1), some (.number 1), some (.number 1)]
      ∧ (interpretSource 60 forContinueSource).thrown = some none
      ∧ (interpretSource 60 forContinueSource).currentScope = some 2
      ∧ (interpretSource 60 forContinueSource).visible ["x", "y", "t"]
          = some [some (.number 2), some (.number 1), some (.bool true)]
      ∧ (interpretSource 60 whileBreakSource).thrown = some none
      ∧ (interpretSource 60 whileBreakSource).currentScope = some 0
      ∧ (interpretSource 60 whileBreakSource).visible ["i", "u", "j", "w"]
          = some [some (.number 1), none, some (.number 2), none] := by
  decide!

/-- C32, at the failing input: a call whose callee raises a signal does not restore the
recursion depth and the call-stack trace. In `f = function() break end function` followed
by `while true  f()  end while` the `break` of the callee passes through the call and ends
the loop; the program completes with the recursion depth 1, and the trace still holds the
frame of the while loop: the loop has popped the frame of the call in place of its own. A
call whose callee raises an error leaves the depth 1 and its frame on the trace as well;
calls that end with a result or with a handled `return` leave the depth 0 and an empty
trace. -/
theorem call_does_not_restore_on_signal :
    (interpretSource 60 breakThroughCallSource).thrown = some none
      ∧ (interpretSource 60 breakThroughCallSource).depthAndTrace
          = some (1, [Frame.whileFrame 2])
      ∧ (interpretSource 60 errorThroughCallSource).thrown
          = some (some (.runtimeError
              "add (+): cannot perform operation on Double type and Nil type"))
      ∧ (interpretSource 60 errorThroughCallSource).depthAndTrace
          = some (1, [Frame.callFrame 27 2])
      ∧ (interpretSource 60 plainCallSource).thrown = some none
      ∧ (interpretSource 60 plainCallSource).depthAndTrace = some (0, []) := by
  decide!

/-- C33, at the failing input: the second evaluation of the condition of a while loop
takes place in the scope of the body of the first iteration. In `i = 0` followed by
`while i == 0 or z == 1 and i < 2  i = i + 1  z = 1  end while` the name `z` is defined
in the body only; the second and the third evaluation of the condition read it, and the
program completes, with `i` = 2 and `z` not visible after the loop. When the first
evaluation of the condition reads `z` (the program starts with `i = 1`), it raises the
error of an unbound name. -/
theorem while_condition_sees_body_scope :
    (interpretSource 60 whileConditionSource).thrown = some none
      ∧ (interpretSource 60 whileConditionSource).visible ["i", "z"]
          = some [some (.number 2), none]
      ∧ (interpretSource 60 whileConditionFirstSource).thrown
          = some (some (.runtimeError "Scope: No access to \"z\"")) := by
  decide!

/-! ### Parenthesised expressions -/

/-- C34, at the failing input: a parenthesised expression does not parse. After the
expression in parentheses `parsePrimary` consumes a token of the type `tLParenthesis`
where the closing parenthesis stands, so `(1 + 2) * 3` and `(x)` are syntax errors at the
token `)`, with the message that a `)` is expected. Without parentheses `1 + 2 * 3` parses
and evaluates to 7. -/
theorem grouped_expression_is_a_syntax_error :
    (interpretSource 60 "(1 + 2) * 3").syntaxErrorAt
        = some ({ type := .tRParenthesis, lexema := ")", line := 1 },
            "Expect ')' after expression in parentheses.")
      ∧ (interpretSource 60 "(x)").syntaxErrorAt
        = some ({ type := .tRParenthesis, lexema := ")", line := 1 },
            "Expect ')' after expression in parentheses.")
      ∧ (interpretSource 60 "r = 1 + 2 * 3").visible ["r"] = some [some (.number 7)] := by
  decide!

/-! ### `and` and `or` -/

/-- C35: `and` and `or` on a left operand that evaluates to a Bool, ending in the state
`st1`. When the left operand of `and` is false, the result is false and the state is
`st1`, whatever the right operand is: it is not evaluated. When the left operand of `or` is
true, the result is true and the state is `st1`. When the left operand of `and` is true,
or that of `or` is false, and the right operand evaluates from `st1` to the Bool `b`,
ending in `st2`, the result is `b` and the state is `st2`. In `r = false and zz` and
`s = true or zz` the unbound name `zz` is not read: the program completes with `r` false
and `s` true, while `t = true and zz` raises the error of the unbound name. -/
theorem and_or_short_circuit (fuel : Nat) (left right : Expr) (st st1 : Interpreter)
    (lb : Bool) (hl : evaluate fuel left st = .ok (.bool lb) st1) :
    (lb = false → evaluate (fuel + 1) (.binaryOp .tAnd left right) st = .ok (.bool false) st1)
      ∧ (lb = true → evaluate (fuel + 1) (.binaryOp .tOr left right) st = .ok (.bool true) st1)
      ∧ (∀ b st2, evaluate fuel right st1 = .ok (.bool b) st2 →
          (lb = true → evaluate (fuel + 1) (.binaryOp .tAnd left right) st = .ok (.bool b) st2)
            ∧ (lb = false →
                evaluate (fuel + 1) (.binaryOp .tOr left right) st = .ok (.bool b) st2))
      ∧ (interpretSource 40 "r = false and zz\ns = true or zz").thrown = some none
      ∧ (interpretSource 40 "r = false and zz\ns = true or zz").visible ["r", "s"]
          = some [some (.bool false), some (.bool true)]
      ∧ (interpretSource 40 "t = true and zz").thrown
          = some (some (.runtimeError "Scope: No access to \"zz\"")) := by
  have hor : ¬ (TokenType.tOr = TokenType.tAnd) := by decide
  refine ⟨?_, ?_, ?_, by decide!, by decide!, by decide!⟩
  · intro h
    subst h
    simp [evaluate, hl, Res.bind, liftPure, Value.asBool]
  · intro h
    subst h
    simp [evaluate, hl, Res.bind, liftPure, Value.asBool]
  · intro b st2 hr
    constructor
    · intro h
      subst h
      simp [evaluate, hl, hr, Res.bind, liftPure, Value.asBool]
    · intro h
      subst h
      simp [evaluate, hl, hr, Res.bind, liftPure, Value.asBool]

/-- C35, witness: `false and 1` is false (the right operand, which is no Bool, is not
evaluated), and `false or true` is true. -/
theorem and_or_short_circuit_witness :
    evaluate 2 (.binaryOp .tAnd (.booleanLit false) (.numberLit 1)) Interpreter.initial
        = .ok (.bool false) Interpreter.initial
      ∧ evaluate 2 (.binaryOp .tOr (.booleanLit false) (.booleanLit true)) Interpreter.initial
        = .ok (.bool true) Interpreter.initial :=
  ⟨(and_or_short_circuit 1 (.booleanLit false) (.numberLit 1) Interpreter.initial
      Interpreter.initial false rfl).1 rfl,
    ((and_or_short_circuit 1 (.booleanLit false) (.booleanLit true) Interpreter.initial
      Interpreter.initial false rfl).2.2.1 true Interpreter.initial rfl).2 rfl⟩

/-! ### Slices that split a sequence -/

theorem sliceSpec_split {α : Type} (xs : List α) (k : Int) :
    sliceSpec xs none (some k) ++ sliceSpec xs (some k) none = xs := by
  rw [← sliceList_eq_sliceSpec, ← sliceList_eq_sliceSpec]
  have hr := resolveBoundSpec_range xs.length 0 (some k) ⟨le_refl _, by omega⟩
  have hr2 := resolveBoundSpec_range xs.length xs.length (some k) ⟨by omega, le_refl _⟩
  have he : resolveBoundSpec xs.length 0 (some k) = resolveBoundSpec xs.length xs.length (some k) :=
    rfl
  have h0 : resolveBoundSpec xs.length 0 (none : Option Int) = 0 := rfl
  have hn : resolveBoundSpec xs.length xs.length (none : Option Int) = xs.length := rfl
  rw [h0, hn, ← he]
  generalize resolveBoundSpec xs.length 0 (some k) = c at hr
  obtain ⟨c, rfl⟩ := Int.eq_ofNat_of_zero_le hr.1
  have hc : c ≤ xs.length := by omega
  unfold sliceList
  by_cases h1 : (0 : Int) < (c : Int)
  · by_cases h2 : (c : Int) < (xs.length : Int)
    · rw [if_pos h1, if_pos h2]
      simp only [Int.toNat_zero, List.drop_zero, sub_zero, Int.toNat_ofNat]
      have e : ((xs.length : Int) - (c : Int)).toNat = xs.length - c := by omega
      have e2 : List.take (xs.length - c) (List.drop c xs) = List.drop c xs :=
        List.take_of_length_le (by simp)
      rw [e, e2, List.take_append_drop]
    · rw [if_pos h1, if_neg h2]
      have e : c = xs.length := by omega
      simp [e]
  · have e : c = 0 := by omega
    subst e
    by_cases h2 : ((0 : Nat) : Int) < (xs.length : Int)
    · rw [if_neg h1, if_pos h2]
      simp
    · rw [if_neg h1, if_neg h2]
      have : xs.length = 0 := by omega
      simp [List.length_eq_zero.1 this]

/-- C36: for a name bound to a String or to a List and every integral `k` within the range
of `long long`, the expression `name[:k] + name[k:]`. For a String `str` it evaluates to
`str`, in the same state. For a list object `p` it evaluates to a new list object that
holds the elements of `p`, in order; the two slices and the sum are the three list objects
added to the store, and the bindings and the other list objects are as before. In the
program `splitConcatSource` the sums for "hello" at 2, -2, 0, 9 and -9 are "hello", and the
sums for `[1, 2, 3]` at 1, -1 and 7 are `==` to the list. -/
theorem slice_split_concat (fuel : Nat) (name : String) (st : Interpreter) (k : Int)
    (hk : -(2 ^ 63) ≤ k ∧ k < 2 ^ 63) :
    (∀ str, Scope.get st.scopes st.m_current_scope name = .ok (.string str) →
        evaluate (fuel + 4) (splitConcatExpr name k) st = .ok (.string str) st)
      ∧ (∀ p, Scope.get st.scopes st.m_current_scope name = .ok (.list p) →
          p < st.lists.length →
          evaluate (fuel + 4) (splitConcatExpr name k) st
              = .ok (.list (st.lists.length + 2))
                  { st with lists := st.lists ++ [sliceSpec (derefList st.lists p) none (some k),
                      sliceSpec (derefList st.lists p) (some k) none, derefList st.lists p] }
            ∧ derefList
                (st.lists ++ [sliceSpec (derefList st.lists p) none (some k),
                  sliceSpec (derefList st.lists p) (some k) none, derefList st.lists p])
                (st.lists.length + 2) = derefList st.lists p)
      ∧ (interpretSource 60 splitConcatSource).thrown = some none
      ∧ (interpretSource 60 splitConcatSource).visible
            ["r1", "r2", "r3", "r4", "r5", "e1", "e2", "e3"]
          = some [some (.string "hello".toList), some (.string "hello".toList),
              some (.string "hello".toList), some (.string "hello".toList),
              some (.string "hello".toList), some (.bool true), some (.bool true),
              some (.bool true)] := by
  have hsome : ∀ x ∈ (some k : Option Int), -(2 ^ 63) ≤ x ∧ x < 2 ^ 63 := by
    intro x hx
    cases hx
    exact hk
  have hnone : ∀ x ∈ (none : Option Int), -(2 ^ 63) ≤ x ∧ x < 2 ^ 63 := by
    intro x hx
    cases hx
  refine ⟨?_, ?_, by decide!, by decide!⟩
  · intro str hs
    have ho : ∀ f, evaluate (f + 1) (.identifier name) st = .ok (.string str) st := by
      intro f
      simp only [evaluate, hs, liftPure]
    have h1 := (slice_matches_spec fuel (.identifier name) st st none (some k) hnone hsome).1
      str (ho _)
    have h2 := (slice_matches_spec fuel (.identifier name) st st (some k) none hsome hnone).1
      str (ho _)
    have hb : boundExpr (none : Option Int) = none := rfl
    rw [hb] at h1 h2
    unfold splitConcatExpr
    have hne1 : ¬ (TokenType.tPlus = TokenType.tAnd) := by decide
    have hne2 : ¬ (TokenType.tPlus = TokenType.tOr) := by decide
    rw [evaluate]
    simp only [h1, h2, Res.bind, hne1, hne2, if_false, applyBinaryOperator, liftOpt, liftOp, add,
      sliceSpec_split]
  · intro p hs hp
    have ho : ∀ (f : Nat) (s : Interpreter), s.scopes = st.scopes →
        s.m_current_scope = st.m_current_scope →
        evaluate (f + 1) (.identifier name) s = .ok (.list p) s := by
      intro f s e1 e2
      simp only [evaluate, e1, e2, hs, liftPure]
    have hd : ∀ extra : List (List Value),
        derefList (st.lists ++ extra) p = derefList st.lists p := by
      intro extra
      simp [derefList, List.getD_eq_getElem?_getD, List.getElem?_append_left hp]
    have h1 := (slice_matches_spec fuel (.identifier name) st st none (some k) hnone hsome).2
      p (ho _ st rfl rfl)
    have h2 := (slice_matches_spec fuel (.identifier name) _ _ (some k) none hsome hnone).2
      p (ho _ { st with lists := st.lists ++ [sliceSpec (derefList st.lists p) none (some k)] }
        rfl rfl)
    have hb : boundExpr (none : Option Int) = none := rfl
    rw [hb] at h1 h2
    dsimp only at h2
    rw [hd] at h2
    generalize derefList st.lists p = L at h1 h2 ⊢
    have hsplit := sliceSpec_split L k
    generalize sliceSpec L none (some k) = A at h1 h2 hsplit ⊢
    generalize sliceSpec L (some k) none = B at h2 hsplit ⊢
    have eA : derefList (st.lists ++ [A] ++ [B]) st.lists.length = A := by
      rw [derefList, List.getD_eq_getElem?_getD, List.append_assoc,
        List.getElem?_append_right (Nat.le_refl _)]
      simp
    have eB : derefList (st.lists ++ [A] ++ [B]) (st.lists ++ [A]).length = B := by
      rw [derefList, List.getD_eq_getElem?_getD,
        List.getElem?_append_right (Nat.le_refl _)]
      simp
    have hne1 : ¬ (TokenType.tPlus = TokenType.tAnd) := by decide
    have hne2 : ¬ (TokenType.tPlus = TokenType.tOr) := by decide
    constructor
    · unfold splitConcatExpr
      rw [evaluate]
      simp only [h1, h2, Res.bind, hne1, hne2, if_false, applyBinaryOperator, liftOpt, liftOp,
        add, allocList, eA, eB, hsplit]
      simp [List.append_assoc]
    · rw [derefList, List.getD_eq_getElem?_getD,
        List.getElem?_append_right (by omega)]
      simp

/-- C36, witness: with `s` bound to "hello", `s[:-2] + s[-2:]` evaluates to "hello". -/
theorem slice_split_concat_witness :
    evaluate 4 (splitConcatExpr "s" (-2)) helloState = .ok (.string "hello".toList) helloState :=
  (slice_split_concat 0 "s" helloState (-2) (by decide)).1 "hello".toList (by decide)

/-! ### The library functions `split` and `join` -/

theorem joinLoop_strings (delim : List Char) :
    ∀ (parts : List (List Char)) (i : Nat) (result : List Char), 0 < i →
      StandardLibrary.joinLoop delim (parts.map Value.string) i result
        = some (result ++ (parts.map fun part => delim ++ part).flatten) := by
  intro parts
  induction parts with
  | nil => intro i result _; simp [StandardLibrary.joinLoop]
  | cons part parts ih =>
    intro i result hi
    simp only [List.map_cons, StandardLibrary.joinLoop, Value.toString, hi, if_true]
    rw [ih (i + 1) _ (Nat.succ_pos i)]
    simp [List.append_assoc]

theorem joinLoop_first (delim part : List Char) (parts : List (List Char)) :
    StandardLibrary.joinLoop delim ((part :: parts).map Value.string) 0 []
      = some (part ++ (parts.map fun x => delim ++ x).flatten) := by
  simp only [List.map_cons, StandardLibrary.joinLoop, Value.toString, Nat.lt_irrefl, if_false,
    List.nil_append]
  exact joinLoop_strings delim parts 1 part Nat.one_pos

theorem joinLoop_chars (s : List Char) :
    ∀ (i : Nat) (result : List Char),
      StandardLibrary.joinLoop [] (s.map fun c => Value.string [c]) i result
        = some (result ++ s) := by
  induction s with
  | nil => intro i result; simp [StandardLibrary.joinLoop]
  | cons c s ih =>
    intro i result
    simp only [List.map_cons, StandardLibrary.joinLoop, Value.toString, List.append_nil, ite_self]
    rw [ih]
    simp

theorem splitLoop_spec (delim : List Char) (hd : delim ≠ []) (s : List Char) :
    ∀ (fuel start : Nat) (list : List Value), start ≤ s.length → s.length - start < fuel →
      ∃ part parts,
        StandardLibrary.splitLoop delim fuel s start list
            = some (list ++ (part :: parts).map Value.string)
          ∧ part ++ (parts.map fun x => delim ++ x).flatten = s.drop start := by
  intro fuel
  induction fuel with
  | zero => intro start list _ h; omega
  | succ fuel ih =>
    intro start list hstart hfuel
    have hnot : ¬ start > s.length := by omega
    simp only [StandardLibrary.splitLoop, findFrom, hnot, if_false]
    cases hf : findSub delim (s.drop start) with
    | none =>
      refine ⟨s.drop start, [], ?_, by simp⟩
      simp
    | some n =>
      obtain ⟨⟨p, q, hpq, hp⟩, _⟩ := (findSub_spec delim (s.drop start)).1 n hf
      have hlen : s.length - start = p.length + delim.length + q.length := by
        have := congrArg List.length hpq
        simp only [List.length_drop, List.length_append] at this
        omega
      have hdl : 0 < delim.length := List.length_pos.2 hd
      obtain ⟨part, parts, e, hjoin⟩ := ih (n + start + delim.length)
        (list ++ [.string ((s.drop start).take (n + start - start))]) (by omega) (by omega)
      refine ⟨p, part :: parts, ?_, ?_⟩
      · simp only [Option.map_some']
        rw [e]
        have e2 : (s.drop start).take (n + start - start) = p := by
          rw [hpq, Nat.add_sub_cancel, ← hp, List.append_assoc, List.take_left]
        rw [e2]
        simp
      · have e3 : s.drop (n + start + delim.length) = q := by
          have : s.drop (n + start + delim.length) = (s.drop start).drop (n + delim.length) := by
            rw [List.drop_drop]
            congr 1
            omega
          rw [this, hpq, ← hp, ← List.length_append, List.drop_left]
        rw [e3] at hjoin
        rw [hpq]
        simp [hjoin, List.append_assoc]

/-- C37: for all Strings `s` and `d`, every list store `h` and every fuel above the length
of `s`: `split(s, d)` returns a new list object, and `join` on that list and `d` returns
the String `s`. With an empty `d` the list holds the characters of `s`, one String each;
otherwise it holds the parts of `s` between the occurrences of `d` found from left to
right. -/
theorem join_of_split (fuel : Nat) (h : ListHeap) (s d : List Char) (hfuel : s.length < fuel) :
    (∃ list, StandardLibrary.split fuel h [.string s, .string d]
        = some (.ok (.list h.length, h ++ [list]))
      ∧ StandardLibrary.join (h ++ [list]) [.list h.length, .string d] = some (.ok (.string s)))
      ∧ joinOfSplit fuel h s d = some (.ok (.string s)) := by
  have key : ∃ list, StandardLibrary.split fuel h [.string s, .string d]
        = some (.ok (.list h.length, h ++ [list]))
      ∧ StandardLibrary.join (h ++ [list]) [.list h.length, .string d]
        = some (.ok (.string s)) := by
    have hderef : ∀ list : List Value, derefList (h ++ [list]) h.length = list := by
      intro list
      simp [derefList, List.getD_eq_getElem?_getD]
    by_cases hd : d = []
    · subst hd
      refine ⟨s.map fun c => Value.string [c], ?_, ?_⟩
      · simp [StandardLibrary.split, allocList]
      · simp [StandardLibrary.join, hderef, joinLoop_chars]
    · obtain ⟨part, parts, e, hjoin⟩ := splitLoop_spec d hd s fuel 0 [] (Nat.zero_le _)
        (by omega)
      have hne : d.isEmpty = false := by
        cases d with
        | nil => exact absurd rfl hd
        | cons c d => rfl
      refine ⟨(part :: parts).map Value.string, ?_, ?_⟩
      · simp only [StandardLibrary.split, List.length_cons, List.length_nil, ne_eq,
          not_true_eq_false, if_false, hne, Bool.false_eq_true, e, List.nil_append,
          Option.map_some', allocList]
      · simp only [StandardLibrary.join, List.length_cons, List.length_nil, ne_eq,
          not_true_eq_false, if_false, hderef, joinLoop_first, Option.map_some']
        rw [hjoin]
        rfl
  refine ⟨key, ?_⟩
  obtain ⟨list, e1, e2⟩ := key
  simp only [joinOfSplit, e1, e2]

/-- C37, witness: `join(split("a,b,,c", ","), ",")` is "a,b,,c", and with the empty
delimiter `join(split("abc", ""), "")` is "abc". -/
theorem join_of_split_witness :
    joinOfSplit 7 [] "a,b,,c".toList ",".toList = some (.ok (.string "a,b,,c".toList))
      ∧ joinOfSplit 4 [] "abc".toList [] = some (.ok (.string "abc".toList)) :=
  ⟨(join_of_split 7 [] "a,b,,c".toList ",".toList (by decide)).2,
    (join_of_split 4 [] "abc".toList [] (by decide)).2⟩

/-! ### Line numbers of tokens -/

/-- C38, at the failing inputs: a newline inside a token is not counted. In the source
`end`, newline, `x y` the lexer takes the newline into the Identifier that starts with
`end`, so the token `y`, which stands on the second line, has the line number 1; and
after a string literal that holds a backslash and a raw newline the token `y` has the
line number 1 as well. In a source whose newlines stand between tokens (and after a
comment) every token has the line number the claim gives. -/
theorem line_number_misses_newline_in_token :
    (Lexer.new ['e', 'n', 'd', newlineChar, 'x', ' ', 'y']).getAllTokens
        = some [⟨.tIdentifier, String.mk ['e', 'n', 'd', newlineChar, 'x'], 1⟩,
            ⟨.tIdentifier, "y", 1⟩, ⟨.tEOF, "", 1⟩]
      ∧ (Lexer.new [quoteChar, 'a', backslashChar, newlineChar, 'b', quoteChar, ' ',
            'y']).getAllTokens
        = some [⟨.tString, String.mk ['a', newlineChar, 'b'], 1⟩, ⟨.tIdentifier, "y", 1⟩,
            ⟨.tEOF, "", 1⟩]
      ∧ (Lexer.new "a\nb\n\nc // k\n d".toList).getAllTokens
        = some [⟨.tIdentifier, "a", 1⟩, ⟨.tIdentifier, "b", 2⟩, ⟨.tIdentifier, "c", 4⟩,
            ⟨.tIdentifier, "d", 5⟩, ⟨.tEOF, "", 5⟩] := by
  decide!

/-! ### The LRU cache -/

theorem getElem?_touchFrom (used_way : Nat) :
    ∀ (ways : List Line) (w i : Nat),
      (touchFrom used_way w ways)[i]?
        = ways[i]?.map fun l => l.touched (decide (w + i = used_way)) := by
  intro ways
  induction ways with
  | nil => intro w i; simp [touchFrom]
  | cons l rest ih =>
    intro w i
    cases i with
    | zero =>
      by_cases h : w = used_way <;> simp [touchFrom, Line.touched, h]
    | succ i =>
      simp only [touchFrom, List.getElem?_cons_succ, ih]
      have e : w + 1 + i = w + (i + 1) := by omega
      rw [e]

theorem length_touchFrom (used_way : Nat) :
    ∀ (ways : List Line) (w : Nat), (touchFrom used_way w ways).length = ways.length := by
  intro ways
  induction ways with
  | nil => intro w; rfl
  | cons l rest ih => intro w; simp [touchFrom, ih]

theorem findHitFrom_some (tag : Nat) :
    ∀ (ways : List Line) (w0 w : Nat), findHitFrom tag w0 ways = some w →
      w0 ≤ w ∧ w - w0 < ways.length := by
  intro ways
  induction ways with
  | nil => intro w0 w h; simp [findHitFrom] at h
  | cons l rest ih =>
    intro w0 w h
    simp only [findHitFrom] at h
    split_ifs at h with hc
    · cases h
      simp
    · have := ih (w0 + 1) w h
      simp only [List.length_cons]
      omega

theorem firstInvalidFrom_some :
    ∀ (ways : List Line) (w0 w : Nat), firstInvalidFrom w0 ways = some w →
      w0 ≤ w ∧ w - w0 < ways.length := by
  intro ways
  induction ways with
  | nil => intro w0 w h; simp [firstInvalidFrom] at h
  | cons l rest ih =>
    intro w0 w h
    simp only [firstInvalidFrom] at h
    split_ifs at h with hc
    · cases h
      simp
    · have := ih (w0 + 1) w h
      simp only [List.length_cons]
      omega

/-- The second loop of `victim_lru` ends with a way of the greatest age: either the way
`vw` it started with, and then no age of the rest is above `best`, or a way of the rest
whose age is above `best` and not below any age of the rest. -/
theorem maxAgeFrom_spec :
    ∀ (rest : List Line) (w best vw : Nat),
      (maxAgeFrom w rest best vw = vw ∧ ∀ l ∈ rest, l.age ≤ best)
        ∨ ∃ i l, maxAgeFrom w rest best vw = w + i ∧ rest[i]? = some l ∧ best < l.age
            ∧ ∀ l1 ∈ rest, l1.age ≤ l.age := by
  intro rest
  induction rest with
  | nil => intro w best vw; left; simp [maxAgeFrom]
  | cons l rest ih =>
    intro w best vw
    simp only [maxAgeFrom]
    split_ifs with h
    · right
      rcases ih (w + 1) l.age w with ⟨e, hle⟩ | ⟨i, l1, e, hl1, hlt, hmax⟩
      · refine ⟨0, l, by rw [e]; rfl, by simp, h, ?_⟩
        intro l1 hl1
        rcases List.mem_cons.1 hl1 with rfl | hl1
        · exact Nat.le_refl _
        · exact hle l1 hl1
      · refine ⟨i + 1, l1, by rw [e]; omega, by simpa using hl1, by omega, ?_⟩
        intro l2 hl2
        rcases List.mem_cons.1 hl2 with rfl | hl2
        · omega
        · exact hmax l2 hl2
    · rcases ih (w + 1) best vw with ⟨e, hle⟩ | ⟨i, l1, e, hl1, hlt, hmax⟩
      · left
        refine ⟨e, ?_⟩
        intro l1 hl1
        rcases List.mem_cons.1 hl1 with rfl | hl1
        · omega
        · exact hle l1 hl1
      · right
        refine ⟨i + 1, l1, by rw [e]; omega, by simpa using hl1, hlt, ?_⟩
        intro l2 hl2
        rcases List.mem_cons.1 hl2 with rfl | hl2
        · omega
        · exact hmax l2 hl2

theorem victim_lru_lt (ways : List Line) (h : 0 < ways.length) :
    victim_lru ways < ways.length := by
  unfold victim_lru
  cases hf : firstInvalidFrom 0 ways with
  | some w =>
    have := firstInvalidFrom_some ways 0 w hf
    simpa using this.2
  | none =>
    cases ways with
    | nil => simp at h
    | cons l rest =>
      simp only
      rcases maxAgeFrom_spec rest 1 l.age 0 with ⟨e, _⟩ | ⟨i, l1, e, hl1, _, _⟩
      · rw [e]; simp
      · rw [e]
        have hi : i < rest.length := by
          by_contra hc
          rw [List.getElem?_eq_none (by omega)] at hl1
          cases hl1
        simp only [List.length_cons]
        omega

/-- The lines of a set after an access that uses the way `u`: the line of `u` is valid and
has the age 0, and every other line is as `touch_lru` leaves an unused line. On a miss
the line of `u` has the new tag and the other lines keep theirs. -/
theorem accessWays_spec (ways : List Line) (tag : Nat) (isWrite : Bool)
    (hlen : 0 < ways.length) :
    (accessWays ways tag isWrite).length = ways.length
      ∧ (match find_hit ways tag with
          | some w => w
          | none => victim_lru ways) < ways.length
      ∧ ∀ (i : Nat) (l : Line), ways[i]? = some l →
          ∃ l1, (accessWays ways tag isWrite)[i]? = some l1
            ∧ (i = (match find_hit ways tag with
                    | some w => w
                    | none => victim_lru ways) →
                l1.age = 0 ∧ ((l.valid = true ∨ find_hit ways tag = none) → l1.valid = true)
                  ∧ (find_hit ways tag = none → l1.tag = tag))
            ∧ (i ≠ (match find_hit ways tag with
                    | some w => w
                    | none => victim_lru ways) → l1 = l.touched false) := by
  unfold accessWays
  cases hf : find_hit ways tag with
  | some w =>
    have hw := findHitFrom_some tag ways 0 w hf
    refine ⟨?_, by simpa using hw.2, ?_⟩
    · cases isWrite <;> simp [touch_lru, length_touchFrom]
    · intro i l hl
      simp only [touch_lru, getElem?_touchFrom, Nat.zero_add]
      cases isWrite
      · simp only [Bool.false_eq_true, if_false, hl, Option.map_some']
        refine ⟨_, rfl, ?_, ?_⟩
        · intro hi
          subst hi
          simp [Line.touched]
        · intro hi
          simp [hi]
      · simp only [if_true, List.getElem?_modify, hl, Option.map_some', Option.map_eq_map]
        refine ⟨_, rfl, ?_, ?_⟩
        · intro hi
          subst hi
          simp [Line.touched]
        · intro hi
          simp [hi, Ne.symm hi]
  | none =>
    have hv := victim_lru_lt ways hlen
    refine ⟨by simp [touch_lru, length_touchFrom, fill_line], hv, ?_⟩
    intro i l hl
    simp only [touch_lru, getElem?_touchFrom, Nat.zero_add, fill_line, List.getElem?_modify, hl,
      Option.map_some', Option.map_eq_map]
    refine ⟨_, rfl, ?_, ?_⟩
    · intro hi
      subst hi
      simp [Line.touched]
    · intro hi
      simp [hi, Ne.symm hi]

theorem findHitFrom_valid (tag : Nat) :
    ∀ (ways : List Line) (w0 w : Nat), findHitFrom tag w0 ways = some w →
      ∃ l, ways[w - w0]? = some l ∧ l.valid = true ∧ l.tag = tag := by
  intro ways
  induction ways with
  | nil => intro w0 w h; simp [findHitFrom] at h
  | cons l rest ih =>
    intro w0 w h
    simp only [findHitFrom] at h
    split_ifs at h with hc
    · cases h
      simp only [Bool.and_eq_true, beq_iff_eq] at hc
      exact ⟨l, by simp, hc.1, hc.2⟩
    · obtain ⟨l1, h1, h2⟩ := ih (w0 + 1) w h
      have hle := (findHitFrom_some tag rest (w0 + 1) w h).1
      refine ⟨l1, ?_, h2⟩
      have e : w - w0 = (w - (w0 + 1)) + 1 := by omega
      rw [e]
      simpa using h1

theorem Line.touched_valid (l : Line) : (l.touched false).valid = l.valid := by
  unfold Line.touched
  simp only [Bool.false_eq_true, if_false]
  split_ifs <;> rfl

theorem Line.touched_age (l : Line) (hv : l.valid = true) (ha : l.age ≤ 255) :
    ((l.touched false).age = l.age + 1 ∧ l.age < 255)
      ∨ ((l.touched false).age = 255 ∧ l.age = 255) := by
  unfold Line.touched
  by_cases h : l.age < 255
  · left
    simp [hv, h]
  · right
    have : l.age = 255 := by omega
    simp [hv, this]

theorem Line.touched_age_le (l : Line) (ha : l.age ≤ 255) : (l.touched false).age ≤ 255 := by
  unfold Line.touched
  simp only [Bool.false_eq_true, if_false]
  split_ifs with h
  · simp only [Bool.and_eq_true, decide_eq_true_eq] at h
    show l.age + 1 ≤ 255
    omega
  · exact ha

theorem SetInv.step {ways : List Line} {stamp : Nat → Option Nat} {t : Nat}
    (h : SetInv ways stamp t) (tag : Nat) (isWrite : Bool) (u : Nat)
    (hu : u = match find_hit ways tag with
      | some w => w
      | none => victim_lru ways) :
    SetInv (accessWays ways tag isWrite) (fun w => if w = u then some t else stamp w)
      (t + 1) := by
  have hlen : 0 < ways.length := by rw [h.length_eq]; decide
  obtain ⟨f1, f2, f3⟩ := accessWays_spec ways tag isWrite hlen
  rw [← hu] at f2 f3
  have hhit : ∀ l, ways[u]? = some l → find_hit ways tag ≠ none → l.valid = true := by
    intro l hl hne
    cases hf : find_hit ways tag with
    | none => exact absurd hf hne
    | some w =>
      rw [hf] at hu
      obtain ⟨l1, h1, h2, _⟩ := findHitFrom_valid tag ways 0 w hf
      simp only [Nat.sub_zero] at h1
      subst hu
      rw [hl] at h1
      cases h1
      exact h2
  have back : ∀ (w : Nat) (l1 : Line), (accessWays ways tag isWrite)[w]? = some l1 →
      ∃ l, ways[w]? = some l ∧ (w = u → l1.age = 0 ∧ l1.valid = true)
        ∧ (w ≠ u → l1 = l.touched false) := by
    intro w l1 hl1
    have hw : w < ways.length := by
      by_contra hc
      rw [List.getElem?_eq_none (by omega)] at hl1
      cases hl1
    obtain ⟨l2, e2, g1, g2⟩ := f3 w ways[w] (List.getElem?_eq_getElem hw)
    rw [hl1] at e2
    cases e2
    refine ⟨ways[w], List.getElem?_eq_getElem hw, ?_, g2⟩
    intro hwu
    obtain ⟨a1, a2, _⟩ := g1 hwu
    refine ⟨a1, a2 ?_⟩
    by_cases hm : find_hit ways tag = none
    · exact Or.inr hm
    · exact Or.inl (hhit _ (by rw [← hwu]; exact List.getElem?_eq_getElem hw) hm)
  refine ⟨by rw [f1]; exact h.length_eq, ?_, ?_, ?_, ?_, ?_⟩
  · intro w l1 hl1
    obtain ⟨l, hl, g1, g2⟩ := back w l1 hl1
    by_cases hwu : w = u
    · rw [(g1 hwu).1]; omega
    · rw [g2 hwu]
      exact Line.touched_age_le l (h.age_le w l hl)
  · intro w l1 hl1
    obtain ⟨l, hl, g1, g2⟩ := back w l1 hl1
    by_cases hwu : w = u
    · simp [hwu, (g1 hwu).2]
    · rw [g2 hwu, Line.touched_valid]
      simp only [hwu, if_false]
      exact h.valid_iff w l hl
  · intro w x hx
    by_cases hwu : w = u
    · simp only [hwu, if_true, Option.some.injEq] at hx
      omega
    · simp only [hwu, if_false] at hx
      have := h.stamp_lt w x hx
      omega
  · intro w w1 x hne hx hx1
    by_cases hwu : w = u
    · have hw1 : ¬ w1 = u := fun e => hne (hwu.trans e.symm)
      simp only [hwu, if_true, Option.some.injEq] at hx
      simp only [hw1, if_false] at hx1
      have := h.stamp_lt w1 x hx1
      omega
    · simp only [hwu, if_false] at hx
      by_cases hw1 : w1 = u
      · simp only [hw1, if_true, Option.some.injEq] at hx1
        have := h.stamp_lt w x hx
        omega
      · simp only [hw1, if_false] at hx1
        exact h.distinct w w1 x hne hx hx1
  · intro w w1 l l1 x x1 hl hl1 hx hx1 hlt
    obtain ⟨m, hm, a1, a2⟩ := back w l hl
    obtain ⟨m1, hm1, b1, b2⟩ := back w1 l1 hl1
    by_cases hwu : w = u
    · simp only [hwu, if_true, Option.some.injEq] at hx
      have hw1 : ¬ w1 = u := by
        intro e
        simp only [e, if_true, Option.some.injEq] at hx1
        omega
      simp only [hw1, if_false] at hx1
      have := h.stamp_lt w1 x1 hx1
      omega
    · simp only [hwu, if_false] at hx
      have hmv : m.valid = true := (h.valid_iff w m hm).2 (by simp [hx])
      rw [a2 hwu]
      by_cases hw1 : w1 = u
      · rw [(b1 hw1).1]
        rcases Line.touched_age m hmv (h.age_le w m hm) with ⟨e, _⟩ | ⟨e, _⟩
        · left; omega
        · right; exact e
      · simp only [hw1, if_false] at hx1
        have hm1v : m1.valid = true := (h.valid_iff w1 m1 hm1).2 (by simp [hx1])
        rw [b2 hw1]
        rcases h.older w w1 m m1 x x1 hm hm1 hx hx1 hlt with hage | hage
        · rcases Line.touched_age m hmv (h.age_le w m hm) with ⟨e, _⟩ | ⟨e, _⟩
          · rcases Line.touched_age m1 hm1v (h.age_le w1 m1 hm1) with ⟨e1, _⟩ | ⟨e1, k1⟩
            · left; omega
            · omega
          · right; exact e
        · rcases Line.touched_age m hmv (h.age_le w m hm) with ⟨e, k⟩ | ⟨e, _⟩
          · omega
          · right; exact e

/-- C40, at the failing inputs: the guards of the 16-bit and 32-bit accesses compute
`addr + 1` and `addr + 3` in 32-bit arithmetic, so for an address at the top of the
address space the sum wraps around to a small number and passes the guard. On every
memory of `MEMORY_SIZE` bytes, `read_u16` and `write_u16` at the address `2 ^ 32 - 1`, and
`read_u32` and `write_u32` at the addresses `2 ^ 32 - 3`, `2 ^ 32 - 2` and `2 ^ 32 - 1`,
do not return `false`: they go on to the element `ram_[addr]`, which is outside `ram_`. At
every address whose sum does not wrap around, and for the 8-bit accesses at every address,
an access with a byte outside the memory returns `false`. -/
theorem memory_guard_wraps_around :
    (∀ m : Memory, m.ram_.length = MEMORY_SIZE →
        m.read_u16 (2 ^ 32 - 1) = .outOfBounds (2 ^ 32 - 1)
          ∧ (∀ v, m.write_u16 (2 ^ 32 - 1) v = .outOfBounds (2 ^ 32 - 1))
          ∧ (∀ addr, 2 ^ 32 - 3 ≤ addr → addr < 2 ^ 32 →
              m.read_u32 addr = .outOfBounds addr
                ∧ ∀ v, m.write_u32 addr v = .outOfBounds addr))
      ∧ Memory.new.ram_.length = MEMORY_SIZE
      ∧ (∀ m : Memory, m.ram_.length = MEMORY_SIZE → ∀ addr, addr < 2 ^ 32 →
          (MEMORY_SIZE ≤ addr → m.read_u8 addr = .refused ∧ ∀ v, m.write_u8 addr v = .refused)
            ∧ (MEMORY_SIZE ≤ addr + 1 → addr + 1 < 2 ^ 32 →
                m.read_u16 addr = .refused ∧ ∀ v, m.write_u16 addr v = .refused)
            ∧ (MEMORY_SIZE ≤ addr + 3 → addr + 3 < 2 ^ 32 →
                m.read_u32 addr = .refused ∧ ∀ v, m.write_u32 addr v = .refused)) := by
  have hlt : ∀ m : Memory, m.ram_.length = MEMORY_SIZE → ∀ addr, MEMORY_SIZE ≤ addr →
      m.ram_[addr]? = none := by
    intro m hm addr h
    exact List.getElem?_eq_none (by omega)
  refine ⟨?_, by simp [Memory.new], ?_⟩
  · intro m hm
    have h1 : ¬ (addU32 (2 ^ 32 - 1) 1 ≥ m.ram_.length) := by
      rw [hm]; decide
    refine ⟨?_, ?_, ?_⟩
    · simp only [Memory.read_u16, h1, if_false, Memory.readBytes,
        hlt m hm (2 ^ 32 - 1) (by decide), Access.map]
    · intro v
      have h2 : ¬ (2 ^ 32 - 1 < m.ram_.length) := by rw [hm]; decide
      simp only [Memory.write_u16, h1, if_false, Memory.writeBytes, h2]
    · intro addr ha hb
      have h3 : ¬ (addU32 addr 3 ≥ m.ram_.length) := by
        rw [hm]
        unfold addU32 MEMORY_SIZE
        omega
      have h4 : MEMORY_SIZE ≤ addr := by unfold MEMORY_SIZE; omega
      refine ⟨?_, ?_⟩
      · simp only [Memory.read_u32, h3, if_false, Memory.readBytes, hlt m hm addr h4,
          Access.map]
      · intro v
        have h2 : ¬ (addr < m.ram_.length) := by rw [hm]; omega
        simp only [Memory.write_u32, h3, if_false, Memory.writeBytes, h2]
  · intro m hm addr ha
    refine ⟨?_, ?_, ?_⟩
    · intro h
      have h1 : addr ≥ m.ram_.length := by rw [hm]; exact h
      exact ⟨by simp only [Memory.read_u8, h1, if_true],
        fun v => by simp only [Memory.write_u8, h1, if_true]⟩
    · intro h hw
      have h1 : addU32 addr 1 ≥ m.ram_.length := by
        rw [hm]; unfold addU32; rw [Nat.mod_eq_of_lt hw]; exact h
      exact ⟨by simp only [Memory.read_u16, h1, if_true],
        fun v => by simp only [Memory.write_u16, h1, if_true]⟩
    · intro h hw
      have h1 : addU32 addr 3 ≥ m.ram_.length := by
        rw [hm]; unfold addU32; rw [Nat.mod_eq_of_lt hw]; exact h
      exact ⟨by simp only [Memory.read_u32, h1, if_true],
        fun v => by simp only [Memory.write_u32, h1, if_true]⟩

end Workable
